import Mathlib

/-! # Monprojet: sorting tables, linked lists, trees and graphs

A shallow embedding of the algorithmic core of the C sources
(`Version_C/table.c`, `list.c`, `Version_C/tree.c`, `graph.c`) together with
machine-checked statements about it.

Conventions of the embedding

* A C array indexed by `int` is a function `Nat → α`; the cells beyond the
  logical length are carried along unchanged.
* Global variables read by a function become explicit parameters.
* A loop whose trip count is not evident from its header takes a `fuel`
  argument and returns `none` when the fuel is exhausted.
-/

/-! ## Shared value model -/

/-- Two's-complement reduction of an integer to the range of a C `int`. -/
def wrap32 (x : Int) : Int := (x + 2147483648) % 4294967296 - 2147483648

/-- The `strcmp` of the C library on byte strings (given without the final NUL):
difference of the first pair of bytes that differ, the end of a string counting
as byte 0. -/
def strcmp : List (Fin 256) → List (Fin 256) → Int
  | [], [] => 0
  | [], b :: _ => 0 - (b.val : Int)
  | a :: _, [] => (a.val : Int) - 0
  | a :: as, b :: bs => if a = b then strcmp as bs else (a.val : Int) - (b.val : Int)

/-- Update of one cell of an array: `arr[i] = x`. -/
def aset {α : Type} (arr : Nat → α) (i : Nat) (x : α) : Nat → α :=
  fun k => if k = i then x else arr k

/-- The first `n` cells of an array, as a list. -/
def atoList {α : Type} (arr : Nat → α) (n : Nat) : List α := (List.range n).map arr

/-- The array holding the elements of a list (cells beyond the list hold `d`). -/
def ofList {α : Type} (d : α) (l : List α) : Nat → α := fun k => l.getD k d

/-- A C `for` loop `for (i = start; i < start + count; i++) s = body i s`
whose body may fail. -/
def for_loop {σ : Type} (body : Nat → σ → Option σ) : Nat → Nat → σ → Option σ
  | 0, _, s => some s
  | count + 1, i, s => (body i s).bind (for_loop body count (i + 1))

namespace TableC

/-- The kinds of data of `table.c`. -/
inductive DataType where
  | TYPE_INT
  | TYPE_DOUBLE
  | TYPE_CHAR
  | TYPE_STRING
  deriving DecidableEq, Repr

/-- The datum a `void *` of the array points to, for each kind: an `int`, a
finite `double` (as the rational it denotes), a `char`, a string of bytes. -/
@[reducible] def Val : DataType → Type
  | .TYPE_INT => Int
  | .TYPE_DOUBLE => Rat
  | .TYPE_CHAR => Int
  | .TYPE_STRING => List (Fin 256)

/-- The comparator `cmp_generic` of table.c; `current_dtype` and the state of the
`radio_desc` button are the globals it reads. -/
def cmp_generic : (current_dtype : DataType) → (radio_desc : Bool) →
    Val current_dtype → Val current_dtype → Int
  | .TYPE_INT, desc, a, b =>
      let res := wrap32 (a - b)
      if desc then wrap32 (-res) else res
  | .TYPE_DOUBLE, desc, a, b =>
      let res : Int := (if a > b then 1 else 0) - (if a < b then 1 else 0)
      if desc then wrap32 (-res) else res
  | .TYPE_CHAR, desc, a, b =>
      let res := wrap32 (a - b)
      if desc then wrap32 (-res) else res
  | .TYPE_STRING, desc, a, b =>
      let res := strcmp a b
      if desc then wrap32 (-res) else res

variable {α : Type}

/-- Exchange of two cells: `swap_ptr(&arr[a], &arr[b])`. -/
def swap_ptr (arr : Nat → α) (a b : Nat) : Nat → α :=
  let temp := arr a
  aset (aset arr a (arr b)) b temp

/-- The body of the inner loop of `bubble_sort_generic`. -/
def bubble_step (cmp : α → α → Int) (arr : Nat → α) (j : Nat) : Nat → α :=
  if cmp (arr j) (arr (j + 1)) > 0 then swap_ptr arr j (j + 1) else arr

/-- The sort `bubble_sort_generic(arr, n)`; `cmp` is `cmp_generic` under the
current globals. -/
def bubble_sort_generic (cmp : α → α → Int) (arr : Nat → α) (n : Nat) : Nat → α :=
  (List.range (n - 1)).foldl
    (fun arr i => (List.range (n - i - 1)).foldl (bubble_step cmp) arr) arr

/-- The `while` loop of `insertion_sort_generic`, the argument `m` being `j + 1`
(the C variable `j` runs from `i - 1` down to `-1`); the final store
`arr[j + 1] = key` is included. -/
def insertion_while (cmp : α → α → Int) (key : α) : Nat → (Nat → α) → (Nat → α)
  | 0, arr => aset arr 0 key
  | m + 1, arr =>
      if cmp (arr m) key > 0 then insertion_while cmp key m (aset arr (m + 1) (arr m))
      else aset arr (m + 1) key

/-- The sort `insertion_sort_generic(arr, n)`. -/
def insertion_sort_generic (cmp : α → α → Int) (arr : Nat → α) (n : Nat) : Nat → α :=
  (List.range' 1 (n - 1)).foldl (fun arr i => insertion_while cmp (arr i) i arr) arr

/-- The innermost loop of `shell_sort_generic`, from index `j` downwards in steps
of `gap`, with the final store `arr[j] = temp`. -/
def shell_inner (cmp : α → α → Int) (gap : Nat) (temp : α) :
    Nat → Nat → (Nat → α) → Option (Nat → α)
  | 0, _, _ => none
  | fuel + 1, j, arr =>
      if j ≥ gap ∧ cmp (arr (j - gap)) temp > 0 then
        shell_inner cmp gap temp fuel (j - gap) (aset arr j (arr (j - gap)))
      else some (aset arr j temp)

/-- The loop over the gaps of `shell_sort_generic`. -/
def shell_gaps (cmp : α → α → Int) (n : Nat) (fuel0 : Nat) :
    Nat → Nat → (Nat → α) → Option (Nat → α)
  | 0, _, _ => none
  | fuel + 1, gap, arr =>
      if gap > 0 then
        (for_loop (fun i arr => shell_inner cmp gap (arr i) fuel0 i arr) (n - gap) gap arr).bind
          (shell_gaps cmp n fuel0 fuel (gap / 2))
      else some arr

/-- The sort `shell_sort_generic(arr, n)`. -/
def shell_sort_generic (cmp : α → α → Int) (fuel : Nat) (arr : Nat → α) (n : Nat) :
    Option (Nat → α) :=
  shell_gaps cmp n fuel fuel (n / 2) arr

/-- The body of the loop of `partition_generic`, on the pair `(arr, i)`. -/
def partition_step (cmp : α → α → Int) (pivot : α) (s : (Nat → α) × Int) (j : Int) :
    (Nat → α) × Int :=
  if cmp (s.1 j.toNat) pivot < 0 then
    (swap_ptr s.1 (s.2 + 1).toNat j.toNat, s.2 + 1)
  else s

/-- The Lomuto partition `partition_generic(arr, low, high)`: the array after the
call and the returned index. -/
def partition_generic (cmp : α → α → Int) (arr : Nat → α) (low high : Int) :
    (Nat → α) × Int :=
  let pivot := arr high.toNat
  let s := (List.range (high - low).toNat).foldl
    (fun s (t : Nat) => partition_step cmp pivot s (low + (t : Int))) (arr, low - 1)
  (swap_ptr s.1 (s.2 + 1).toNat high.toNat, s.2 + 1)

/-- The sort `quick_sort_generic(arr, low, high)`. -/
def quick_sort_generic (cmp : α → α → Int) : Nat → (Nat → α) → Int → Int → Option (Nat → α)
  | 0, _, _, _ => none
  | fuel + 1, arr, low, high =>
      if low < high then
        let p := partition_generic cmp arr low high
        (quick_sort_generic cmp fuel p.1 low (p.2 - 1)).bind
          (fun arr1 => quick_sort_generic cmp fuel arr1 (p.2 + 1) high)
      else some arr

end TableC


/-! ## Specification vocabulary for arrays -/

/-- The array `b` is a rearrangement of `a` that moves only cells `lo ≤ k < hi`. -/
def PermOn {α : Type} (lo hi : Nat) (a b : Nat → α) : Prop :=
  ∃ σ : Equiv.Perm Nat, (∀ k, k < lo ∨ hi ≤ k → σ k = k) ∧ ∀ k, b k = a (σ k)

/-- A three-way comparator behaves as a total preorder on the values in `S`:
its sign is antisymmetric and `cmp a b ≤ 0` is transitive. -/
structure CmpOrd {α : Type} (cmp : α → α → Int) (S : α → Prop) : Prop where
  anti : ∀ a b, S a → S b → (0 < cmp a b ↔ cmp b a < 0)
  trans : ∀ a b c, S a → S b → S c → cmp a b ≤ 0 → cmp b c ≤ 0 → cmp a c ≤ 0

/-- The cells `lo ≤ k < hi` are in non-decreasing order for `cmp`. -/
def SortedOn {α : Type} (cmp : α → α → Int) (lo hi : Nat) (arr : Nat → α) : Prop :=
  ∀ p q, lo ≤ p → p < q → q < hi → cmp (arr p) (arr q) ≤ 0

namespace TableC

/-- The outcome required of a sort of `table.c`: the first `n` cells of `out` are
a permutation of those of `arr`, in non-decreasing order of the kind's comparison
when the descending flag is clear and in non-increasing order when it is set. -/
def SortResult (dt : DataType) (desc : Bool) (arr : Nat → Val dt) (n : Nat)
    (out : Nat → Val dt) : Prop :=
  (atoList out n).Perm (atoList arr n) ∧
  ∀ i j, i < j → j < n →
    if desc then 0 ≤ cmp_generic dt false (out i) (out j)
    else cmp_generic dt false (out i) (out j) ≤ 0

end TableC

/-! ## Trees of tree.c -/

namespace TreeC

/-- The kinds of data of `tree.c`. -/
inductive DataType where
  | TYPE_INT
  | TYPE_DOUBLE
  | TYPE_STRING
  deriving DecidableEq, Repr

/-- The datum behind the `data` pointer of a node, for each kind. -/
@[reducible] def Val : DataType → Type
  | .TYPE_INT => Int
  | .TYPE_DOUBLE => Rat
  | .TYPE_STRING => List (Fin 256)

/-- A node `TNode` with its datum and its `child_count` children in order (a
`TNode *` that may be `NULL` is an `Option (TNode α)`). -/
inductive TNode (α : Type) where
  | node (data : α) (children : List (TNode α))
  deriving Repr

variable {α : Type}

/-- The field `data` of a node. -/
def TNode.data : TNode α → α
  | .node d _ => d

/-- The children `children[0 .. child_count-1]` of a node. -/
def TNode.children : TNode α → List (TNode α)
  | .node _ cs => cs

mutual
/-- The traversal `collect_values(n, arr, idx)` for a non-null `n`: the data are
appended to the values collected so far. -/
def collect_values : TNode α → List α → List α
  | .node d cs, arr => collect_values_from cs (arr ++ [d])
/-- The loop of `collect_values` over the children. -/
def collect_values_from : List (TNode α) → List α → List α
  | [], arr => arr
  | c :: cs, arr => collect_values_from cs (collect_values c arr)
end

mutual
/-- The traversal `collect_dfs_in(n, anim)` for a non-null `n`; `path` is
`anim->path[0 .. anim->count-1]`. -/
def collect_dfs_in : TNode α → List (TNode α) → List (TNode α)
  | .node d cs, path =>
      if path.length ≥ 500 then path
      else
        match cs with
        | [] => path ++ [.node d cs]
        | c :: rest => collect_dfs_in_from rest (collect_dfs_in c path ++ [.node d cs])
/-- The loop of `collect_dfs_in` over the children `1 .. child_count-1`. -/
def collect_dfs_in_from : List (TNode α) → List (TNode α) → List (TNode α)
  | [], path => path
  | c :: cs, path => collect_dfs_in_from cs (collect_dfs_in c path)
end

/-- The comparator `cmp_tree_vals` on the data two array cells point to. -/
def cmp_tree_vals : (current_dtype : DataType) → Val current_dtype → Val current_dtype → Int
  | .TYPE_INT, a, b => wrap32 (a - b)
  | .TYPE_DOUBLE, a, b => (if a > b then 1 else 0) - (if a < b then 1 else 0)
  | .TYPE_STRING, a, b => strcmp a b

/-- The `qsort` of the C library: the array in ascending order of the
comparator. -/
def qsort (cmp : α → α → Int) (vals : List α) : List α :=
  vals.insertionSort (fun a b => cmp a b ≤ 0)

/-- The construction `build_bst(arr, start, end)`: `none` when the fuel runs out or
a cell outside the array is read, `some none` for the `NULL` result. -/
def build_bst (arr : List α) : Nat → Int → Int → Option (Option (TNode α))
  | 0, _, _ => none
  | fuel + 1, start, end_ =>
      if start > end_ then some none
      else
        let mid := (start + end_).tdiv 2
        match arr[mid.toNat]?, build_bst arr fuel start (mid - 1),
            build_bst arr fuel (mid + 1) end_ with
        | some d, some left, some right =>
            some (some (.node d (left.toList ++ right.toList)))
        | _, _, _ => none

/-- The shape of the tree selected in the interface. -/
inductive TreeType where
  | TREE_BINARY
  | TREE_NARY
  deriving DecidableEq, Repr

/-- The globals of `tree.c` that the operations read and write. -/
structure TreeState (dt : DataType) where
  root : Option (TNode (Val dt))
  current_ttype : TreeType
  max_children_limit : Nat

/-- The handler `on_ordonner`: collect the values, sort them, rebuild. The values
are collected into the local array `vals[500]`; the result is `none` when
`collect_values` writes past its end, or when `build_bst` fails. -/
def on_ordonner {dt : DataType} (fuel : Nat) (st : TreeState dt) : Option (TreeState dt) :=
  match st.root with
  | none => some st
  | some r =>
      let vals := collect_values r []
      let count := vals.length
      if count ≤ 500 then
        let vals := qsort (cmp_tree_vals dt) vals
        match build_bst vals fuel 0 ((count : Int) - 1) with
        | none => none
        | some root =>
            some { root := root, current_ttype := .TREE_BINARY, max_children_limit := 2 }
      else none

/-- The values along the in-order walk `collect_dfs_in(root, anim)` started with
`count = 0`. -/
def inorder_values (root : Option (TNode α)) : List α :=
  match root with
  | none => []
  | some r => (collect_dfs_in r []).map TNode.data

end TreeC

/-! ## Graphs of graph.c -/

namespace GraphC

/-- The capacity `MAX_NODES` of the node arrays. -/
def MAX_NODES : Nat := 20

/-- The sentinel `INF` standing for "no path known". -/
def INF : Int := 999999

/-- A stored edge: indices of its two nodes and its weight. -/
structure Edge where
  u : Nat
  v : Nat
  weight : Int
  deriving DecidableEq, Repr

/-- The local arrays of `run_dijkstra` (those of `run_bellman` but for `visited`). -/
structure SPState where
  dist : Nat → Int
  prev : Nat → Int
  visited : Nat → Bool

/-- The arrays after the initialisation loop, with `dist[start] = 0`. -/
def sp_init (start : Nat) : SPState :=
  { dist := aset (fun _ => INF) start 0, prev := fun _ => -1, visited := fun _ => false }

/-- The search of `run_dijkstra` for the unvisited node of least distance: the
pair `(u, min_d)` after the loop over `j`. -/
def find_min (node_count : Nat) (s : SPState) : Int × Int :=
  (List.range node_count).foldl
    (fun (m : Int × Int) (j : Nat) =>
      if s.visited j = false ∧ s.dist j < m.2 then ((j : Int), s.dist j) else m)
    (-1, INF)

/-- The body of the relaxation loop of `run_dijkstra` for the edge `e`. -/
def relax_step (u : Nat) (s : SPState) (e : Edge) : SPState :=
  if e.u = u then
    let v := e.v
    let alt := wrap32 (s.dist u + e.weight)
    if alt < s.dist v then { s with dist := aset s.dist v alt, prev := aset s.prev v (u : Int) }
    else s
  else s

/-- The main loop of `run_dijkstra`, for the given number of remaining
iterations; the two `break`s end it early. -/
def dijkstra_loop (node_count : Nat) (edges : List Edge) (end_ : Nat) :
    Nat → SPState → SPState
  | 0, s => s
  | k + 1, s =>
      let u := (find_min node_count s).1
      if u = -1 ∨ s.dist u.toNat = INF then s
      else
        let s1 := { s with visited := aset s.visited u.toNat true }
        if u = (end_ : Int) then s1
        else dijkstra_loop node_count edges end_ k (edges.foldl (relax_step u.toNat) s1)

/-- The walk along `prev` that fills `path_nodes`: `path` is
`path_nodes[0 .. path_len-1]`, `room` the number of free cells left in the buffer.
The result is `none` when the walk would write beyond the buffer. -/
def reconstruct (prev : Nat → Int) : Nat → Int → List Nat → Option (List Nat)
  | 0, curr, path => if curr ≠ -1 then none else some path
  | room + 1, curr, path =>
      if curr ≠ -1 then reconstruct prev room (prev curr.toNat) (path ++ [curr.toNat])
      else some path

/-- What a shortest-path run leaves behind: its `dist` and `prev` arrays and the
global `path_nodes[0 .. path_len-1]`. -/
structure SPResult where
  dist : Nat → Int
  prev : Nat → Int
  path_nodes : List Nat

/-- The number `path_len` of stored path nodes. -/
def SPResult.path_len (r : SPResult) : Nat := r.path_nodes.length

/-- The reconstruction shared by `run_dijkstra` and `run_bellman`. -/
def sp_finish (dist : Nat → Int) (prev : Nat → Int) (end_ : Nat) : Option SPResult :=
  if dist end_ ≠ INF then
    (reconstruct prev MAX_NODES (end_ : Int) []).map
      (fun p => { dist := dist, prev := prev, path_nodes := p })
  else some { dist := dist, prev := prev, path_nodes := [] }

/-- The function `run_dijkstra(start, end)` on the graph with `node_count` nodes
and the stored `edges`. -/
def run_dijkstra (node_count : Nat) (edges : List Edge) (start end_ : Nat) : Option SPResult :=
  let s := dijkstra_loop node_count edges end_ node_count (sp_init start)
  sp_finish s.dist s.prev end_

/-- The body of the inner loop of `run_bellman` for the edge `e`. -/
def bellman_step (s : SPState) (e : Edge) : SPState :=
  let u := e.u
  let v := e.v
  let w := e.weight
  if s.dist u ≠ INF ∧ wrap32 (s.dist u + w) < s.dist v then
    { s with dist := aset s.dist v (wrap32 (s.dist u + w)), prev := aset s.prev v (u : Int) }
  else s

/-- The `node_count - 1` rounds of `run_bellman`. -/
def bellman_rounds (edges : List Edge) : Nat → SPState → SPState
  | 0, s => s
  | k + 1, s => bellman_rounds edges k (edges.foldl bellman_step s)

/-- The function `run_bellman(start, end)`. -/
def run_bellman (node_count : Nat) (edges : List Edge) (start end_ : Nat) : Option SPResult :=
  let s := bellman_rounds edges (node_count - 1) (sp_init start)
  sp_finish s.dist s.prev end_

/-- The state threaded through `findAllPathsUtil`: the arrays `visited` and `path`
and the lines logged so far (node sequence and weight of each reported path). -/
structure PathsState where
  visited : Nat → Bool
  path : Nat → Nat
  log : List (List Nat × Int)

/-- The node `neighbor` that `findAllPathsUtil` derives from the edge `e` at the
node `u` (`-1` when the edge is not usable from `u`). -/
def neighbor_of (is_directed : Bool) (u : Nat) (e : Edge) : Int :=
  if e.u = u then (e.v : Int)
  else if ¬ is_directed ∧ e.v = u then (e.u : Int)
  else -1

/-- The body of the loop of `findAllPathsUtil` over the stored edges, for the edge
`e`; `recurse` is the recursive call. -/
def paths_visit (recurse : Nat → PathsState → Nat → Int → Option PathsState)
    (is_directed : Bool) (u path_index : Nat) (total_weight : Int)
    (st : PathsState) (e : Edge) : Option PathsState :=
  let neighbor := neighbor_of is_directed u e
  let w := e.weight
  if neighbor ≠ -1 ∧ st.visited neighbor.toNat = false then
    recurse neighbor.toNat st path_index (wrap32 (total_weight + w))
  else some st

/-- The recursive search `findAllPathsUtil(u, d, visited, path, path_index,
total_weight, is_directed)`; the fuel bounds the depth of the recursion. -/
def findAllPathsUtil (edges : List Edge) (d : Nat) (is_directed : Bool) :
    Nat → Nat → PathsState → Nat → Int → Option PathsState
  | 0, _, _, _, _ => none
  | fuel + 1, u, st, path_index, total_weight =>
      let st := { st with visited := aset st.visited u true, path := aset st.path path_index u }
      let path_index := path_index + 1
      let r : Option PathsState :=
        if u = d then
          some { st with log := st.log ++ [((List.range path_index).map st.path, total_weight)] }
        else
          edges.foldlM
            (paths_visit (findAllPathsUtil edges d is_directed fuel) is_directed u path_index
              total_weight)
            st
      r.map (fun st => { st with visited := aset st.visited u false })

/-- The function `printAllPaths(s, d)`: the lines logged between the header and
the footer. -/
def printAllPaths (edges : List Edge) (is_directed : Bool) (fuel : Nat) (s d : Nat) :
    Option (List (List Nat × Int)) :=
  (findAllPathsUtil edges d is_directed fuel s
    { visited := fun _ => false, path := fun _ => 0, log := [] } 0 0).map (·.log)

end GraphC


/-! ## Specification vocabulary for graphs -/

namespace GraphC

/-- The edge list `p` leads from `a` to `b` along stored edges, each followed from
its `u` to its `v`. -/
def IsWalk (edges : List Edge) : Nat → Nat → List Edge → Prop
  | a, b, [] => a = b
  | a, b, e :: p => e ∈ edges ∧ e.u = a ∧ IsWalk edges e.v b p

/-- The total weight of a sequence of edges. -/
def weight (p : List Edge) : Int := (p.map (·.weight)).sum

/-- The nodes met along a sequence of edges followed from `a`. -/
def walk_nodes (a : Nat) (p : List Edge) : List Nat := a :: p.map (·.v)

/-- The number of nodes among the first `n` that are marked in a `visited` array. -/
def visited_count (n : Nat) (visited : Nat → Bool) : Nat :=
  (List.range n).countP (fun j => visited j)

end GraphC

namespace GraphC

end GraphC

namespace GraphC

/-- The node reached by following the edge `e` from the node `a`. -/
def next_node (a : Nat) (e : Edge) : Nat := if e.u = a then e.v else e.u

/-- The edge `e` may be followed from the node `a`: always from its `u`, and also
from its `v` in the undirected interpretation. -/
def Usable (is_directed : Bool) (e : Edge) (a : Nat) : Prop :=
  e.u = a ∨ (is_directed = false ∧ e.v = a)

/-- The nodes reached, after `a`, by following the edges of `es` in turn. -/
def trace : Nat → List Edge → List Nat
  | _, [] => []
  | a, e :: es => next_node a e :: trace (next_node a e) es

/-- Each edge of `es` is stored and may be followed from the node reached so far. -/
def Follows (edges : List Edge) (is_directed : Bool) : Nat → List Edge → Prop
  | _, [] => True
  | a, e :: es => e ∈ edges ∧ Usable is_directed e a ∧ Follows edges is_directed (next_node a e) es

/-- The choice `es` of stored edges traces a path from `u` to `d` that repeats no
node and avoids the nodes marked in `vis`. -/
def SimpleFrom (edges : List Edge) (is_directed : Bool) (vis : Nat → Bool) (u d : Nat)
    (es : List Edge) : Prop :=
  Follows edges is_directed u es ∧ (u :: trace u es).Nodup ∧
  (∀ x ∈ u :: trace u es, vis x = false) ∧ (u :: trace u es).getLast? = some d

/-- What a call `findAllPathsUtil(u, d, ...)` leaves behind: `visited` as before,
the cells of `path` below `path_index` as before, and one line logged for each
choice of stored edges tracing a simple path from `u` to `d` through unmarked
nodes, with the nodes from the start of `path` and the total weight. -/
def PathsPost (edges : List Edge) (is_directed : Bool) (d u : Nat) (st : PathsState)
    (path_index : Nat) (total_weight : Int) (st' : PathsState) : Prop :=
  st'.visited = st.visited ∧ (∀ k, k < path_index → st'.path k = st.path k) ∧
  ∃ sols : List (List Edge), sols.Nodup ∧
    (∀ es, es ∈ sols ↔ SimpleFrom edges is_directed st.visited u d es) ∧
    st'.log = st.log ++ sols.map
      (fun es => ((List.range path_index).map st.path ++ u :: trace u es,
        wrap32 (total_weight + weight es)))

/-- The choice `es` of stored edges traces a simple path from `s` to `d`. -/
def IsSimplePath (edges : List Edge) (is_directed : Bool) (s d : Nat) (es : List Edge) : Prop :=
  Follows edges is_directed s es ∧ (s :: trace s es).Nodup ∧
  (s :: trace s es).getLast? = some d

end GraphC

/-! ## Linked lists of list.c -/

namespace ListC

/-- The kinds of data of `list.c`. -/
inductive DataType where
  | TYPE_INT
  | TYPE_DOUBLE
  | TYPE_STRING
  | TYPE_CHAR
  deriving DecidableEq, Repr

/-- The datum behind the `data` pointer of a node, for each kind. -/
@[reducible] def Val : DataType → Type
  | .TYPE_INT => Int
  | .TYPE_DOUBLE => Rat
  | .TYPE_STRING => List (Fin 256)
  | .TYPE_CHAR => Int

/-- The comparator `compare_vals` under the global `current_dtype`. -/
def compare_vals : (current_dtype : DataType) → Val current_dtype → Val current_dtype → Int
  | .TYPE_INT, a, b => wrap32 (a - b)
  | .TYPE_DOUBLE, a, b => (if a > b then 1 else 0) - (if a < b then 1 else 0)
  | .TYPE_CHAR, a, b => wrap32 (a - b)
  | .TYPE_STRING, a, b => strcmp a b

/-- A node `Node`: its datum and its two links (`NULL` is `none`, any other
pointer is the address of a cell of the heap). -/
structure Node (α : Type) where
  data : α
  next : Option Nat
  prev : Option Nat

/-- The heap of nodes: the node stored at each address, `none` where no node is
allocated (never allocated, or freed). -/
abbrev Heap (α : Type) := Nat → Option (Node α)

/-- The memory of `list.c`: the heap, the global `head`, and the address the next
`calloc` returns (addresses are handed out in increasing order and not reused). -/
structure ListState (α : Type) where
  heap : Heap α
  head : Option Nat
  brk : Nat

variable {α : Type}

/-- Read of `p->next`; `none` when `p` is not an allocated node. -/
def rd_next (h : Heap α) (p : Nat) : Option (Option Nat) := (h p).map Node.next

/-- Read of `p->prev`. -/
def rd_prev (h : Heap α) (p : Nat) : Option (Option Nat) := (h p).map Node.prev

/-- Read of `p->data`. -/
def rd_data (h : Heap α) (p : Nat) : Option α := (h p).map Node.data

/-- Store `p->next = v`. -/
def set_next (h : Heap α) (p : Nat) (v : Option Nat) : Option (Heap α) :=
  (h p).map (fun nd => aset h p (some { nd with next := v }))

/-- Store `p->prev = v`. -/
def set_prev (h : Heap α) (p : Nat) (v : Option Nat) : Option (Heap α) :=
  (h p).map (fun nd => aset h p (some { nd with prev := v }))

/-- Store `p->data = v`. -/
def set_data (h : Heap α) (p : Nat) (v : α) : Option (Heap α) :=
  (h p).map (fun nd => aset h p (some { nd with data := v }))

/-- The allocation `create_node(data)`: a zeroed node at a fresh address. -/
def create_node (data : α) (st : ListState α) : Nat × ListState α :=
  (st.brk, { st with heap := aset st.heap st.brk (some { data := data, next := none, prev := none }),
                     brk := st.brk + 1 })

/-- The loop `while (curr->next) curr = curr->next` of `append_node`; the fuel
bounds the number of nodes visited. -/
def find_last (h : Heap α) : Nat → Nat → Option Nat
  | 0, _ => none
  | fuel + 1, curr =>
      match rd_next h curr with
      | none => none
      | some none => some curr
      | some (some nx) => find_last h fuel nx

/-- The function `append_node(data)`. -/
def append_node (data : α) (st : ListState α) : Option (ListState α) :=
  let (n, st1) := create_node data st
  match st1.head with
  | none => some { st1 with head := some n }
  | some hd => do
      let curr ← find_last st1.heap (st1.brk + 1) hd
      let h ← set_next st1.heap curr (some n)
      let h ← set_prev h n (some curr)
      some { st1 with heap := h }

/-- The function `prepend_node(data)`. -/
def prepend_node (data : α) (st : ListState α) : Option (ListState α) := do
  let (n, st1) := create_node data st
  let h ← set_next st1.heap n st1.head
  let h ← match st1.head with
    | some hd => set_prev h hd (some n)
    | none => some h
  some { st1 with heap := h, head := some n }

/-- A loop `while (curr && c < k) { curr = curr->next; c++; }` for `k` steps. -/
def walk (h : Heap α) : Nat → Option Nat → Option (Option Nat)
  | 0, curr => some curr
  | _ + 1, none => some none
  | k + 1, some a =>
      match rd_next h a with
      | none => none
      | some nx => walk h k nx

/-- The block that ends both `insert_at` and `insert_sorted`: a new node is linked
in after the node `curr`. -/
def splice_after (curr : Nat) (data : α) (st : ListState α) : Option (ListState α) := do
  let (n, st1) := create_node data st
  let nx ← rd_next st1.heap curr
  let h ← set_next st1.heap n nx
  let h ← set_prev h n (some curr)
  let nx ← rd_next h curr
  let h ← match nx with
    | some b => set_prev h b (some n)
    | none => some h
  let h ← set_next h curr (some n)
  some { st1 with heap := h }

/-- The function `insert_at(idx, data)`. -/
def insert_at (idx : Int) (data : α) (st : ListState α) : Option (ListState α) :=
  if idx ≤ 0 then prepend_node data st
  else
    match walk st.heap (idx - 1).toNat st.head with
    | none => none
    | some none => append_node data st
    | some (some curr) => splice_after curr data st

/-- The loop `while (curr->next && compare_vals(curr->next->data, data) < 0)` of
`insert_sorted` and of `insertion_sort`. -/
def find_slot (cmp : α → α → Int) (data : α) (h : Heap α) : Nat → Nat → Option Nat
  | 0, _ => none
  | fuel + 1, curr =>
      match rd_next h curr with
      | none => none
      | some none => some curr
      | some (some nx) =>
          match rd_data h nx with
          | none => none
          | some x => if cmp x data < 0 then find_slot cmp data h fuel nx else some curr

/-- The function `insert_sorted(data)`; `cmp` is `compare_vals`. -/
def insert_sorted (cmp : α → α → Int) (data : α) (st : ListState α) : Option (ListState α) :=
  match st.head with
  | none => prepend_node data st
  | some hd => do
      let x ← rd_data st.heap hd
      if cmp data x < 0 then prepend_node data st
      else
        let curr ← find_slot cmp data st.heap (st.brk + 1) hd
        splice_after curr data st

/-- The function `delete_node(idx)`; `free` leaves the cell unallocated. -/
def delete_node (idx : Int) (st : ListState α) : Option (ListState α) :=
  match st.head with
  | none => some st
  | some hd =>
      if idx = 0 then do
        let tmp := hd
        let head' ← rd_next st.heap hd
        let h ← match head' with
          | some h2 => set_prev st.heap h2 none
          | none => some st.heap
        some { st with heap := aset h tmp none, head := head' }
      else
        match walk st.heap idx.toNat st.head with
        | none => none
        | some none => some st
        | some (some curr) => do
            let pv ← rd_prev st.heap curr
            let h ← match pv with
              | some p => do
                  let nx ← rd_next st.heap curr
                  set_next st.heap p nx
              | none => some st.heap
            let nx ← rd_next h curr
            let h ← match nx with
              | some b => do
                  let pv ← rd_prev h curr
                  set_prev h b pv
              | none => some h
            some { st with heap := aset h curr none }

/-- The values met from `p` along `next`, for at most `fuel` nodes. -/
def values_from (h : Heap α) : Nat → Option Nat → Option (List α)
  | _, none => some []
  | 0, some _ => none
  | fuel + 1, some a =>
      match h a with
      | none => none
      | some nd => (values_from h fuel nd.next).map (fun l => nd.data :: l)

/-- The value sequence reachable from `head`; `none` when the walk meets a cell
that is not allocated or does not end. -/
def to_list (st : ListState α) : Option (List α) := values_from st.heap st.brk st.head

/-- The state of `list.c` at start: no node, `head = NULL`. -/
def empty : ListState α := { heap := fun _ => none, head := none, brk := 0 }

/-- The pointer to the first of `cells` (address and value of each node in
order), or `q` when there is none. -/
def ptr_of (cells : List (Nat × α)) (q : Option Nat) : Option Nat :=
  match cells with
  | [] => q
  | c :: _ => some c.1

/-- The pointer to the last of `cells`, or `pv` when there is none. -/
def last_of : Option Nat → List (Nat × α) → Option Nat
  | pv, [] => pv
  | _, c :: rest => last_of (some c.1) rest

/-- The heap holds the doubly linked segment `cells`: each node carries its value,
its `next` points to the following node (`q` after the last) and its `prev` to the
preceding one (`pv` before the first). -/
def DSeg (h : Heap α) : Option Nat → List (Nat × α) → Option Nat → Prop
  | _, [], _ => True
  | pv, c :: rest, q =>
      h c.1 = some { data := c.2, next := ptr_of rest q, prev := pv } ∧ DSeg h (some c.1) rest q

/-- The state is well formed and holds the nodes `cells`: `head` points to the
first, the links are those of a doubly linked list ending in `NULL` on both sides,
the nodes are distinct, and no cell is allocated at or above `brk`. -/
def HasCells (st : ListState α) (cells : List (Nat × α)) : Prop :=
  st.head = ptr_of cells none ∧ DSeg st.heap none cells none ∧
  (cells.map Prod.fst).Nodup ∧ ∀ a, st.brk ≤ a → st.heap a = none

/-- The state is a well-formed list whose value sequence from `head` is `l`. -/
def IsList (st : ListState α) (l : List α) : Prop :=
  ∃ cells : List (Nat × α), HasCells st cells ∧ cells.map Prod.snd = l

/-- The nodes of the list after `insert_sorted(v)` allocates the node `f` on a list
holding the given nodes (used to state the effect of `insert_sorted`). -/
def sorted_cells (cmp : α → α → Int) (v : α) (f : Nat) : List (Nat × α) → List (Nat × α)
  | [] => [(f, v)]
  | c :: rest =>
      if cmp v c.2 < 0 then (f, v) :: c :: rest
      else c :: (rest.takeWhile (fun c => cmp c.2 v < 0) ++
        (f, v) :: rest.dropWhile (fun c => cmp c.2 v < 0))

/-- A state holding the list `[10, 20]` in two nodes at the addresses 0 and 1. -/
def two_nodes : ListState Int :=
  { heap := fun a =>
      if a = 0 then some { data := 10, next := some 1, prev := none }
      else if a = 1 then some { data := 20, next := none, prev := some 0 }
      else none,
    head := some 0,
    brk := 2 }

end ListC
/-! ## The sorts of list.c -/

namespace ListC

variable {α : Type}

/-- The loop of `get_list_size()`, with its counter `c`. -/
def size_loop (h : Heap α) : Nat → Nat → Option Nat → Option Nat
  | _, c, none => some c
  | 0, _, some _ => none
  | fuel + 1, c, some a =>
      match rd_next h a with
      | none => none
      | some nx => size_loop h fuel (c + 1) nx

/-- The function `get_list_size()`. -/
def get_list_size (st : ListState α) : Option Nat := size_loop st.heap st.brk 0 st.head

/-- The function `swap_data(a, b)`. -/
def swap_data (h : Heap α) (a b : Nat) : Option (Heap α) := do
  let t ← rd_data h a
  let x ← rd_data h b
  let h ← set_data h a x
  set_data h b t

/-- The inner loop `while (ptr1->next != lptr)` of `bubble_sort`: the heap, `ptr1`
and `swapped` when it ends. -/
def bubble_inner (cmp : α → α → Int) (lptr : Option Nat) :
    Nat → Heap α → Option Nat → Bool → Option (Heap α × Option Nat × Bool)
  | 0, _, _, _ => none
  | fuel + 1, h, ptr1, swapped => do
      let p ← ptr1
      let nx ← rd_next h p
      if nx = lptr then some (h, ptr1, swapped)
      else do
        let b ← nx
        let x ← rd_data h p
        let y ← rd_data h b
        let (h, swapped) ←
          if cmp x y > 0 then (swap_data h p b).map (fun h1 => (h1, true))
          else some (h, swapped)
        let nx ← rd_next h p
        bubble_inner cmp lptr fuel h nx swapped

/-- The `do ... while (swapped)` loop of `bubble_sort`. -/
def bubble_outer (cmp : α → α → Int) (head : Nat) (fuel0 : Nat) :
    Nat → Heap α → Option Nat → Option (Heap α)
  | 0, _, _ => none
  | fuel + 1, h, lptr => do
      let (h1, ptr1, swapped) ← bubble_inner cmp lptr fuel0 h (some head) false
      if swapped then bubble_outer cmp head fuel0 fuel h1 ptr1 else some h1

/-- The function `bubble_sort()`; `cmp` is `compare_vals`. -/
def bubble_sort (cmp : α → α → Int) (st : ListState α) : Option (ListState α) :=
  match st.head with
  | none => some st
  | some hd =>
      (bubble_outer cmp hd (st.brk + 1) (st.brk + 1) st.heap none).map
        (fun h => { st with heap := h })

/-- The first branch of the body of the loop of `insertion_sort`: the node `curr`
becomes the first node of the list that starts at `sorted`. -/
def link_front (h : Heap α) (sorted : Option Nat) (curr : Nat) : Option (Heap α) := do
  let h ← set_next h curr sorted
  let h ← match sorted with
    | some s => set_prev h s (some curr)
    | none => some h
  set_prev h curr none

/-- The end of the second branch of the body of the loop of `insertion_sort`: the
node `curr` is linked in after the node `s`. -/
def link_after (h : Heap α) (s curr : Nat) : Option (Heap α) := do
  let nx ← rd_next h s
  let h ← set_next h curr nx
  let nx ← rd_next h s
  let h ← match nx with
    | some b => set_prev h b (some curr)
    | none => some h
  let h ← set_next h s (some curr)
  set_prev h curr (some s)

/-- The body of the loop of `insertion_sort`: the node `curr` is linked into the
list that starts at `sorted`; the heap and the new `sorted`. -/
def insertion_link (cmp : α → α → Int) (fuel0 : Nat) (h : Heap α) (sorted : Option Nat)
    (curr : Nat) : Option (Heap α × Option Nat) := do
  let front ← match sorted with
    | none => some true
    | some s => do
        let x ← rd_data h curr
        let y ← rd_data h s
        some (decide (cmp x y < 0))
  if front then (link_front h sorted curr).map (fun h => (h, some curr))
  else do
    let s0 ← sorted
    let x ← rd_data h curr
    let s ← find_slot cmp x h fuel0 s0
    (link_after h s curr).map (fun h => (h, sorted))

/-- The loop `while (curr)` of `insertion_sort`. -/
def insertion_loop (cmp : α → α → Int) (fuel0 : Nat) :
    Nat → Heap α → Option Nat → Option Nat → Option (Heap α × Option Nat)
  | _, h, sorted, none => some (h, sorted)
  | 0, _, _, some _ => none
  | fuel + 1, h, sorted, some curr => do
      let next ← rd_next h curr
      let (h, sorted) ← insertion_link cmp fuel0 h sorted curr
      insertion_loop cmp fuel0 fuel h sorted next

/-- The function `insertion_sort()`; `cmp` is `compare_vals`. -/
def insertion_sort (cmp : α → α → Int) (st : ListState α) : Option (ListState α) :=
  match st.head with
  | none => some st
  | some hd => do
      let nx ← rd_next st.heap hd
      match nx with
      | none => some st
      | some _ => do
          let (h, sorted) ← insertion_loop cmp (st.brk + 1) st.brk st.heap none (some hd)
          some { st with heap := h, head := sorted }

/-- The loop `for (z = 0; z < n; z++) { arr[z] = tk->data; tk = tk->next; }` of
`shell_sort` and `quick_sort`, with `k` iterations left. -/
def copy_to_array (h : Heap α) : Nat → Nat → Option Nat → (Nat → α) → Option (Nat → α)
  | 0, _, _, arr => some arr
  | k + 1, z, tk, arr => do
      let a ← tk
      let x ← rd_data h a
      let nx ← rd_next h a
      copy_to_array h k (z + 1) nx (aset arr z x)

/-- The loop `for (z = 0; z < n; z++) { tk->data = arr[z]; tk = tk->next; }` of
`shell_sort` and `quick_sort`, with `k` iterations left. -/
def write_back (arr : Nat → α) : Nat → Nat → Option Nat → Heap α → Option (Heap α)
  | 0, _, _, h => some h
  | k + 1, z, tk, h => do
      let a ← tk
      let h ← set_data h a (arr z)
      let nx ← rd_next h a
      write_back arr k (z + 1) nx h

/-- The function `shell_sort()`; `cmp` is `compare_vals` and `arr0` the content of
the block that `malloc` returns. The loops over the array are those of
`shell_sort_generic` of table.c, statement for statement. -/
def shell_sort (cmp : α → α → Int) (arr0 : Nat → α) (st : ListState α) :
    Option (ListState α) := do
  let n ← get_list_size st
  if n < 2 then some st
  else do
    let arr ← copy_to_array st.heap n 0 st.head arr0
    let arr ← TableC.shell_sort_generic cmp (n + 1) arr n
    let h ← write_back arr n 0 st.head st.heap
    some { st with heap := h }

/-- The function `quick_sort()`; `cmp` is `compare_vals` and `arr0` the content of
the block that `malloc` returns. The nested `partition` and `qs` are those of
`partition_generic` and `quick_sort_generic` of table.c, statement for statement. -/
def quick_sort (cmp : α → α → Int) (arr0 : Nat → α) (st : ListState α) :
    Option (ListState α) := do
  let n ← get_list_size st
  if n < 2 then some st
  else do
    let arr ← copy_to_array st.heap n 0 st.head arr0
    let arr ← TableC.quick_sort_generic cmp (n + 1) arr 0 ((n : Int) - 1)
    let h ← write_back arr n 0 st.head st.heap
    some { st with heap := h }

/-- The heap holds the chain `cells` along `next` only (the `prev` fields are not
constrained): the shape of the part of the list that `insertion_sort` has not yet
relinked. -/
def SSeg (h : Heap α) : List (Nat × α) → Option Nat → Prop
  | [], _ => True
  | c :: rest, q =>
      (∃ pv, h c.1 = some { data := c.2, next := ptr_of rest q, prev := pv }) ∧ SSeg h rest q

/-- One pass of exchanges of neighbours over the values `x :: ys` (what the inner
loop of `bubble_sort` does to the values it passes over). -/
def bubble_list (cmp : α → α → Int) : α → List α → List α
  | x, [] => [x]
  | x, y :: ys => if cmp x y > 0 then y :: bubble_list cmp x ys else x :: bubble_list cmp y ys

/-- Whether a pass over the values `x :: ys` exchanges anything. -/
def swaps (cmp : α → α → Int) : α → List α → Bool
  | _, [] => false
  | x, y :: ys => if cmp x y > 0 then true else swaps cmp y ys

/-- A state holding the list `[30, 10, 20, 10]` in four nodes. -/
def four_nodes : ListState Int :=
  { heap := fun a =>
      if a = 0 then some { data := 30, next := some 1, prev := none }
      else if a = 1 then some { data := 10, next := some 2, prev := some 0 }
      else if a = 2 then some { data := 20, next := some 3, prev := some 1 }
      else if a = 3 then some { data := 10, next := none, prev := some 2 }
      else none,
    head := some 0,
    brk := 4 }

/-- The outcome required of a sort of `list.c` on a list with value sequence `l`:
the call returns, and the state is a well-formed list whose value sequence from
`head` is a permutation of `l` of the same length in ascending order of
`compare_vals`. -/
def SortedPerm (dt : DataType) (l : List (Val dt)) (res : Option (ListState (Val dt))) :
    Prop :=
  ∃ st' l', res = some st' ∧ IsList st' l' ∧ to_list st' = some l' ∧ l'.Perm l ∧
    l'.Pairwise (fun a b => compare_vals dt a b ≤ 0) ∧ l'.length = l.length

end ListC

/-! ## The edge store of graph.c -/

namespace GraphC

/-- The capacity `MAX_NODES * MAX_NODES` of the array `edges`. -/
def MAX_EDGES : Nat := MAX_NODES * MAX_NODES

/-- The loop "Update existing" of `add_edge`: the edges with the weight of the first
edge from `u` to `v` set to `w`, or `none` when the loop ends without a match. -/
def update_existing (u v : Nat) (w : Int) : List Edge → Option (List Edge)
  | [] => none
  | e :: es =>
      if e.u = u ∧ e.v = v then some ({ e with weight := w } :: es)
      else (update_existing u v w es).map (fun es' => e :: es')

/-- The function `add_edge(u, v, w)` on `edges[0 .. edge_count-1]`; `none` when the
new edge would be written past the array. -/
def add_edge (u v : Nat) (w : Int) (edges : List Edge) : Option (List Edge) :=
  match update_existing u v w edges with
  | some es => some es
  | none => if edges.length < MAX_EDGES then some (edges ++ [⟨u, v, w⟩]) else none

/-- No two stored edges have the same ordered pair of end nodes. -/
def UniquePairs (edges : List Edge) : Prop :=
  edges.Pairwise (fun a b => ¬ (a.u = b.u ∧ a.v = b.v))

end GraphC

/-! ## Traversals and mutations of tree.c -/

namespace TreeC

variable {α : Type}

mutual
/-- The traversal `collect_dfs_pre(n, anim)` for a non-null `n`; `path` is
`anim->path[0 .. anim->count-1]`, and a path longer than 500 stands for a write
past the end of the buffer. -/
def collect_dfs_pre : TNode α → List (TNode α) → List (TNode α)
  | .node d cs, path =>
      if path.length ≥ 500 then path
      else collect_dfs_pre_from cs (path ++ [.node d cs])
/-- The loop of `collect_dfs_pre` over the children. -/
def collect_dfs_pre_from : List (TNode α) → List (TNode α) → List (TNode α)
  | [], path => path
  | c :: cs, path => collect_dfs_pre_from cs (collect_dfs_pre c path)
end

mutual
/-- The traversal `collect_dfs_post(n, anim)` for a non-null `n`. -/
def collect_dfs_post : TNode α → List (TNode α) → List (TNode α)
  | .node d cs, path =>
      if path.length ≥ 500 then path
      else collect_dfs_post_from cs path ++ [.node d cs]
/-- The loop of `collect_dfs_post` over the children. -/
def collect_dfs_post_from : List (TNode α) → List (TNode α) → List (TNode α)
  | [], path => path
  | c :: cs, path => collect_dfs_post_from cs (collect_dfs_post c path)
end

/-- The loop of `collect_bfs`: `pending` is `q[f .. b-1]`; `none` when a child is
written past the end of `q` or the fuel runs out. -/
def collect_bfs_loop : Nat → List (TNode α) → Nat → List (TNode α) → Option (List (TNode α))
  | 0, _, _, _ => none
  | _ + 1, [], _, path => some path
  | fuel + 1, curr :: rest, b, path =>
      if path.length < 500 then
        if b + curr.children.length ≤ 500 then
          collect_bfs_loop fuel (rest ++ curr.children) (b + curr.children.length)
            (path ++ [curr])
        else none
      else some path

/-- The traversal `collect_bfs(root_node, anim)` for a non-null root, started with
`count = 0`. -/
def collect_bfs (root_node : TNode α) : Option (List (TNode α)) :=
  collect_bfs_loop 501 [root_node] 1 []

mutual
/-- The number of nodes of a tree. -/
def size : TNode α → Nat
  | .node _ cs => 1 + size_list cs
/-- The number of nodes of a list of trees. -/
def size_list : List (TNode α) → Nat
  | [] => 0
  | c :: cs => size c + size_list cs
end

mutual
/-- The pre-order of the nodes: the node, then the pre-order of each child from
left to right. -/
def preorder : TNode α → List (TNode α)
  | .node d cs => .node d cs :: preorder_list cs
/-- The pre-orders of a list of trees, one after the other. -/
def preorder_list : List (TNode α) → List (TNode α)
  | [] => []
  | c :: cs => preorder c ++ preorder_list cs
end

mutual
/-- The in-order of the nodes: the in-order of child 0, then the node, then the
in-order of the children `1 .. k`. -/
def inorder : TNode α → List (TNode α)
  | .node d [] => [.node d []]
  | .node d (c :: rest) => inorder c ++ .node d (c :: rest) :: inorder_list rest
/-- The in-orders of a list of trees, one after the other. -/
def inorder_list : List (TNode α) → List (TNode α)
  | [] => []
  | c :: cs => inorder c ++ inorder_list cs
end

mutual
/-- The post-order of the nodes: the post-order of every child, then the node. -/
def postorder : TNode α → List (TNode α)
  | .node d cs => postorder_list cs ++ [.node d cs]
/-- The post-orders of a list of trees, one after the other. -/
def postorder_list : List (TNode α) → List (TNode α)
  | [] => []
  | c :: cs => postorder c ++ postorder_list cs
end

/-- The chain of `k + 1` nodes with datum `d` in which every node but the last has
exactly one child. -/
def chain (d : α) : Nat → TNode α
  | 0 => .node d []
  | k + 1 => .node d [chain d k]

/-- A tree of 502 nodes that `generate_tree` and `on_insert_node` can build: a chain
of 500 nodes generated in binary mode, then a second child inserted under each of
its first two nodes. -/
def overfull_tree : TNode Int :=
  .node 0 [.node 0 [chain 0 497, .node 0 []], .node 0 []]

mutual
/-- The function `modify_node_rec(node, old_str, new_val)` for a non-null `node`:
the tree after the call and the returned int. The formatting `val_to_str_tree`
under the current data kind is a parameter. -/
def modify_node_rec (val_to_str_tree : α → List (Fin 256)) (old_str : List (Fin 256))
    (new_val : α) : TNode α → TNode α × Int
  | .node d cs =>
      if strcmp (val_to_str_tree d) old_str = 0 then (.node new_val cs, 1)
      else
        let r := modify_children val_to_str_tree old_str new_val cs
        (.node d r.1, r.2)
/-- The loop of `modify_node_rec` over the children. -/
def modify_children (val_to_str_tree : α → List (Fin 256)) (old_str : List (Fin 256))
    (new_val : α) : List (TNode α) → List (TNode α) × Int
  | [] => ([], 0)
  | c :: cs =>
      let r := modify_node_rec val_to_str_tree old_str new_val c
      if r.2 ≠ 0 then (r.1 :: cs, 1)
      else
        let r2 := modify_children val_to_str_tree old_str new_val cs
        (r.1 :: r2.1, r2.2)
end

mutual
/-- The function `delete_node_rec(parent, val_str)`: the tree under `parent` after
the call and the returned int. -/
def delete_node_rec (val_to_str_tree : α → List (Fin 256)) (val_str : List (Fin 256)) :
    TNode α → TNode α × Int
  | .node d cs =>
      let r := delete_children val_to_str_tree val_str cs
      (.node d r.1, r.2)
/-- The loop of `delete_node_rec` over the children, from the child `i`. -/
def delete_children (val_to_str_tree : α → List (Fin 256)) (val_str : List (Fin 256)) :
    List (TNode α) → List (TNode α) × Int
  | [] => ([], 0)
  | c :: cs =>
      if strcmp (val_to_str_tree c.data) val_str = 0 then (cs, 1)
      else
        let r := delete_node_rec val_to_str_tree val_str c
        if r.2 ≠ 0 then (r.1 :: cs, 1)
        else
          let r2 := delete_children val_to_str_tree val_str cs
          (r.1 :: r2.1, r2.2)
end

/-- The handler `on_modify_node`; `old_txt` is the text of the value field and
`new_val` the result of `parse_val_tree` on the text of the new-value field, `NULL`
exactly when that text is empty. -/
def on_modify_node {dt : DataType} (val_to_str_tree : Val dt → List (Fin 256))
    (old_txt : List (Fin 256)) (new_val : Option (Val dt)) (st : TreeState dt) :
    TreeState dt :=
  match st.root with
  | none => st
  | some r =>
      match new_val with
      | none => st
      | some v => { st with root := some (modify_node_rec val_to_str_tree old_txt v r).1 }

mutual
/-- The shape of a tree: the tree without its data. -/
def shape : TNode α → TNode Unit
  | .node _ cs => .node () (shape_list cs)
/-- The shapes of a list of trees. -/
def shape_list : List (TNode α) → List (TNode Unit)
  | [] => []
  | c :: cs => shape c :: shape_list cs
end

/-- The data of the nodes in pre-order. -/
def TNode.preorder_data (t : TNode α) : List α := (preorder t).map TNode.data

/-- The list with its first element that satisfies `p` replaced by `v`. -/
def replace_first (p : α → Bool) (v : α) : List α → List α
  | [] => []
  | d :: ds => if p d then v :: ds else d :: replace_first p v ds

/-- The capacity `MAX_CHILDREN` of the array `children` of a node. -/
def MAX_CHILDREN : Nat := 10

/-- The node a pointer into the tree designates, the pointer being given by the path
of child indices that leads to the node from the root. -/
def get_node : TNode α → List Nat → Option (TNode α)
  | t, [] => some t
  | .node _ cs, i :: p =>
      match cs[i]? with
      | none => none
      | some c => get_node c p

/-- The store `p->children[p->child_count++] = n` through the pointer `p` into the
tree, given by its path: the tree after the store. -/
def attach : TNode α → List Nat → TNode α → TNode α
  | .node d cs, [], n => .node d (cs ++ [n])
  | .node d cs, i :: p, n =>
      match cs[i]? with
      | none => .node d cs
      | some c => .node d (cs.set i (attach c p n))

/-- The pointers to the children of the node at `p` that has `k` children. -/
def child_ptrs (p : List Nat) (k : Nat) : List (List Nat) :=
  (List.range k).map (fun i => p ++ [i])

/-- The loop of `on_insert_node`: `pending` is `queue[f .. b-1]`, as pointers into
the tree under `root`. The result is `some (some t)` with the tree after the
insertion, `some none` when the queue runs empty ("Arbre plein"), and `none` when a
pointer is written past the end of `queue` or of `children`, or the fuel runs
out. -/
def insert_loop (limit : Nat) (root : TNode α) (val : α) :
    Nat → List (List Nat) → Nat → Option (Option (TNode α))
  | 0, _, _ => none
  | _ + 1, [], _ => some none
  | fuel + 1, p :: pending, b =>
      match get_node root p with
      | none => none
      | some curr =>
          if curr.children.length < limit then
            if curr.children.length < MAX_CHILDREN then
              some (some (attach root p (.node val [])))
            else none
          else if b + curr.children.length ≤ 500 then
            insert_loop limit root val fuel
              (pending ++ child_ptrs p curr.children.length) (b + curr.children.length)
          else none

/-- The handler `on_insert_node`; `val` is the result of `parse_val_tree` on the
text of the value field, `NULL` exactly when that text is empty. -/
def on_insert_node {dt : DataType} (val : Option (Val dt)) (st : TreeState dt) :
    Option (TreeState dt) :=
  match st.root with
  | none => some st
  | some r =>
      match val with
      | none => some st
      | some v =>
          match insert_loop st.max_children_limit r v 501 [[]] 1 with
          | none => none
          | some none => some st
          | some (some r') => some { st with root := some r' }

/-- The children of the node `n` at `p`, each with its pointer. -/
def kids (p : List Nat) (n : TNode α) : List (List Nat × TNode α) :=
  (child_ptrs p n.children.length).zip n.children

/-- The breadth-first walk from a queue of nodes (each with its pointer): the first
of the queue, then the walk from the rest of the queue followed by the children of
the first. -/
def bfs_from : Nat → List (List Nat × TNode α) → List (List Nat × TNode α)
  | 0, _ => []
  | _ + 1, [] => []
  | fuel + 1, x :: queue => x :: bfs_from fuel (queue ++ kids x.1 x.2)

/-- The nodes of a tree in breadth-first order, each with its pointer. -/
def bfs_order (t : TNode α) : List (List Nat × TNode α) := bfs_from (size t) [([], t)]

/-- Every node reachable from the root has at most `limit` children. -/
def ArityOk (limit : Nat) (t : TNode α) : Prop :=
  ∀ p n, get_node t p = some n → n.children.length ≤ limit

/-- The number of nodes in the trees under the nodes of a queue. -/
def queue_size (queue : List (List Nat × TNode α)) : Nat :=
  (queue.map (fun x => size x.2)).sum

/-- The loop `for (k = 0; k < conn_count; k++)` of `generate_tree`, with `m`
iterations left from `k`: the pointer to the first candidate parent with fewer than
`limit` children (`some none` when there is none, `none` when a pointer read does
not designate a node). -/
def find_parent (limit : Nat) (tree : TNode α) (connected : List (List Nat))
    (start_chk : Nat) : Nat → Nat → Option (Option (List Nat))
  | 0, _ => some none
  | m + 1, k =>
      match connected[(start_chk + k) % connected.length]? with
      | none => none
      | some p =>
          match get_node tree p with
          | none => none
          | some pn =>
              if pn.children.length < limit then some (some p)
              else find_parent limit tree connected start_chk m (k + 1)

/-- The loop `for (i = 1; i < size; i++)` of `generate_tree` over the data of the
nodes `nodes[i ..]`: `tree` is the tree under `root`, `connected` the pointers into
it, and `rnd i` the value `rand()` returns in iteration `i`. A node that finds no
parent is freed. -/
def connect_loop (limit : Nat) (rnd : Nat → Nat) :
    List α → Nat → TNode α → List (List Nat) → Option (TNode α)
  | [], _, tree, _ => some tree
  | v :: vals, i, tree, connected =>
      match find_parent limit tree connected (rnd i % connected.length) connected.length 0
      with
      | none => none
      | some none => connect_loop limit rnd vals (i + 1) tree connected
      | some (some p) =>
          match get_node tree p with
          | none => none
          | some pn =>
              if pn.children.length < MAX_CHILDREN then
                connect_loop limit rnd vals (i + 1) (attach tree p (.node v []))
                  (connected ++ [p ++ [pn.children.length]])
              else none

/-- The loop of `assign_indices_bfs`: `pending` is `q[f .. b-1]`, `b` the number of
cells of `q` written and `idx` the next index to hand out. The result is the value
left in `total_nodes_count`; it is `none` when a child is written past the end of
`q` (500 cells) or the fuel runs out. The field `index` that the loop writes into
the nodes is read by the drawing code only and is not part of the nodes here. -/
def assign_indices_loop : Nat → List (TNode α) → Nat → Nat → Option Nat
  | 0, _, _, _ => none
  | _ + 1, [], _, idx => some idx
  | fuel + 1, curr :: rest, b, idx =>
      if b + curr.children.length ≤ 500 then
        assign_indices_loop fuel (rest ++ curr.children) (b + curr.children.length) (idx + 1)
      else none

/-- The function `assign_indices_bfs(start_node)` for a non-null `start_node`. -/
def assign_indices_bfs (start_node : TNode α) : Option Nat :=
  assign_indices_loop 501 [start_node] 1 0

/-- The function `generate_tree`: `t_idx` is the index selected in the combo box of
the tree type, `vals` the data of the nodes `nodes[0 .. size-1]` (the tokens typed
in manual mode, else `size` random values) and `rnd` the values `rand()` returns in
the connection loop. After the connection loop the nodes are numbered by
`assign_indices_bfs`; the result is `none` when a buffer is overrun. -/
def generate_tree {dt : DataType} (t_idx : Int) (vals : List (Val dt)) (rnd : Nat → Nat) :
    Option (TreeState dt) :=
  let ttype := if t_idx = 0 then TreeType.TREE_BINARY else TreeType.TREE_NARY
  let limit := if ttype = TreeType.TREE_BINARY then 2 else 4
  match vals with
  | [] => some { root := none, current_ttype := ttype, max_children_limit := limit }
  | v :: rest =>
      match connect_loop limit rnd rest 1 (.node v []) [[]] with
      | none => none
      | some t =>
          match assign_indices_bfs t with
          | none => none
          | some _ => some { root := some t, current_ttype := ttype, max_children_limit := limit }

/-- The first loop of `on_transform_binary`: `pending` is `queue[f .. b-1]` and
`vals` is `vals[0 .. count-1]`; `none` when a child is written past the end of
`queue` or the fuel runs out. -/
def bfs_values_loop : Nat → List (TNode α) → Nat → List α → Option (List α)
  | 0, _, _, _ => none
  | _ + 1, [], _, vals => some vals
  | fuel + 1, n :: rest, b, vals =>
      if b + n.children.length ≤ 500 then
        bfs_values_loop fuel (rest ++ n.children) (b + n.children.length) (vals ++ [n.data])
      else none

/-- The second loop of `on_transform_binary`, `while (v_idx < count)`: `tree` is the
tree under `new_root`, `conn` the pointers `conn[0 .. c_count-1]` into it, and the
list holds `vals[v_idx .. count-1]`. -/
def rebuild_loop : Nat → TNode α → List (List Nat) → Nat → List α → Option (TNode α)
  | 0, _, _, _, _ => none
  | _ + 1, tree, _, _, [] => some tree
  | fuel + 1, tree, conn, p_idx, v :: vals =>
      match conn[p_idx]? with
      | none => none
      | some p =>
          match get_node tree p with
          | none => none
          | some pn =>
              if pn.children.length < 2 then
                if conn.length < 500 then
                  rebuild_loop fuel (attach tree p (.node v []))
                    (conn ++ [p ++ [pn.children.length]]) p_idx vals
                else none
              else rebuild_loop fuel tree conn (p_idx + 1) (v :: vals)

/-- The handler `on_transform_binary`. -/
def on_transform_binary {dt : DataType} (st : TreeState dt) : Option (TreeState dt) :=
  match st.root with
  | none => some st
  | some r =>
      if st.current_ttype = TreeType.TREE_BINARY then some st
      else
        match bfs_values_loop 501 [r] 1 [] with
        | none => none
        | some [] => none
        | some (v0 :: vals) =>
            (rebuild_loop 1001 (.node v0 []) [[]] 0 vals).map
              (fun t => { root := some t, current_ttype := TreeType.TREE_BINARY,
                          max_children_limit := 2 })

/-- The invariant of the second loop of `on_transform_binary`: the pointers of `conn`
are distinct and designate nodes of the tree; the nodes before `conn[p_idx]` have
two children, those after it none, `conn[p_idx]` at most two, which accounts for
the length of `conn`; and no node has more than two children. -/
structure RebuildInv (tree : TNode α) (conn : List (List Nat)) (p_idx : Nat) : Prop where
  valid : ∀ q ∈ conn, ∃ n, get_node tree q = some n
  nodup : conn.Nodup
  counts : ∀ k q n, conn[k]? = some q → get_node tree q = some n →
    (k < p_idx → n.children.length = 2) ∧ (p_idx < k → n.children.length = 0) ∧
    (k = p_idx → n.children.length ≤ 2 ∧ conn.length = 1 + 2 * p_idx + n.children.length)
  cur : p_idx < conn.length
  arity : ArityOk 2 tree

/-- The pointers to the `i` nodes of a chain, from the root down. -/
def chain_ptrs (i : Nat) : List (List Nat) := (List.range i).map (fun k => List.replicate k 0)

/-- A tree of five nodes: the root 1 with the children 2 (itself with the children 4
and 5) and 3. -/
def sample_tree : TNode Int := .node 1 [.node 2 [.node 4 [], .node 5 []], .node 3 []]

end TreeC

/-! ## Sequences of operations on a list -/

namespace ListC

variable {α : Type}

/-- An operation of `list.c` that changes the links of the list. -/
inductive ListOp (α : Type) where
  | append (v : α)
  | prepend (v : α)
  | insert_at (idx : Int) (v : α)
  | insert_sorted (v : α)
  | delete (idx : Nat)
  | insertion_sort

/-- The call of one operation; `cmp` is `compare_vals`. -/
def run_op (cmp : α → α → Int) : ListOp α → ListState α → Option (ListState α)
  | .append v, st => append_node v st
  | .prepend v, st => prepend_node v st
  | .insert_at idx v, st => insert_at idx v st
  | .insert_sorted v, st => insert_sorted cmp v st
  | .delete idx, st => delete_node (idx : Int) st
  | .insertion_sort, st => insertion_sort cmp st

/-- The calls of a sequence of operations, one after the other. -/
def run_ops (cmp : α → α → Int) : List (ListOp α) → ListState α → Option (ListState α)
  | [], st => some st
  | op :: ops, st => (run_op cmp op st).bind (run_ops cmp ops)

/-- The node `a` is reachable from `head` along `next`. -/
def Reach (st : ListState α) (a : Nat) : Prop :=
  ∃ k, walk st.heap k st.head = some (some a)

/-- The consistency of the links of a doubly linked list: `head` has no `prev` link,
and every node `n` reachable from `head` that has a successor satisfies
`n->next->prev == n`. -/
def LinksOk (st : ListState α) : Prop :=
  (∀ a, st.head = some a → ∃ nd, st.heap a = some nd ∧ nd.prev = none) ∧
  (∀ a nd m, Reach st a → st.heap a = some nd → nd.next = some m →
    ∃ nd', st.heap m = some nd' ∧ nd'.prev = some a)

/-- No node is allocated at or above `brk`: the next `calloc` returns a cell that is
not in use. -/
def Fresh (st : ListState α) : Prop := ∀ a, st.brk ≤ a → st.heap a = none

/-- One more step `curr = curr->next` of a walk that has arrived at `q`. -/
def step_next (h : Heap α) : Option Nat → Option (Option Nat)
  | none => some none
  | some a => rd_next h a

/-- The address of the node at position `i` from `head` (0 when there is none). -/
def nth_node (st : ListState α) (i : Nat) : Nat :=
  match walk st.heap i st.head with
  | some (some a) => a
  | _ => 0

end ListC

/-! ## Tree: deletion handler and traversal playback of tree.c -/

namespace TreeC

variable {α : Type}

/-- The line the handler `on_delete_node` writes to the log. -/
inductive DeleteMsg where
  /-- "Impossible de supprimer la racine directement ici." -/
  | root_refused
  /-- "Noeud %s supprime." -/
  | deleted
  /-- "Noeud %s non trouve." -/
  | not_found
  deriving DecidableEq, Repr

/-- The handler `on_delete_node`; `txt` is the text of the value field. The result
is the state after the call and the line logged (none when there is no tree). -/
def on_delete_node {dt : DataType} (val_to_str_tree : Val dt → List (Fin 256))
    (txt : List (Fin 256)) (st : TreeState dt) : TreeState dt × Option DeleteMsg :=
  match st.root with
  | none => (st, none)
  | some r =>
      if strcmp (val_to_str_tree r.data) txt = 0 then (st, some .root_refused)
      else
        let res := delete_node_rec val_to_str_tree txt r
        if res.2 ≠ 0 then ({ st with root := some res.1 }, some .deleted)
        else ({ st with root := some res.1 }, some .not_found)

/-- The number of children of the node a pointer designates (0 when it designates
none). -/
def child_count (t : TNode α) (p : List Nat) : Nat :=
  match get_node t p with
  | some n => n.children.length
  | none => 0

/-- The pointers to the children of the node at `p`. -/
def ptr_kids (t : TNode α) (p : List Nat) : List (List Nat) := child_ptrs p (child_count t p)

/-- What the second loop of `on_transform_binary` keeps about the order of `conn`:
it starts with the root, the children of its nodes, taken in its order, are the
rest of it, the data of its nodes are the values consumed so far, and it holds
every node of the tree. -/
structure RebuildBfs (tree : TNode α) (conn : List (List Nat)) (done : List α) : Prop where
  head : conn.head? = some []
  closed : conn.flatMap (ptr_kids tree) = conn.tail
  data : conn.map (fun p => (get_node tree p).map TNode.data) = done.map some
  sz : size tree = conn.length

/-- The global `trav_anim` (its `count` is the length of `path`), the field
`anim_state` of every node (0 unvisited, 1 visited, 2 active), and the nodes whose
values the ticks have appended to the trace. Nodes are named by pointers of type
`P`. -/
structure TravState (P : Type) where
  path : List P
  current_idx : Nat
  timer_id : Nat
  anim_state : P → Int
  log : List P

/-- The store `p->anim_state = v`. -/
def set_anim {P : Type} [DecidableEq P] (f : P → Int) (p : P) (v : Int) : P → Int :=
  fun q => if q = p then v else f q

/-- The timer callback `traversal_tick`: the state after the call and whether the
timer goes on (`G_SOURCE_CONTINUE`); `none` when a cell outside `path[0 .. count-1]`
is read. -/
def traversal_tick {P : Type} [DecidableEq P] (s : TravState P) :
    Option (TravState P × Bool) :=
  if s.current_idx ≥ s.path.length then
    if s.path.length > 0 then
      match s.path[s.path.length - 1]? with
      | none => none
      | some last =>
          some ({ s with timer_id := 0, anim_state := set_anim s.anim_state last 1 }, false)
    else some ({ s with timer_id := 0 }, false)
  else
    let st1 : Option (P → Int) :=
      if s.current_idx > 0 then
        (s.path[s.current_idx - 1]?).map (fun pv => set_anim s.anim_state pv 1)
      else some s.anim_state
    match st1, s.path[s.current_idx]? with
    | some a, some curr =>
        some ({ s with anim_state := set_anim a curr 2, log := s.log ++ [curr],
                       current_idx := s.current_idx + 1 }, true)
    | _, _ => none

/-- The first `k` calls of `traversal_tick` by the main loop, which stops calling
it once the timer is removed; the flag tells whether the timer is still on. -/
def run_ticks {P : Type} [DecidableEq P] : Nat → TravState P → Option (TravState P × Bool)
  | 0, s => some (s, true)
  | k + 1, s =>
      match traversal_tick s with
      | none => none
      | some (s2, true) => run_ticks k s2
      | some (s2, false) => some (s2, false)

end TreeC

/-! ## All-pairs distances of graph.c -/

namespace GraphC

/-- The store `mat[i][j] = x`. -/
def mset (mat : Nat → Nat → Int) (i j : Nat) (x : Int) : Nat → Nat → Int :=
  fun a b => if a = i ∧ b = j then x else mat a b

/-- The first loops of `run_floyd`: `mat[i][j] = (i == j) ? 0 : INF` for the cells
below `node_count`. -/
def floyd_init (node_count : Nat) (mat : Nat → Nat → Int) : Nat → Nat → Int :=
  (List.range node_count).foldl
    (fun m i => (List.range node_count).foldl
      (fun m j => mset m i j (if i = j then 0 else INF)) m) mat

/-- The loop of `run_floyd` over the stored edges. -/
def floyd_edges (edges : List Edge) (mat : Nat → Nat → Int) : Nat → Nat → Int :=
  edges.foldl (fun m e => mset m e.u e.v e.weight) mat

/-- The body of the innermost loop of `run_floyd`. -/
def floyd_relax (k i j : Nat) (mat : Nat → Nat → Int) : Nat → Nat → Int :=
  if wrap32 (mat i k + mat k j) < mat i j then mset mat i j (wrap32 (mat i k + mat k j))
  else mat

/-- The two inner loops of `run_floyd` for one `k`. -/
def floyd_round (node_count : Nat) (mat : Nat → Nat → Int) (k : Nat) : Nat → Nat → Int :=
  (List.range node_count).foldl
    (fun m i => (List.range node_count).foldl (fun m j => floyd_relax k i j m) m) mat

/-- The three nested loops of `run_floyd`. -/
def floyd_loops (node_count : Nat) (mat : Nat → Nat → Int) : Nat → Nat → Int :=
  (List.range node_count).foldl (floyd_round node_count) mat

/-- The function `run_floyd()`: the local array `mat` when the matrix is printed;
`mat0` is what the array holds on entry. The result is `none` when a cell outside
`mat[MAX_NODES][MAX_NODES]` is accessed. -/
def run_floyd (node_count : Nat) (edges : List Edge) (mat0 : Nat → Nat → Int) :
    Option (Nat → Nat → Int) :=
  if node_count ≤ MAX_NODES ∧ ∀ e ∈ edges, e.u < MAX_NODES ∧ e.v < MAX_NODES then
    some (floyd_loops node_count (floyd_edges edges (floyd_init node_count mat0)))
  else none

/-- The nodes a sequence of edges passes through between its two ends. -/
def inner_nodes (p : List Edge) : List Nat := (p.map (·.v)).dropLast

/-- What the rounds `0 .. K-1` of `run_floyd` establish for the cells below `n`: a
cell is between 0 and the sentinel, a cell below the sentinel is the weight of a
walk, and a cell is at most the weight of every walk that passes only through
nodes below `K`. -/
structure FloydInv (n : Nat) (edges : List Edge) (K : Nat) (m : Nat → Nat → Int) : Prop where
  nonneg : ∀ a b, a < n → b < n → 0 ≤ m a b
  le_inf : ∀ a b, a < n → b < n → m a b ≤ INF
  real : ∀ a b, a < n → b < n → m a b < INF → ∃ p, IsWalk edges a b p ∧ weight p = m a b
  upper : ∀ a b p, a < n → b < n → IsWalk edges a b p → (∀ x ∈ inner_nodes p, x < K) →
    m a b ≤ weight p

/-- The invariant of the two inner loops of `run_floyd` in round `k`, started on the
matrix `m`, before the cell `(i, j)`: the cells of row `k` and column `k` are as in
`m`, no cell has grown, and a cell already passed is at most the sum through `k`. -/
structure RoundInv (n : Nat) (edges : List Edge) (k : Nat) (m : Nat → Nat → Int) (i j : Nat)
    (c : Nat → Nat → Int) : Prop where
  nonneg : ∀ a b, a < n → b < n → 0 ≤ c a b
  real : ∀ a b, a < n → b < n → c a b < INF → ∃ p, IsWalk edges a b p ∧ weight p = c a b
  mono : ∀ a b, a < n → b < n → c a b ≤ m a b
  col : ∀ a, a < n → c a k = m a k
  row : ∀ b, b < n → c k b = m k b
  passed : ∀ a b, a < n → b < n → (a < i ∨ (a = i ∧ b < j)) → c a b ≤ m a k + m k b

/-- The loop of `draw_graph_func` that looks for the edge `u -> v` in the stored
path, with `m` iterations left from `k`: the value of `is_path` after the loop. -/
def is_path_loop (path_nodes : List Nat) (u v : Nat) : Nat → Nat → Int
  | 0, _ => 0
  | m + 1, k =>
      if path_nodes.getD (k + 1) 0 = u ∧ path_nodes.getD k 0 = v then 1
      else is_path_loop path_nodes u v m (k + 1)

/-- The flag `is_path` that `draw_graph_func` computes for the stored edge `u -> v`
from `path_nodes[0 .. path_len-1]`. -/
def is_path (path_nodes : List Nat) (u v : Nat) : Int :=
  is_path_loop path_nodes u v (path_nodes.length - 1) 0

/-- The `tolower` of the C library on a byte (C locale). -/
def tolower (c : Fin 256) : Fin 256 := if 65 ≤ c.val ∧ c.val ≤ 90 then c + 32 else c

/-- The `strcasecmp` of the C library: `strcmp` on the strings in lower case. -/
def strcasecmp (a b : List (Fin 256)) : Int := strcmp (a.map tolower) (b.map tolower)

/-- The decimal digits of `n` in front of `acc`; the fuel bounds their number. -/
def digits_loop : Nat → Nat → List (Fin 256) → List (Fin 256)
  | 0, _, acc => acc
  | fuel + 1, n, acc =>
      if n < 10 then Fin.ofNat (48 + n) :: acc
      else digits_loop fuel (n / 10) (Fin.ofNat (48 + n % 10) :: acc)

/-- What `sprintf` writes for `"%d"` and a value that is not negative. -/
def fmt_d (n : Nat) : List (Fin 256) := digits_loop (n + 1) n []

/-- The label `generate_graph` writes for the node `i` under the data kind
`type_idx` when `rand()` returns `r`: `"%d"` of `r % 100`, `"%.1f"` of
`(r % 1000) / 10.0` (the tenths are exact), `"%c"` of `'A' + i`, or `"S%d"` of
`i`. -/
def gen_label (type_idx : Nat) (i r : Nat) : List (Fin 256) :=
  if type_idx = 0 then fmt_d (r % 100)
  else if type_idx = 1 then fmt_d (r % 1000 / 10) ++ [46] ++ fmt_d (r % 1000 % 10)
  else if type_idx = 2 then [Fin.ofNat (65 + i)]
  else 83 :: fmt_d i

/-- The labels `nodes[0 .. n-1].label` that the loop of `generate_graph` writes;
`rnd i` is what `rand()` returns in the iteration `i`. -/
def gen_labels (type_idx : Nat) (rnd : Nat → Nat) (n : Nat) : List (List (Fin 256)) :=
  (List.range n).map (fun i => gen_label type_idx i (rnd i))

/-- The function `generate_graph()`, as far as the labels go (the positions on the
circle are left out): `cnt` is the value `atoi` returns on the text of the count
field and `type_idx` the selected data kind. The result holds `nodes[i].label` for
`i < node_count`. -/
def generate_graph (cnt : Int) (type_idx : Nat) (rnd : Nat → Nat) : List (List (Fin 256)) :=
  let n := cnt
  let n := if n ≤ 0 then 5 else n
  let n := if n > (MAX_NODES : Int) then (MAX_NODES : Int) else n
  gen_labels type_idx rnd n.toNat

/-- The loop of `get_node_idx_by_label` from the node `i` on. -/
def label_loop (lbl : List (Fin 256)) : List (List (Fin 256)) → Nat → Int
  | [], _ => -1
  | l :: rest, i => if strcasecmp l lbl = 0 then (i : Int) else label_loop lbl rest (i + 1)

/-- The function `get_node_idx_by_label(lbl)` on the labels of
`nodes[0 .. node_count-1]`; `none` is the `NULL` pointer. -/
def get_node_idx_by_label (nodes : List (List (Fin 256))) (lbl : Option (List (Fin 256))) :
    Int :=
  match lbl with
  | none => -1
  | some l => label_loop l nodes 0

end GraphC

/-! ## Generation of a random list in list.c -/

namespace ListC

variable {α : Type}

/-- The global `gen_state` of the generation animation. -/
structure GenState where
  target_count : Int
  current_count : Int
  timer_id : Nat
  deriving DecidableEq, Repr

/-- The handler `on_size_dialog_ok`: `size_txt` is `none` when the text of the entry
is empty and else holds the value `atoi` returns on it; `id` is the timer id that
`g_timeout_add` returns. -/
def on_size_dialog_ok (size_txt : Option Int) (id : Nat) (_g : GenState) : GenState :=
  let n : Int :=
    match size_txt with
    | none => 5
    | some a =>
        let n := a
        let n := if n ≤ 0 then 5 else n
        if n > 50 then 50 else n
  { target_count := n, current_count := 0, timer_id := id }

/-- The datum `generation_tick` appends under the global `current_dtype` when
`rand()` returns `r`. -/
def gen_value : (current_dtype : DataType) → Nat → Val current_dtype
  | .TYPE_INT, r => ((r % 100 : Nat) : Int)
  | .TYPE_DOUBLE, r => ((r % 1000 : Nat) : Rat) / 10
  | .TYPE_STRING, _ => [82, 78, 68]
  | .TYPE_CHAR, r => 65 + ((r % 26 : Nat) : Int)

/-- The timer callback `generation_tick`; `r` is what `rand()` returns in this
call. The result holds the two states after the call and whether the timer goes on
(`G_SOURCE_CONTINUE`). -/
def generation_tick (current_dtype : DataType) (r : Nat)
    (s : GenState × ListState (Val current_dtype)) :
    Option ((GenState × ListState (Val current_dtype)) × Bool) :=
  if s.1.current_count ≥ s.1.target_count then
    some (({ s.1 with timer_id := 0 }, s.2), false)
  else
    match append_node (gen_value current_dtype r) s.2 with
    | none => none
    | some st => some (({ s.1 with current_count := s.1.current_count + 1 }, st), true)

/-- The calls of `generation_tick` by the main loop until it removes the timer;
`rnd i` is what `rand()` returns in the call number `i`. -/
def run_generation (current_dtype : DataType) (rnd : Nat → Nat) :
    Nat → Nat → GenState × ListState (Val current_dtype) →
      Option (GenState × ListState (Val current_dtype))
  | 0, _, _ => none
  | fuel + 1, i, s =>
      match generation_tick current_dtype (rnd i) s with
      | none => none
      | some (s2, true) => run_generation current_dtype rnd fuel (i + 1) s2
      | some (s2, false) => some s2

/-- The nodes reachable from `q` along `next`, each as its address and its datum. -/
def nodes_from (h : Heap α) : Nat → Option Nat → Option (List (Nat × α))
  | _, none => some []
  | 0, some _ => none
  | fuel + 1, some a =>
      match h a with
      | none => none
      | some nd => (nodes_from h fuel nd.next).map (fun l => (a, nd.data) :: l)

/-- The list of `list.c` as the sequence of its nodes. -/
def to_nodes (st : ListState α) : Option (List (Nat × α)) := nodes_from st.heap st.brk st.head

/-- The handler `on_delete_btn`, as far as the list goes; `idx` is the value `atoi`
returns on the text of the position field. -/
def on_delete_btn (idx : Int) (st : ListState α) : Option (ListState α) :=
  match get_list_size st with
  | none => none
  | some n => if n > 0 then delete_node idx st else some st

end ListC

/-! ## The benchmark of table.c -/

namespace TableC

/-- The global `perf_samples`: the number of sizes the benchmark runs at. -/
def perf_samples : Int := 4

/-- The function `run_benchmark_graph(max_n)`: the sizes `n` of the arrays on which
the four algorithms are run and timed, one per iteration of the loop over `s`, in
order (the timings themselves are left out). -/
def run_benchmark_graph (max_n : Int) : List Int :=
  let step := max_n.tdiv perf_samples
  let step := if step < 1 then 1 else step
  (List.range perf_samples.toNat).map (fun s => ((s : Int) + 1) * step)

end TableC

/-! ## Common lemmas -/

section Common
variable {α : Type}

theorem aset_same (arr : Nat → α) (i : Nat) (x : α) : aset arr i x i = x := by
  simp [aset]

theorem aset_other (arr : Nat → α) (i k : Nat) (x : α) (h : k ≠ i) :
    aset arr i x k = arr k := by
  simp [aset, h]

theorem aset_self (arr : Nat → α) (i : Nat) : aset arr i (arr i) = arr := by
  funext k
  by_cases h : k = i <;> simp [aset, h]

theorem wrap32_id (x : Int) (h1 : -2147483648 ≤ x) (h2 : x < 2147483648) : wrap32 x = x := by
  unfold wrap32
  omega

theorem wrap32_range (x : Int) : -2147483648 ≤ wrap32 x ∧ wrap32 x < 2147483648 := by
  unfold wrap32
  omega

theorem wrap32_wrap32_add (a b : Int) : wrap32 (wrap32 a + b) = wrap32 (a + b) := by
  unfold wrap32
  omega

theorem wrap32_idem (a : Int) : wrap32 (wrap32 a) = wrap32 a := by
  unfold wrap32
  omega

theorem nodup_length_le (n : Nat) (l : List Nat) (hnd : l.Nodup) (hlt : ∀ x ∈ l, x < n) :
    l.length ≤ n := by
  have hsub : l ⊆ List.range n := fun x hx => List.mem_range.2 (hlt x hx)
  have := (List.subperm_of_subset hnd hsub).length_le
  simpa using this

end Common

/-! ## Rearrangements of array cells -/

section ArrayPerm
variable {α : Type}

theorem permOn_refl (lo hi : Nat) (a : Nat → α) : PermOn lo hi a a :=
  ⟨Equiv.refl _, fun _ _ => rfl, fun _ => rfl⟩

theorem permOn_trans {lo hi : Nat} {a b c : Nat → α}
    (h1 : PermOn lo hi a b) (h2 : PermOn lo hi b c) : PermOn lo hi a c := by
  obtain ⟨σ, hσ, h1⟩ := h1
  obtain ⟨τ, hτ, h2⟩ := h2
  refine ⟨τ.trans σ, ?_, ?_⟩
  · intro k hk
    simp [hτ k hk, hσ k hk]
  · intro k
    simp [h2 k, h1 (τ k)]

theorem permOn_mono {lo hi lo' hi' : Nat} {a b : Nat → α}
    (hlo : lo' ≤ lo) (hhi : hi ≤ hi') (h : PermOn lo hi a b) : PermOn lo' hi' a b := by
  obtain ⟨σ, hσ, h1⟩ := h
  exact ⟨σ, fun k hk => hσ k (by omega), h1⟩

theorem permOn_stays {lo hi : Nat} (σ : Equiv.Perm Nat)
    (hσ : ∀ k, k < lo ∨ hi ≤ k → σ k = k) (k : Nat) (h1 : lo ≤ k) (h2 : k < hi) :
    lo ≤ σ k ∧ σ k < hi := by
  by_contra hcon
  have hout : σ k < lo ∨ hi ≤ σ k := by omega
  have h3 : σ (σ k) = σ k := hσ _ hout
  have h4 : σ k = k := σ.injective h3
  omega

theorem permOn_outside {lo hi : Nat} {a b : Nat → α} (h : PermOn lo hi a b) (k : Nat)
    (hk : k < lo ∨ hi ≤ k) : b k = a k := by
  obtain ⟨σ, hσ, h1⟩ := h
  rw [h1 k, hσ k hk]

theorem permOn_inside {lo hi : Nat} {a b : Nat → α} (h : PermOn lo hi a b) (k : Nat)
    (h1 : lo ≤ k) (h2 : k < hi) : ∃ k', lo ≤ k' ∧ k' < hi ∧ b k = a k' := by
  obtain ⟨σ, hσ, hb⟩ := h
  exact ⟨σ k, (permOn_stays σ hσ k h1 h2).1, (permOn_stays σ hσ k h1 h2).2, hb k⟩

theorem permOn_all {lo hi : Nat} {a b : Nat → α} (h : PermOn lo hi a b) (S : α → Prop)
    (n : Nat) (hn : hi ≤ n) (ha : ∀ k, k < n → S (a k)) : ∀ k, k < n → S (b k) := by
  intro k hk
  by_cases hin : lo ≤ k ∧ k < hi
  · obtain ⟨k', _, h2, h3⟩ := permOn_inside h k hin.1 hin.2
    rw [h3]
    exact ha k' (by omega)
  · rw [permOn_outside h k (by omega)]
    exact ha k hk

theorem permOn_swap {lo hi : Nat} (a : Nat → α) (i j : Nat)
    (hi1 : lo ≤ i) (hi2 : i < hi) (hj1 : lo ≤ j) (hj2 : j < hi) :
    PermOn lo hi a (TableC.swap_ptr a i j) := by
  refine ⟨Equiv.swap i j, ?_, ?_⟩
  · intro k hk
    exact Equiv.swap_apply_of_ne_of_ne (by omega) (by omega)
  · intro k
    simp only [TableC.swap_ptr, aset, Equiv.swap_apply_def]
    by_cases h1 : k = j
    · subst h1
      by_cases h2 : k = i <;> simp [h2]
    · by_cases h2 : k = i
      · subst h2
        simp [h1]
      · simp [h1, h2]

theorem permOn_toList {n : Nat} {a b : Nat → α} (h : PermOn 0 n a b) :
    (atoList b n).Perm (atoList a n) := by
  obtain ⟨σ, hσ, hb⟩ := h
  have hmap : atoList b n = ((List.range n).map σ).map a := by
    simp [atoList, List.map_map, Function.comp_def, hb]
  rw [hmap]
  apply List.Perm.map
  rw [List.perm_ext_iff_of_nodup ((List.nodup_range n).map σ.injective) (List.nodup_range n)]
  intro x
  simp only [List.mem_map, List.mem_range]
  constructor
  · rintro ⟨k, hk, rfl⟩
    exact (permOn_stays σ hσ k (Nat.zero_le _) hk).2
  · intro hx
    refine ⟨σ.symm x, ?_, by simp⟩
    have hτ : ∀ k, k < 0 ∨ n ≤ k → σ.symm k = k := by
      intro k hk
      have := hσ k hk
      conv_lhs => rw [← this]
      simp
    exact (permOn_stays σ.symm hτ x (Nat.zero_le _) hx).2

end ArrayPerm

/-! ## Array sorts of table.c -/

section ArraySorts
variable {α : Type}

theorem CmpOrd.refl {cmp : α → α → Int} {S : α → Prop} (h : CmpOrd cmp S) (a : α)
    (ha : S a) : cmp a a ≤ 0 := by
  by_contra hc
  have h1 : 0 < cmp a a := by omega
  have h2 := (h.anti a a ha ha).1 h1
  omega

theorem CmpOrd.of_gt {cmp : α → α → Int} {S : α → Prop} (h : CmpOrd cmp S) (a b : α)
    (ha : S a) (hb : S b) (hgt : 0 < cmp a b) : cmp b a ≤ 0 := by
  have := (h.anti a b ha hb).1 hgt
  omega

theorem CmpOrd.of_not_lt {cmp : α → α → Int} {S : α → Prop} (h : CmpOrd cmp S) (a b : α)
    (ha : S a) (hb : S b) (hge : ¬ cmp a b < 0) : cmp b a ≤ 0 := by
  by_contra hc
  have h1 : 0 < cmp b a := by omega
  have h2 := (h.anti b a hb ha).1 h1
  exact hge h2

theorem swap_ptr_left (arr : Nat → α) (i j : Nat) :
    TableC.swap_ptr arr i j i = arr j := by
  by_cases h : i = j <;> simp [TableC.swap_ptr, aset, h]

theorem swap_ptr_right (arr : Nat → α) (i j : Nat) :
    TableC.swap_ptr arr i j j = arr i := by
  simp [TableC.swap_ptr, aset]

theorem swap_ptr_other (arr : Nat → α) (i j k : Nat) (h1 : k ≠ i) (h2 : k ≠ j) :
    TableC.swap_ptr arr i j k = arr k := by
  simp [TableC.swap_ptr, aset, h1, h2]

/-- One pass of the inner loop of the bubble sort over the cells `0..m`. -/
theorem bubble_pass_spec {cmp : α → α → Int} {S : α → Prop} (hc : CmpOrd cmp S) (n : Nat) :
    ∀ (m : Nat) (arr : Nat → α), m < n → (∀ k, k < n → S (arr k)) →
      PermOn 0 (m + 1) arr ((List.range m).foldl (TableC.bubble_step cmp) arr) ∧
      ∀ k, k ≤ m → cmp (((List.range m).foldl (TableC.bubble_step cmp) arr) k)
        (((List.range m).foldl (TableC.bubble_step cmp) arr) m) ≤ 0 := by
  intro m
  induction m with
  | zero =>
    intro arr hm hS
    refine ⟨permOn_refl _ _ _, ?_⟩
    intro k hk
    have : k = 0 := by omega
    subst this
    exact hc.refl _ (hS 0 hm)
  | succ m ih =>
    intro arr hm hS
    obtain ⟨hp, hmax⟩ := ih arr (by omega) hS
    rw [List.range_succ, List.foldl_append]
    simp only [List.foldl_cons, List.foldl_nil]
    generalize (List.range m).foldl (TableC.bubble_step cmp) arr = mid at hp hmax
    have hSm : ∀ k, k < n → S (mid k) := permOn_all hp S n (by omega) hS
    unfold TableC.bubble_step
    by_cases hgt : cmp (mid m) (mid (m + 1)) > 0
    · rw [if_pos hgt]
      refine ⟨permOn_trans (permOn_mono (le_refl _) (by omega) hp)
        (permOn_swap mid m (m + 1) (by omega) (by omega) (by omega) (by omega)), ?_⟩
      intro k hk
      rw [swap_ptr_right]
      by_cases hk1 : k = m + 1
      · subst hk1
        rw [swap_ptr_right]
        exact hc.refl _ (hSm m (by omega))
      · by_cases hk2 : k = m
        · subst hk2
          rw [swap_ptr_left]
          exact hc.of_gt _ _ (hSm k (by omega)) (hSm (k + 1) (by omega)) hgt
        · rw [swap_ptr_other _ _ _ _ hk2 hk1]
          exact hmax k (by omega)
    · rw [if_neg hgt]
      refine ⟨permOn_mono (le_refl _) (by omega) hp, ?_⟩
      intro k hk
      by_cases hk1 : k = m + 1
      · subst hk1
        exact hc.refl _ (hSm _ (by omega))
      · exact hc.trans _ _ _ (hSm k (by omega)) (hSm m (by omega)) (hSm (m + 1) (by omega))
          (hmax k (by omega)) (by omega)

/-- The outer loop of the bubble sort after `t` passes. -/
theorem bubble_outer_spec {cmp : α → α → Int} {S : α → Prop} (hc : CmpOrd cmp S) (n : Nat)
    (arr : Nat → α) (hS : ∀ k, k < n → S (arr k)) :
    ∀ t, t ≤ n - 1 →
      PermOn 0 n arr ((List.range t).foldl
        (fun arr i => (List.range (n - i - 1)).foldl (TableC.bubble_step cmp) arr) arr) ∧
      ∀ p q, p < q → n - t ≤ q → q < n →
        cmp (((List.range t).foldl
          (fun arr i => (List.range (n - i - 1)).foldl (TableC.bubble_step cmp) arr) arr) p)
          (((List.range t).foldl
          (fun arr i => (List.range (n - i - 1)).foldl (TableC.bubble_step cmp) arr) arr) q) ≤ 0 := by
  intro t
  induction t with
  | zero =>
    intro _
    refine ⟨permOn_refl _ _ _, ?_⟩
    intro p q _ h2 h3
    omega
  | succ t ih =>
    intro ht
    obtain ⟨hp, hsorted⟩ := ih (by omega)
    rw [List.range_succ, List.foldl_append]
    simp only [List.foldl_cons, List.foldl_nil]
    generalize (List.range t).foldl
        (fun arr i => (List.range (n - i - 1)).foldl (TableC.bubble_step cmp) arr) arr = cur
      at hp hsorted
    have hScur : ∀ k, k < n → S (cur k) := permOn_all hp S n (le_refl _) hS
    obtain ⟨hp2, hmax⟩ := bubble_pass_spec hc n (n - t - 1) cur (by omega) hScur
    generalize (List.range (n - t - 1)).foldl (TableC.bubble_step cmp) cur = new at hp2 hmax
    refine ⟨permOn_trans hp (permOn_mono (le_refl _) (by omega) hp2), ?_⟩
    intro p q hpq hq1 hq2
    by_cases hq : q = n - t - 1
    · subst hq
      exact hmax p (by omega)
    · have hqo : new q = cur q := permOn_outside hp2 q (by omega)
      rw [hqo]
      by_cases hpin : p < n - t - 1 + 1
      · obtain ⟨p', _, hp'2, hp'3⟩ := permOn_inside hp2 p (by omega) hpin
        rw [hp'3]
        exact hsorted p' q (by omega) (by omega) hq2
      · rw [permOn_outside hp2 p (by omega)]
        exact hsorted p q hpq (by omega) hq2

theorem bubble_sort_generic_spec {cmp : α → α → Int} {S : α → Prop} (hc : CmpOrd cmp S)
    (n : Nat) (arr : Nat → α) (hS : ∀ k, k < n → S (arr k)) :
    PermOn 0 n arr (TableC.bubble_sort_generic cmp arr n) ∧
    SortedOn cmp 0 n (TableC.bubble_sort_generic cmp arr n) := by
  obtain ⟨hp, hs⟩ := bubble_outer_spec hc n arr hS (n - 1) (le_refl _)
  refine ⟨hp, ?_⟩
  intro p q _ hpq hq
  exact hs p q hpq (by omega) hq

end ArraySorts

section ArraySorts2
variable {α : Type}

theorem aset_aset_swap (arr : Nat → α) (m g : Nat) (key : α) (hg : m ≠ g) :
    aset (aset arr g (arr m)) m key = TableC.swap_ptr (aset arr g key) m g := by
  funext k
  simp only [TableC.swap_ptr, aset]
  by_cases h1 : k = g
  · subst h1
    have : ¬ k = m := fun h => hg h.symm
    simp [this, hg]
  · by_cases h2 : k = m
    · subst h2
      simp [h1]
    · simp [h1, h2]

/-- The shifting loop of the insertion sort with the hole at cell `m`. -/
theorem insertion_while_spec {cmp : α → α → Int} {S : α → Prop} (hc : CmpOrd cmp S)
    (n : Nat) (key : α) (hkey : S key) (i : Nat) (hi : i < n) :
    ∀ (m : Nat) (arr : Nat → α), m ≤ i → (∀ k, k < n → S (arr k)) →
      (∀ p q, p < q → q ≤ i → p ≠ m → q ≠ m → cmp (arr p) (arr q) ≤ 0) →
      (∀ q, m < q → q ≤ i → 0 < cmp (arr q) key) →
      PermOn 0 (i + 1) (aset arr m key) (TableC.insertion_while cmp key m arr) ∧
      SortedOn cmp 0 (i + 1) (TableC.insertion_while cmp key m arr) := by
  intro m
  induction m with
  | zero =>
    intro arr _ hS hsort hgt
    simp only [TableC.insertion_while]
    refine ⟨permOn_refl _ _ _, ?_⟩
    intro p q _ hpq hq
    by_cases hp0 : p = 0
    · subst hp0
      rw [aset_same, aset_other _ _ _ _ (by omega)]
      exact hc.of_gt _ _ (hS q (by omega)) hkey (hgt q (by omega) (by omega))
    · rw [aset_other _ _ _ _ hp0, aset_other _ _ _ _ (by omega)]
      exact hsort p q hpq (by omega) hp0 (by omega)
  | succ m ih =>
    intro arr hm hS hsort hgt
    simp only [TableC.insertion_while]
    by_cases hcmp : cmp (arr m) key > 0
    · rw [if_pos hcmp]
      have hS' : ∀ k, k < n → S (aset arr (m + 1) (arr m) k) := by
        intro k hk
        by_cases h : k = m + 1
        · subst h
          rw [aset_same]
          exact hS m (by omega)
        · rw [aset_other _ _ _ _ h]
          exact hS k hk
      have hsort' : ∀ p q, p < q → q ≤ i → p ≠ m → q ≠ m →
          cmp (aset arr (m + 1) (arr m) p) (aset arr (m + 1) (arr m) q) ≤ 0 := by
        intro p q hpq hq hpm hqm
        by_cases hq1 : q = m + 1
        · subst hq1
          rw [aset_same, aset_other _ _ _ _ (by omega)]
          exact hsort p m (by omega) (by omega) (by omega) (by omega)
        · by_cases hp1 : p = m + 1
          · subst hp1
            rw [aset_same, aset_other _ _ _ _ hq1]
            exact hsort m q (by omega) hq (by omega) hq1
          · rw [aset_other _ _ _ _ hp1, aset_other _ _ _ _ hq1]
            exact hsort p q hpq hq hp1 hq1
      have hgt' : ∀ q, m < q → q ≤ i → 0 < cmp (aset arr (m + 1) (arr m) q) key := by
        intro q hq1 hq2
        by_cases hq : q = m + 1
        · subst hq
          rw [aset_same]
          exact hcmp
        · rw [aset_other _ _ _ _ hq]
          exact hgt q (by omega) hq2
      obtain ⟨hp, hs⟩ := ih (aset arr (m + 1) (arr m)) (by omega) hS' hsort' hgt'
      refine ⟨?_, hs⟩
      refine permOn_trans ?_ hp
      rw [aset_aset_swap arr m (m + 1) key (by omega)]
      exact permOn_swap _ _ _ (by omega) (by omega) (by omega) (by omega)
    · rw [if_neg hcmp]
      refine ⟨permOn_refl _ _ _, ?_⟩
      intro p q _ hpq hq
      by_cases hq1 : q = m + 1
      · subst hq1
        rw [aset_same, aset_other _ _ _ _ (by omega)]
        by_cases hpm : p = m
        · subst hpm
          omega
        · exact hc.trans _ _ _ (hS p (by omega)) (hS m (by omega)) hkey
            (hsort p m (by omega) (by omega) (by omega) (by omega)) (by omega)
      · by_cases hp1 : p = m + 1
        · subst hp1
          rw [aset_same, aset_other _ _ _ _ hq1]
          exact hc.of_gt _ _ (hS q (by omega)) hkey (hgt q (by omega) (by omega))
        · rw [aset_other _ _ _ _ hp1, aset_other _ _ _ _ hq1]
          exact hsort p q hpq (by omega) hp1 hq1

/-- The outer loop of the insertion sort after the elements `1..t` are inserted. -/
theorem insertion_outer_spec {cmp : α → α → Int} {S : α → Prop} (hc : CmpOrd cmp S)
    (n : Nat) (arr : Nat → α) (hS : ∀ k, k < n → S (arr k)) :
    ∀ t, t + 1 ≤ n →
      PermOn 0 n arr ((List.range' 1 t).foldl
        (fun arr i => TableC.insertion_while cmp (arr i) i arr) arr) ∧
      SortedOn cmp 0 (t + 1) ((List.range' 1 t).foldl
        (fun arr i => TableC.insertion_while cmp (arr i) i arr) arr) := by
  intro t
  induction t with
  | zero =>
    intro _
    refine ⟨permOn_refl _ _ _, ?_⟩
    unfold SortedOn
    intro p q h1 h2 h3
    exfalso
    clear hS
    omega
  | succ t ih =>
    intro ht
    obtain ⟨hp, hsorted⟩ := ih (by omega)
    rw [List.range'_1_concat, List.foldl_append]
    simp only [List.foldl_cons, List.foldl_nil]
    generalize (List.range' 1 t).foldl
        (fun arr i => TableC.insertion_while cmp (arr i) i arr) arr = cur at hp hsorted
    have hScur : ∀ k, k < n → S (cur k) := permOn_all hp S n (le_refl _) hS
    have key := insertion_while_spec hc n (cur (1 + t)) (hScur _ (by omega)) (1 + t) (by omega)
      (1 + t) cur (le_refl _) hScur
      (fun p q hpq hq _ hqm => hsorted p q (Nat.zero_le _) hpq (by omega))
      (fun q h1 h2 => by omega)
    rw [aset_self] at key
    obtain ⟨hp2, hs2⟩ := key
    refine ⟨permOn_trans hp (permOn_mono (le_refl _) (by omega) hp2), ?_⟩
    have : t + 1 + 1 = 1 + t + 1 := by omega
    rw [this]
    exact hs2

theorem insertion_sort_generic_spec {cmp : α → α → Int} {S : α → Prop} (hc : CmpOrd cmp S)
    (n : Nat) (arr : Nat → α) (hS : ∀ k, k < n → S (arr k)) :
    PermOn 0 n arr (TableC.insertion_sort_generic cmp arr n) ∧
    SortedOn cmp 0 n (TableC.insertion_sort_generic cmp arr n) := by
  by_cases hn : n = 0
  · subst hn
    refine ⟨permOn_refl _ _ _, ?_⟩
    intro p q _ _ hq
    omega
  · obtain ⟨hp, hs⟩ := insertion_outer_spec hc n arr hS (n - 1) (by omega)
    refine ⟨hp, ?_⟩
    have : n - 1 + 1 = n := by omega
    rw [this] at hs
    exact hs

end ArraySorts2

section ArraySorts3
variable {α : Type}

theorem sortedOn_small (cmp : α → α → Int) (n : Nat) (arr : Nat → α) (hn : n < 2) :
    SortedOn cmp 0 n arr := by
  unfold SortedOn
  intro p q h1 h2 h3
  exfalso
  omega

/-- The gapped shifting loop of the shell sort terminates and rearranges. -/
theorem shell_inner_perm (cmp : α → α → Int) (gap : Nat) (hgap : 0 < gap) (temp : α)
    (n : Nat) :
    ∀ (fuel j : Nat) (arr : Nat → α), j < fuel → j < n →
      ∃ out, TableC.shell_inner cmp gap temp fuel j arr = some out ∧
        PermOn 0 n (aset arr j temp) out := by
  intro fuel
  induction fuel with
  | zero =>
    intro j arr hj
    omega
  | succ fuel ih =>
    intro j arr hj hjn
    simp only [TableC.shell_inner]
    by_cases hcond : j ≥ gap ∧ cmp (arr (j - gap)) temp > 0
    · rw [if_pos hcond]
      obtain ⟨out, hout, hp⟩ := ih (j - gap) (aset arr j (arr (j - gap))) (by omega) (by omega)
      refine ⟨out, hout, permOn_trans ?_ hp⟩
      rw [aset_aset_swap arr (j - gap) j temp (by omega)]
      exact permOn_swap _ _ _ (by omega) (by omega) (by omega) (by omega)
    · rw [if_neg hcond]
      exact ⟨_, rfl, permOn_refl _ _ _⟩

/-- One pass of the shell sort for a gap terminates and rearranges. -/
theorem shell_pass_perm (cmp : α → α → Int) (gap : Nat) (hgap : 0 < gap) (n fuel : Nat)
    (hfuel : n ≤ fuel) :
    ∀ (count start : Nat) (arr : Nat → α), start + count ≤ n →
      ∃ out, for_loop (fun i arr => TableC.shell_inner cmp gap (arr i) fuel i arr)
          count start arr = some out ∧ PermOn 0 n arr out := by
  intro count
  induction count with
  | zero =>
    intro start arr _
    exact ⟨arr, rfl, permOn_refl _ _ _⟩
  | succ count ih =>
    intro start arr hs
    simp only [for_loop]
    obtain ⟨mid, hmid, hp⟩ := shell_inner_perm cmp gap hgap (arr start) n fuel start arr
      (by omega) (by omega)
    rw [aset_self] at hp
    obtain ⟨out, hout, hp2⟩ := ih (start + 1) mid (by omega)
    refine ⟨out, ?_, permOn_trans hp hp2⟩
    rw [hmid]
    exact hout

/-- With gap 1 the shifting loop of the shell sort is that of the insertion sort. -/
theorem shell_inner_one (cmp : α → α → Int) (temp : α) :
    ∀ (j fuel : Nat) (arr : Nat → α), j < fuel →
      TableC.shell_inner cmp 1 temp fuel j arr = some (TableC.insertion_while cmp temp j arr) := by
  intro j
  induction j with
  | zero =>
    intro fuel arr hf
    obtain ⟨f, rfl⟩ : ∃ f, fuel = f + 1 := ⟨fuel - 1, by omega⟩
    simp [TableC.shell_inner, TableC.insertion_while]
  | succ j ih =>
    intro fuel arr hf
    obtain ⟨f, rfl⟩ : ∃ f, fuel = f + 1 := ⟨fuel - 1, by omega⟩
    simp only [TableC.shell_inner, TableC.insertion_while]
    by_cases hcmp : cmp (arr j) temp > 0
    · have h1 : j + 1 ≥ 1 ∧ cmp (arr (j + 1 - 1)) temp > 0 := ⟨by omega, by simpa using hcmp⟩
      rw [if_pos h1, if_pos hcmp]
      simpa using ih f (aset arr (j + 1) (arr j)) (by omega)
    · have h1 : ¬ (j + 1 ≥ 1 ∧ cmp (arr (j + 1 - 1)) temp > 0) := by
        rintro ⟨_, h⟩
        exact hcmp (by simpa using h)
      rw [if_neg h1, if_neg hcmp]

theorem shell_pass_one (cmp : α → α → Int) (fuel : Nat) :
    ∀ (count start : Nat) (arr : Nat → α), start + count ≤ fuel →
      for_loop (fun i arr => TableC.shell_inner cmp 1 (arr i) fuel i arr) count start arr =
        some ((List.range' start count).foldl
          (fun arr i => TableC.insertion_while cmp (arr i) i arr) arr) := by
  intro count
  induction count with
  | zero =>
    intro start arr _
    rfl
  | succ count ih =>
    intro start arr hs
    simp only [for_loop, List.range'_succ, List.foldl_cons]
    rw [shell_inner_one cmp (arr start) start fuel arr (by omega)]
    simp only [Option.some_bind]
    exact ih (start + 1) _ (by omega)

/-- The loop over the gaps: it terminates, rearranges, and its last pass (gap 1)
leaves the cells in order. -/
theorem shell_gaps_spec {cmp : α → α → Int} {S : α → Prop} (hc : CmpOrd cmp S)
    (n fuel0 : Nat) (hn : 2 ≤ n) (hfuel0 : n ≤ fuel0) :
    ∀ (fuel gap : Nat) (arr : Nat → α), gap < fuel → 0 < gap → gap ≤ n →
      (∀ k, k < n → S (arr k)) →
      ∃ out, TableC.shell_gaps cmp n fuel0 fuel gap arr = some out ∧
        PermOn 0 n arr out ∧ SortedOn cmp 0 n out := by
  intro fuel
  induction fuel with
  | zero =>
    intro gap arr hg
    omega
  | succ fuel ih =>
    intro gap arr hg hgap hgn hS
    simp only [TableC.shell_gaps]
    rw [if_pos hgap]
    obtain ⟨mid, hmid, hp⟩ := shell_pass_perm cmp gap hgap n fuel0 hfuel0 (n - gap) gap arr
      (by omega)
    rw [hmid]
    simp only [Option.some_bind]
    have hSmid : ∀ k, k < n → S (mid k) := permOn_all hp S n (le_refl _) hS
    by_cases hg1 : gap = 1
    · subst hg1
      obtain ⟨f, rfl⟩ : ∃ f, fuel = f + 1 := ⟨fuel - 1, by omega⟩
      refine ⟨mid, by simp [TableC.shell_gaps], hp, ?_⟩
      rw [shell_pass_one cmp fuel0 (n - 1) 1 arr (by omega)] at hmid
      have hmid' : mid = TableC.insertion_sort_generic cmp arr n := by
        simpa [TableC.insertion_sort_generic] using hmid.symm
      rw [hmid']
      exact (insertion_sort_generic_spec hc n arr hS).2
    · have hhalf : 0 < gap / 2 := Nat.div_pos (by omega) (by omega)
      have hlt : gap / 2 < gap := Nat.div_lt_self hgap (by omega)
      obtain ⟨out, hout, hp2, hs⟩ := ih (gap / 2) mid (by omega) hhalf (by omega) hSmid
      exact ⟨out, hout, permOn_trans hp hp2, hs⟩

theorem shell_sort_generic_spec {cmp : α → α → Int} {S : α → Prop} (hc : CmpOrd cmp S)
    (n fuel : Nat) (hfuel : n < fuel) (arr : Nat → α) (hS : ∀ k, k < n → S (arr k)) :
    ∃ out, TableC.shell_sort_generic cmp fuel arr n = some out ∧
      PermOn 0 n arr out ∧ SortedOn cmp 0 n out := by
  unfold TableC.shell_sort_generic
  by_cases hn : 2 ≤ n
  · have h2 : 0 < n / 2 := Nat.div_pos hn (by omega)
    have h3 : n / 2 < n := Nat.div_lt_self (by omega) (by omega)
    exact shell_gaps_spec hc n fuel hn (by omega) fuel (n / 2) arr (by omega) h2 (by omega) hS
  · obtain ⟨f, rfl⟩ : ∃ f, fuel = f + 1 := ⟨fuel - 1, by omega⟩
    have h0 : n / 2 = 0 := by omega
    refine ⟨arr, by simp [TableC.shell_gaps, h0], permOn_refl _ _ _,
      sortedOn_small cmp n arr (by omega)⟩

end ArraySorts3

section ArraySorts4
variable {α : Type}

/-- The scanning loop of the Lomuto partition after `t` iterations. -/
theorem partition_loop_spec (cmp : α → α → Int) (pivot : α) (arr : Nat → α) (low : Int)
    (hlow : 0 ≤ low) :
    ∀ t : Nat,
      low - 1 ≤ ((List.range t).foldl
        (fun s (t : Nat) => TableC.partition_step cmp pivot s (low + (t : Int))) (arr, low - 1)).2 ∧
      ((List.range t).foldl
        (fun s (t : Nat) => TableC.partition_step cmp pivot s (low + (t : Int))) (arr, low - 1)).2
          < low + t ∧
      PermOn low.toNat (low + t).toNat arr ((List.range t).foldl
        (fun s (t : Nat) => TableC.partition_step cmp pivot s (low + (t : Int))) (arr, low - 1)).1 ∧
      (∀ k : Nat, low ≤ k → (k : Int) ≤ ((List.range t).foldl
        (fun s (t : Nat) => TableC.partition_step cmp pivot s (low + (t : Int))) (arr, low - 1)).2 →
        cmp (((List.range t).foldl
        (fun s (t : Nat) => TableC.partition_step cmp pivot s (low + (t : Int))) (arr, low - 1)).1 k)
          pivot < 0) ∧
      (∀ k : Nat, ((List.range t).foldl
        (fun s (t : Nat) => TableC.partition_step cmp pivot s (low + (t : Int))) (arr, low - 1)).2 < k →
        (k : Int) < low + t →
        ¬ cmp (((List.range t).foldl
        (fun s (t : Nat) => TableC.partition_step cmp pivot s (low + (t : Int))) (arr, low - 1)).1 k)
          pivot < 0) := by
  intro t
  induction t with
  | zero =>
    simp only [List.range_zero, List.foldl_nil]
    refine ⟨le_refl _, by omega, permOn_refl _ _ _, ?_, ?_⟩
    · intro k h1 h2
      omega
    · intro k h1 h2
      simp at h2
      omega
  | succ t ih =>
    rw [List.range_succ, List.foldl_append]
    simp only [List.foldl_cons, List.foldl_nil]
    generalize (List.range t).foldl
        (fun s (t : Nat) => TableC.partition_step cmp pivot s (low + (t : Int))) (arr, low - 1) = s at ih
    obtain ⟨a, i⟩ := s
    simp only at ih
    obtain ⟨h1, h2, hp, hl, hr⟩ := ih
    unfold TableC.partition_step
    simp only
    have hj : (low + (t : Int)).toNat = low.toNat + t := by omega
    by_cases hcmp : cmp (a (low + (t : Int)).toNat) pivot < 0
    · rw [if_pos hcmp]
      simp only
      refine ⟨by omega, by push_cast; omega, ?_, ?_, ?_⟩
      · refine permOn_trans (permOn_mono (le_refl _) (by omega) hp) ?_
        exact permOn_swap _ _ _ (by omega) (by omega) (by omega) (by omega)
      · intro k hk1 hk2
        by_cases hk : k = (i + 1).toNat
        · rw [hk, swap_ptr_left]
          exact hcmp
        · have hkj : k ≠ (low + (t : Int)).toNat := by omega
          rw [swap_ptr_other _ _ _ _ hk hkj]
          exact hl k hk1 (by omega)
      · intro k hk1 hk2
        by_cases hk : k = (low + (t : Int)).toNat
        · rw [hk, swap_ptr_right]
          by_cases hij : (i + 1).toNat = (low + (t : Int)).toNat
          · omega
          · exact hr (i + 1).toNat (by omega) (by omega)
        · have hki : k ≠ (i + 1).toNat := by omega
          rw [swap_ptr_other _ _ _ _ hki hk]
          exact hr k (by omega) (by push_cast at hk2; omega)
    · rw [if_neg hcmp]
      simp only
      refine ⟨h1, by push_cast; omega, permOn_mono (le_refl _) (by omega) hp, hl, ?_⟩
      intro k hk1 hk2
      by_cases hk : k = (low + (t : Int)).toNat
      · rw [hk]
        exact hcmp
      · exact hr k hk1 (by push_cast at hk2; omega)

/-- The Lomuto partition: the returned index splits the range around the pivot. -/
theorem partition_generic_spec (cmp : α → α → Int) (arr : Nat → α) (low high : Int)
    (hlow : 0 ≤ low) (hlh : low < high) :
    low ≤ (TableC.partition_generic cmp arr low high).2 ∧
    (TableC.partition_generic cmp arr low high).2 ≤ high ∧
    PermOn low.toNat (high + 1).toNat arr (TableC.partition_generic cmp arr low high).1 ∧
    (∀ k : Nat, low ≤ k → (k : Int) < (TableC.partition_generic cmp arr low high).2 →
      cmp ((TableC.partition_generic cmp arr low high).1 k)
        ((TableC.partition_generic cmp arr low high).1
          (TableC.partition_generic cmp arr low high).2.toNat) < 0) ∧
    (∀ k : Nat, (TableC.partition_generic cmp arr low high).2 < k → (k : Int) ≤ high →
      ¬ cmp ((TableC.partition_generic cmp arr low high).1 k)
        ((TableC.partition_generic cmp arr low high).1
          (TableC.partition_generic cmp arr low high).2.toNat) < 0) := by
  unfold TableC.partition_generic
  simp only
  have hloop := partition_loop_spec cmp (arr high.toNat) arr low hlow (high - low).toNat
  generalize (List.range (high - low).toNat).foldl
      (fun s (t : Nat) => TableC.partition_step cmp (arr high.toNat) s (low + (t : Int)))
      (arr, low - 1) = s at hloop
  obtain ⟨a, i⟩ := s
  simp only at hloop
  obtain ⟨h1, h2, hp, hl, hr⟩ := hloop
  have hcast : low + ((high - low).toNat : Int) = high := by omega
  rw [hcast] at h2 hp hr
  have hpiv : a high.toNat = arr high.toNat := permOn_outside hp _ (by omega)
  refine ⟨by omega, by omega, ?_, ?_, ?_⟩
  · refine permOn_trans (permOn_mono (le_refl _) (by omega) hp) ?_
    exact permOn_swap _ _ _ (by omega) (by omega) (by omega) (by omega)
  · intro k hk1 hk2
    dsimp only at hk1 hk2 ⊢
    rw [swap_ptr_left, hpiv, swap_ptr_other _ _ _ _ (by omega) (by omega)]
    exact hl k hk1 (by omega)
  · intro k hk1 hk2
    dsimp only at hk1 hk2 ⊢
    rw [swap_ptr_left, hpiv]
    by_cases hk : k = high.toNat
    · rw [hk, swap_ptr_right]
      exact hr _ (by omega) (by omega)
    · rw [swap_ptr_other _ _ _ _ (by omega) hk]
      exact hr k (by omega) (by omega)

theorem quick_sort_generic_spec {cmp : α → α → Int} {S : α → Prop} (hc : CmpOrd cmp S)
    (n : Nat) :
    ∀ (fuel : Nat) (arr : Nat → α) (low high : Int), 0 ≤ low → high < n →
      (high - low + 1).toNat < fuel → (∀ k, k < n → S (arr k)) →
      ∃ out, TableC.quick_sort_generic cmp fuel arr low high = some out ∧
        PermOn low.toNat (high + 1).toNat arr out ∧
        SortedOn cmp low.toNat (high + 1).toNat out := by
  intro fuel
  induction fuel with
  | zero =>
    intro arr low high _ _ hf
    omega
  | succ fuel ih =>
    intro arr low high hlow hhigh hf hS
    simp only [TableC.quick_sort_generic]
    by_cases hlh : low < high
    · rw [if_pos hlh]
      obtain ⟨hp1, hp2, hperm, hl, hr⟩ := partition_generic_spec cmp arr low high hlow hlh
      generalize TableC.partition_generic cmp arr low high = p at hp1 hp2 hperm hl hr
      obtain ⟨arr1, pi⟩ := p
      simp only at hp1 hp2 hperm hl hr ⊢
      have hS1 : ∀ k, k < n → S (arr1 k) := permOn_all hperm S n (by omega) hS
      obtain ⟨arr2, h2, hperm2, hsort2⟩ := ih arr1 low (pi - 1) hlow (by omega) (by omega) hS1
      have hS2 : ∀ k, k < n → S (arr2 k) := permOn_all hperm2 S n (by omega) hS1
      obtain ⟨out, h3, hperm3, hsort3⟩ := ih arr2 (pi + 1) high (by omega) hhigh (by omega) hS2
      have e1 : (pi - 1 + 1).toNat = pi.toNat := by omega
      rw [e1] at hperm2 hsort2
      refine ⟨out, by rw [h2]; exact h3, ?_, ?_⟩
      · exact permOn_trans hperm (permOn_trans (permOn_mono (le_refl _) (by omega) hperm2)
          (permOn_mono (by omega) (le_refl _) hperm3))
      · -- the pivot cell is left in place by both recursive calls
        have hpiv2 : arr2 pi.toNat = arr1 pi.toNat := permOn_outside hperm2 _ (by omega)
        have hpiv3 : out pi.toNat = arr1 pi.toNat := by
          rw [permOn_outside hperm3 _ (by omega), hpiv2]
        have hSp : S (arr1 pi.toNat) := hS1 _ (by omega)
        -- cells left of the pivot
        have hleft : ∀ k : Nat, low.toNat ≤ k → k < pi.toNat →
            cmp (out k) (arr1 pi.toNat) ≤ 0 := by
          intro k hk1 hk2
          rw [permOn_outside hperm3 k (by omega)]
          obtain ⟨k', hk'1, hk'2, hk'3⟩ := permOn_inside hperm2 k hk1 hk2
          rw [hk'3]
          have := hl k' (by omega) (by omega)
          omega
        have hright : ∀ k : Nat, pi.toNat < k → k < (high + 1).toNat →
            cmp (arr1 pi.toNat) (out k) ≤ 0 := by
          intro k hk1 hk2
          obtain ⟨k', hk'1, hk'2, hk'3⟩ := permOn_inside hperm3 k (by omega) hk2
          rw [hk'3, permOn_outside hperm2 k' (by omega)]
          exact hc.of_not_lt _ _ (hS1 k' (by omega)) hSp (hr k' (by omega) (by omega))
        have hSout : ∀ k, k < n → S (out k) := permOn_all hperm3 S n (by omega) hS2
        intro p q hp hpq hq
        by_cases hqpi : q < pi.toNat
        · rw [permOn_outside hperm3 p (by omega), permOn_outside hperm3 q (by omega)]
          exact hsort2 p q hp hpq hqpi
        · by_cases hppi : pi.toNat < p
          · exact hsort3 p q (by omega) hpq hq
          · by_cases hq2 : q = pi.toNat
            · rw [hq2, hpiv3]
              exact hleft p hp (by omega)
            · by_cases hp2' : p = pi.toNat
              · rw [hp2', hpiv3]
                exact hright q (by omega) hq
              · exact hc.trans _ _ _ (hSout p (by omega)) hSp (hSout q (by omega))
                  (hleft p hp (by omega)) (hright q (by omega) hq)
    · rw [if_neg hlh]
      refine ⟨arr, rfl, permOn_refl _ _ _, ?_⟩
      unfold SortedOn
      intro p q h1 h2 h3
      exfalso
      omega

end ArraySorts4

/-! ## The comparator of table.c and claim C1 -/

section TableClaims
open TableC

theorem strcmp_range : ∀ a b : List (Fin 256), -256 < strcmp a b ∧ strcmp a b < 256
  | [], [] => by simp [strcmp]
  | [], b :: _ => by
      have := b.isLt
      simp only [strcmp]
      omega
  | a :: _, [] => by
      have := a.isLt
      simp only [strcmp]
      omega
  | a :: as, b :: bs => by
      have ha := a.isLt
      have hb := b.isLt
      simp only [strcmp]
      split
      · exact strcmp_range as bs
      · omega

theorem cmp_generic_desc (dt : DataType) (a b : Val dt) :
    cmp_generic dt true a b = wrap32 (-(cmp_generic dt false a b)) := by
  cases dt <;> simp [cmp_generic]

theorem cmp_generic_range (dt : DataType) (a b : Val dt) :
    -2147483648 ≤ cmp_generic dt false a b ∧ cmp_generic dt false a b < 2147483648 := by
  cases dt
  · simpa [cmp_generic] using wrap32_range _
  · simp only [cmp_generic, Bool.false_eq_true, if_false]
    split_ifs <;> omega
  · simpa [cmp_generic] using wrap32_range _
  · have := strcmp_range a b
    simp only [cmp_generic]
    simp only [Bool.false_eq_true, if_false]
    omega

theorem cmp_generic_min (dt : DataType) (a b : Val dt)
    (h : cmp_generic dt false a b = -2147483648) : cmp_generic dt false b a < 0 := by
  cases dt
  · simp only [cmp_generic, Bool.false_eq_true, if_false] at h ⊢
    unfold wrap32 at h ⊢
    omega
  · exfalso
    simp only [cmp_generic, Bool.false_eq_true, if_false] at h
    split_ifs at h <;> omega
  · simp only [cmp_generic, Bool.false_eq_true, if_false] at h ⊢
    unfold wrap32 at h ⊢
    omega
  · exfalso
    have := strcmp_range a b
    simp only [cmp_generic, Bool.false_eq_true, if_false] at h
    omega

/-- The comparator under either setting of the flag is a total preorder on the
values of the array as soon as the kind's comparison is one. -/
theorem cmp_generic_ord (dt : DataType) (desc : Bool) (arr : Nat → Val dt) (n : Nat)
    (hanti : ∀ i, i < n → ∀ j, j < n →
      (0 < cmp_generic dt false (arr i) (arr j) ↔ cmp_generic dt false (arr j) (arr i) < 0))
    (htrans : ∀ i, i < n → ∀ j, j < n → ∀ k, k < n →
      cmp_generic dt false (arr i) (arr j) ≤ 0 → cmp_generic dt false (arr j) (arr k) ≤ 0 →
      cmp_generic dt false (arr i) (arr k) ≤ 0) :
    CmpOrd (cmp_generic dt desc) (fun v => ∃ k, k < n ∧ arr k = v) := by
  cases desc
  · constructor
    · rintro a b ⟨i, hi, rfl⟩ ⟨j, hj, rfl⟩
      exact hanti i hi j hj
    · rintro a b c ⟨i, hi, rfl⟩ ⟨j, hj, rfl⟩ ⟨k, hk, rfl⟩
      exact htrans i hi j hj k hk
  · have hneg : ∀ i j, i < n → j < n →
        cmp_generic dt true (arr i) (arr j) = -(cmp_generic dt false (arr i) (arr j)) := by
      intro i j hi hj
      rw [cmp_generic_desc]
      have hr := cmp_generic_range dt (arr i) (arr j)
      have hmin : cmp_generic dt false (arr i) (arr j) ≠ -2147483648 := by
        intro h
        have h1 := cmp_generic_min dt _ _ h
        have h2 := (hanti j hj i hi).2 (by omega)
        omega
      apply wrap32_id <;> omega
    have hflip : ∀ i j, i < n → j < n →
        (0 ≤ cmp_generic dt false (arr i) (arr j) ↔ cmp_generic dt false (arr j) (arr i) ≤ 0) := by
      intro i j hi hj
      have h1 := hanti j hj i hi
      constructor
      · intro h
        by_contra hc
        have := h1.1 (by omega)
        omega
      · intro h
        by_contra hc
        have := h1.2 (by omega)
        omega
    constructor
    · rintro a b ⟨i, hi, rfl⟩ ⟨j, hj, rfl⟩
      rw [hneg i j hi hj, hneg j i hj hi]
      have := hanti j hj i hi
      constructor
      · intro h
        have := this.2 (by omega)
        omega
      · intro h
        have := this.1 (by omega)
        omega
    · rintro a b c ⟨i, hi, rfl⟩ ⟨j, hj, rfl⟩ ⟨k, hk, rfl⟩
      rw [hneg i j hi hj, hneg j k hj hk, hneg i k hi hk]
      intro h1 h2
      have h3 := (hflip i j hi hj).1 (by omega)
      have h4 := (hflip j k hj hk).1 (by omega)
      have h5 := htrans k hk j hj i hi h4 h3
      have h6 := (hflip i k hi hk).2 h5
      omega

/-- A rearrangement in order for the comparator is a sort result in the sense of
the kind's comparison. -/
theorem sortResult_of (dt : DataType) (desc : Bool) (arr : Nat → Val dt) (n : Nat)
    (hanti : ∀ i, i < n → ∀ j, j < n →
      (0 < cmp_generic dt false (arr i) (arr j) ↔ cmp_generic dt false (arr j) (arr i) < 0))
    (out : Nat → Val dt) (hp : PermOn 0 n arr out)
    (hs : SortedOn (cmp_generic dt desc) 0 n out) : SortResult dt desc arr n out := by
  refine ⟨permOn_toList hp, ?_⟩
  intro i j hij hj
  have hle := hs i j (Nat.zero_le _) hij hj
  cases desc
  · simpa using hle
  · simp only [if_true]
    obtain ⟨i', _, hi', hi''⟩ := permOn_inside hp i (Nat.zero_le _) (by omega)
    obtain ⟨j', _, hj', hj''⟩ := permOn_inside hp j (Nat.zero_le _) hj
    rw [hi'', hj''] at hle ⊢
    rw [cmp_generic_desc] at hle
    have hr := cmp_generic_range dt (arr i') (arr j')
    by_contra hc
    have hneg : cmp_generic dt false (arr i') (arr j') < 0 := by omega
    by_cases hmin : cmp_generic dt false (arr i') (arr j') = -2147483648
    · have h1 := cmp_generic_min dt _ _ hmin
      have h2 := (hanti j' hj' i' hi').2 (by omega)
      omega
    · rw [wrap32_id _ (by omega) (by omega)] at hle
      omega

end TableClaims

/-- C1: each of the four sorts of table.c, called on the whole array of `n` values
of one kind on which the kind's comparison is a total preorder, leaves a
permutation of the array that is non-decreasing when the descending flag is clear
and non-increasing when it is set (the shell sort and the quicksort, whose loops
are bounded by `fuel`, return with any fuel above `n`). -/
theorem table_sorts_sorted_permutation (dt : TableC.DataType) (desc : Bool)
    (arr : Nat → TableC.Val dt) (n fuel : Nat) (hfuel : n < fuel)
    (hanti : ∀ i, i < n → ∀ j, j < n →
      (0 < TableC.cmp_generic dt false (arr i) (arr j) ↔
        TableC.cmp_generic dt false (arr j) (arr i) < 0))
    (htrans : ∀ i, i < n → ∀ j, j < n → ∀ k, k < n →
      TableC.cmp_generic dt false (arr i) (arr j) ≤ 0 →
      TableC.cmp_generic dt false (arr j) (arr k) ≤ 0 →
      TableC.cmp_generic dt false (arr i) (arr k) ≤ 0) :
    TableC.SortResult dt desc arr n
      (TableC.bubble_sort_generic (TableC.cmp_generic dt desc) arr n) ∧
    TableC.SortResult dt desc arr n
      (TableC.insertion_sort_generic (TableC.cmp_generic dt desc) arr n) ∧
    (∃ out, TableC.shell_sort_generic (TableC.cmp_generic dt desc) fuel arr n = some out ∧
      TableC.SortResult dt desc arr n out) ∧
    (∃ out, TableC.quick_sort_generic (TableC.cmp_generic dt desc) fuel arr 0 ((n : Int) - 1)
        = some out ∧ TableC.SortResult dt desc arr n out) := by
  have hc := cmp_generic_ord dt desc arr n hanti htrans
  have hS : ∀ k, k < n → (fun v => ∃ k, k < n ∧ arr k = v) (arr k) := fun k hk => ⟨k, hk, rfl⟩
  refine ⟨?_, ?_, ?_, ?_⟩
  · obtain ⟨hp, hs⟩ := bubble_sort_generic_spec hc n arr hS
    exact sortResult_of dt desc arr n hanti _ hp hs
  · obtain ⟨hp, hs⟩ := insertion_sort_generic_spec hc n arr hS
    exact sortResult_of dt desc arr n hanti _ hp hs
  · obtain ⟨out, ho, hp, hs⟩ := shell_sort_generic_spec hc n fuel hfuel arr hS
    exact ⟨out, ho, sortResult_of dt desc arr n hanti _ hp hs⟩
  · obtain ⟨out, ho, hp, hs⟩ := quick_sort_generic_spec hc n fuel arr 0 ((n : Int) - 1)
      (le_refl _) (by omega) (by omega) hS
    have e : ((n : Int) - 1 + 1).toNat = n := by omega
    rw [e] at hp hs
    exact ⟨out, ho, sortResult_of dt desc arr n hanti _ hp hs⟩

/-- Witness of C1: the ints `[5,3,3,1]`, descending. -/
theorem table_sorts_sorted_permutation_witness :
    TableC.SortResult .TYPE_INT true (ofList (0 : Int) [5, 3, 3, 1]) 4
      (TableC.bubble_sort_generic (TableC.cmp_generic .TYPE_INT true)
        (ofList (0 : Int) [5, 3, 3, 1]) 4) ∧
    TableC.SortResult .TYPE_INT true (ofList (0 : Int) [5, 3, 3, 1]) 4
      (TableC.insertion_sort_generic (TableC.cmp_generic .TYPE_INT true)
        (ofList (0 : Int) [5, 3, 3, 1]) 4) ∧
    (∃ out, TableC.shell_sort_generic (TableC.cmp_generic .TYPE_INT true) 5
        (ofList (0 : Int) [5, 3, 3, 1]) 4 = some out ∧
      TableC.SortResult .TYPE_INT true (ofList (0 : Int) [5, 3, 3, 1]) 4 out) ∧
    (∃ out, TableC.quick_sort_generic (TableC.cmp_generic .TYPE_INT true) 5
        (ofList (0 : Int) [5, 3, 3, 1]) 0 (((4 : Nat) : Int) - 1) = some out ∧
      TableC.SortResult .TYPE_INT true (ofList (0 : Int) [5, 3, 3, 1]) 4 out) :=
  table_sorts_sorted_permutation .TYPE_INT true (ofList (0 : Int) [5, 3, 3, 1]) 4 5
    (by decide) (by decide) (by decide)

/-! ## Claim C3: the rebuilt tree and its in-order walk -/

/-- C3 (the code at a failing input): for the tree holding the ints 1 and 2,
`on_ordonner` builds the node 1 with the single child 2 in slot 0, and the
in-order walk of the new root lists `[2, 1]`, which is not ascending. -/
theorem order_as_bst_two_values_inorder :
    (TreeC.on_ordonner 3
        ({ root := some (.node 1 [.node 2 []]), current_ttype := .TREE_BINARY,
           max_children_limit := 2 } : TreeC.TreeState .TYPE_INT)).map
      (fun st => TreeC.inorder_values st.root) = some [2, 1] := by
  decide

/-- The example of the specification: the values 5, 1, 3 are listed as `[1, 3, 5]`. -/
theorem order_as_bst_example_inorder :
    (TreeC.on_ordonner 3
        ({ root := some (.node 5 [.node 1 [], .node 3 []]), current_ttype := .TREE_BINARY,
           max_children_limit := 2 } : TreeC.TreeState .TYPE_INT)).map
      (fun st => TreeC.inorder_values st.root) = some [1, 3, 5] := by
  decide

/-! ## Shortest paths: `run_dijkstra` -/

section Dijkstra
open GraphC

theorem isWalk_append (E : List Edge) (p q : List Edge) (a b c : Nat)
    (h1 : IsWalk E a b p) (h2 : IsWalk E b c q) : IsWalk E a c (p ++ q) := by
  induction p generalizing a with
  | nil =>
    simp only [IsWalk] at h1
    subst h1
    simpa using h2
  | cons e p ih =>
    simp only [IsWalk, List.cons_append] at h1 ⊢
    exact ⟨h1.1, h1.2.1, ih _ h1.2.2⟩

theorem weight_nil : weight [] = 0 := rfl

theorem weight_cons (e : Edge) (p : List Edge) : weight (e :: p) = e.weight + weight p := by
  simp [weight]

theorem visited_count_mark (n : Nat) (vis : Nat → Bool) (u : Nat) (hu : u < n)
    (hv : vis u = false) :
    visited_count n (aset vis u true) = visited_count n vis + 1 := by
  unfold visited_count
  have key : ∀ m : Nat,
      (List.range m).countP (fun j => aset vis u true j) =
        (List.range m).countP (fun j => vis j) + (if u < m then 1 else 0) := by
    intro m
    induction m with
    | zero => simp
    | succ m ih =>
      rw [List.range_succ, List.countP_append, List.countP_append, ih]
      simp only [List.countP_cons, List.countP_nil]
      by_cases hum : u = m
      · subst hum
        simp [aset, hv]
      · have h1 : aset vis u true m = vis m := aset_other _ _ _ _ (Ne.symm hum)
        rw [h1]
        by_cases hlt : u < m
        · have : u < m + 1 := by omega
          simp only [hlt, this, if_true]
          omega
        · have : ¬ u < m + 1 := by omega
          simp only [hlt, this, if_false]
          omega
  rw [key n]
  simp [hu]

theorem visited_count_full (n : Nat) (vis : Nat → Bool) (h : n ≤ visited_count n vis) :
    ∀ j, j < n → vis j = true := by
  intro j hj
  unfold visited_count at h
  have hle : (List.range n).countP (fun j => vis j) ≤ (List.range n).length :=
    List.countP_le_length _
  have heq : (List.range n).countP (fun j => vis j) = (List.range n).length := by
    simp only [List.length_range] at hle ⊢
    omega
  rw [List.countP_eq_length] at heq
  exact heq j (List.mem_range.2 hj)

end Dijkstra

section Dijkstra2
open GraphC

theorem INF_eq : INF = 999999 := rfl

end Dijkstra2

section Dijkstra3
open GraphC

theorem walk_nodes_lt (n : Nat) (E : List Edge) (hvalid : ∀ e ∈ E, e.u < n ∧ e.v < n) :
    ∀ (p : List Edge) (a b : Nat), a < n → IsWalk E a b p → ∀ x ∈ walk_nodes a p, x < n := by
  intro p
  induction p with
  | nil =>
    intro a b ha _ x hx
    simp only [walk_nodes, List.map_nil, List.mem_singleton] at hx
    omega
  | cons e p ih =>
    intro a b ha hwalk x hx
    simp only [IsWalk] at hwalk
    simp only [walk_nodes, List.map_cons, List.mem_cons] at hx
    rcases hx with h | h
    · omega
    · have := ih e.v b (hvalid e hwalk.1).2 hwalk.2.2 x
      apply this
      simp only [walk_nodes, List.mem_cons]
      exact h

end Dijkstra3

section DijkstraWitness
open GraphC

/-- Simple paths are lighter than the sentinel when `n` times the largest weight is. -/
theorem simple_walk_weight_lt (n : Nat) (E : List Edge) (start : Nat) (W : Int)
    (hvalid : ∀ e ∈ E, e.u < n ∧ e.v < n) (hstart : start < n)
    (hW : ∀ e ∈ E, e.weight ≤ W) (h0 : 0 ≤ W) (hbound : (n : Int) * W < INF) :
    ∀ v p, IsWalk E start v p → (walk_nodes start p).Nodup → weight p < INF := by
  intro v p hp hnd
  have hlen : p.length + 1 ≤ n := by
    have h1 := nodup_length_le n (walk_nodes start p) hnd
      (walk_nodes_lt n E hvalid p start v hstart hp)
    simpa [walk_nodes] using h1
  have hwt : ∀ (q : List Edge) (a b : Nat), IsWalk E a b q → weight q ≤ (q.length : Int) * W := by
    intro q
    induction q with
    | nil =>
      intro a b _
      simp [weight]
    | cons e q ih =>
      intro a b h
      simp only [IsWalk] at h
      rw [weight_cons]
      have h1 := ih _ _ h.2.2
      have h2 := hW e h.1
      simp only [List.length_cons]
      push_cast
      linarith
  have h1 := hwt p start v hp
  have h2 : (p.length : Int) * W ≤ (n : Int) * W := by
    apply Int.mul_le_mul_of_nonneg_right _ h0
    omega
  omega

end DijkstraWitness

/-- The example of the specification for `run_dijkstra`: distance 3 along A, B, C
(stored reversed). -/
theorem dijkstra_example :
    (GraphC.run_dijkstra 3 [⟨0, 1, 1⟩, ⟨1, 2, 2⟩, ⟨0, 2, 10⟩] 0 2).map
      (fun r => (r.dist 2, r.path_nodes)) = some (3, [2, 1, 0]) := by
  decide

/-! ## Shortest paths: `run_bellman` -/

section Bellman
open GraphC

end Bellman

section AllPaths
open GraphC

theorem neighbor_of_usable (dir : Bool) (u : Nat) (e : Edge) :
    neighbor_of dir u e ≠ -1 ↔ Usable dir e u := by
  unfold neighbor_of Usable
  by_cases h1 : e.u = u
  · simp only [h1, if_true, true_or, iff_true]
    omega
  · rw [if_neg h1]
    by_cases h2 : ¬ dir = true ∧ e.v = u
    · rw [if_pos h2]
      have : dir = false := by simpa using h2.1
      simp only [h1, this, h2.2, false_or, and_self, iff_true]
      omega
    · rw [if_neg h2]
      simp only [h1, false_or, ne_eq, not_true_eq_false, false_iff]
      rintro ⟨h3, h4⟩
      exact h2 ⟨by simp [h3], h4⟩

theorem neighbor_of_next (dir : Bool) (u : Nat) (e : Edge) (h : Usable dir e u) :
    (neighbor_of dir u e).toNat = next_node u e := by
  unfold neighbor_of next_node
  by_cases h1 : e.u = u
  · simp [h1]
  · rw [if_neg h1, if_neg h1]
    unfold Usable at h
    rcases h with h | ⟨h3, h4⟩
    · exact absurd h h1
    · have : ¬ dir = true ∧ e.v = u := ⟨by simp [h3], h4⟩
      rw [if_pos this]
      simp

/-- At the target the only simple path is the empty one. -/
theorem simpleFrom_target (E : List Edge) (dir : Bool) (vis : Nat → Bool) (d : Nat)
    (es : List Edge) (hd : vis d = false) : SimpleFrom E dir vis d d es ↔ es = [] := by
  constructor
  · rintro ⟨_, hnd, _, hlast⟩
    cases es with
    | nil => rfl
    | cons e es =>
      exfalso
      simp only [trace] at hnd hlast
      rw [List.getLast?_cons_cons] at hlast
      have hmem := List.mem_of_getLast?_eq_some hlast
      exact (List.nodup_cons.1 hnd).1 hmem
  · intro h
    subst h
    refine ⟨trivial, by simp [trace], ?_, by simp [trace]⟩
    intro x hx
    simp only [trace, List.mem_singleton] at hx
    rw [hx]
    exact hd

/-- Away from the target a simple path is a usable edge followed by a simple path
that avoids the node left. -/
theorem simpleFrom_step (E : List Edge) (dir : Bool) (vis : Nat → Bool) (u d : Nat)
    (es : List Edge) (hu : vis u = false) (hud : u ≠ d) :
    SimpleFrom E dir vis u d es ↔
      ∃ e es', es = e :: es' ∧ e ∈ E ∧ Usable dir e u ∧
        SimpleFrom E dir (aset vis u true) (next_node u e) d es' := by
  constructor
  · rintro ⟨hf, hnd, hvis, hlast⟩
    cases es with
    | nil =>
      exfalso
      simp only [trace, List.getLast?_singleton, Option.some.injEq] at hlast
      exact hud hlast
    | cons e es' =>
      simp only [Follows] at hf
      simp only [trace] at hnd hvis hlast
      rw [List.getLast?_cons_cons] at hlast
      refine ⟨e, es', rfl, hf.1, hf.2.1, hf.2.2, (List.nodup_cons.1 hnd).2, ?_, hlast⟩
      intro x hx
      have hxu : x ≠ u := by
        intro h
        rw [h] at hx
        exact (List.nodup_cons.1 hnd).1 hx
      rw [aset_other _ _ _ _ hxu]
      exact hvis x (List.mem_cons_of_mem _ hx)
  · rintro ⟨e, es', rfl, he, hus, hf, hnd, hvis, hlast⟩
    refine ⟨?_, ?_, ?_, ?_⟩
    · simp only [Follows]
      exact ⟨he, hus, hf⟩
    · simp only [trace]
      refine List.nodup_cons.2 ⟨?_, hnd⟩
      intro hmem
      have := hvis u hmem
      rw [aset_same] at this
      exact absurd this (by simp)
    · intro x hx
      simp only [trace] at hx
      rcases List.mem_cons.1 hx with h | h
      · rw [h]
        exact hu
      · have h1 := hvis x h
        by_cases hxu : x = u
        · rw [hxu]
          exact hu
        · rw [aset_other _ _ _ _ hxu] at h1
          exact h1
    · simp only [trace]
      rw [List.getLast?_cons_cons]
      exact hlast

theorem range_map_aset (path : Nat → Nat) (pi u : Nat) (path' : Nat → Nat)
    (h : ∀ k, k ≤ pi → path' k = aset path pi u k) :
    (List.range (pi + 1)).map path' = (List.range pi).map path ++ [u] := by
  rw [List.range_succ, List.map_append]
  congr 1
  · apply List.map_congr_left
    intro k hk
    have hk' := List.mem_range.1 hk
    rw [h k (by omega), aset_other _ _ _ _ (by omega)]
  · simp only [List.map_cons, List.map_nil]
    rw [h pi (le_refl _), aset_same]

/-- The loop of `findAllPathsUtil` over a list of distinct stored edges, given that
the recursive calls behave as specified. -/
theorem paths_loop_spec (n : Nat) (E : List Edge) (dir : Bool) (d : Nat) (fuel : Nat)
    (hvalid : ∀ e ∈ E, e.u < n ∧ e.v < n)
    (recurse : Nat → PathsState → Nat → Int → Option PathsState)
    (hrec : ∀ (u : Nat) (st : PathsState) (pi : Nat) (tw : Int), u < n →
      st.visited u = false → n ≤ visited_count n st.visited + fuel → wrap32 tw = tw →
      ∃ st', recurse u st pi tw = some st' ∧ PathsPost E dir d u st pi tw st')
    (u pi : Nat) (tw : Int) (pre : List Nat) (V : Nat → Bool)
    (hcount : n ≤ visited_count n V + fuel) :
    ∀ (L : List Edge), L.Nodup → (∀ e ∈ L, e ∈ E) → ∀ (st1 : PathsState),
      st1.visited = V → (List.range (pi + 1)).map st1.path = pre ++ [u] →
      ∃ st2, L.foldlM (paths_visit recurse dir u (pi + 1) tw) st1 = some st2 ∧
        st2.visited = V ∧ (∀ k, k < pi + 1 → st2.path k = st1.path k) ∧
        ∃ sols : List (List Edge), sols.Nodup ∧
          (∀ es, es ∈ sols ↔ ∃ e es', es = e :: es' ∧ e ∈ L ∧ Usable dir e u ∧
            SimpleFrom E dir V (next_node u e) d es') ∧
          st2.log = st1.log ++ sols.map
            (fun es => (pre ++ u :: trace u es, wrap32 (tw + weight es))) := by
  intro L
  induction L with
  | nil =>
    intro _ _ st1 hv hpath
    refine ⟨st1, rfl, hv, fun k _ => rfl, [], List.nodup_nil, ?_, by simp⟩
    intro es
    simp
  | cons e L ih =>
    intro hnd hL st1 hv hpath
    have heE : e ∈ E := hL e (List.mem_cons_self _ _)
    have hndL : L.Nodup := (List.nodup_cons.1 hnd).2
    have heL : e ∉ L := (List.nodup_cons.1 hnd).1
    simp only [List.foldlM_cons]
    unfold paths_visit
    simp only
    by_cases hc : neighbor_of dir u e ≠ -1 ∧ st1.visited (neighbor_of dir u e).toNat = false
    · rw [if_pos hc]
      have hus : Usable dir e u := (neighbor_of_usable dir u e).1 hc.1
      have hnb : (neighbor_of dir u e).toNat = next_node u e := neighbor_of_next dir u e hus
      rw [hnb] at hc ⊢
      have hnbn : next_node u e < n := by
        unfold next_node
        split
        · exact (hvalid e heE).2
        · exact (hvalid e heE).1
      obtain ⟨st', hst', hv', hp', sols1, hnd1, hmem1, hlog1⟩ :=
        hrec (next_node u e) st1 (pi + 1) (wrap32 (tw + e.weight)) hnbn hc.2
          (by rw [hv]; exact hcount) (wrap32_idem _)
      rw [hst']
      simp only [Option.some_bind, Option.bind_eq_bind]
      have hpath' : (List.range (pi + 1)).map st'.path = pre ++ [u] := by
        rw [← hpath]
        apply List.map_congr_left
        intro k hk
        exact hp' k (List.mem_range.1 hk)
      obtain ⟨st2, hst2, hv2, hp2, sols2, hnd2, hmem2, hlog2⟩ :=
        ih hndL (fun e' he' => hL e' (List.mem_cons_of_mem _ he')) st' (by rw [hv', hv]) hpath'
      refine ⟨st2, hst2, hv2, ?_, sols1.map (fun es' => e :: es') ++ sols2, ?_, ?_, ?_⟩
      · intro k hk
        rw [hp2 k hk, hp' k hk]
      · refine List.Nodup.append (hnd1.map (fun a b h => by simpa using h)) hnd2 ?_
        intro es h1 h2
        obtain ⟨es', _, rfl⟩ := List.mem_map.1 h1
        obtain ⟨e', es'', h3, h4, _⟩ := (hmem2 _).1 h2
        simp only [List.cons.injEq] at h3
        rw [← h3.1] at h4
        exact heL h4
      · intro es
        simp only [List.mem_append, List.mem_map, hmem2, hmem1, hv]
        constructor
        · rintro (⟨es', h1, rfl⟩ | ⟨e', es', h1, h2, h3, h4⟩)
          · exact ⟨e, es', rfl, List.mem_cons_self _ _, hus, h1⟩
          · exact ⟨e', es', h1, List.mem_cons_of_mem _ h2, h3, h4⟩
        · rintro ⟨e', es', h1, h2, h3, h4⟩
          rcases List.mem_cons.1 h2 with h | h
          · left
            subst h
            exact ⟨es', h4, h1.symm⟩
          · right
            exact ⟨e', es', h1, h, h3, h4⟩
      · rw [hlog2, hlog1, hpath, List.map_append, List.append_assoc, List.map_map]
        congr 2
        apply List.map_congr_left
        intro es' _
        simp only [Function.comp_apply, trace, weight_cons, List.append_assoc,
          List.singleton_append, Prod.mk.injEq, true_and]
        rw [wrap32_wrap32_add]
        congr 1
        ring
    · rw [if_neg hc]
      simp only [Option.some_bind, Option.bind_eq_bind]
      obtain ⟨st2, hst2, hv2, hp2, sols2, hnd2, hmem2, hlog2⟩ :=
        ih hndL (fun e' he' => hL e' (List.mem_cons_of_mem _ he')) st1 hv hpath
      refine ⟨st2, hst2, hv2, hp2, sols2, hnd2, ?_, hlog2⟩
      intro es
      rw [hmem2]
      constructor
      · rintro ⟨e', es', h1, h2, h3, h4⟩
        exact ⟨e', es', h1, List.mem_cons_of_mem _ h2, h3, h4⟩
      · rintro ⟨e', es', h1, h2, h3, h4⟩
        rcases List.mem_cons.1 h2 with h | h
        · exfalso
          subst h
          apply hc
          refine ⟨(neighbor_of_usable dir u e').2 h3, ?_⟩
          rw [neighbor_of_next dir u e' h3, hv]
          exact h4.2.2.1 _ (List.mem_cons_self _ _)
        · exact ⟨e', es', h1, h, h3, h4⟩

theorem aset_unmark (V : Nat → Bool) (u : Nat) (hu : V u = false) :
    aset (aset V u true) u false = V := by
  funext k
  by_cases h : k = u
  · rw [h, aset_same, hu]
  · rw [aset_other _ _ _ _ h, aset_other _ _ _ _ h]

/-- The recursive search: with fuel for every unmarked node it returns and logs
one line for each choice of stored edges tracing a simple path to the target. -/
theorem paths_util_spec (n : Nat) (E : List Edge) (dir : Bool) (d : Nat)
    (hvalid : ∀ e ∈ E, e.u < n ∧ e.v < n) (hnd : E.Nodup) :
    ∀ (fuel u : Nat) (st : PathsState) (pi : Nat) (tw : Int), u < n →
      st.visited u = false → n ≤ visited_count n st.visited + fuel → wrap32 tw = tw →
      ∃ st', findAllPathsUtil E d dir fuel u st pi tw = some st' ∧
        PathsPost E dir d u st pi tw st' := by
  intro fuel
  induction fuel with
  | zero =>
    intro u st pi tw hun hu hcount _
    exfalso
    have := visited_count_full n st.visited (by omega) u hun
    rw [this] at hu
    exact absurd hu (by simp)
  | succ fuel ih =>
    intro u st pi tw hun hu hcount htw
    simp only [findAllPathsUtil]
    by_cases hud : u = d
    · rw [if_pos hud]
      simp only [Option.map_some']
      refine ⟨_, rfl, ?_, ?_, [[]], by simp, ?_, ?_⟩
      · exact aset_unmark st.visited u hu
      · intro k hk
        exact aset_other _ _ _ _ (by omega)
      · intro es
        rw [← hud, simpleFrom_target E dir st.visited u es hu]
        simp
      · show st.log ++ [((List.range (pi + 1)).map (aset st.path pi u), tw)] = _
        rw [range_map_aset st.path pi u (aset st.path pi u) (fun k _ => rfl)]
        simp [trace, weight, htw]
    · rw [if_neg hud]
      have hcount' : n ≤ visited_count n (aset st.visited u true) + fuel := by
        rw [visited_count_mark n st.visited u hun hu]
        omega
      obtain ⟨st2, hst2, hv2, hp2, sols, hnd2, hmem2, hlog2⟩ :=
        paths_loop_spec n E dir d fuel hvalid (findAllPathsUtil E d dir fuel) ih u pi tw
          ((List.range pi).map st.path) (aset st.visited u true) hcount' E hnd
          (fun e he => he)
          { st with visited := aset st.visited u true, path := aset st.path pi u } rfl
          (range_map_aset st.path pi u (aset st.path pi u) (fun k _ => rfl))
      rw [hst2]
      simp only [Option.map_some']
      refine ⟨_, rfl, ?_, ?_, sols, hnd2, ?_, hlog2⟩
      · show aset st2.visited u false = st.visited
        rw [hv2]
        exact aset_unmark st.visited u hu
      · intro k hk
        show st2.path k = st.path k
        rw [hp2 k (by omega)]
        exact aset_other _ _ _ _ (by omega)
      · intro es
        rw [hmem2, simpleFrom_step E dir st.visited u d es hu hud]

theorem visited_count_none (n : Nat) : visited_count n (fun _ => false) = 0 := by
  unfold visited_count
  simp

/-- The nodes traced along stored edges of a graph with nodes below `n` are below
`n`. -/
theorem follows_trace_lt (n : Nat) (E : List Edge) (dir : Bool)
    (hvalid : ∀ e ∈ E, e.u < n ∧ e.v < n) :
    ∀ (es : List Edge) (a : Nat), Follows E dir a es → ∀ x ∈ trace a es, x < n := by
  intro es
  induction es with
  | nil => intro a _ x hx; simp [trace] at hx
  | cons e es ih =>
    intro a h x hx
    obtain ⟨he, _, hrest⟩ := h
    have hnext : next_node a e < n := by
      unfold next_node
      split
      · exact (hvalid e he).2
      · exact (hvalid e he).1
    simp only [trace, List.mem_cons] at hx
    rcases hx with hx | hx
    · rw [hx]; exact hnext
    · exact ih (next_node a e) hrest x hx

/-- The trace of a sequence of edges has one node for each edge. -/
theorem trace_length : ∀ (es : List Edge) (a : Nat), (trace a es).length = es.length := by
  intro es
  induction es with
  | nil => intro a; rfl
  | cons e es ih => intro a; simp [trace, ih]

/-- The weight of a sequence of stored edges, each of absolute weight at most `W`. -/
theorem follows_weight_bound (E : List Edge) (dir : Bool) (W : Int)
    (hW : ∀ e ∈ E, -W ≤ e.weight ∧ e.weight ≤ W) :
    ∀ (es : List Edge) (a : Nat), Follows E dir a es →
      -((es.length : Int) * W) ≤ weight es ∧ weight es ≤ (es.length : Int) * W := by
  intro es
  induction es with
  | nil => intro a _; simp [weight]
  | cons e es ih =>
    intro a h
    obtain ⟨he, _, hrest⟩ := h
    have h1 := hW e he
    have h2 := ih (next_node a e) hrest
    have e1 : weight (e :: es) = e.weight + weight es := by simp [weight]
    have e2 : (((e :: es).length : Nat) : Int) * W = W + (es.length : Int) * W := by
      rw [List.length_cons]
      push_cast
      ring
    rw [e1, e2]
    omega

/-- The weight of a simple path of a graph with `n` nodes whose stored edges have
absolute weight at most `W`. -/
theorem simple_path_weight_bound (n : Nat) (E : List Edge) (dir : Bool) (s d : Nat) (W : Int)
    (hvalid : ∀ e ∈ E, e.u < n ∧ e.v < n) (hs : s < n) (hW0 : 0 ≤ W)
    (hW : ∀ e ∈ E, -W ≤ e.weight ∧ e.weight ≤ W) (es : List Edge)
    (h : IsSimplePath E dir s d es) :
    -((n : Int) * W) ≤ weight es ∧ weight es ≤ (n : Int) * W := by
  obtain ⟨hf, hnd, _⟩ := h
  have hsub : (s :: trace s es) ⊆ List.range n := by
    intro x hx
    rw [List.mem_range]
    rcases List.mem_cons.1 hx with hx | hx
    · rw [hx]; exact hs
    · exact follows_trace_lt n E dir hvalid es s hf x hx
  have hlen : (s :: trace s es).length ≤ n := by
    have := (List.Nodup.subperm hnd hsub).length_le
    rwa [List.length_range] at this
  rw [List.length_cons, trace_length] at hlen
  have hb := follows_weight_bound E dir W hW es s hf
  have hmul : (es.length : Int) * W ≤ (n : Int) * W :=
    Int.mul_le_mul_of_nonneg_right (by omega) hW0
  omega

end AllPaths

/-- Counterexample to C5 as stated: on the directed graph with the stored edges
A->B of weight 1 and B->C of weight 2147483647 (at most one stored edge per ordered
pair), `printAllPaths(A, C)` logs the simple path A, B, C with the weight
-2147483648, while the weights of the two edges it follows sum to 2147483648. -/
theorem all_paths_weight_wraps :
    GraphC.printAllPaths [⟨0, 1, 1⟩, ⟨1, 2, 2147483647⟩] true 3 0 2 =
      some [([0, 1, 2], -2147483648)] ∧
    GraphC.IsSimplePath [⟨0, 1, 1⟩, ⟨1, 2, 2147483647⟩] true 0 2
      [⟨0, 1, 1⟩, ⟨1, 2, 2147483647⟩] ∧
    GraphC.weight [⟨0, 1, 1⟩, ⟨1, 2, 2147483647⟩] = 2147483648 ∧
    List.Pairwise (fun (a b : GraphC.Edge) => ¬ (a.u = b.u ∧ a.v = b.v))
      [⟨0, 1, 1⟩, ⟨1, 2, 2147483647⟩] := by
  refine ⟨by decide, ?_, by decide, by decide⟩
  refine ⟨?_, by decide, by decide⟩
  simp [GraphC.Follows, GraphC.Usable, GraphC.next_node]

/-- C5, amended: on a graph with valid edges and at most one stored edge per ordered
pair, `findAllPathsUtil(s, d, ...)` started by `printAllPaths` with an all-zero
`visited` array returns (with fuel for every node) and logs exactly one line for each
choice of stored edges that traces a simple path from `s` to `d` under the selected
interpretation (an edge is usable from its `u`, and also from its `v` when
undirected): the line holds the nodes of the path and the sum of the weights of the
edges followed reduced to the range of a C `int`, which is the sum itself whenever
the weights of every simple path from `s` to `d` sum to a value in that range. -/
theorem all_simple_paths_enumeration (n : Nat) (E : List GraphC.Edge) (is_directed : Bool)
    (fuel s d : Nat) (hvalid : ∀ e ∈ E, e.u < n ∧ e.v < n) (hs : s < n)
    (huniq : E.Pairwise (fun a b => ¬ (a.u = b.u ∧ a.v = b.v))) (hfuel : n ≤ fuel) :
    ∃ (log : List (List Nat × Int)) (sols : List (List GraphC.Edge)),
      GraphC.printAllPaths E is_directed fuel s d = some log ∧ sols.Nodup ∧
      (∀ es, es ∈ sols ↔ GraphC.IsSimplePath E is_directed s d es) ∧
      log = sols.map (fun es => (s :: GraphC.trace s es, wrap32 (GraphC.weight es))) ∧
      ((∀ es, GraphC.IsSimplePath E is_directed s d es →
          -2147483648 ≤ GraphC.weight es ∧ GraphC.weight es < 2147483648) →
        log = sols.map (fun es => (s :: GraphC.trace s es, GraphC.weight es))) := by
  have hnd : E.Nodup := by
    unfold List.Nodup
    refine List.Pairwise.imp ?_ huniq
    intro a b h hab
    exact h ⟨by rw [hab], by rw [hab]⟩
  obtain ⟨st', hst', _, _, sols, hnd2, hmem, hlog⟩ :=
    paths_util_spec n E is_directed d hvalid hnd fuel s
      { visited := fun _ => false, path := fun _ => 0, log := [] } 0 0 hs rfl
      (by rw [visited_count_none]; omega) (by unfold wrap32; omega)
  have hiff : ∀ es, es ∈ sols ↔ GraphC.IsSimplePath E is_directed s d es := by
    intro es
    rw [hmem]
    unfold GraphC.SimpleFrom GraphC.IsSimplePath
    constructor
    · rintro ⟨h1, h2, _, h4⟩
      exact ⟨h1, h2, h4⟩
    · rintro ⟨h1, h2, h4⟩
      exact ⟨h1, h2, fun _ _ => rfl, h4⟩
  have hlog2 : st'.log =
      sols.map (fun es => (s :: GraphC.trace s es, wrap32 (GraphC.weight es))) := by
    rw [hlog]
    simp
  refine ⟨st'.log, sols, ?_, hnd2, hiff, hlog2, ?_⟩
  · unfold GraphC.printAllPaths
    rw [hst']
    rfl
  · intro hrange
    rw [hlog2]
    apply List.map_congr_left
    intro es hes
    have h := hrange es ((hiff es).1 hes)
    have e : wrap32 (GraphC.weight es) = GraphC.weight es := by
      unfold wrap32
      omega
    rw [e]

/-- Witness of C5: the graph A->B(1), B->C(2), A->C(10), directed, from A to C; the
weights of a simple path sum to at most 30 in absolute value. -/
theorem all_simple_paths_enumeration_witness :
    ∃ (log : List (List Nat × Int)) (sols : List (List GraphC.Edge)),
      GraphC.printAllPaths [⟨0, 1, 1⟩, ⟨1, 2, 2⟩, ⟨0, 2, 10⟩] true 3 0 2 = some log ∧
      sols.Nodup ∧
      (∀ es, es ∈ sols ↔
        GraphC.IsSimplePath [⟨0, 1, 1⟩, ⟨1, 2, 2⟩, ⟨0, 2, 10⟩] true 0 2 es) ∧
      log = sols.map (fun es => (0 :: GraphC.trace 0 es, wrap32 (GraphC.weight es))) ∧
      log = sols.map (fun es => (0 :: GraphC.trace 0 es, GraphC.weight es)) := by
  obtain ⟨log, sols, h1, h2, h3, h4, h5⟩ :=
    all_simple_paths_enumeration 3 [⟨0, 1, 1⟩, ⟨1, 2, 2⟩, ⟨0, 2, 10⟩] true 3 0 2
      (by decide) (by decide) (by decide) (by decide)
  refine ⟨log, sols, h1, h2, h3, h4, h5 ?_⟩
  intro es hes
  have hb := simple_path_weight_bound 3 [⟨0, 1, 1⟩, ⟨1, 2, 2⟩, ⟨0, 2, 10⟩] true 0 2 10
    (by decide) (by decide) (by decide) (by decide) es hes
  omega

/-- The lines logged for the example graph, directed and undirected. -/
theorem all_simple_paths_example :
    GraphC.printAllPaths [⟨0, 1, 1⟩, ⟨1, 2, 2⟩, ⟨0, 2, 10⟩] true 3 0 2 =
      some [([0, 1, 2], 3), ([0, 2], 10)] ∧
    GraphC.printAllPaths [⟨0, 1, 1⟩, ⟨1, 2, 2⟩, ⟨0, 2, 10⟩] false 3 2 0 =
      some [([2, 1, 0], 3), ([2, 0], 10)] := by
  decide

/-! ## Linked lists: the heap predicates -/

section ListHeap
open ListC
variable {α : Type}

theorem ptr_of_append (c1 c2 : List (Nat × α)) (q : Option Nat) :
    ptr_of (c1 ++ c2) q = ptr_of c1 (ptr_of c2 q) := by
  cases c1 <;> rfl

theorem last_of_append (c1 c2 : List (Nat × α)) (pv : Option Nat) :
    last_of pv (c1 ++ c2) = last_of (last_of pv c1) c2 := by
  induction c1 generalizing pv with
  | nil => rfl
  | cons c c1 ih =>
    rw [List.cons_append]
    simp only [last_of]
    exact ih _

theorem dseg_append (h : Heap α) (c1 c2 : List (Nat × α)) (pv q : Option Nat) :
    DSeg h pv (c1 ++ c2) q ↔ DSeg h pv c1 (ptr_of c2 q) ∧ DSeg h (last_of pv c1) c2 q := by
  induction c1 generalizing pv with
  | nil => simp [DSeg, last_of]
  | cons c c1 ih =>
    rw [List.cons_append]
    simp only [DSeg, last_of]
    rw [ih, ptr_of_append]
    tauto

theorem dseg_frame (h h' : Heap α) (cells : List (Nat × α)) (pv q : Option Nat)
    (hagree : ∀ a ∈ cells.map Prod.fst, h' a = h a) (hseg : DSeg h pv cells q) :
    DSeg h' pv cells q := by
  induction cells generalizing pv with
  | nil => trivial
  | cons c rest ih =>
    simp only [DSeg] at hseg ⊢
    refine ⟨?_, ih _ (fun a ha => hagree a (by simp only [List.map_cons, List.mem_cons]; right; exact ha)) hseg.2⟩
    rw [hagree c.1 (by simp)]
    exact hseg.1

/-- The nodes of a segment are allocated. -/
theorem dseg_alloc (h : Heap α) (cells : List (Nat × α)) (pv q : Option Nat)
    (hseg : DSeg h pv cells q) : ∀ a ∈ cells.map Prod.fst, ∃ nd, h a = some nd := by
  induction cells generalizing pv with
  | nil =>
    intro a ha
    simp at ha
  | cons c rest ih =>
    intro a ha
    simp only [DSeg] at hseg
    simp only [List.map_cons, List.mem_cons] at ha
    rcases ha with h1 | h1
    · rw [h1]
      exact ⟨_, hseg.1⟩
    · exact ih _ hseg.2 a h1

theorem hasCells_lt (st : ListState α) (cells : List (Nat × α)) (hc : HasCells st cells) :
    ∀ a ∈ cells.map Prod.fst, a < st.brk := by
  intro a ha
  obtain ⟨nd, hnd⟩ := dseg_alloc st.heap cells none none hc.2.1 a ha
  by_contra hge
  have := hc.2.2.2 a (by omega)
  rw [this] at hnd
  exact absurd hnd (by simp)

/-- The walk of `k` steps along a list ending in `NULL`. -/
theorem walk_dseg (h : Heap α) :
    ∀ (k : Nat) (cells : List (Nat × α)) (pv : Option Nat), DSeg h pv cells none →
      walk h k (ptr_of cells none) = some (ptr_of (cells.drop k) none) := by
  intro k
  induction k with
  | zero =>
    intro cells pv _
    simp [walk]
  | succ k ih =>
    intro cells pv hseg
    cases cells with
    | nil => simp [walk, ptr_of]
    | cons c rest =>
      simp only [DSeg] at hseg
      simp only [ptr_of, walk, rd_next, hseg.1, Option.map_some', List.drop_succ_cons]
      exact ih rest _ hseg.2

/-- The end of a non-empty list ending in `NULL`. -/
theorem find_last_dseg (h : Heap α) :
    ∀ (cells : List (Nat × α)) (c : Nat × α) (pv : Option Nat) (fuel : Nat),
      DSeg h pv (c :: cells) none → cells.length < fuel →
      find_last h fuel c.1 = last_of pv (c :: cells) := by
  intro cells
  induction cells with
  | nil =>
    intro c pv fuel hseg hfuel
    obtain ⟨f, rfl⟩ : ∃ f, fuel = f + 1 := ⟨fuel - 1, by omega⟩
    simp only [DSeg] at hseg
    simp [find_last, rd_next, hseg.1, ptr_of, last_of]
  | cons c2 cells ih =>
    intro c pv fuel hseg hfuel
    obtain ⟨f, rfl⟩ : ∃ f, fuel = f + 1 := ⟨fuel - 1, by omega⟩
    simp only [DSeg] at hseg
    simp only [find_last, rd_next, hseg.1, ptr_of, last_of, Option.map_some']
    have := ih c2 (some c.1) f (by simp only [DSeg]; exact hseg.2)
      (by simp only [List.length_cons] at hfuel; omega)
    rw [this]
    simp [last_of]

theorem cells_length_le (st : ListState α) (cells : List (Nat × α)) (hc : HasCells st cells) :
    cells.length ≤ st.brk := by
  have := nodup_length_le st.brk (cells.map Prod.fst) hc.2.2.1 (hasCells_lt st cells hc)
  simpa using this

end ListHeap

/-! ## Linked lists: insertion and deletion -/

section ListOps
open ListC
variable {α : Type}

/-- The function `prepend_node` puts a fresh node in front. -/
theorem prepend_node_spec (st : ListState α) (cells : List (Nat × α)) (v : α)
    (hc : HasCells st cells) :
    ∃ st', prepend_node v st = some st' ∧ HasCells st' ((st.brk, v) :: cells) ∧
      st'.brk = st.brk + 1 := by
  obtain ⟨hhead, hseg, hnd, halloc⟩ := hc
  have hlt := hasCells_lt st cells ⟨hhead, hseg, hnd, halloc⟩
  have hfresh : ∀ a ∈ cells.map Prod.fst, a ≠ st.brk := fun a ha => by
    have := hlt a ha
    omega
  cases cells with
  | nil =>
    simp only [ptr_of] at hhead
    simp only [prepend_node, create_node, set_next, aset_same, hhead, Option.map_some',
      Option.bind_eq_bind, Option.some_bind, Option.some.injEq, exists_eq_left']
    refine ⟨?_, trivial⟩
    refine ⟨rfl, ?_, by simp, ?_⟩
    · simp [DSeg, ptr_of, aset_same]
    · intro a ha
      dsimp only at ha ⊢
      rw [aset_other _ _ _ _ (by omega), aset_other _ _ _ _ (by omega)]
      exact halloc a (by omega)
  | cons c rest =>
    obtain ⟨a, x⟩ := c
    simp only [ptr_of] at hhead
    simp only [DSeg] at hseg
    have haf : a ≠ st.brk := hfresh a (by simp)
    have hab : a < st.brk := hlt a (by simp)
    have h1 : (aset (aset st.heap st.brk (some ⟨v, none, none⟩)) st.brk
        (some ⟨v, some a, none⟩)) a = some ⟨x, ptr_of rest none, none⟩ := by
      rw [aset_other _ _ _ _ haf, aset_other _ _ _ _ haf]
      exact hseg.1
    simp only [prepend_node, create_node, set_next, set_prev, aset_same, hhead, h1,
      Option.map_some', Option.bind_eq_bind, Option.some_bind, Option.some.injEq,
      exists_eq_left']
    refine ⟨?_, trivial⟩
    refine ⟨rfl, ?_, ?_, ?_⟩
    · simp only [DSeg, ptr_of]
      refine ⟨?_, ?_, ?_⟩
      · rw [aset_other _ _ _ _ (Ne.symm haf), aset_same]
      · rw [aset_same]
      · apply dseg_frame st.heap _ rest _ _ _ hseg.2
        intro z hz
        have hzf : z ≠ st.brk := hfresh z (by simp [hz])
        have hza : z ≠ a := by
          intro h
          rw [h] at hz
          simp only [List.map_cons, List.nodup_cons] at hnd
          exact hnd.1 hz
        rw [aset_other _ _ _ _ hza, aset_other _ _ _ _ hzf, aset_other _ _ _ _ hzf]
    · simp only [List.map_cons, List.nodup_cons]
      refine ⟨?_, by simpa using hnd⟩
      intro hmem
      exact hfresh st.brk (by simpa using hmem) rfl
    · intro z hz
      dsimp only at hz ⊢
      rw [aset_other _ _ _ _ (by omega), aset_other _ _ _ _ (by omega),
        aset_other _ _ _ _ (by omega)]
      exact halloc z (by omega)

theorem nodup_split (c1 c2 : List (Nat × α)) (c : Nat × α)
    (hnd : ((c1 ++ c :: c2).map Prod.fst).Nodup) :
    c.1 ∉ c1.map Prod.fst ∧ c.1 ∉ c2.map Prod.fst ∧ (c1.map Prod.fst).Nodup ∧
    (c2.map Prod.fst).Nodup ∧ ∀ z ∈ c1.map Prod.fst, z ∉ c2.map Prod.fst := by
  simp only [List.map_append, List.map_cons, List.nodup_append, List.nodup_cons] at hnd
  obtain ⟨h1, ⟨h2, h3⟩, h4⟩ := hnd
  refine ⟨?_, h2, h1, h3, ?_⟩
  · intro hmem
    exact h4 hmem (List.mem_cons_self _ _)
  · intro z hz1 hz2
    exact h4 hz1 (List.mem_cons_of_mem _ hz2)

/-- The block `splice_after` links a fresh node in after the node it is given. -/
theorem splice_after_spec (st : ListState α) (c1 c2 : List (Nat × α)) (a : Nat) (x v : α)
    (hc : HasCells st (c1 ++ (a, x) :: c2)) :
    ∃ st', splice_after a v st = some st' ∧
      HasCells st' (c1 ++ (a, x) :: (st.brk, v) :: c2) ∧ st'.brk = st.brk + 1 := by
  have hlt := hasCells_lt st _ hc
  obtain ⟨hhead, hseg, hnd, halloc⟩ := hc
  have hfresh : ∀ z ∈ (c1 ++ (a, x) :: c2).map Prod.fst, z ≠ st.brk := fun z hz => by
    have := hlt z hz
    omega
  obtain ⟨hn1, hn2, hn3, hn4, hn5⟩ := nodup_split c1 c2 (a, x) hnd
  rw [dseg_append] at hseg
  obtain ⟨hseg1, hseg2⟩ := hseg
  simp only [DSeg] at hseg2
  obtain ⟨ha, hseg2⟩ := hseg2
  have haf : a ≠ st.brk := hfresh a (by simp)
  have e1 : ∀ (arr : Heap α) (y : Option (Node α)), aset arr st.brk y a = arr a :=
    fun arr y => aset_other arr _ _ y haf
  have hfr1 : ∀ z ∈ c1.map Prod.fst, z ≠ st.brk ∧ z ≠ a := by
    intro z hz
    refine ⟨hfresh z (by simp only [List.map_append, List.mem_append]; left; exact hz), ?_⟩
    intro h
    rw [h] at hz
    exact hn1 hz
  have hnd' : ((c1 ++ (a, x) :: (st.brk, v) :: c2).map Prod.fst).Nodup := by
    simp only [List.map_append, List.map_cons, List.nodup_append, List.nodup_cons,
      List.mem_cons, not_or]
    refine ⟨hn3, ⟨⟨haf, hn2⟩, ?_, hn4⟩, ?_⟩
    · intro hmem
      exact hfresh st.brk (by
        simp only [List.map_append, List.map_cons, List.mem_append, List.mem_cons]
        right; right; exact hmem) rfl
    · intro z hz1 hz2
      simp only [List.mem_cons] at hz2
      rcases hz2 with h | h | h
      · exact (hfr1 z hz1).2 h
      · exact (hfr1 z hz1).1 h
      · exact hn5 z hz1 h
  cases c2 with
  | nil =>
    simp only [ptr_of] at ha
    simp only [splice_after, create_node, rd_next, set_next, set_prev, e1, ha, aset_same,
      Option.map_some', Option.bind_eq_bind, Option.some_bind, Option.some.injEq,
      exists_eq_left']
    refine ⟨?_, trivial⟩
    refine ⟨?_, ?_, hnd', ?_⟩
    · rw [hhead]
      simp only [ptr_of_append]
      rfl
    · rw [dseg_append]
      constructor
      · apply dseg_frame st.heap _ c1 _ _ _ hseg1
        intro z hz
        obtain ⟨hz1, hz2⟩ := hfr1 z hz
        dsimp only
        rw [aset_other _ _ _ _ hz2, aset_other _ _ _ _ hz1, aset_other _ _ _ _ hz1,
          aset_other _ _ _ _ hz1]
      · simp only [DSeg, ptr_of, and_true]
        refine ⟨by rw [aset_same], ?_⟩
        rw [aset_other _ _ _ _ (Ne.symm haf), aset_same]
    · intro z hz
      dsimp only at hz ⊢
      have := hlt a (by simp)
      rw [aset_other _ _ _ _ (by omega), aset_other _ _ _ _ (by omega),
        aset_other _ _ _ _ (by omega), aset_other _ _ _ _ (by omega)]
      exact halloc z (by omega)
  | cons c c2 =>
    obtain ⟨b, y⟩ := c
    simp only [ptr_of] at ha
    simp only [DSeg] at hseg2
    obtain ⟨hb, hseg3⟩ := hseg2
    have hbf : b ≠ st.brk := hfresh b (by simp)
    have hba : b ≠ a := by
      intro h
      apply hn2
      simp [h]
    have e2 : ∀ (arr : Heap α) (y : Option (Node α)), aset arr st.brk y b = arr b :=
      fun arr y => aset_other arr _ _ y hbf
    have e3 : ∀ (arr : Heap α) (y : Option (Node α)), aset arr b y a = arr a :=
      fun arr y => aset_other arr _ _ y (Ne.symm hba)
    simp only [splice_after, create_node, rd_next, set_next, set_prev, e1, e2, e3, ha, hb,
      aset_same, Option.map_some', Option.bind_eq_bind, Option.some_bind, Option.some.injEq,
      exists_eq_left']
    refine ⟨?_, trivial⟩
    have hfr2 : ∀ z ∈ c2.map Prod.fst, z ≠ st.brk ∧ z ≠ a ∧ z ≠ b := by
      intro z hz
      refine ⟨hfresh z (by
        simp only [List.map_append, List.map_cons, List.mem_append, List.mem_cons]
        right; right; right; exact hz), ?_, ?_⟩
      · intro h
        apply hn2
        rw [← h]
        simp [hz]
      · intro h
        rw [h] at hz
        simp only [List.map_cons, List.nodup_cons] at hn4
        exact hn4.1 hz
    refine ⟨?_, ?_, hnd', ?_⟩
    · rw [hhead]
      simp only [ptr_of_append]
      rfl
    · rw [dseg_append]
      constructor
      · apply dseg_frame st.heap _ c1 _ _ _ hseg1
        intro z hz
        obtain ⟨hz1, hz2⟩ := hfr1 z hz
        have hz3 : z ≠ b := by
          intro h
          apply hn5 z hz
          simp [h]
        dsimp only
        rw [aset_other _ _ _ _ hz2, aset_other _ _ _ _ hz3, aset_other _ _ _ _ hz1,
          aset_other _ _ _ _ hz1, aset_other _ _ _ _ hz1]
      · simp only [DSeg, ptr_of]
        refine ⟨by rw [aset_same], ?_, ?_, ?_⟩
        · rw [aset_other _ _ _ _ (Ne.symm haf), aset_other _ _ _ _ (Ne.symm hbf), aset_same]
        · rw [aset_other _ _ _ _ hba, aset_same]
        · apply dseg_frame st.heap _ c2 _ _ _ hseg3
          intro z hz
          obtain ⟨hz1, hz2, hz3⟩ := hfr2 z hz
          rw [aset_other _ _ _ _ hz2, aset_other _ _ _ _ hz3, aset_other _ _ _ _ hz1,
            aset_other _ _ _ _ hz1, aset_other _ _ _ _ hz1]
    · intro z hz
      dsimp only at hz ⊢
      have := hlt a (by simp)
      have := hlt b (by simp)
      rw [aset_other _ _ _ _ (by omega), aset_other _ _ _ _ (by omega),
        aset_other _ _ _ _ (by omega), aset_other _ _ _ _ (by omega),
        aset_other _ _ _ _ (by omega)]
      exact halloc z (by omega)

/-- The function `append_node` puts a fresh node behind the last one. -/
theorem append_node_spec (st : ListState α) (cells : List (Nat × α)) (v : α)
    (hc : HasCells st cells) :
    ∃ st', append_node v st = some st' ∧ HasCells st' (cells ++ [(st.brk, v)]) ∧
      st'.brk = st.brk + 1 := by
  have hlt := hasCells_lt st _ hc
  have hlen := cells_length_le st cells hc
  obtain ⟨hhead, hseg, hnd, halloc⟩ := hc
  have hfresh : ∀ z ∈ cells.map Prod.fst, z ≠ st.brk := fun z hz => by
    have := hlt z hz
    omega
  have hfr : ∀ z ∈ cells.map Prod.fst, ∀ (arr : Heap α) (y : Option (Node α)),
      aset arr st.brk y z = arr z := fun z hz arr y => aset_other arr _ _ y (hfresh z hz)
  cases cells with
  | nil =>
    simp only [ptr_of] at hhead
    simp only [append_node, create_node, hhead, Option.some.injEq, exists_eq_left']
    refine ⟨⟨rfl, ?_, by simp, ?_⟩, trivial⟩
    · simp [DSeg, ptr_of, aset_same]
    · intro z hz
      dsimp only at hz ⊢
      rw [aset_other _ _ _ _ (by omega)]
      exact halloc z (by omega)
  | cons c0 rest =>
    rcases List.eq_nil_or_concat (c0 :: rest) with hnil | ⟨init, c, hcells⟩
    · exact absurd hnil (by simp)
    obtain ⟨l, y⟩ := c
    rw [List.concat_eq_append] at hcells
    have hseg' := hseg
    rw [hcells, dseg_append] at hseg'
    obtain ⟨hseg1, hseg2⟩ := hseg'
    simp only [DSeg, ptr_of, and_true] at hseg2
    have hlf : l ≠ st.brk := hfresh l (by rw [hcells]; simp)
    have hlb : l < st.brk := hlt l (by rw [hcells]; simp)
    obtain ⟨hn1, _, hn3, _, _⟩ := nodup_split init [] (l, y) (by rw [← hcells]; exact hnd)
    have hseg0 : DSeg (aset st.heap st.brk (some ⟨v, none, none⟩)) none (c0 :: rest) none :=
      dseg_frame st.heap _ _ _ _ (fun z hz => hfr z hz _ _) hseg
    have hlast : find_last (aset st.heap st.brk (some ⟨v, none, none⟩)) (st.brk + 1 + 1) c0.1
        = some l := by
      rw [find_last_dseg _ rest c0 none _ hseg0 (by simp at hlen; omega)]
      rw [hcells, last_of_append]
      rfl
    simp only [ptr_of] at hhead
    have e1 : ∀ (arr : Heap α) (y : Option (Node α)), aset arr st.brk y l = arr l :=
      fun arr y => aset_other arr _ _ y hlf
    have e2 : ∀ (arr : Heap α) (y : Option (Node α)), aset arr l y st.brk = arr st.brk :=
      fun arr y => aset_other arr _ _ y (Ne.symm hlf)
    simp only [append_node, create_node, hhead, hlast, set_next, set_prev, e1, e2, hseg2,
      aset_same, Option.map_some', Option.bind_eq_bind, Option.some_bind, Option.some.injEq,
      exists_eq_left']
    refine ⟨⟨?_, ?_, ?_, ?_⟩, trivial⟩
    · rfl
    · dsimp only
      rw [hcells, List.append_assoc, dseg_append]
      constructor
      · apply dseg_frame st.heap _ init _ _ _ hseg1
        intro z hz
        have hz1 : z ≠ st.brk := hfresh z (by rw [hcells]; simp [hz])
        have hz2 : z ≠ l := by
          intro h
          rw [h] at hz
          exact hn1 hz
        rw [aset_other _ _ _ _ hz1, aset_other _ _ _ _ hz2, aset_other _ _ _ _ hz1]
      · simp only [List.singleton_append, DSeg, ptr_of, and_true]
        refine ⟨?_, by rw [aset_same]⟩
        rw [aset_other _ _ _ _ hlf, aset_same]
        rfl
    · rw [List.map_append]
      refine List.Nodup.append hnd (List.nodup_singleton _) ?_
      intro z hz1 hz2
      simp only [List.map_cons, List.map_nil, List.mem_singleton] at hz2
      exact hfresh z hz1 hz2
    · intro z hz
      dsimp only at hz ⊢
      rw [aset_other _ _ _ _ (by omega), aset_other _ _ _ _ (by omega),
        aset_other _ _ _ _ (by omega)]
      exact halloc z (by omega)

/-- The function `delete_node(0)` unlinks and frees the first node. -/
theorem delete_head_spec (st : ListState α) (a : Nat) (x : α) (c2 : List (Nat × α))
    (hc : HasCells st ((a, x) :: c2)) :
    ∃ st', delete_node 0 st = some st' ∧ HasCells st' c2 ∧ st'.brk = st.brk := by
  have hlt := hasCells_lt st _ hc
  obtain ⟨hhead, hseg, hnd, halloc⟩ := hc
  simp only [ptr_of] at hhead
  simp only [DSeg] at hseg
  obtain ⟨ha, hseg2⟩ := hseg
  simp only [List.map_cons, List.nodup_cons] at hnd
  cases c2 with
  | nil =>
    simp only [ptr_of] at ha
    simp only [delete_node, hhead, rd_next, ha, if_true, Option.map_some', Option.bind_eq_bind,
      Option.some_bind, Option.some.injEq, exists_eq_left']
    refine ⟨⟨rfl, trivial, by simp, ?_⟩, trivial⟩
    intro z hz
    dsimp only at hz ⊢
    by_cases hza : z = a
    · rw [hza, aset_same]
    · rw [aset_other _ _ _ _ hza]
      exact halloc z hz
  | cons c c2 =>
    obtain ⟨b, y⟩ := c
    simp only [ptr_of] at ha
    simp only [DSeg] at hseg2
    obtain ⟨hb, hseg3⟩ := hseg2
    have hba : b ≠ a := by
      intro h
      apply hnd.1
      simp [h]
    simp only [delete_node, hhead, rd_next, set_prev, ha, hb, if_true, Option.map_some',
      Option.bind_eq_bind, Option.some_bind, Option.some.injEq, exists_eq_left']
    refine ⟨⟨rfl, ?_, hnd.2, ?_⟩, trivial⟩
    · simp only [DSeg]
      refine ⟨by rw [aset_other _ _ _ _ hba, aset_same], ?_⟩
      apply dseg_frame st.heap _ c2 _ _ _ hseg3
      intro z hz
      have hzb : z ≠ b := by
        intro h
        rw [h] at hz
        simp only [List.map_cons, List.nodup_cons] at hnd
        exact hnd.2.1 hz
      have hza : z ≠ a := by
        intro h
        apply hnd.1
        rw [← h]
        simp [hz]
      rw [aset_other _ _ _ _ hza, aset_other _ _ _ _ hzb]
    · intro z hz
      dsimp only at hz ⊢
      have := hlt b (by simp)
      by_cases hza : z = a
      · rw [hza, aset_same]
      · rw [aset_other _ _ _ _ hza, aset_other _ _ _ _ (by omega)]
        exact halloc z hz

/-- The function `delete_node(idx)` unlinks and frees a node that has a
predecessor. -/
theorem delete_mid_spec (st : ListState α) (init : List (Nat × α)) (p : Nat) (z : α)
    (a : Nat) (x : α) (c2 : List (Nat × α)) (idx : Int)
    (hidx : idx.toNat = init.length + 1)
    (hc : HasCells st (init ++ (p, z) :: (a, x) :: c2)) :
    ∃ st', delete_node idx st = some st' ∧ HasCells st' (init ++ (p, z) :: c2) ∧
      st'.brk = st.brk := by
  have hlt := hasCells_lt st _ hc
  obtain ⟨hhead, hseg, hnd, halloc⟩ := hc
  have hidx0 : ¬ idx = 0 := by omega
  have hwalk := walk_dseg st.heap idx.toNat _ none hseg
  rw [← hhead] at hwalk
  have hdrop : (init ++ (p, z) :: (a, x) :: c2).drop idx.toNat = (a, x) :: c2 := by
    rw [hidx]
    have : init ++ (p, z) :: (a, x) :: c2 = (init ++ [(p, z)]) ++ (a, x) :: c2 := by simp
    rw [this, List.drop_left' (by simp)]
  rw [hdrop] at hwalk
  simp only [ptr_of] at hwalk
  obtain ⟨hn1, hn2, hn3, hn4, hn5⟩ := nodup_split init ((a, x) :: c2) (p, z) hnd
  simp only [List.map_cons, List.nodup_cons, List.mem_cons, not_or] at hn2 hn4
  have hseg' := hseg
  rw [dseg_append] at hseg'
  obtain ⟨hseg1, hseg2⟩ := hseg'
  simp only [DSeg, ptr_of] at hseg2
  obtain ⟨hp, ha, hseg3⟩ := hseg2
  have hap : a ≠ p := fun h => hn2.1 h.symm
  have hhd : ∃ hd, st.head = some hd := by
    rw [hhead]
    cases init <;> exact ⟨_, rfl⟩
  obtain ⟨hd, hhd⟩ := hhd
  have e1 : ∀ (arr : Heap α) (y : Option (Node α)), aset arr p y a = arr a :=
    fun arr y => aset_other arr _ _ y hap
  have hfr1 : ∀ w ∈ init.map Prod.fst, w ≠ p ∧ w ≠ a := by
    intro w hw
    constructor
    · intro h
      rw [h] at hw
      exact hn1 hw
    · intro h
      apply hn5 w hw
      simp [h]
  have hnd' : ((init ++ (p, z) :: c2).map Prod.fst).Nodup := by
    simp only [List.map_append, List.map_cons, List.nodup_append, List.nodup_cons]
    refine ⟨hn3, ⟨hn2.2, hn4.2⟩, ?_⟩
    intro w hw1 hw2
    rcases List.mem_cons.1 hw2 with h | h
    · exact hn1 (by rw [← h]; exact hw1)
    · exact hn5 w hw1 (by simp [h])
  cases c2 with
  | nil =>
    simp only [ptr_of] at ha hp ⊢
    simp only [delete_node, hhd, hidx0, if_false]
    rw [← hhd, hwalk]
    simp only [rd_prev, rd_next, set_next, e1, ha, hp, Option.map_some', Option.bind_eq_bind,
      Option.some_bind, Option.some.injEq, exists_eq_left']
    refine ⟨⟨?_, ?_, hnd', ?_⟩, trivial⟩
    · dsimp only
      rw [hhead]
      simp only [ptr_of_append]
      rfl
    · dsimp only
      rw [dseg_append]
      constructor
      · apply dseg_frame st.heap _ init _ _ _ hseg1
        intro w hw
        obtain ⟨hw1, hw2⟩ := hfr1 w hw
        rw [aset_other _ _ _ _ hw2, aset_other _ _ _ _ hw1]
      · simp only [DSeg, ptr_of, and_true]
        rw [aset_other _ _ _ _ (Ne.symm hap), aset_same]
    · intro w hw
      dsimp only at hw ⊢
      have := hlt p (by simp)
      by_cases hwa : w = a
      · rw [hwa, aset_same]
      · rw [aset_other _ _ _ _ hwa, aset_other _ _ _ _ (by omega)]
        exact halloc w hw
  | cons c c2 =>
    obtain ⟨b, y⟩ := c
    simp only [ptr_of] at ha hp ⊢
    simp only [DSeg] at hseg3
    obtain ⟨hb, hseg4⟩ := hseg3
    simp only [List.map_cons, List.nodup_cons, List.mem_cons, not_or] at hn2 hn4
    have hbp : b ≠ p := fun h => hn2.2.1 h.symm
    have hba : b ≠ a := fun h => hn4.1.1 h.symm
    have e2 : ∀ (arr : Heap α) (y : Option (Node α)), aset arr p y b = arr b :=
      fun arr y => aset_other arr _ _ y hbp
    simp only [delete_node, hhd, hidx0, if_false]
    rw [← hhd, hwalk]
    simp only [rd_prev, rd_next, set_next, set_prev, e1, e2, ha, hp, hb, Option.map_some',
      Option.bind_eq_bind, Option.some_bind, Option.some.injEq, exists_eq_left']
    refine ⟨⟨?_, ?_, hnd', ?_⟩, trivial⟩
    · dsimp only
      rw [hhead]
      simp only [ptr_of_append]
      rfl
    · dsimp only
      rw [dseg_append]
      constructor
      · apply dseg_frame st.heap _ init _ _ _ hseg1
        intro w hw
        obtain ⟨hw1, hw2⟩ := hfr1 w hw
        have hw3 : w ≠ b := by
          intro h
          apply hn5 w hw
          simp [h]
        rw [aset_other _ _ _ _ hw2, aset_other _ _ _ _ hw3, aset_other _ _ _ _ hw1]
      · simp only [DSeg, ptr_of]
        refine ⟨?_, ?_, ?_⟩
        · rw [aset_other _ _ _ _ (Ne.symm hap), aset_other _ _ _ _ (Ne.symm hbp), aset_same]
        · rw [aset_other _ _ _ _ hba, aset_same]
        · apply dseg_frame st.heap _ c2 _ _ _ hseg4
          intro w hw
          have hw1 : w ≠ p := fun h => hn2.2.2 (by rw [← h]; exact hw)
          have hw2 : w ≠ a := fun h => hn4.1.2 (by rw [← h]; exact hw)
          have hw3 : w ≠ b := fun h => hn4.2.1 (by rw [← h]; exact hw)
          rw [aset_other _ _ _ _ hw2, aset_other _ _ _ _ hw3, aset_other _ _ _ _ hw1]
    · intro w hw
      dsimp only at hw ⊢
      have := hlt p (by simp)
      have := hlt b (by simp)
      by_cases hwa : w = a
      · rw [hwa, aset_same]
      · rw [aset_other _ _ _ _ hwa, aset_other _ _ _ _ (by omega),
          aset_other _ _ _ _ (by omega)]
        exact halloc w hw

/-- The function `delete_node(idx)` leaves the list alone when `idx` is beyond its
end. -/
theorem delete_beyond_spec (st : ListState α) (cells : List (Nat × α)) (idx : Int)
    (hidx : cells.length ≤ idx.toNat) (hc : HasCells st cells) :
    delete_node idx st = some st := by
  obtain ⟨hhead, hseg, hnd, halloc⟩ := hc
  cases cells with
  | nil =>
    simp only [ptr_of] at hhead
    simp [delete_node, hhead]
  | cons c rest =>
    have hwalk := walk_dseg st.heap idx.toNat _ none hseg
    rw [← hhead, List.drop_of_length_le hidx] at hwalk
    simp only [ptr_of] at hhead hwalk
    have hidx0 : ¬ idx = 0 := by
      simp only [List.length_cons] at hidx
      omega
    simp only [delete_node, hhead, hidx0, if_false]
    rw [← hhead, hwalk]

/-- The effect of `delete_node(idx)` for every index `idx ≥ 0`. -/
theorem delete_node_spec (st : ListState α) (cells : List (Nat × α)) (idx : Int)
    (hpos : 0 ≤ idx) (hc : HasCells st cells) :
    ∃ st', delete_node idx st = some st' ∧ HasCells st' (cells.eraseIdx idx.toNat) ∧
      st'.brk = st.brk := by
  by_cases hlen : cells.length ≤ idx.toNat
  · rw [List.eraseIdx_of_length_le hlen]
    exact ⟨st, delete_beyond_spec st cells idx hlen hc, hc, rfl⟩
  · have hlt : idx.toNat < cells.length := by omega
    have hsplit : cells = cells.take idx.toNat ++ cells[idx.toNat] :: cells.drop (idx.toNat + 1) := by
      rw [← List.drop_eq_getElem_cons hlt, List.take_append_drop]
    rw [List.eraseIdx_eq_take_drop_succ]
    by_cases h0 : idx = 0
    · subst h0
      simp only [Int.toNat_zero, List.take_zero, List.nil_append, zero_add] at hsplit ⊢
      rw [hsplit] at hc
      exact delete_head_spec st _ _ _ hc
    · rcases List.eq_nil_or_concat (cells.take idx.toNat) with hnil | ⟨init, c, htake⟩
      · exfalso
        have := congrArg List.length hnil
        simp only [List.length_take, List.length_nil] at this
        omega
      · rw [List.concat_eq_append] at htake
        rw [htake] at hsplit ⊢
        have hlen2 : idx.toNat = init.length + 1 := by
          have := congrArg List.length htake
          simp only [List.length_take, List.length_append, List.length_singleton] at this
          omega
        rw [hsplit] at hc
        simp only [List.append_assoc, List.singleton_append] at hc ⊢
        exact delete_mid_spec st init c.1 c.2 _ _ _ idx hlen2 hc

end ListOps

/-! ## Linked lists: claims on insertion and deletion -/

section ListInsert
open ListC
variable {α : Type}

/-- The effect of `insert_at(idx, data)` for every index. -/
theorem insert_at_spec (st : ListState α) (cells : List (Nat × α)) (idx : Int) (v : α)
    (hc : HasCells st cells) :
    ∃ st', insert_at idx v st = some st' ∧
      HasCells st' (cells.take idx.toNat ++ (st.brk, v) :: cells.drop idx.toNat) ∧
      st'.brk = st.brk + 1 := by
  unfold insert_at
  by_cases h0 : idx ≤ 0
  · rw [if_pos h0]
    have : idx.toNat = 0 := by omega
    rw [this]
    simpa using prepend_node_spec st cells v hc
  · rw [if_neg h0]
    have hwalk := walk_dseg st.heap (idx - 1).toNat cells none hc.2.1
    rw [← hc.1] at hwalk
    rw [hwalk]
    have hk : idx.toNat = (idx - 1).toNat + 1 := by omega
    by_cases hlen : cells.length ≤ (idx - 1).toNat
    · rw [List.drop_of_length_le hlen]
      simp only [ptr_of]
      rw [List.take_of_length_le (by omega), List.drop_of_length_le (by omega)]
      exact append_node_spec st cells v hc
    · have hlt : (idx - 1).toNat < cells.length := by omega
      rw [List.drop_eq_getElem_cons hlt]
      simp only [ptr_of]
      have hsplit : cells = cells.take (idx - 1).toNat ++
          cells[(idx - 1).toNat] :: cells.drop ((idx - 1).toNat + 1) := by
        rw [← List.drop_eq_getElem_cons hlt, List.take_append_drop]
      have hres : cells.take idx.toNat ++ (st.brk, v) :: cells.drop idx.toNat =
          cells.take (idx - 1).toNat ++
            (cells[(idx - 1).toNat].1, cells[(idx - 1).toNat].2) :: (st.brk, v) ::
              cells.drop ((idx - 1).toNat + 1) := by
        have e1 : cells.take ((idx - 1).toNat + 1) =
            cells.take (idx - 1).toNat ++ [cells[(idx - 1).toNat]] := by
          rw [List.take_succ, List.getElem?_eq_getElem hlt]
          rfl
        rw [hk, e1, List.append_assoc]
        rfl
      rw [hres]
      apply splice_after_spec
      rw [← hsplit]
      exact hc

theorem isList_length (l : List α) (cells : List (Nat × α))
    (h : cells.map Prod.snd = l) : cells.length = l.length := by
  rw [← h]
  simp

/-- The state of a well-formed list reads back as its value sequence. -/
theorem values_from_dseg (h : Heap α) :
    ∀ (cells : List (Nat × α)) (pv : Option Nat) (fuel : Nat), DSeg h pv cells none →
      cells.length ≤ fuel →
      values_from h fuel (ptr_of cells none) = some (cells.map Prod.snd) := by
  intro cells
  induction cells with
  | nil =>
    intro pv fuel _ _
    cases fuel <;> simp [values_from, ptr_of]
  | cons c rest ih =>
    intro pv fuel hseg hfuel
    obtain ⟨f, rfl⟩ : ∃ f, fuel = f + 1 := ⟨fuel - 1, by simp at hfuel; omega⟩
    simp only [DSeg] at hseg
    have hptr : ptr_of (c :: rest) none = some c.1 := rfl
    rw [hptr]
    simp only [values_from, hseg.1]
    rw [ih (some c.1) f hseg.2 (by simp at hfuel; omega)]
    simp

theorem to_list_of_isList (st : ListState α) (l : List α) (h : IsList st l) :
    to_list st = some l := by
  obtain ⟨cells, hc, hl⟩ := h
  unfold to_list
  rw [hc.1, values_from_dseg st.heap cells none st.brk hc.2.1 (cells_length_le st cells hc), hl]

theorem isList_two_nodes : IsList two_nodes [10, 20] := by
  refine ⟨[(0, 10), (1, 20)], ⟨rfl, ?_, by decide, ?_⟩, rfl⟩
  · simp [DSeg, ptr_of, two_nodes]
  · intro a ha
    have h0 : a ≠ 0 := by
      simp only [two_nodes] at ha
      omega
    have h1 : a ≠ 1 := by
      simp only [two_nodes] at ha
      omega
    simp [two_nodes, h0, h1]

end ListInsert

/-- C8: on every well-formed list `l`, for every integer `idx` and value `v`,
`insert_at(idx, v)` returns and leaves the list `l` with `v` inserted at position
`k`, where `k = 0` if `idx ≤ 0`, `k = length l` if `idx ≥ length l` and `k = idx`
otherwise; the length grows by exactly one. -/
theorem insert_at_position {α : Type} (st : ListC.ListState α) (l : List α) (idx : Int)
    (v : α) (h : ListC.IsList st l) :
    ∃ st', ListC.insert_at idx v st = some st' ∧
      ListC.IsList st'
        (l.take (if idx ≤ 0 then 0 else if (l.length : Int) ≤ idx then l.length else idx.toNat)
          ++ v ::
         l.drop (if idx ≤ 0 then 0 else if (l.length : Int) ≤ idx then l.length else idx.toNat))
      ∧ (l.take (if idx ≤ 0 then 0 else if (l.length : Int) ≤ idx then l.length else idx.toNat)
          ++ v ::
         l.drop (if idx ≤ 0 then 0 else if (l.length : Int) ≤ idx then l.length
          else idx.toNat)).length = l.length + 1 := by
  obtain ⟨cells, hc, hl⟩ := h
  obtain ⟨st', hrun, hc', _⟩ := insert_at_spec st cells idx v hc
  have hlen := isList_length l cells hl
  have hk : l.take (if idx ≤ 0 then 0 else if (l.length : Int) ≤ idx then l.length
        else idx.toNat) ++ v ::
      l.drop (if idx ≤ 0 then 0 else if (l.length : Int) ≤ idx then l.length else idx.toNat)
      = l.take idx.toNat ++ v :: l.drop idx.toNat := by
    by_cases h0 : idx ≤ 0
    · rw [if_pos h0]
      have : idx.toNat = 0 := by omega
      rw [this]
    · rw [if_neg h0]
      by_cases h1 : (l.length : Int) ≤ idx
      · rw [if_pos h1]
        rw [List.take_of_length_le (le_refl _), List.drop_of_length_le (le_refl _),
          List.take_of_length_le (by omega), List.drop_of_length_le (by omega)]
      · rw [if_neg h1]
  rw [hk]
  refine ⟨st', hrun, ⟨_, hc', ?_⟩, ?_⟩
  · rw [← hl]
    simp [List.map_take, List.map_drop]
  · simp only [List.length_append, List.length_cons, List.length_take, List.length_drop]
    omega

/-- Witness of C8: `insert_at(1, 15)` on the list `[10, 20]`. -/
theorem insert_at_position_witness :
    ListC.IsList ListC.two_nodes [10, 20] ∧
    ∃ st', ListC.insert_at 1 15 ListC.two_nodes = some st' ∧
      ListC.IsList st' [10, 15, 20] ∧ [10, 15, (20 : Int)].length = 2 + 1 :=
  ⟨isList_two_nodes, insert_at_position ListC.two_nodes [10, 20] 1 15 isList_two_nodes⟩

/-- C9: on every well-formed list `l`, `delete_node(i)` with `0 ≤ i < length l`
returns and leaves `l` without its element at position `i`, the others in the same
order; with `i ≥ length l` it returns and leaves the state as it was. -/
theorem delete_node_position {α : Type} (st : ListC.ListState α) (l : List α) (i : Int)
    (h : ListC.IsList st l) :
    (0 ≤ i → i < l.length →
      ∃ st', ListC.delete_node i st = some st' ∧
        ListC.IsList st' (l.take i.toNat ++ l.drop (i.toNat + 1))) ∧
    ((l.length : Int) ≤ i → ListC.delete_node i st = some st) := by
  obtain ⟨cells, hc, hl⟩ := h
  have hlen := isList_length l cells hl
  constructor
  · intro h0 _
    obtain ⟨st', hrun, hc', _⟩ := delete_node_spec st cells i h0 hc
    refine ⟨st', hrun, _, hc', ?_⟩
    rw [List.eraseIdx_eq_take_drop_succ, ← hl]
    simp [List.map_take, List.map_drop]
  · intro h1
    exact delete_beyond_spec st cells i (by omega) hc

/-- Witness of C9: `delete_node(1)` and `delete_node(2)` on the list `[10, 20]`. -/
theorem delete_node_position_witness :
    ListC.IsList ListC.two_nodes [10, 20] ∧
    ((0 : Int) ≤ 1 → (1 : Int) < [10, (20 : Int)].length →
      ∃ st', ListC.delete_node 1 ListC.two_nodes = some st' ∧
        ListC.IsList st' ([10, (20 : Int)].take (1 : Int).toNat ++
          [10, (20 : Int)].drop ((1 : Int).toNat + 1))) ∧
    ((([10, (20 : Int)].length : Nat) : Int) ≤ 1 →
      ListC.delete_node 1 ListC.two_nodes = some ListC.two_nodes) :=
  ⟨isList_two_nodes, delete_node_position ListC.two_nodes [10, 20] 1 isList_two_nodes⟩

/-- C4: on every well-formed list `l`, for every index `0 ≤ i ≤ length l` and
value `v`, `insert_at(i, v)` followed by `delete_node(i)` returns and leaves a
well-formed list with the value sequence `l`. -/
theorem insert_then_delete_restores {α : Type} (st : ListC.ListState α) (l : List α)
    (i : Int) (v : α) (h : ListC.IsList st l) (h0 : 0 ≤ i) (h1 : i ≤ l.length) :
    ∃ st1 st2, ListC.insert_at i v st = some st1 ∧ ListC.delete_node i st1 = some st2 ∧
      ListC.IsList st2 l := by
  obtain ⟨cells, hc, hl⟩ := h
  have hlen := isList_length l cells hl
  obtain ⟨st1, hrun1, hc1, _⟩ := insert_at_spec st cells i v hc
  obtain ⟨st2, hrun2, hc2, _⟩ := delete_node_spec st1 _ i h0 hc1
  refine ⟨st1, st2, hrun1, hrun2, cells, ?_, hl⟩
  have hk : (cells.take i.toNat).length = i.toNat := by
    rw [List.length_take]
    omega
  have he : (cells.take i.toNat ++ (st.brk, v) :: cells.drop i.toNat).eraseIdx i.toNat
      = cells := by
    rw [List.eraseIdx_append_of_length_le (by omega), hk]
    simp
  rw [he] at hc2
  exact hc2

/-- Witness of C4: `insert_at(1, 15)` then `delete_node(1)` on the list `[10, 20]`. -/
theorem insert_then_delete_restores_witness :
    ListC.IsList ListC.two_nodes [10, 20] ∧
    ∃ st1 st2, ListC.insert_at 1 15 ListC.two_nodes = some st1 ∧
      ListC.delete_node 1 st1 = some st2 ∧ ListC.IsList st2 [10, 20] :=
  ⟨isList_two_nodes,
    insert_then_delete_restores ListC.two_nodes [10, 20] 1 15 isList_two_nodes
      (by decide) (by decide)⟩

/-- The example of the specification for lists, run on the code: from the empty list,
`append(10)`, `append(20)`, `insert_at(1, 15)` give `[10, 15, 20]`, and
`delete_node(1)` gives back `[10, 20]`. -/
theorem list_round_trip_example :
    (((((ListC.append_node (10 : Int) ListC.empty).bind (ListC.append_node 20)).bind
        (ListC.insert_at 1 15)).bind ListC.to_list) = some [10, 15, 20]) ∧
    ((((((ListC.append_node (10 : Int) ListC.empty).bind (ListC.append_node 20)).bind
        (ListC.insert_at 1 15)).bind (ListC.delete_node 1)).bind ListC.to_list)
      = some [10, 20]) := by
  decide

/-! ## Linked lists: sorted insertion -/

section ListSortedInsert
open ListC
variable {α : Type}

/-- The loop of `insert_sorted` stops at the last node of the run of values less
than the new one. -/
theorem find_slot_dseg (cmp : α → α → Int) (v : α) (h : Heap α) :
    ∀ (rest : List (Nat × α)) (c : Nat × α) (pv : Option Nat) (fuel : Nat),
      DSeg h pv (c :: rest) none → rest.length < fuel →
      find_slot cmp v h fuel c.1 =
        last_of pv (c :: rest.takeWhile (fun c => cmp c.2 v < 0)) := by
  intro rest
  induction rest with
  | nil =>
    intro c pv fuel hseg hfuel
    obtain ⟨f, rfl⟩ : ∃ f, fuel = f + 1 := ⟨fuel - 1, by omega⟩
    simp only [DSeg] at hseg
    simp [find_slot, rd_next, hseg.1, ptr_of, last_of]
  | cons c2 rest ih =>
    intro c pv fuel hseg hfuel
    obtain ⟨f, rfl⟩ : ∃ f, fuel = f + 1 := ⟨fuel - 1, by omega⟩
    simp only [DSeg] at hseg
    obtain ⟨hc, hc2, hrest⟩ := hseg
    simp only [find_slot, rd_next, rd_data, hc, hc2, ptr_of, Option.map_some']
    by_cases hlt : cmp c2.2 v < 0
    · rw [if_pos hlt]
      have := ih c2 (some c.1) f (by simp only [DSeg]; exact ⟨hc2, hrest⟩)
        (by simp only [List.length_cons] at hfuel; omega)
      rw [this, List.takeWhile_cons_of_pos (by simpa using hlt)]
      simp [last_of]
    · rw [if_neg hlt, List.takeWhile_cons_of_neg (by simpa using hlt)]
      simp [last_of]

/-- The effect of `insert_sorted(data)` on the nodes of the list. -/
theorem insert_sorted_spec (cmp : α → α → Int) (st : ListState α) (cells : List (Nat × α))
    (v : α) (hc : HasCells st cells) :
    ∃ st', insert_sorted cmp v st = some st' ∧
      HasCells st' (sorted_cells cmp v st.brk cells) ∧ st'.brk = st.brk + 1 := by
  cases cells with
  | nil =>
    have hhead := hc.1
    simp only [ptr_of] at hhead
    simp only [insert_sorted, hhead, sorted_cells]
    exact prepend_node_spec st [] v hc
  | cons c rest =>
    have hhead := hc.1
    have hseg := hc.2.1
    simp only [ptr_of] at hhead
    have hseg' := hseg
    simp only [DSeg] at hseg'
    simp only [insert_sorted, hhead, rd_data, hseg'.1, Option.map_some', Option.bind_eq_bind,
      Option.some_bind, sorted_cells]
    by_cases hlt : cmp v c.2 < 0
    · rw [if_pos hlt, if_pos hlt]
      exact prepend_node_spec st (c :: rest) v hc
    · rw [if_neg hlt, if_neg hlt]
      have hlen := cells_length_le st _ hc
      rw [find_slot_dseg cmp v st.heap rest c none (st.brk + 1) hseg
        (by simp only [List.length_cons] at hlen; omega)]
      rcases List.eq_nil_or_concat (c :: rest.takeWhile (fun c => cmp c.2 v < 0)) with
        hnil | ⟨init, a, hsplit⟩
      · exact absurd hnil (by simp)
      · rw [List.concat_eq_append] at hsplit
        have hcells : c :: rest = init ++ (a.1, a.2) ::
            rest.dropWhile (fun c => cmp c.2 v < 0) := by
          have h1 : c :: rest = (c :: rest.takeWhile (fun c => cmp c.2 v < 0)) ++
              rest.dropWhile (fun c => cmp c.2 v < 0) := by
            rw [List.cons_append, List.takeWhile_append_dropWhile]
          rw [h1, hsplit]
          simp
        have hres : c :: (rest.takeWhile (fun c => cmp c.2 v < 0) ++
            (st.brk, v) :: rest.dropWhile (fun c => cmp c.2 v < 0)) =
            init ++ (a.1, a.2) :: (st.brk, v) :: rest.dropWhile (fun c => cmp c.2 v < 0) := by
          rw [← List.cons_append, hsplit]
          simp
        rw [hsplit, last_of_append, hres]
        simp only [last_of, Option.some_bind]
        apply splice_after_spec
        rw [← hcells]
        exact hc

/-- The values after `insert_sorted` into an ascending list of values that the
comparator orders totally: the new value sits before the first value that is not
less than it. -/
theorem sorted_cells_values (cmp : α → α → Int) (v : α) (f : Nat) (cells : List (Nat × α))
    (hanti : ∀ a ∈ v :: cells.map Prod.snd, ∀ b ∈ v :: cells.map Prod.snd,
      (0 < cmp a b ↔ cmp b a < 0))
    (heq : ∀ a ∈ v :: cells.map Prod.snd, ∀ b ∈ v :: cells.map Prod.snd,
      cmp a b = 0 → a = b)
    (hsorted : (cells.map Prod.snd).Pairwise (fun a b => cmp a b ≤ 0)) :
    (sorted_cells cmp v f cells).map Prod.snd =
      (cells.map Prod.snd).takeWhile (fun x => cmp x v < 0) ++
        v :: (cells.map Prod.snd).dropWhile (fun x => cmp x v < 0) := by
  have htw : ∀ l : List (Nat × α),
      (l.takeWhile (fun c => cmp c.2 v < 0)).map Prod.snd =
        (l.map Prod.snd).takeWhile (fun x => cmp x v < 0) := by
    intro l
    induction l with
    | nil => rfl
    | cons c l ih =>
      by_cases h : cmp c.2 v < 0
      · rw [List.takeWhile_cons_of_pos (by simpa using h), List.map_cons, List.map_cons,
          List.takeWhile_cons_of_pos (by simpa using h), ih]
      · rw [List.takeWhile_cons_of_neg (by simpa using h), List.map_cons,
          List.takeWhile_cons_of_neg (by simpa using h)]
        rfl
  have hdw : ∀ l : List (Nat × α),
      (l.dropWhile (fun c => cmp c.2 v < 0)).map Prod.snd =
        (l.map Prod.snd).dropWhile (fun x => cmp x v < 0) := by
    intro l
    induction l with
    | nil => rfl
    | cons c l ih =>
      by_cases h : cmp c.2 v < 0
      · rw [List.dropWhile_cons_of_pos (by simpa using h), List.map_cons,
          List.dropWhile_cons_of_pos (by simpa using h), ih]
      · rw [List.dropWhile_cons_of_neg (by simpa using h), List.map_cons,
          List.dropWhile_cons_of_neg (by simpa using h)]
  cases cells with
  | nil => simp [sorted_cells]
  | cons c rest =>
    simp only [sorted_cells]
    have hvm : v ∈ v :: (c :: rest).map Prod.snd := List.mem_cons_self _ _
    have hcm : c.2 ∈ v :: (c :: rest).map Prod.snd := by simp
    by_cases hlt : cmp v c.2 < 0
    · rw [if_pos hlt]
      have hnot : ¬ cmp c.2 v < 0 := by
        have := (hanti c.2 hcm v hvm).2 hlt
        omega
      simp only [List.map_cons]
      rw [List.takeWhile_cons_of_neg (by simpa using hnot),
        List.dropWhile_cons_of_neg (by simpa using hnot)]
      rfl
    · rw [if_neg hlt]
      simp only [List.map_cons, List.map_append, htw, hdw]
      by_cases hcv : cmp c.2 v < 0
      · rw [List.takeWhile_cons_of_pos (by simpa using hcv),
          List.dropWhile_cons_of_pos (by simpa using hcv)]
        rfl
      · -- the head equals the new value, and nothing after it is less
        have hzero : cmp c.2 v = 0 := by
          have h1 := hanti c.2 hcm v hvm
          by_contra hne
          have : 0 < cmp c.2 v := by omega
          exact hlt (h1.1 this)
        have hcv' : c.2 = v := heq c.2 hcm v hvm hzero
        rw [List.takeWhile_cons_of_neg (by simpa using hcv),
          List.dropWhile_cons_of_neg (by simpa using hcv)]
        have hnone : (rest.map Prod.snd).takeWhile (fun x => cmp x v < 0) = [] := by
          cases hr : rest.map Prod.snd with
          | nil => rfl
          | cons y ys =>
            apply List.takeWhile_cons_of_neg
            have hym : y ∈ v :: (c :: rest).map Prod.snd := by
              simp only [List.map_cons, List.mem_cons]
              right; right
              rw [hr]
              exact List.mem_cons_self _ _
            simp only [List.map_cons, List.pairwise_cons] at hsorted
            have h1 := hsorted.1 y (by rw [hr]; exact List.mem_cons_self _ _)
            rw [hcv'] at h1
            have h2 := hanti y hym v hvm
            simp only [decide_eq_true_eq]
            intro h3
            have := (hanti v hvm y hym).2 h3
            omega
        have hall : (rest.map Prod.snd).dropWhile (fun x => cmp x v < 0) = rest.map Prod.snd := by
          have := List.takeWhile_append_dropWhile (fun x => decide (cmp x v < 0))
            (rest.map Prod.snd)
          rw [hnone] at this
          simpa using this
        rw [hnone, hall, hcv']
        rfl

/-- Insertion before the first value not less than `v` keeps an ascending list
ascending. -/
theorem sorted_insert_pairwise (cmp : α → α → Int) (v : α) (l : List α)
    (hanti : ∀ a ∈ v :: l, ∀ b ∈ v :: l, (0 < cmp a b ↔ cmp b a < 0))
    (htrans : ∀ a ∈ v :: l, ∀ b ∈ v :: l, ∀ c ∈ v :: l,
      cmp a b ≤ 0 → cmp b c ≤ 0 → cmp a c ≤ 0)
    (hsorted : l.Pairwise (fun a b => cmp a b ≤ 0)) :
    (l.takeWhile (fun x => cmp x v < 0) ++ v :: l.dropWhile (fun x => cmp x v < 0)).Pairwise
      (fun a b => cmp a b ≤ 0) := by
  have hsplit := List.takeWhile_append_dropWhile (fun x => decide (cmp x v < 0)) l
  have hvm : v ∈ v :: l := List.mem_cons_self _ _
  have hmem1 : ∀ a ∈ l.takeWhile (fun x => decide (cmp x v < 0)), a ∈ v :: l := fun a ha =>
    List.mem_cons_of_mem _ ((List.takeWhile_sublist _).subset ha)
  have hmem2 : ∀ a ∈ l.dropWhile (fun x => decide (cmp x v < 0)), a ∈ v :: l := fun a ha =>
    List.mem_cons_of_mem _ ((List.dropWhile_sublist _).subset ha)
  have hs' := hsorted
  rw [← hsplit, List.pairwise_append] at hs'
  obtain ⟨hs1, hs2, hs3⟩ := hs'
  have hfirst : ∀ b ∈ l.dropWhile (fun x => decide (cmp x v < 0)), cmp v b ≤ 0 := by
    intro b hb
    cases hd : l.dropWhile (fun x => decide (cmp x v < 0)) with
    | nil =>
      rw [hd] at hb
      exact absurd hb (List.not_mem_nil b)
    | cons d ds =>
      have hdm : d ∈ l.dropWhile (fun x => decide (cmp x v < 0)) := by
        rw [hd]
        exact List.mem_cons_self _ _
      have hdn : ¬ cmp d v < 0 := by
        have := List.head_dropWhile_not (fun x => decide (cmp x v < 0)) l (by rw [hd]; simp)
        simp only [hd, List.head_cons] at this
        simpa using this
      have hvd : cmp v d ≤ 0 := by
        by_contra hc
        have := (hanti v hvm d (hmem2 d hdm)).1 (by omega)
        exact hdn this
      rw [hd] at hb hs2
      rcases List.mem_cons.1 hb with h | h
      · rw [h]
        exact hvd
      · have hdb := (List.pairwise_cons.1 hs2).1 b h
        exact htrans v hvm d (hmem2 d hdm) b (hmem2 b (by rw [hd]; exact List.mem_cons_of_mem _ h))
          hvd hdb
  rw [List.pairwise_append]
  refine ⟨hs1, List.pairwise_cons.2 ⟨hfirst, hs2⟩, ?_⟩
  intro a ha b hb
  have hav : cmp a v < 0 := by
    have := List.mem_takeWhile_imp ha
    simpa using this
  rcases List.mem_cons.1 hb with h | h
  · rw [h]
    omega
  · exact hs3 a ha b h

end ListSortedInsert

/-- C10: on every well-formed list whose values are in ascending order for
`compare_vals` and are, together with `v`, totally ordered by it, `insert_sorted(v)`
returns and leaves a well-formed list that is again ascending and holds the old
values and one more occurrence of `v`, placed before the first value that is not
less than `v`. -/
theorem insert_sorted_keeps_order (dt : ListC.DataType) (st : ListC.ListState (ListC.Val dt))
    (l : List (ListC.Val dt)) (v : ListC.Val dt) (h : ListC.IsList st l)
    (hanti : ∀ a ∈ v :: l, ∀ b ∈ v :: l,
      (0 < ListC.compare_vals dt a b ↔ ListC.compare_vals dt b a < 0))
    (htrans : ∀ a ∈ v :: l, ∀ b ∈ v :: l, ∀ c ∈ v :: l,
      ListC.compare_vals dt a b ≤ 0 → ListC.compare_vals dt b c ≤ 0 →
      ListC.compare_vals dt a c ≤ 0)
    (heq : ∀ a ∈ v :: l, ∀ b ∈ v :: l, ListC.compare_vals dt a b = 0 → a = b)
    (hsorted : l.Pairwise (fun a b => ListC.compare_vals dt a b ≤ 0)) :
    ∃ st', ListC.insert_sorted (ListC.compare_vals dt) v st = some st' ∧
      ListC.IsList st'
        (l.takeWhile (fun x => ListC.compare_vals dt x v < 0) ++
          v :: l.dropWhile (fun x => ListC.compare_vals dt x v < 0)) ∧
      (l.takeWhile (fun x => ListC.compare_vals dt x v < 0) ++
          v :: l.dropWhile (fun x => ListC.compare_vals dt x v < 0)).Pairwise
        (fun a b => ListC.compare_vals dt a b ≤ 0) := by
  obtain ⟨cells, hc, hl⟩ := h
  obtain ⟨st', hrun, hc', _⟩ := insert_sorted_spec (ListC.compare_vals dt) st cells v hc
  subst hl
  refine ⟨st', hrun, ⟨_, hc', ?_⟩, ?_⟩
  · exact sorted_cells_values (ListC.compare_vals dt) v st.brk cells hanti heq hsorted
  · exact sorted_insert_pairwise (ListC.compare_vals dt) v _ hanti htrans hsorted

/-- Witness of C10: `insert_sorted(15)` on the int list `[10, 20]`. -/
theorem insert_sorted_keeps_order_witness :
    ListC.IsList ListC.two_nodes [10, 20] ∧
    ∃ st', ListC.insert_sorted (ListC.compare_vals .TYPE_INT) (15 : Int) ListC.two_nodes
        = some st' ∧
      ListC.IsList st'
        (([10, 20] : List Int).takeWhile (fun x => ListC.compare_vals .TYPE_INT x 15 < 0) ++
          15 :: ([10, 20] : List Int).dropWhile
            (fun x => ListC.compare_vals .TYPE_INT x 15 < 0)) ∧
      (([10, 20] : List Int).takeWhile (fun x => ListC.compare_vals .TYPE_INT x 15 < 0) ++
          15 :: ([10, 20] : List Int).dropWhile
            (fun x => ListC.compare_vals .TYPE_INT x 15 < 0)).Pairwise
        (fun a b => ListC.compare_vals .TYPE_INT a b ≤ 0) :=
  ⟨isList_two_nodes,
    insert_sorted_keeps_order .TYPE_INT ListC.two_nodes [10, 20] 15 isList_two_nodes
      (by decide) (by decide) (by decide) (by decide)⟩

/-! ## Linked lists: the sorts -/

section ListSorts
open ListC
variable {α : Type}

theorem ptr_of_fst (c1 c2 : List (Nat × α)) (q : Option Nat)
    (h : c1.map Prod.fst = c2.map Prod.fst) : ptr_of c1 q = ptr_of c2 q := by
  cases c1 with
  | nil =>
    cases c2 with
    | nil => rfl
    | cons d c2 => simp at h
  | cons c c1 =>
    cases c2 with
    | nil => simp at h
    | cons d c2 =>
      simp only [List.map_cons, List.cons.injEq] at h
      simp [ptr_of, h.1]

theorem last_of_fst : ∀ (c1 c2 : List (Nat × α)) (pv : Option Nat),
    c1.map Prod.fst = c2.map Prod.fst → last_of pv c1 = last_of pv c2 := by
  intro c1
  induction c1 with
  | nil =>
    intro c2 pv h
    cases c2 with
    | nil => rfl
    | cons d c2 => simp at h
  | cons c c1 ih =>
    intro c2 pv h
    cases c2 with
    | nil => simp at h
    | cons d c2 =>
      simp only [List.map_cons, List.cons.injEq] at h
      simp only [last_of, h.1]
      exact ih c2 _ h.2

/-- The loop of `get_list_size` counts the nodes. -/
theorem size_loop_dseg (h : Heap α) :
    ∀ (cells : List (Nat × α)) (pv : Option Nat) (fuel c : Nat),
      DSeg h pv cells none → cells.length ≤ fuel →
      size_loop h fuel c (ptr_of cells none) = some (c + cells.length) := by
  intro cells
  induction cells with
  | nil =>
    intro pv fuel c _ _
    cases fuel <;> simp [size_loop, ptr_of]
  | cons d cells ih =>
    intro pv fuel c hseg hfuel
    obtain ⟨f, rfl⟩ : ∃ f, fuel = f + 1 := ⟨fuel - 1, by
      simp only [List.length_cons] at hfuel; omega⟩
    simp only [DSeg] at hseg
    have e : ptr_of (d :: cells) none = some d.1 := rfl
    rw [e]
    simp only [size_loop, rd_next, hseg.1, Option.map_some']
    rw [ih (some d.1) f (c + 1) hseg.2 (by simp only [List.length_cons] at hfuel; omega)]
    simp only [List.length_cons, Option.some.injEq]
    omega

theorem get_list_size_spec (st : ListState α) (cells : List (Nat × α))
    (hc : HasCells st cells) : get_list_size st = some cells.length := by
  have hlen := cells_length_le st cells hc
  obtain ⟨hhead, hseg, _, _⟩ := hc
  rw [get_list_size, hhead, size_loop_dseg st.heap cells none st.brk 0 hseg hlen]
  simp

/-- The copy loop fills the array with the values of the nodes. -/
theorem copy_to_array_dseg (h : Heap α) :
    ∀ (cells : List (Nat × α)) (pv : Option Nat) (z : Nat) (arr : Nat → α),
      DSeg h pv cells none →
      ∃ out, copy_to_array h cells.length z (ptr_of cells none) arr = some out ∧
        (List.range' z cells.length).map out = cells.map Prod.snd ∧
        ∀ k, k < z → out k = arr k := by
  intro cells
  induction cells with
  | nil =>
    intro pv z arr _
    exact ⟨arr, rfl, rfl, fun _ _ => rfl⟩
  | cons d cells ih =>
    intro pv z arr hseg
    simp only [DSeg] at hseg
    obtain ⟨out, hrun, hvals, hlow⟩ := ih (some d.1) (z + 1) (aset arr z d.2) hseg.2
    refine ⟨out, ?_, ?_, ?_⟩
    · simp only [List.length_cons, copy_to_array, ptr_of, rd_data, rd_next, hseg.1,
        Option.map_some', Option.bind_eq_bind, Option.some_bind]
      exact hrun
    · simp only [List.length_cons, List.range'_succ, List.map_cons, hvals, List.cons.injEq,
        and_true]
      rw [hlow z (by omega), aset_same]
    · intro k hk
      rw [hlow k (by omega), aset_other _ _ _ _ (by omega)]

/-- The write-back loop stores the cells of the array in the nodes, in order. -/
theorem write_back_dseg (arr : Nat → α) :
    ∀ (cells : List (Nat × α)) (pv : Option Nat) (z : Nat) (h : Heap α),
      DSeg h pv cells none → (cells.map Prod.fst).Nodup →
      ∃ h' cells', write_back arr cells.length z (ptr_of cells none) h = some h' ∧
        DSeg h' pv cells' none ∧ cells'.map Prod.fst = cells.map Prod.fst ∧
        cells'.map Prod.snd = (List.range' z cells.length).map arr ∧
        ∀ a, a ∉ cells.map Prod.fst → h' a = h a := by
  intro cells
  induction cells with
  | nil =>
    intro pv z h _ _
    exact ⟨h, [], rfl, trivial, rfl, rfl, fun _ _ => rfl⟩
  | cons d cells ih =>
    intro pv z h hseg hnd
    simp only [DSeg] at hseg
    simp only [List.map_cons, List.nodup_cons] at hnd
    have hseg1 : DSeg (aset h d.1 (some { data := arr z, next := ptr_of cells none, prev := pv }))
        (some d.1) cells none := by
      apply dseg_frame h _ cells _ _ _ hseg.2
      intro a ha
      rw [aset_other]
      intro hEq
      rw [hEq] at ha
      exact hnd.1 ha
    obtain ⟨h', cells', hrun, hseg', hfst, hsnd, hframe⟩ := ih (some d.1) (z + 1) _ hseg1 hnd.2
    refine ⟨h', (d.1, arr z) :: cells', ?_, ?_, ?_, ?_, ?_⟩
    · simp only [List.length_cons, write_back, ptr_of, set_data, rd_next, hseg.1,
        Option.map_some', Option.bind_eq_bind, Option.some_bind, aset_same]
      exact hrun
    · simp only [DSeg]
      refine ⟨?_, hseg'⟩
      rw [hframe d.1 hnd.1, aset_same, ptr_of_fst cells' cells none hfst]
    · simp [hfst]
    · simp [hsnd, List.range'_succ]
    · intro a ha
      simp only [List.map_cons, List.mem_cons, not_or] at ha
      rw [hframe a ha.2, aset_other _ _ _ _ ha.1]

/-- A sorted array gives an ascending list. -/
theorem atoList_pairwise (cmp : α → α → Int) (n : Nat) (out : Nat → α)
    (hs : SortedOn cmp 0 n out) : (atoList out n).Pairwise (fun a b => cmp a b ≤ 0) := by
  rw [atoList, List.pairwise_map]
  apply List.Pairwise.imp_of_mem _ (List.pairwise_lt_range n)
  intro p q _ hq hpq
  exact hs p q (Nat.zero_le _) hpq (List.mem_range.1 hq)

/-- The three phases of `shell_sort` and `quick_sort` around the sort of the array:
the copy returns an array holding the values, and the write-back of any sorted
permutation of it leaves a well-formed list holding that permutation. -/
theorem copy_sort_write (cmp : α → α → Int) (st : ListState α) (cells : List (Nat × α))
    (arr0 : Nat → α) (hc : HasCells st cells) :
    ∃ arr1, copy_to_array st.heap cells.length 0 st.head arr0 = some arr1 ∧
      atoList arr1 cells.length = cells.map Prod.snd ∧
      ∀ out, PermOn 0 cells.length arr1 out → SortedOn cmp 0 cells.length out →
        ∃ h' cells', write_back out cells.length 0 st.head st.heap = some h' ∧
          HasCells { st with heap := h' } cells' ∧
          (cells'.map Prod.snd).Perm (cells.map Prod.snd) ∧
          (cells'.map Prod.snd).Pairwise (fun a b => cmp a b ≤ 0) := by
  have hlt := hasCells_lt st cells hc
  obtain ⟨hhead, hseg, hnd, halloc⟩ := hc
  obtain ⟨arr1, hcopy, hvals, _⟩ := copy_to_array_dseg st.heap cells none 0 arr0 hseg
  have hvals' : atoList arr1 cells.length = cells.map Prod.snd := by
    rw [atoList, List.range_eq_range']
    exact hvals
  refine ⟨arr1, by rw [hhead]; exact hcopy, hvals', ?_⟩
  intro out hperm hsorted
  obtain ⟨h', cells', hrun, hseg', hfst, hsnd, hframe⟩ :=
    write_back_dseg out cells none 0 st.heap hseg hnd
  have hsnd' : cells'.map Prod.snd = atoList out cells.length := by
    rw [atoList, List.range_eq_range']
    exact hsnd
  refine ⟨h', cells', by rw [hhead]; exact hrun, ⟨?_, hseg', by rw [hfst]; exact hnd, ?_⟩, ?_, ?_⟩
  · dsimp only
    rw [hhead]
    exact (ptr_of_fst cells' cells none hfst).symm
  · intro a ha
    dsimp only at ha ⊢
    rw [hframe a (fun hmem => by have := hlt a hmem; omega)]
    exact halloc a ha
  · rw [hsnd', ← hvals']
    exact permOn_toList hperm
  · rw [hsnd']
    exact atoList_pairwise cmp _ out hsorted

theorem atoList_mem (arr : Nat → α) (n k : Nat) (hk : k < n) : arr k ∈ atoList arr n := by
  rw [atoList]
  exact List.mem_map.2 ⟨k, List.mem_range.2 hk, rfl⟩

theorem pairwise_short (cmp : α → α → Int) (l : List α) (hl : l.length < 2) :
    l.Pairwise (fun a b => cmp a b ≤ 0) := by
  cases l with
  | nil => exact List.Pairwise.nil
  | cons a l =>
    cases l with
    | nil => exact List.pairwise_singleton _ _
    | cons b l =>
      simp only [List.length_cons] at hl
      omega

/-- The function `shell_sort` leaves a well-formed list holding the old values in
ascending order. -/
theorem shell_sort_spec {cmp : α → α → Int} (st : ListState α) (cells : List (Nat × α))
    (arr0 : Nat → α) (hc : HasCells st cells)
    (hord : CmpOrd cmp (fun x => x ∈ cells.map Prod.snd)) :
    ∃ st' cells', shell_sort cmp arr0 st = some st' ∧ HasCells st' cells' ∧
      (cells'.map Prod.snd).Perm (cells.map Prod.snd) ∧
      (cells'.map Prod.snd).Pairwise (fun a b => cmp a b ≤ 0) := by
  have hsize := get_list_size_spec st cells hc
  by_cases hn : cells.length < 2
  · refine ⟨st, cells, ?_, hc, List.Perm.refl _, pairwise_short cmp _ (by simpa using hn)⟩
    simp [shell_sort, hsize, hn]
  · obtain ⟨arr1, hcopy, hvals, hwb⟩ := copy_sort_write cmp st cells arr0 hc
    obtain ⟨out, hsort, hperm, hsorted⟩ := shell_sort_generic_spec hord cells.length
      (cells.length + 1) (by omega) arr1 (fun k hk => by
        rw [← hvals]
        exact atoList_mem arr1 _ k hk)
    obtain ⟨h', cells', hrun, hc', hp, hs⟩ := hwb out hperm hsorted
    refine ⟨{ st with heap := h' }, cells', ?_, hc', hp, hs⟩
    simp [shell_sort, hsize, hn, hcopy, hsort, hrun]

/-- The function `quick_sort` leaves a well-formed list holding the old values in
ascending order. -/
theorem quick_sort_spec {cmp : α → α → Int} (st : ListState α) (cells : List (Nat × α))
    (arr0 : Nat → α) (hc : HasCells st cells)
    (hord : CmpOrd cmp (fun x => x ∈ cells.map Prod.snd)) :
    ∃ st' cells', quick_sort cmp arr0 st = some st' ∧ HasCells st' cells' ∧
      (cells'.map Prod.snd).Perm (cells.map Prod.snd) ∧
      (cells'.map Prod.snd).Pairwise (fun a b => cmp a b ≤ 0) := by
  have hsize := get_list_size_spec st cells hc
  by_cases hn : cells.length < 2
  · refine ⟨st, cells, ?_, hc, List.Perm.refl _, pairwise_short cmp _ (by simpa using hn)⟩
    simp [quick_sort, hsize, hn]
  · obtain ⟨arr1, hcopy, hvals, hwb⟩ := copy_sort_write cmp st cells arr0 hc
    obtain ⟨out, hsort, hperm, hsorted⟩ := quick_sort_generic_spec hord cells.length
      (cells.length + 1) arr1 0 ((cells.length : Int) - 1) (le_refl _) (by omega) (by omega)
      (fun k hk => by
        rw [← hvals]
        exact atoList_mem arr1 _ k hk)
    have e1 : ((cells.length : Int) - 1 + 1).toNat = cells.length := by omega
    rw [e1] at hperm hsorted
    obtain ⟨h', cells', hrun, hc', hp, hs⟩ := hwb out (by simpa using hperm)
      (by simpa using hsorted)
    refine ⟨{ st with heap := h' }, cells', ?_, hc', hp, hs⟩
    simp [quick_sort, hsize, hn, hcopy, hsort, hrun]

/-! ### The bubble sort -/

theorem bubble_list_length (cmp : α → α → Int) :
    ∀ (ys : List α) (x : α), (bubble_list cmp x ys).length = ys.length + 1 := by
  intro ys
  induction ys with
  | nil => intro x; rfl
  | cons y ys ih =>
    intro x
    simp only [bubble_list]
    split_ifs <;> simp [ih]

theorem bubble_list_perm (cmp : α → α → Int) :
    ∀ (ys : List α) (x : α), (bubble_list cmp x ys).Perm (x :: ys) := by
  intro ys
  induction ys with
  | nil => intro x; exact List.Perm.refl _
  | cons y ys ih =>
    intro x
    simp only [bubble_list]
    split_ifs
    · exact ((ih x).cons y).trans (List.Perm.swap x y ys)
    · exact (ih y).cons x

/-- A pass leaves a greatest value at the end. -/
theorem bubble_list_last {cmp : α → α → Int} {S : α → Prop} (hc : CmpOrd cmp S) :
    ∀ (ys : List α) (x : α), S x → (∀ y ∈ ys, S y) →
      ∃ init mx, bubble_list cmp x ys = init ++ [mx] ∧ (∀ z ∈ init, cmp z mx ≤ 0) ∧
        cmp x mx ≤ 0 ∧ S mx := by
  intro ys
  induction ys with
  | nil =>
    intro x hx _
    exact ⟨[], x, rfl, fun z hz => absurd hz (List.not_mem_nil z), hc.refl x hx, hx⟩
  | cons y ys ih =>
    intro x hx hys
    have hy : S y := hys y (List.mem_cons_self _ _)
    have hys' : ∀ z ∈ ys, S z := fun z hz => hys z (List.mem_cons_of_mem _ hz)
    simp only [bubble_list]
    by_cases hgt : cmp x y > 0
    · rw [if_pos hgt]
      obtain ⟨init, mx, he, hinit, hxm, hm⟩ := ih x hx hys'
      refine ⟨y :: init, mx, by rw [he]; rfl, ?_, hxm, hm⟩
      intro z hz
      rcases List.mem_cons.1 hz with h | h
      · rw [h]
        exact hc.trans y x mx hy hx hm (hc.of_gt x y hx hy hgt) hxm
      · exact hinit z h
    · rw [if_neg hgt]
      obtain ⟨init, mx, he, hinit, hym, hm⟩ := ih y hy hys'
      have hxm : cmp x mx ≤ 0 := hc.trans x y mx hx hy hm (by omega) hym
      refine ⟨x :: init, mx, by rw [he]; rfl, ?_, hxm, hm⟩
      intro z hz
      rcases List.mem_cons.1 hz with h | h
      · rw [h]
        exact hxm
      · exact hinit z h

/-- A pass without exchange changes nothing and has met ascending values only. -/
theorem swaps_false {cmp : α → α → Int} {S : α → Prop} (hc : CmpOrd cmp S) :
    ∀ (ys : List α) (x : α), S x → (∀ y ∈ ys, S y) → swaps cmp x ys = false →
      bubble_list cmp x ys = x :: ys ∧ (x :: ys).Pairwise (fun a b => cmp a b ≤ 0) := by
  intro ys
  induction ys with
  | nil =>
    intro x _ _ _
    exact ⟨rfl, List.pairwise_singleton _ _⟩
  | cons y ys ih =>
    intro x hx hys hsw
    have hy : S y := hys y (List.mem_cons_self _ _)
    have hys' : ∀ z ∈ ys, S z := fun z hz => hys z (List.mem_cons_of_mem _ hz)
    simp only [swaps] at hsw
    by_cases hgt : cmp x y > 0
    · rw [if_pos hgt] at hsw
      exact absurd hsw (by simp)
    · rw [if_neg hgt] at hsw
      obtain ⟨he, hp⟩ := ih y hy hys' hsw
      refine ⟨by simp only [bubble_list]; rw [if_neg hgt, he], List.pairwise_cons.2 ⟨?_, hp⟩⟩
      intro z hz
      rcases List.mem_cons.1 hz with h | h
      · rw [h]
        omega
      · exact hc.trans x y z hx hy (hys' z h) (by omega) ((List.pairwise_cons.1 hp).1 z h)

/-- The inner loop of `bubble_sort`, from the node `c` up to the node before
`lptr`, makes one pass over the values of these nodes. -/
theorem bubble_inner_dseg (cmp : α → α → Int) (tail : List (Nat × α)) :
    ∀ (rest : List (Nat × α)) (c : Nat × α) (pv : Option Nat) (h : Heap α) (sw : Bool)
      (fuel : Nat),
      DSeg h pv (c :: rest ++ tail) none → ((c :: rest ++ tail).map Prod.fst).Nodup →
      rest.length < fuel →
      ∃ h' cells', bubble_inner cmp (ptr_of tail none) fuel h (some c.1) sw =
          some (h', last_of pv (c :: rest), sw || swaps cmp c.2 (rest.map Prod.snd)) ∧
        DSeg h' pv (cells' ++ tail) none ∧ cells'.map Prod.fst = (c :: rest).map Prod.fst ∧
        cells'.map Prod.snd = bubble_list cmp c.2 (rest.map Prod.snd) ∧
        ∀ a, a ∉ (c :: rest).map Prod.fst → h' a = h a := by
  intro rest
  induction rest with
  | nil =>
    intro c pv h sw fuel hseg _ hfuel
    obtain ⟨f, rfl⟩ : ∃ f, fuel = f + 1 := ⟨fuel - 1, by omega⟩
    have hseg' := hseg
    rw [List.cons_append, List.nil_append] at hseg'
    simp only [DSeg] at hseg'
    refine ⟨h, [c], ?_, hseg, rfl, rfl, fun _ _ => rfl⟩
    simp [bubble_inner, rd_next, hseg'.1, last_of, swaps]
  | cons c2 rest ih =>
    intro c pv h sw fuel hseg hnd hfuel
    obtain ⟨f, rfl⟩ : ∃ f, fuel = f + 1 := ⟨fuel - 1, by omega⟩
    have hf : rest.length < f := by
      simp only [List.length_cons] at hfuel
      omega
    have hseg' := hseg
    rw [List.cons_append, List.cons_append] at hseg'
    simp only [DSeg] at hseg'
    obtain ⟨hc1, hc2, hrest⟩ := hseg'
    have e2 : ptr_of (c2 :: (rest ++ tail)) (none : Option Nat) = some c2.1 := rfl
    rw [e2] at hc1
    rw [List.cons_append, List.cons_append] at hnd
    simp only [List.map_cons, List.nodup_cons, List.mem_cons, not_or] at hnd
    obtain ⟨⟨hne, hcn⟩, hc2n, hnd'⟩ := hnd
    have hlptr : ¬ (some c2.1 = ptr_of tail none) := by
      cases tail with
      | nil => simp [ptr_of]
      | cons t tail =>
        simp only [ptr_of, Option.some.injEq]
        intro hEq
        apply hc2n
        simp [hEq]
    have hfr : ∀ a ∈ (rest ++ tail).map Prod.fst, a ≠ c.1 ∧ a ≠ c2.1 := by
      intro a ha
      constructor
      · intro hEq
        rw [hEq] at ha
        exact hcn ha
      · intro hEq
        rw [hEq] at ha
        exact hc2n ha
    by_cases hgt : cmp c.2 c2.2 > 0
    · -- exchange of the two values
      have hseg1 : DSeg (aset (aset h c.1 (some { data := c2.2, next := some c2.1, prev := pv }))
          c2.1 (some { data := c.2, next := ptr_of (rest ++ tail) none, prev := some c.1 }))
          (some c.1) ((c2.1, c.2) :: rest ++ tail) none := by
        rw [List.cons_append]
        simp only [DSeg]
        refine ⟨by rw [aset_same], ?_⟩
        apply dseg_frame h _ _ _ _ _ hrest
        intro a ha
        obtain ⟨h1, h2⟩ := hfr a ha
        rw [aset_other _ _ _ _ h2, aset_other _ _ _ _ h1]
      obtain ⟨h', cells', hrun, hseg2, hfst, hsnd, hframe⟩ :=
        ih (c2.1, c.2) (some c.1) _ true f hseg1
          (by rw [List.cons_append]; simp only [List.map_cons, List.nodup_cons]
              exact ⟨hc2n, hnd'⟩) hf
      refine ⟨h', (c.1, c2.2) :: cells', ?_, ?_, ?_, ?_, ?_⟩
      · simp only [bubble_inner, rd_next, rd_data, swap_data, set_data, hc1, hc2,
          Option.map_some', Option.bind_eq_bind, Option.some_bind, if_neg hlptr, if_pos hgt,
          aset_other _ _ _ _ (Ne.symm hne), aset_other _ _ _ _ hne, aset_same]
        rw [hrun]
        simp [last_of, swaps, hgt]
      · rw [List.cons_append]
        simp only [DSeg]
        refine ⟨?_, hseg2⟩
        rw [hframe c.1 (by
          simp only [List.map_cons, List.mem_cons, not_or]
          refine ⟨hne, ?_⟩
          intro hmem
          apply hcn
          simp [hmem]), aset_other _ _ _ _ hne, aset_same]
        have : ptr_of (cells' ++ tail) (none : Option Nat) = some c2.1 := by
          cases cells' with
          | nil => simp at hfst
          | cons d cells' =>
            simp only [List.map_cons, List.cons.injEq] at hfst
            simp [ptr_of, hfst.1]
        rw [this]
      · simp only [List.map_cons, List.cons.injEq, true_and]
        simpa using hfst
      · simp only [List.map_cons, bubble_list, if_pos hgt, List.cons.injEq, true_and]
        simpa using hsnd
      · intro a ha
        simp only [List.map_cons, List.mem_cons, not_or] at ha
        rw [hframe a (by
          simp only [List.map_cons, List.mem_cons, not_or]
          exact ⟨ha.2.1, ha.2.2⟩), aset_other _ _ _ _ ha.2.1, aset_other _ _ _ _ ha.1]
    · -- no exchange
      have hseg1 : DSeg h (some c.1) (c2 :: rest ++ tail) none := by
        rw [List.cons_append]
        simp only [DSeg]
        exact ⟨hc2, hrest⟩
      obtain ⟨h', cells', hrun, hseg2, hfst, hsnd, hframe⟩ :=
        ih c2 (some c.1) h sw f hseg1
          (by rw [List.cons_append]; simp only [List.map_cons, List.nodup_cons]
              exact ⟨hc2n, hnd'⟩) hf
      refine ⟨h', c :: cells', ?_, ?_, ?_, ?_, ?_⟩
      · simp only [bubble_inner, rd_next, rd_data, hc1, hc2,
          Option.map_some', Option.bind_eq_bind, Option.some_bind, if_neg hlptr, if_neg hgt]
        rw [hrun]
        simp [last_of, swaps, hgt]
      · rw [List.cons_append]
        simp only [DSeg]
        refine ⟨?_, hseg2⟩
        rw [hframe c.1 (by
          simp only [List.map_cons, List.mem_cons, not_or]
          refine ⟨hne, ?_⟩
          intro hmem
          apply hcn
          simp [hmem]), hc1]
        have : ptr_of (cells' ++ tail) (none : Option Nat) = some c2.1 := by
          cases cells' with
          | nil => simp at hfst
          | cons d cells' =>
            simp only [List.map_cons, List.cons.injEq] at hfst
            simp [ptr_of, hfst.1]
        rw [this]
      · simp only [List.map_cons, List.cons.injEq, true_and]
        exact hfst
      · simp only [List.map_cons, bubble_list, if_neg hgt, List.cons.injEq, true_and]
        exact hsnd
      · intro a ha
        simp only [List.map_cons, List.mem_cons, not_or] at ha
        exact hframe a (by
          simp only [List.map_cons, List.mem_cons, not_or]
          exact ⟨ha.2.1, ha.2.2⟩)

/-- The `do ... while` loop of `bubble_sort`: with the nodes from `lptr` on holding
ascending values that are not below any value before them, the loop ends and
leaves all the values in ascending order. -/
theorem bubble_outer_dseg {cmp : α → α → Int} {S : α → Prop} (hc : CmpOrd cmp S)
    (hd fuel0 : Nat) :
    ∀ (fuel : Nat) (pcells scells : List (Nat × α)) (h : Heap α),
      DSeg h none (pcells ++ scells) none → ((pcells ++ scells).map Prod.fst).Nodup →
      ptr_of pcells none = some hd → pcells.length ≤ fuel → pcells.length < fuel0 →
      (∀ x ∈ (pcells ++ scells).map Prod.snd, S x) →
      (scells.map Prod.snd).Pairwise (fun a b => cmp a b ≤ 0) →
      (∀ a ∈ pcells.map Prod.snd, ∀ b ∈ scells.map Prod.snd, cmp a b ≤ 0) →
      ∃ h' cells', bubble_outer cmp hd fuel0 fuel h (ptr_of scells none) = some h' ∧
        DSeg h' none cells' none ∧ cells'.map Prod.fst = (pcells ++ scells).map Prod.fst ∧
        (cells'.map Prod.snd).Perm ((pcells ++ scells).map Prod.snd) ∧
        (cells'.map Prod.snd).Pairwise (fun a b => cmp a b ≤ 0) ∧
        ∀ a, a ∉ (pcells ++ scells).map Prod.fst → h' a = h a := by
  intro fuel
  induction fuel with
  | zero =>
    intro pcells scells h _ _ hhd hfuel _ _ _ _
    cases pcells with
    | nil => simp [ptr_of] at hhd
    | cons c rest => simp at hfuel
  | succ f ih =>
    intro pcells scells h hseg hnd hhd hfuel hfuel0 hS hsorted hcross
    cases pcells with
    | nil => simp [ptr_of] at hhd
    | cons c rest =>
      simp only [ptr_of, Option.some.injEq] at hhd
      subst hhd
      obtain ⟨f0, rfl⟩ : ∃ f0, fuel0 = f0 + 1 := ⟨fuel0 - 1, by
        simp only [List.length_cons] at hfuel0; omega⟩
      obtain ⟨h1, cells1, hrun, hseg1, hfst1, hsnd1, hframe1⟩ :=
        bubble_inner_dseg cmp scells rest c none h false (f0 + 1) hseg hnd
          (by simp only [List.length_cons] at hfuel0; omega)
      have hSc : S c.2 := hS c.2 (by simp)
      have hSrest : ∀ y ∈ rest.map Prod.snd, S y := fun y hy => hS y (by
        simp only [List.map_append, List.map_cons, List.mem_append, List.mem_cons]
        left; right; exact hy)
      have hperm1 : (cells1.map Prod.snd).Perm ((c :: rest).map Prod.snd) := by
        rw [hsnd1]
        exact bubble_list_perm cmp _ _
      have hlen1 : cells1.length = rest.length + 1 := by
        have := congrArg List.length hfst1
        simpa using this
      cases hsw : swaps cmp c.2 (rest.map Prod.snd) with
      | false =>
        obtain ⟨he, hp⟩ := swaps_false hc (rest.map Prod.snd) c.2 hSc hSrest hsw
        refine ⟨h1, cells1 ++ scells, ?_, hseg1, ?_, ?_, ?_, ?_⟩
        · simp only [bubble_outer, hrun, hsw, Option.bind_eq_bind, Option.some_bind,
            Bool.or_false]
          simp
        · simp only [List.map_append, hfst1]
        · simp only [List.map_append]
          exact hperm1.append_right _
        · simp only [List.map_append]
          rw [List.pairwise_append]
          refine ⟨by rw [hsnd1, he]; exact hp, hsorted, ?_⟩
          intro a ha b hb
          exact hcross a (hperm1.mem_iff.1 ha) b hb
        · intro a ha
          apply hframe1
          intro hmem
          apply ha
          simp only [List.map_append, List.mem_append]
          left
          exact hmem
      | true =>
        obtain ⟨init, mx, hbl, hinit, _, hSm⟩ :=
          bubble_list_last hc (rest.map Prod.snd) c.2 hSc hSrest
        have hrest_ne : rest ≠ [] := by
          intro hnil
          rw [hnil] at hsw
          simp [swaps] at hsw
        rcases List.eq_nil_or_concat cells1 with hnil | ⟨ic, mc, hsplit⟩
        · rw [hnil] at hlen1
          simp at hlen1
        · rw [List.concat_eq_append] at hsplit
          have hvals : ic.map Prod.snd = init ∧ mc.2 = mx := by
            have h2 : ic.map Prod.snd ++ [mc.2] = init ++ [mx] := by
              rw [← hbl, ← hsnd1, hsplit]
              simp
            have h3 := List.append_inj' h2 rfl
            exact ⟨h3.1, by simpa using h3.2⟩
          have hic_ne : ic ≠ [] := by
            intro hnil
            rw [hsplit, hnil] at hlen1
            have : rest.length = 0 := by simpa using hlen1.symm
            exact hrest_ne (List.length_eq_zero.1 this)
          have hptr1 : last_of none (c :: rest) = some mc.1 := by
            rw [← last_of_fst cells1 (c :: rest) none hfst1, hsplit, last_of_append]
            rfl
          have hseg1' : DSeg h1 none (ic ++ mc :: scells) none := by
            have : ic ++ mc :: scells = cells1 ++ scells := by
              rw [hsplit]
              simp
            rw [this]
            exact hseg1
          have hall : ic ++ mc :: scells = cells1 ++ scells := by
            rw [hsplit]
            simp
          have hfstall : (ic ++ mc :: scells).map Prod.fst =
              (c :: rest ++ scells).map Prod.fst := by
            rw [hall]
            simp only [List.map_append, hfst1]
          have hpermall : ((ic ++ mc :: scells).map Prod.snd).Perm
              ((c :: rest ++ scells).map Prod.snd) := by
            rw [hall]
            simp only [List.map_append]
            exact hperm1.append_right _
          have hmem_ic : ∀ a ∈ ic.map Prod.snd, a ∈ (c :: rest).map Prod.snd := by
            intro a ha
            apply hperm1.mem_iff.1
            rw [hsplit]
            simp only [List.map_append, List.mem_append]
            left
            exact ha
          have hmem_mc : mc.2 ∈ (c :: rest).map Prod.snd := by
            apply hperm1.mem_iff.1
            rw [hsplit]
            simp
          obtain ⟨h2, cells2, hrun2, hseg2, hfst2, hperm2, hsorted2, hframe2⟩ :=
            ih ic (mc :: scells) h1 hseg1' (by rw [hfstall]; exact hnd)
              (by
                have := ptr_of_fst (ic ++ [mc]) (c :: rest) none (by rw [← hsplit]; exact hfst1)
                cases ic with
                | nil => exact absurd rfl hic_ne
                | cons i0 ic =>
                  simp only [List.cons_append, ptr_of, Option.some.injEq] at this ⊢
                  rw [this])
              (by
                rw [hsplit] at hlen1
                simp only [List.length_append, List.length_singleton, List.length_cons]
                  at hlen1 hfuel
                omega)
              (by
                rw [hsplit] at hlen1
                simp only [List.length_append, List.length_singleton, List.length_cons]
                  at hlen1 hfuel0
                omega)
              (fun x hx => hS x (hpermall.mem_iff.1 hx))
              (by
                simp only [List.map_cons]
                refine List.pairwise_cons.2 ⟨?_, hsorted⟩
                intro b hb
                exact hcross mc.2 hmem_mc b hb)
              (by
                intro a ha b hb
                simp only [List.map_cons, List.mem_cons] at hb
                rcases hb with hb | hb
                · rw [hb, hvals.2]
                  exact hinit a (by rw [← hvals.1]; exact ha)
                · exact hcross a (hmem_ic a ha) b hb)
          refine ⟨h2, cells2, ?_, hseg2, by rw [hfst2, hfstall], hperm2.trans hpermall,
            hsorted2, ?_⟩
          · simp only [bubble_outer, hrun, hsw, Option.bind_eq_bind,
              Option.some_bind, Bool.or_true, hptr1]
            simpa [ptr_of] using hrun2
          · intro a ha
            rw [hframe2 a (by rw [hfstall]; exact ha)]
            apply hframe1
            intro hmem
            apply ha
            simp only [List.cons_append, List.map_cons, List.map_append, List.mem_cons,
              List.mem_append] at hmem ⊢
            rcases hmem with h | h
            · left; exact h
            · right; left; exact h

/-- The function `bubble_sort` leaves a well-formed list holding the old values in
ascending order. -/
theorem bubble_sort_spec {cmp : α → α → Int} (st : ListState α) (cells : List (Nat × α))
    (hc : HasCells st cells) (hord : CmpOrd cmp (fun x => x ∈ cells.map Prod.snd)) :
    ∃ st' cells', bubble_sort cmp st = some st' ∧ HasCells st' cells' ∧
      (cells'.map Prod.snd).Perm (cells.map Prod.snd) ∧
      (cells'.map Prod.snd).Pairwise (fun a b => cmp a b ≤ 0) := by
  have hlt := hasCells_lt st cells hc
  have hlen := cells_length_le st cells hc
  obtain ⟨hhead, hseg, hnd, halloc⟩ := hc
  cases cells with
  | nil =>
    simp only [ptr_of] at hhead
    refine ⟨st, [], ?_, ⟨hhead, hseg, hnd, halloc⟩, List.Perm.refl _, List.Pairwise.nil⟩
    simp [bubble_sort, hhead]
  | cons c rest =>
    simp only [ptr_of] at hhead
    obtain ⟨h', cells', hrun, hseg', hfst, hperm, hsorted, hframe⟩ :=
      bubble_outer_dseg hord c.1 (st.brk + 1) (st.brk + 1) (c :: rest) [] st.heap
        (by simpa using hseg) (by simpa using hnd) rfl (by omega) (by omega)
        (fun x hx => by simpa using hx) List.Pairwise.nil
        (fun a _ b hb => absurd hb (List.not_mem_nil b))
    simp only [List.append_nil] at hfst hperm hframe
    refine ⟨{ st with heap := h' }, cells', ?_, ⟨?_, hseg', by rw [hfst]; exact hnd, ?_⟩,
      hperm, hsorted⟩
    · simp only [bubble_sort, hhead]
      simp only [ptr_of] at hrun
      rw [hrun]
      rfl
    · dsimp only
      rw [hhead, ptr_of_fst cells' (c :: rest) none hfst]
      rfl
    · intro a ha
      dsimp only at ha ⊢
      rw [hframe a (fun hmem => by have := hlt a hmem; omega)]
      exact halloc a ha

/-! ### The insertion sort -/

theorem sseg_frame (h h' : Heap α) (cells : List (Nat × α)) (q : Option Nat)
    (hagree : ∀ a ∈ cells.map Prod.fst, h' a = h a) (hseg : SSeg h cells q) :
    SSeg h' cells q := by
  induction cells with
  | nil => trivial
  | cons c rest ih =>
    simp only [SSeg] at hseg ⊢
    refine ⟨?_, ih (fun a ha => hagree a (by simp [ha])) hseg.2⟩
    rw [hagree c.1 (by simp)]
    exact hseg.1

theorem dseg_to_sseg (h : Heap α) :
    ∀ (cells : List (Nat × α)) (pv q : Option Nat), DSeg h pv cells q → SSeg h cells q := by
  intro cells
  induction cells with
  | nil => intro _ _ _; trivial
  | cons c rest ih =>
    intro pv q hseg
    simp only [DSeg] at hseg
    simp only [SSeg]
    exact ⟨⟨pv, hseg.1⟩, ih _ _ hseg.2⟩

theorem sorted_cells_perm (cmp : α → α → Int) (v : α) (f : Nat) (cells : List (Nat × α)) :
    (sorted_cells cmp v f cells).Perm ((f, v) :: cells) := by
  cases cells with
  | nil => exact List.Perm.refl _
  | cons c rest =>
    simp only [sorted_cells]
    split_ifs
    · exact List.Perm.refl _
    · have h1 : (rest.takeWhile (fun c => cmp c.2 v < 0) ++
          (f, v) :: rest.dropWhile (fun c => cmp c.2 v < 0)).Perm ((f, v) :: rest) := by
        refine List.perm_middle.trans ?_
        rw [List.takeWhile_append_dropWhile]
      exact (h1.cons c).trans (List.Perm.swap _ _ _)

/-- The insertion of `insert_sorted` and of `insertion_sort` keeps ascending values
ascending. -/
theorem sorted_cells_sorted {cmp : α → α → Int} {S : α → Prop} (hc : CmpOrd cmp S) (v : α)
    (f : Nat) (cells : List (Nat × α)) (hv : S v) (hS : ∀ x ∈ cells.map Prod.snd, S x)
    (hs : (cells.map Prod.snd).Pairwise (fun a b => cmp a b ≤ 0)) :
    ((sorted_cells cmp v f cells).map Prod.snd).Pairwise (fun a b => cmp a b ≤ 0) := by
  cases cells with
  | nil => exact List.pairwise_singleton _ _
  | cons c rest =>
    have hSc : S c.2 := hS c.2 (by simp)
    have hSr : ∀ x ∈ rest.map Prod.snd, S x := fun x hx => hS x (by simp [hx])
    simp only [List.map_cons, List.pairwise_cons] at hs
    simp only [sorted_cells]
    by_cases hlt : cmp v c.2 < 0
    · rw [if_pos hlt]
      simp only [List.map_cons]
      refine List.pairwise_cons.2 ⟨?_, List.pairwise_cons.2 hs⟩
      intro z hz
      rcases List.mem_cons.1 hz with h | h
      · rw [h]
        omega
      · exact hc.trans v c.2 z hv hSc (hSr z h) (by omega) (hs.1 z h)
    · rw [if_neg hlt]
      have hmem : ∀ a ∈ v :: rest.map Prod.snd, S a := by
        intro a ha
        rcases List.mem_cons.1 ha with h | h
        · rw [h]
          exact hv
        · exact hSr a h
      have htail := sorted_insert_pairwise cmp v (rest.map Prod.snd)
        (fun a ha b hb => hc.anti a b (hmem a ha) (hmem b hb))
        (fun a ha b hb d hd => hc.trans a b d (hmem a ha) (hmem b hb) (hmem d hd)) hs.2
      have e1 : (rest.takeWhile (fun c => cmp c.2 v < 0)).map Prod.snd =
          (rest.map Prod.snd).takeWhile (fun x => cmp x v < 0) := by
        rw [List.takeWhile_map]
        rfl
      have e2 : (rest.dropWhile (fun c => cmp c.2 v < 0)).map Prod.snd =
          (rest.map Prod.snd).dropWhile (fun x => cmp x v < 0) := by
        rw [List.dropWhile_map]
        rfl
      simp only [List.map_cons, List.map_append, e1, e2]
      refine List.pairwise_cons.2 ⟨?_, htail⟩
      intro z hz
      rcases List.mem_append.1 hz with h | h
      · exact hs.1 z ((List.takeWhile_sublist _).subset h)
      · rcases List.mem_cons.1 h with h | h
        · rw [h]
          exact hc.of_not_lt v c.2 hv hSc hlt
        · exact hs.1 z ((List.dropWhile_sublist _).subset h)

/-- The block `link_front` puts an allocated node in front of a list. -/
theorem link_front_spec (h : Heap α) (sc : List (Nat × α)) (a : Nat) (x : α)
    (nxa pva : Option Nat) (hseg : DSeg h none sc none)
    (hnd : (sc.map Prod.fst).Nodup) (hfresh : a ∉ sc.map Prod.fst)
    (ha : h a = some { data := x, next := nxa, prev := pva }) :
    ∃ h', link_front h (ptr_of sc none) a = some h' ∧ DSeg h' none ((a, x) :: sc) none ∧
      ∀ z, z ≠ a → z ∉ sc.map Prod.fst → h' z = h z := by
  cases sc with
  | nil =>
    simp only [link_front, ptr_of, set_next, set_prev, ha, aset_same, Option.map_some',
      Option.bind_eq_bind, Option.some_bind, Option.some.injEq, exists_eq_left']
    refine ⟨?_, ?_⟩
    · simp [DSeg, ptr_of, aset_same]
    · intro z hz _
      rw [aset_other _ _ _ _ hz, aset_other _ _ _ _ hz]
  | cons c rest =>
    simp only [DSeg] at hseg
    simp only [List.map_cons, List.nodup_cons] at hnd
    simp only [List.map_cons, List.mem_cons, not_or] at hfresh
    have hca : c.1 ≠ a := Ne.symm hfresh.1
    simp only [link_front, ptr_of, set_next, set_prev, ha, hseg.1, aset_same,
      aset_other _ _ _ _ hca, aset_other _ _ _ _ hfresh.1, Option.map_some',
      Option.bind_eq_bind, Option.some_bind, Option.some.injEq, exists_eq_left']
    refine ⟨?_, ?_⟩
    · simp only [DSeg, ptr_of]
      refine ⟨by rw [aset_same], ?_, ?_⟩
      · rw [aset_other _ _ _ _ hca, aset_same]
      · apply dseg_frame h _ rest _ _ _ hseg.2
        intro z hz
        have hza : z ≠ a := by
          intro hEq
          rw [hEq] at hz
          exact hfresh.2 hz
        have hzc : z ≠ c.1 := by
          intro hEq
          rw [hEq] at hz
          exact hnd.1 hz
        rw [aset_other _ _ _ _ hza, aset_other _ _ _ _ hzc, aset_other _ _ _ _ hza]
    · intro z hz hzn
      simp only [List.map_cons, List.mem_cons, not_or] at hzn
      rw [aset_other _ _ _ _ hz, aset_other _ _ _ _ hzn.1, aset_other _ _ _ _ hz]

/-- The block `link_after` links an allocated node in after a node of a list. -/
theorem link_after_spec (h : Heap α) (c1 c2 : List (Nat × α)) (s : Nat) (y : α) (a : Nat)
    (x : α) (nxa pva : Option Nat) (hseg : DSeg h none (c1 ++ (s, y) :: c2) none)
    (hnd : ((c1 ++ (s, y) :: c2).map Prod.fst).Nodup)
    (hfresh : a ∉ (c1 ++ (s, y) :: c2).map Prod.fst)
    (ha : h a = some { data := x, next := nxa, prev := pva }) :
    ∃ h', link_after h s a = some h' ∧ DSeg h' none (c1 ++ (s, y) :: (a, x) :: c2) none ∧
      ∀ z, z ≠ a → z ∉ (c1 ++ (s, y) :: c2).map Prod.fst → h' z = h z := by
  obtain ⟨hn1, hn2, hn3, hn4, hn5⟩ := nodup_split c1 c2 (s, y) hnd
  rw [dseg_append] at hseg
  obtain ⟨hseg1, hseg2⟩ := hseg
  simp only [DSeg] at hseg2
  obtain ⟨hs, hseg2⟩ := hseg2
  simp only [List.map_append, List.map_cons, List.mem_append, List.mem_cons, not_or] at hfresh
  obtain ⟨hf1, hf2, hf3⟩ := hfresh
  have hsa : s ≠ a := Ne.symm hf2
  have hfr1 : ∀ z ∈ c1.map Prod.fst, z ≠ a ∧ z ≠ s := by
    intro z hz
    constructor
    · intro hEq
      rw [hEq] at hz
      exact hf1 hz
    · intro hEq
      rw [hEq] at hz
      exact hn1 hz
  have hframe_goal : ∀ (h' : Heap α), (∀ z, z ≠ a → z ≠ s → z ∉ c2.map Prod.fst → h' z = h z) →
      ∀ z, z ≠ a → z ∉ (c1 ++ (s, y) :: c2).map Prod.fst → h' z = h z := by
    intro h' hh z hz hzn
    simp only [List.map_append, List.map_cons, List.mem_append, List.mem_cons, not_or] at hzn
    exact hh z hz hzn.2.1 hzn.2.2
  cases c2 with
  | nil =>
    simp only [ptr_of] at hs
    simp only [link_after, rd_next, set_next, set_prev, ha, hs, aset_same,
      aset_other _ _ _ _ hsa, aset_other _ _ _ _ hf2, Option.map_some',
      Option.bind_eq_bind, Option.some_bind, Option.some.injEq, exists_eq_left']
    refine ⟨?_, ?_⟩
    · rw [dseg_append]
      constructor
      · apply dseg_frame h _ c1 _ _ _ hseg1
        intro z hz
        obtain ⟨hz1, hz2⟩ := hfr1 z hz
        rw [aset_other _ _ _ _ hz1, aset_other _ _ _ _ hz2, aset_other _ _ _ _ hz1]
      · simp only [DSeg, ptr_of, and_true]
        refine ⟨?_, by rw [aset_same]⟩
        rw [aset_other _ _ _ _ hsa, aset_same]
    · apply hframe_goal
      intro z hz1 hz2 _
      rw [aset_other _ _ _ _ hz1, aset_other _ _ _ _ hz2, aset_other _ _ _ _ hz1]
  | cons c c2 =>
    obtain ⟨b, w⟩ := c
    simp only [ptr_of] at hs
    simp only [DSeg] at hseg2
    obtain ⟨hb, hseg3⟩ := hseg2
    simp only [List.map_cons, List.mem_cons, not_or] at hn2 hf3
    have hba : b ≠ a := Ne.symm hf3.1
    have hbs : b ≠ s := Ne.symm hn2.1
    simp only [link_after, rd_next, set_next, set_prev, ha, hs, hb, aset_same,
      aset_other _ _ _ _ hsa, aset_other _ _ _ _ hf2, aset_other _ _ _ _ hba,
      aset_other _ _ _ _ hbs, aset_other _ _ _ _ (Ne.symm hbs), aset_other _ _ _ _ (Ne.symm hba),
      Option.map_some', Option.bind_eq_bind, Option.some_bind, Option.some.injEq,
      exists_eq_left']
    have hfr2 : ∀ z ∈ c2.map Prod.fst, z ≠ a ∧ z ≠ s ∧ z ≠ b := by
      intro z hz
      refine ⟨?_, ?_, ?_⟩
      · intro hEq
        rw [hEq] at hz
        exact hf3.2 hz
      · intro hEq
        rw [hEq] at hz
        exact hn2.2 hz
      · intro hEq
        rw [hEq] at hz
        simp only [List.map_cons, List.nodup_cons] at hn4
        exact hn4.1 hz
    refine ⟨?_, ?_⟩
    · rw [dseg_append]
      constructor
      · apply dseg_frame h _ c1 _ _ _ hseg1
        intro z hz
        obtain ⟨hz1, hz2⟩ := hfr1 z hz
        have hz3 : z ≠ b := by
          intro hEq
          apply hn5 z hz
          simp [hEq]
        rw [aset_other _ _ _ _ hz1, aset_other _ _ _ _ hz2, aset_other _ _ _ _ hz3,
          aset_other _ _ _ _ hz1]
      · simp only [DSeg, ptr_of]
        refine ⟨?_, by rw [aset_same], ?_, ?_⟩
        · rw [aset_other _ _ _ _ hsa, aset_same]
        · rw [aset_other _ _ _ _ hba, aset_other _ _ _ _ hbs, aset_same]
        · apply dseg_frame h _ c2 _ _ _ hseg3
          intro z hz
          obtain ⟨hz1, hz2, hz3⟩ := hfr2 z hz
          rw [aset_other _ _ _ _ hz1, aset_other _ _ _ _ hz2, aset_other _ _ _ _ hz3,
            aset_other _ _ _ _ hz1]
    · apply hframe_goal
      intro z hz1 hz2 hz3
      simp only [List.map_cons, List.mem_cons, not_or] at hz3
      rw [aset_other _ _ _ _ hz1, aset_other _ _ _ _ hz2, aset_other _ _ _ _ hz3.1,
        aset_other _ _ _ _ hz1]

/-- The body of the loop of `insertion_sort` links the node `a` into the list at
the place `insert_sorted` would give a new node. -/
theorem insertion_link_spec (cmp : α → α → Int) (fuel0 : Nat) (h : Heap α)
    (sc : List (Nat × α)) (a : Nat) (x : α) (nxa pva : Option Nat)
    (hseg : DSeg h none sc none) (hnd : (sc.map Prod.fst).Nodup)
    (hfresh : a ∉ sc.map Prod.fst)
    (ha : h a = some { data := x, next := nxa, prev := pva }) (hfuel : sc.length < fuel0) :
    ∃ h', insertion_link cmp fuel0 h (ptr_of sc none) a =
        some (h', ptr_of (sorted_cells cmp x a sc) none) ∧
      DSeg h' none (sorted_cells cmp x a sc) none ∧
      ∀ z, z ≠ a → z ∉ sc.map Prod.fst → h' z = h z := by
  cases sc with
  | nil =>
    obtain ⟨h', hrun, hseg', hframe⟩ := link_front_spec h [] a x nxa pva hseg hnd hfresh ha
    refine ⟨h', ?_, hseg', hframe⟩
    simp only [ptr_of] at hrun
    simp [insertion_link, ptr_of, hrun, sorted_cells]
  | cons c rest =>
    have hseg0 := hseg
    simp only [DSeg] at hseg0
    by_cases hlt : cmp x c.2 < 0
    · obtain ⟨h', hrun, hseg', hframe⟩ :=
        link_front_spec h (c :: rest) a x nxa pva hseg hnd hfresh ha
      refine ⟨h', ?_, by simpa [sorted_cells, hlt] using hseg', hframe⟩
      simp only [ptr_of] at hrun
      simp [insertion_link, ptr_of, rd_data, ha, hseg0.1, hlt, hrun, sorted_cells]
    · have hslot := find_slot_dseg cmp x h rest c none fuel0 hseg
        (by simp only [List.length_cons] at hfuel; omega)
      rcases List.eq_nil_or_concat (c :: rest.takeWhile (fun c => cmp c.2 x < 0)) with
        hnil | ⟨init, s, hsplit⟩
      · exact absurd hnil (by simp)
      · rw [List.concat_eq_append] at hsplit
        have hcells : c :: rest = init ++ (s.1, s.2) ::
            rest.dropWhile (fun c => cmp c.2 x < 0) := by
          have h1 : c :: rest = (c :: rest.takeWhile (fun c => cmp c.2 x < 0)) ++
              rest.dropWhile (fun c => cmp c.2 x < 0) := by
            rw [List.cons_append, List.takeWhile_append_dropWhile]
          rw [h1, hsplit]
          simp
        have hres : sorted_cells cmp x a (c :: rest) =
            init ++ (s.1, s.2) :: (a, x) :: rest.dropWhile (fun c => cmp c.2 x < 0) := by
          simp only [sorted_cells, if_neg hlt]
          rw [← List.cons_append, hsplit]
          simp
        rw [hsplit, last_of_append] at hslot
        simp only [last_of] at hslot
        obtain ⟨h', hrun, hseg', hframe⟩ :=
          link_after_spec h init (rest.dropWhile (fun c => cmp c.2 x < 0)) s.1 s.2 a x nxa pva
            (by rw [← hcells]; exact hseg) (by rw [← hcells]; exact hnd)
            (by rw [← hcells]; exact hfresh) ha
        refine ⟨h', ?_, by rw [hres]; exact hseg', by rw [hcells]; exact hframe⟩
        have hptr : ptr_of (sorted_cells cmp x a (c :: rest)) (none : Option Nat) = some c.1 := by
          simp [sorted_cells, hlt, ptr_of]
        rw [hptr]
        simp [insertion_link, ptr_of, rd_data, ha, hseg0.1, hlt, hslot, hrun]

/-- The loop of `insertion_sort`: with the nodes of `sorted` ascending, the loop
ends and leaves the nodes of both lists in one ascending list. -/
theorem insertion_loop_spec {cmp : α → α → Int} {S : α → Prop} (hc : CmpOrd cmp S)
    (fuel0 : Nat) :
    ∀ (rc sc : List (Nat × α)) (fuel : Nat) (h : Heap α),
      DSeg h none sc none → SSeg h rc none → ((sc ++ rc).map Prod.fst).Nodup →
      rc.length ≤ fuel → (sc ++ rc).length < fuel0 →
      (∀ x ∈ (sc ++ rc).map Prod.snd, S x) →
      (sc.map Prod.snd).Pairwise (fun a b => cmp a b ≤ 0) →
      ∃ h' cells', insertion_loop cmp fuel0 fuel h (ptr_of sc none) (ptr_of rc none) =
          some (h', ptr_of cells' none) ∧
        DSeg h' none cells' none ∧ cells'.Perm (sc ++ rc) ∧
        (cells'.map Prod.snd).Pairwise (fun a b => cmp a b ≤ 0) ∧
        ∀ z, z ∉ (sc ++ rc).map Prod.fst → h' z = h z := by
  intro rc
  induction rc with
  | nil =>
    intro sc fuel h hseg _ _ _ _ _ hsorted
    refine ⟨h, sc, ?_, hseg, by simp, hsorted, fun _ _ => rfl⟩
    cases fuel <;> simp [insertion_loop, ptr_of]
  | cons d rc ih =>
    intro sc fuel h hseg hsseg hnd hfuel hfuel0 hS hsorted
    obtain ⟨f, rfl⟩ : ∃ f, fuel = f + 1 := ⟨fuel - 1, by
      simp only [List.length_cons] at hfuel; omega⟩
    simp only [SSeg] at hsseg
    obtain ⟨⟨pva, ha⟩, hsseg'⟩ := hsseg
    have hnd0 := hnd
    simp only [List.map_append, List.map_cons, List.nodup_append, List.nodup_cons] at hnd
    obtain ⟨hnd1, ⟨hnd2, hnd3⟩, hnd4⟩ := hnd
    have hfresh : d.1 ∉ sc.map Prod.fst := fun hmem => hnd4 hmem (List.mem_cons_self _ _)
    obtain ⟨h1, hrun1, hseg1, hframe1⟩ := insertion_link_spec cmp fuel0 h sc d.1 d.2 _ pva hseg
      hnd1 hfresh ha (by simp only [List.length_append, List.length_cons] at hfuel0; omega)
    have hperm1 := sorted_cells_perm cmp d.2 d.1 sc
    have hperm2 : (sorted_cells cmp d.2 d.1 sc ++ rc).Perm (sc ++ d :: rc) :=
      (hperm1.append_right rc).trans List.perm_middle.symm
    have hsseg1 : SSeg h1 rc none := by
      apply sseg_frame h h1 rc none _ hsseg'
      intro z hz
      apply hframe1 z
      · intro hEq
        rw [hEq] at hz
        exact hnd2 hz
      · intro hmem
        exact hnd4 hmem (List.mem_cons_of_mem _ hz)
    obtain ⟨h2, cells2, hrun2, hseg2, hperm3, hsorted2, hframe2⟩ :=
      ih (sorted_cells cmp d.2 d.1 sc) f h1 hseg1 hsseg1
        ((hperm2.map Prod.fst).nodup_iff.2 hnd0)
        (by simp only [List.length_cons] at hfuel; omega)
        (by
          have := hperm2.length_eq
          rw [this]
          exact hfuel0)
        (fun x hx => hS x ((hperm2.map Prod.snd).mem_iff.1 hx))
        (sorted_cells_sorted hc d.2 d.1 sc (hS d.2 (by simp))
          (fun x hx => hS x (by simp only [List.map_append, List.mem_append]; left; exact hx))
          hsorted)
    refine ⟨h2, cells2, ?_, hseg2, hperm3.trans hperm2, hsorted2, ?_⟩
    · have e : ptr_of (d :: rc) (none : Option Nat) = some d.1 := rfl
      rw [e]
      simp only [insertion_loop, rd_next, ha, hrun1, Option.map_some', Option.bind_eq_bind,
        Option.some_bind]
      exact hrun2
    · intro z hz
      have hz' : z ∉ (sorted_cells cmp d.2 d.1 sc ++ rc).map Prod.fst := by
        intro hmem
        exact hz ((hperm2.map Prod.fst).mem_iff.1 hmem)
      rw [hframe2 z hz']
      apply hframe1 z
      · intro hEq
        apply hz
        rw [hEq]
        simp
      · intro hmem
        apply hz
        simp only [List.map_append, List.mem_append]
        left
        exact hmem

/-- The function `insertion_sort` leaves a well-formed list holding the old values
in ascending order. -/
theorem insertion_sort_spec {cmp : α → α → Int} (st : ListState α) (cells : List (Nat × α))
    (hc : HasCells st cells) (hord : CmpOrd cmp (fun x => x ∈ cells.map Prod.snd)) :
    ∃ st' cells', insertion_sort cmp st = some st' ∧ HasCells st' cells' ∧
      (cells'.map Prod.snd).Perm (cells.map Prod.snd) ∧
      (cells'.map Prod.snd).Pairwise (fun a b => cmp a b ≤ 0) := by
  have hlt := hasCells_lt st cells hc
  have hlen := cells_length_le st cells hc
  obtain ⟨hhead, hseg, hnd, halloc⟩ := hc
  cases cells with
  | nil =>
    simp only [ptr_of] at hhead
    refine ⟨st, [], ?_, ⟨hhead, hseg, hnd, halloc⟩, List.Perm.refl _, List.Pairwise.nil⟩
    simp [insertion_sort, hhead]
  | cons c rest =>
    simp only [ptr_of] at hhead
    have hseg0 := hseg
    simp only [DSeg] at hseg0
    cases rest with
    | nil =>
      refine ⟨st, [c], ?_, ⟨hhead, hseg, hnd, halloc⟩, List.Perm.refl _,
        List.pairwise_singleton _ _⟩
      simp [insertion_sort, hhead, rd_next, hseg0.1, ptr_of]
    | cons c2 rest =>
      obtain ⟨h', cells', hrun, hseg', hperm, hsorted, hframe⟩ :=
        insertion_loop_spec hord (st.brk + 1) (c :: c2 :: rest) [] st.brk st.heap trivial
          (dseg_to_sseg st.heap _ none none hseg) (by simpa using hnd) hlen
          (by simp only [List.nil_append]; omega) (fun x hx => by simpa using hx)
          List.Pairwise.nil
      simp only [List.nil_append] at hperm hframe
      refine ⟨{ st with heap := h', head := ptr_of cells' none }, cells', ?_,
        ⟨rfl, hseg', (hperm.map Prod.fst).nodup_iff.2 hnd, ?_⟩, hperm.map Prod.snd, hsorted⟩
      · simp only [ptr_of] at hrun
        simp [insertion_sort, hhead, rd_next, hseg0.1, ptr_of, hrun]
      · intro a ha
        dsimp only at ha ⊢
        rw [hframe a (fun hmem => by have := hlt a hmem; omega)]
        exact halloc a ha

theorem sortedPerm_of (dt : DataType) (l : List (Val dt)) (cells : List (Nat × Val dt))
    (hl : cells.map Prod.snd = l) (res : Option (ListState (Val dt)))
    (h : ∃ st' cells', res = some st' ∧ HasCells st' cells' ∧
      (cells'.map Prod.snd).Perm (cells.map Prod.snd) ∧
      (cells'.map Prod.snd).Pairwise (fun a b => compare_vals dt a b ≤ 0)) :
    SortedPerm dt l res := by
  obtain ⟨st', cells', hrun, hc', hperm, hsorted⟩ := h
  rw [hl] at hperm
  exact ⟨st', cells'.map Prod.snd, hrun, ⟨cells', hc', rfl⟩,
    to_list_of_isList st' _ ⟨cells', hc', rfl⟩, hperm, hsorted, hperm.length_eq⟩

theorem isList_four_nodes : IsList four_nodes [30, 10, 20, 10] := by
  refine ⟨[(0, 30), (1, 10), (2, 20), (3, 10)], ⟨rfl, ?_, by decide, ?_⟩, rfl⟩
  · simp [DSeg, ptr_of, four_nodes]
  · intro a ha
    have h0 : a ≠ 0 := by
      intro h
      rw [h] at ha
      simp [four_nodes] at ha
    have h1 : a ≠ 1 := by
      intro h
      rw [h] at ha
      simp [four_nodes] at ha
    have h2 : a ≠ 2 := by
      intro h
      rw [h] at ha
      simp [four_nodes] at ha
    have h3 : a ≠ 3 := by
      intro h
      rw [h] at ha
      simp [four_nodes] at ha
    simp [four_nodes, h0, h1, h2, h3]

end ListSorts

/-- C7: for each of `bubble_sort`, `insertion_sort`, `shell_sort` and `quick_sort` of
list.c, on every well-formed list whose values `compare_vals` orders as a total
preorder, the call returns and the value sequence reachable from `head` is then an
ascending permutation of the one before the call, of the same length. -/
theorem list_sorts_sorted_permutation (dt : ListC.DataType)
    (st : ListC.ListState (ListC.Val dt)) (l : List (ListC.Val dt))
    (arr0 : Nat → ListC.Val dt) (h : ListC.IsList st l)
    (hanti : ∀ a ∈ l, ∀ b ∈ l,
      (0 < ListC.compare_vals dt a b ↔ ListC.compare_vals dt b a < 0))
    (htrans : ∀ a ∈ l, ∀ b ∈ l, ∀ c ∈ l,
      ListC.compare_vals dt a b ≤ 0 → ListC.compare_vals dt b c ≤ 0 →
      ListC.compare_vals dt a c ≤ 0) :
    ListC.SortedPerm dt l (ListC.bubble_sort (ListC.compare_vals dt) st) ∧
    ListC.SortedPerm dt l (ListC.insertion_sort (ListC.compare_vals dt) st) ∧
    ListC.SortedPerm dt l (ListC.shell_sort (ListC.compare_vals dt) arr0 st) ∧
    ListC.SortedPerm dt l (ListC.quick_sort (ListC.compare_vals dt) arr0 st) := by
  obtain ⟨cells, hc, hl⟩ := h
  have hord : CmpOrd (ListC.compare_vals dt) (fun x => x ∈ cells.map Prod.snd) := by
    rw [hl]
    exact ⟨fun a b ha hb => hanti a ha b hb,
      fun a b c ha hb hc => htrans a ha b hb c hc⟩
  exact ⟨sortedPerm_of dt l cells hl _ (bubble_sort_spec st cells hc hord),
    sortedPerm_of dt l cells hl _ (insertion_sort_spec st cells hc hord),
    sortedPerm_of dt l cells hl _ (shell_sort_spec st cells arr0 hc hord),
    sortedPerm_of dt l cells hl _ (quick_sort_spec st cells arr0 hc hord)⟩

/-- Witness of C7: the four sorts on the int list `[30, 10, 20, 10]`. -/
theorem list_sorts_sorted_permutation_witness :
    ListC.IsList ListC.four_nodes [30, 10, 20, 10] ∧
    ListC.SortedPerm .TYPE_INT [30, 10, 20, 10]
      (ListC.bubble_sort (ListC.compare_vals .TYPE_INT) ListC.four_nodes) ∧
    ListC.SortedPerm .TYPE_INT [30, 10, 20, 10]
      (ListC.insertion_sort (ListC.compare_vals .TYPE_INT) ListC.four_nodes) ∧
    ListC.SortedPerm .TYPE_INT [30, 10, 20, 10]
      (ListC.shell_sort (ListC.compare_vals .TYPE_INT) (fun _ => 0) ListC.four_nodes) ∧
    ListC.SortedPerm .TYPE_INT [30, 10, 20, 10]
      (ListC.quick_sort (ListC.compare_vals .TYPE_INT) (fun _ => 0) ListC.four_nodes) :=
  ⟨isList_four_nodes,
    list_sorts_sorted_permutation .TYPE_INT ListC.four_nodes [30, 10, 20, 10] (fun _ => 0)
      isList_four_nodes (by decide) (by decide)⟩

/-- The four sorts of list.c run on the int list `[30, 10, 20, 10]`: each leaves
`[10, 10, 20, 30]`. -/
theorem list_sorts_example :
    (ListC.bubble_sort (ListC.compare_vals .TYPE_INT) ListC.four_nodes).bind ListC.to_list
      = some [10, 10, 20, 30] ∧
    (ListC.insertion_sort (ListC.compare_vals .TYPE_INT) ListC.four_nodes).bind ListC.to_list
      = some [10, 10, 20, 30] ∧
    (ListC.shell_sort (ListC.compare_vals .TYPE_INT) (fun _ => 0) ListC.four_nodes).bind
      ListC.to_list = some [10, 10, 20, 30] ∧
    (ListC.quick_sort (ListC.compare_vals .TYPE_INT) (fun _ => 0) ListC.four_nodes).bind
      ListC.to_list = some [10, 10, 20, 30] := by
  decide

/-! ## Comparison of ints and the shortest paths outside their hypotheses -/

/-- C18 (the code at the failing input): on the 32-bit ints `2147483647` and `-1` the
three comparators, which subtract, return the negative `-2147483648` although the
first int is the greater. -/
theorem int_comparison_wraps :
    ListC.compare_vals .TYPE_INT 2147483647 (-1) = -2147483648 ∧
    TableC.cmp_generic .TYPE_INT false 2147483647 (-1) = -2147483648 ∧
    TreeC.cmp_tree_vals .TYPE_INT 2147483647 (-1) = -2147483648 := by
  decide

/-- The comparison of ints by subtraction is the numeric order as long as the
difference is a 32-bit int. -/
theorem int_comparison_small (a b : Int) (h1 : -2147483648 ≤ a - b)
    (h2 : a - b < 2147483648) :
    ListC.compare_vals .TYPE_INT a b = a - b ∧
    TableC.cmp_generic .TYPE_INT false a b = a - b ∧
    TreeC.cmp_tree_vals .TYPE_INT a b = a - b := by
  have h : wrap32 (a - b) = a - b := wrap32_id (a - b) h1 h2
  refine ⟨h, ?_, h⟩
  simp [TableC.cmp_generic, h]

/-- C15 (the code at the failing input): with the single stored edge `0 → 1` of
weight 5, a query from node 1 to node 0 gets `dist[end] = 999999` and no path from
`run_dijkstra` and from `run_bellman`, which never read the toggle, while the
enumeration of paths in undirected mode reports the path `1, 0` of weight 5. -/
theorem shortest_path_ignores_undirected :
    (GraphC.run_dijkstra 2 [⟨0, 1, 5⟩] 1 0).map (fun r => (r.dist 0, r.path_len))
      = some (999999, 0) ∧
    (GraphC.run_bellman 2 [⟨0, 1, 5⟩] 1 0).map (fun r => (r.dist 0, r.path_len))
      = some (999999, 0) ∧
    GraphC.printAllPaths [⟨0, 1, 5⟩] false 2 1 0 = some [([1, 0], 5)] := by
  decide

/-- C16 (the code at the failing input): on two nodes with the edges `0 → 1` of weight
1 and `1 → 0` of weight -5, `run_bellman(0, 1)` leaves `prev[1] = 0` and
`prev[0] = 1`, and the walk back from `end` never meets `-1`: it does not stop
within the `MAX_NODES` cells of `path_nodes`. -/
theorem bellman_negative_cycle_overruns :
    (GraphC.run_bellman 2 [⟨0, 1, 1⟩, ⟨1, 0, -5⟩] 0 1).isNone = true ∧
    (GraphC.bellman_rounds [⟨0, 1, 1⟩, ⟨1, 0, -5⟩] 1 (GraphC.sp_init 0)).prev 1 = 0 ∧
    (GraphC.bellman_rounds [⟨0, 1, 1⟩, ⟨1, 0, -5⟩] 1 (GraphC.sp_init 0)).prev 0 = 1 := by
  decide

/-! ## The edge store -/

section EdgeStore
open GraphC

theorem update_existing_none (u v : Nat) (w : Int) :
    ∀ edges : List Edge, (∀ e ∈ edges, ¬ (e.u = u ∧ e.v = v)) →
      update_existing u v w edges = none := by
  intro edges
  induction edges with
  | nil => intro _; rfl
  | cons e es ih =>
    intro h
    simp only [update_existing]
    rw [if_neg (h e (List.mem_cons_self _ _)), ih (fun x hx => h x (List.mem_cons_of_mem _ hx))]
    rfl

/-- With distinct pairs, the update loop sets the weight of the one edge from `u` to
`v` and leaves the others as they are. -/
theorem update_existing_some (u v : Nat) (w : Int) :
    ∀ edges : List Edge, UniquePairs edges → (∃ e ∈ edges, e.u = u ∧ e.v = v) →
      update_existing u v w edges =
        some (edges.map (fun e => if e.u = u ∧ e.v = v then { e with weight := w } else e)) := by
  intro edges
  induction edges with
  | nil =>
    intro _ h
    obtain ⟨e, he, _⟩ := h
    exact absurd he (List.not_mem_nil e)
  | cons e es ih =>
    intro huniq h
    simp only [UniquePairs, List.pairwise_cons] at huniq
    simp only [update_existing, List.map_cons]
    by_cases hm : e.u = u ∧ e.v = v
    · rw [if_pos hm, if_pos hm]
      have hrest : es.map (fun e => if e.u = u ∧ e.v = v then { e with weight := w } else e)
          = es := by
        conv_rhs => rw [← List.map_id es]
        apply List.map_congr_left
        intro x hx
        have := huniq.1 x hx
        rw [if_neg (fun hx2 => this ⟨hm.1.trans hx2.1.symm, hm.2.trans hx2.2.symm⟩)]
        rfl
      rw [hrest]
    · rw [if_neg hm, if_neg hm]
      obtain ⟨x, hx, hxm⟩ := h
      have hx' : x ∈ es := by
        rcases List.mem_cons.1 hx with h1 | h1
        · rw [h1] at hxm
          exact absurd hxm hm
        · exact h1
      rw [ih huniq.2 ⟨x, hx', hxm⟩]
      rfl

/-- Distinct pairs of nodes below `MAX_NODES` fit in the array `edges`. -/
theorem uniquePairs_length (edges : List Edge) (huniq : UniquePairs edges)
    (hvalid : ∀ e ∈ edges, e.u < MAX_NODES ∧ e.v < MAX_NODES) :
    edges.length ≤ MAX_EDGES := by
  have hnd : (edges.map (fun e => e.u * MAX_NODES + e.v)).Nodup := by
    rw [List.Nodup, List.pairwise_map]
    apply List.Pairwise.imp_of_mem _ huniq
    intro a b ha hb hab hEq
    apply hab
    have h1 := hvalid a ha
    have h2 := hvalid b hb
    simp only [MAX_NODES] at h1 h2 hEq
    omega
  have := nodup_length_le MAX_EDGES _ hnd (by
    intro x hx
    obtain ⟨e, he, rfl⟩ := List.mem_map.1 hx
    have h1 := hvalid e he
    simp only [MAX_NODES, MAX_EDGES] at h1 ⊢
    omega)
  simpa using this

end EdgeStore

/-- C14: on stored edges with pairwise distinct ordered pairs, whenever
`add_edge(u, v, w)` returns, the pairs are again distinct; when an edge from `u` to
`v` is stored, its weight is set to `w`, `edge_count` and every other edge are as
before; otherwise the edge `(u, v, w)` is appended and `edge_count` grows by exactly
one. The call returns when an edge from `u` to `v` is stored, and also when all the
nodes involved are below `MAX_NODES`: the array `edges` is then not full. -/
theorem add_edge_keeps_pairs_unique (edges : List GraphC.Edge) (u v : Nat) (w : Int)
    (huniq : GraphC.UniquePairs edges) :
    (∀ edges', GraphC.add_edge u v w edges = some edges' →
      GraphC.UniquePairs edges' ∧
      ((∃ e ∈ edges, e.u = u ∧ e.v = v) →
        edges' = edges.map (fun e => if e.u = u ∧ e.v = v then { e with weight := w } else e) ∧
        edges'.length = edges.length) ∧
      ((¬ ∃ e ∈ edges, e.u = u ∧ e.v = v) →
        edges' = edges ++ [⟨u, v, w⟩] ∧ edges'.length = edges.length + 1)) ∧
    ((∃ e ∈ edges, e.u = u ∧ e.v = v) → ∃ edges', GraphC.add_edge u v w edges = some edges') ∧
    ((∀ e ∈ edges, e.u < GraphC.MAX_NODES ∧ e.v < GraphC.MAX_NODES) →
      u < GraphC.MAX_NODES → v < GraphC.MAX_NODES →
      ∃ edges', GraphC.add_edge u v w edges = some edges') := by
  by_cases hex : ∃ e ∈ edges, e.u = u ∧ e.v = v
  · have hrun : GraphC.add_edge u v w edges = some (edges.map
        (fun e => if e.u = u ∧ e.v = v then { e with weight := w } else e)) := by
      rw [GraphC.add_edge, update_existing_some u v w edges huniq hex]
    refine ⟨?_, fun _ => ⟨_, hrun⟩, fun _ _ _ => ⟨_, hrun⟩⟩
    intro edges' h'
    rw [hrun] at h'
    simp only [Option.some.injEq] at h'
    rw [← h']
    refine ⟨?_, fun _ => ⟨rfl, by simp⟩, fun h => absurd hex h⟩
    unfold GraphC.UniquePairs
    rw [List.pairwise_map]
    apply List.Pairwise.imp _ huniq
    intro a b hab
    have hkeep : ∀ e : GraphC.Edge,
        (if e.u = u ∧ e.v = v then { e with weight := w } else e).u = e.u ∧
        (if e.u = u ∧ e.v = v then { e with weight := w } else e).v = e.v := by
      intro e
      split_ifs <;> exact ⟨rfl, rfl⟩
    rw [(hkeep a).1, (hkeep a).2, (hkeep b).1, (hkeep b).2]
    exact hab
  · have hnone : ∀ e ∈ edges, ¬ (e.u = u ∧ e.v = v) := fun e he hm => hex ⟨e, he, hm⟩
    have huniq' : GraphC.UniquePairs (edges ++ [⟨u, v, w⟩]) := by
      unfold GraphC.UniquePairs
      rw [List.pairwise_append]
      refine ⟨huniq, List.pairwise_singleton _ _, ?_⟩
      intro a ha b hb
      rw [List.mem_singleton] at hb
      rw [hb]
      exact hnone a ha
    have hdef : GraphC.add_edge u v w edges =
        if edges.length < GraphC.MAX_EDGES then some (edges ++ [⟨u, v, w⟩]) else none := by
      rw [GraphC.add_edge, update_existing_none u v w edges hnone]
    refine ⟨?_, fun h => absurd h hex, ?_⟩
    · intro edges' h'
      rw [hdef] at h'
      split_ifs at h' with hlen
      simp only [Option.some.injEq] at h'
      rw [← h']
      exact ⟨huniq', fun h => absurd h hex, fun _ => ⟨rfl, by simp⟩⟩
    · intro hvalid hu hv
      have hlen := uniquePairs_length (edges ++ [⟨u, v, w⟩]) huniq' (by
        intro e he
        rcases List.mem_append.1 he with h | h
        · exact hvalid e h
        · rw [List.mem_singleton] at h
          rw [h]
          exact ⟨hu, hv⟩)
      simp only [List.length_append, List.length_singleton] at hlen
      exact ⟨_, by rw [hdef, if_pos (by omega)]⟩

/-- Witness of C14: `add_edge(0, 1, 7)` and `add_edge(1, 0, 7)` on the stored edges
`0 → 1` of weight 5 and `1 → 2` of weight 3. -/
theorem add_edge_keeps_pairs_unique_witness :
    GraphC.add_edge 0 1 7 [⟨0, 1, 5⟩, ⟨1, 2, 3⟩] = some [⟨0, 1, 7⟩, ⟨1, 2, 3⟩] ∧
    GraphC.add_edge 1 0 7 [⟨0, 1, 5⟩, ⟨1, 2, 3⟩] = some [⟨0, 1, 5⟩, ⟨1, 2, 3⟩, ⟨1, 0, 7⟩] ∧
    GraphC.UniquePairs [⟨0, 1, 5⟩, ⟨1, 2, 3⟩] ∧
    ∃ edges', GraphC.add_edge 1 0 7 [⟨0, 1, 5⟩, ⟨1, 2, 3⟩] = some edges' :=
  ⟨by decide, by decide, by unfold GraphC.UniquePairs; decide,
    (add_edge_keeps_pairs_unique [⟨0, 1, 5⟩, ⟨1, 2, 3⟩] 1 0 7
      (by unfold GraphC.UniquePairs; decide)).2.2 (by decide) (by decide) (by decide)⟩

/-! ## Tree traversals -/

section TreeTraversals
open TreeC
variable {α : Type}

mutual
theorem preorder_length : ∀ t : TNode α, (preorder t).length = size t
  | .node d cs => by
    simp only [preorder, size, List.length_cons, preorder_list_length cs]
    omega
theorem preorder_list_length : ∀ cs : List (TNode α), (preorder_list cs).length = size_list cs
  | [] => rfl
  | c :: cs => by
    simp only [preorder_list, size_list, List.length_append, preorder_length c,
      preorder_list_length cs]
end

theorem size_pos (t : TNode α) : 0 < size t := by
  cases t with
  | node d cs =>
    simp only [size]
    omega

mutual
/-- Below the capacity, `collect_dfs_pre` appends the pre-order. -/
theorem collect_dfs_pre_eq : ∀ (t : TNode α) (path : List (TNode α)),
    path.length + size t ≤ 500 → collect_dfs_pre t path = path ++ preorder t
  | .node d cs, path, h => by
    simp only [size] at h
    simp only [collect_dfs_pre, preorder]
    rw [if_neg (by omega),
      collect_dfs_pre_from_eq cs (path ++ [TNode.node d cs]) (by
        simp only [List.length_append, List.length_singleton]
        omega)]
    simp
theorem collect_dfs_pre_from_eq : ∀ (cs : List (TNode α)) (path : List (TNode α)),
    path.length + size_list cs ≤ 500 → collect_dfs_pre_from cs path = path ++ preorder_list cs
  | [], path, _ => by simp [collect_dfs_pre_from, preorder_list]
  | c :: cs, path, h => by
    simp only [size_list] at h
    simp only [collect_dfs_pre_from, preorder_list]
    rw [collect_dfs_pre_eq c path (by omega),
      collect_dfs_pre_from_eq cs (path ++ preorder c) (by
        simp only [List.length_append, preorder_length]
        omega)]
    simp
end

mutual
theorem inorder_perm : ∀ t : TNode α, (inorder t).Perm (preorder t)
  | .node d [] => by simp [inorder, preorder, preorder_list]
  | .node d (c :: rest) => by
    simp only [inorder, preorder, preorder_list]
    exact List.perm_middle.trans
      (((inorder_perm c).append (inorder_list_perm rest)).cons _)
theorem inorder_list_perm : ∀ cs : List (TNode α), (inorder_list cs).Perm (preorder_list cs)
  | [] => List.Perm.refl _
  | c :: cs => by
    simp only [inorder_list, preorder_list]
    exact (inorder_perm c).append (inorder_list_perm cs)
end

mutual
theorem postorder_perm : ∀ t : TNode α, (postorder t).Perm (preorder t)
  | .node d cs => by
    simp only [postorder, preorder]
    exact (List.perm_append_singleton _ _).trans ((postorder_list_perm cs).cons _)
theorem postorder_list_perm : ∀ cs : List (TNode α), (postorder_list cs).Perm (preorder_list cs)
  | [] => List.Perm.refl _
  | c :: cs => by
    simp only [postorder_list, preorder_list]
    exact (postorder_perm c).append (postorder_list_perm cs)
end

theorem inorder_length (t : TNode α) : (inorder t).length = size t := by
  rw [(inorder_perm t).length_eq, preorder_length]

theorem postorder_length (t : TNode α) : (postorder t).length = size t := by
  rw [(postorder_perm t).length_eq, preorder_length]

mutual
/-- Below the capacity, `collect_dfs_in` appends the in-order. -/
theorem collect_dfs_in_eq : ∀ (t : TNode α) (path : List (TNode α)),
    path.length + size t ≤ 500 → collect_dfs_in t path = path ++ inorder t
  | .node d [], path, h => by
    simp only [size, size_list] at h
    simp only [collect_dfs_in, inorder]
    rw [if_neg (by omega)]
  | .node d (c :: rest), path, h => by
    simp only [size, size_list] at h
    simp only [collect_dfs_in, inorder]
    rw [if_neg (by omega), collect_dfs_in_eq c path (by omega),
      collect_dfs_in_from_eq rest (path ++ inorder c ++ [TNode.node d (c :: rest)]) (by
        simp only [List.length_append, List.length_singleton, inorder_length]
        omega)]
    simp
theorem collect_dfs_in_from_eq : ∀ (cs : List (TNode α)) (path : List (TNode α)),
    path.length + size_list cs ≤ 500 → collect_dfs_in_from cs path = path ++ inorder_list cs
  | [], path, _ => by simp [collect_dfs_in_from, inorder_list]
  | c :: cs, path, h => by
    simp only [size_list] at h
    simp only [collect_dfs_in_from, inorder_list]
    rw [collect_dfs_in_eq c path (by omega),
      collect_dfs_in_from_eq cs (path ++ inorder c) (by
        simp only [List.length_append, inorder_length]
        omega)]
    simp
end

mutual
/-- Below the capacity, `collect_dfs_post` appends the post-order. -/
theorem collect_dfs_post_eq : ∀ (t : TNode α) (path : List (TNode α)),
    path.length + size t ≤ 500 → collect_dfs_post t path = path ++ postorder t
  | .node d cs, path, h => by
    simp only [size] at h
    simp only [collect_dfs_post, postorder]
    rw [if_neg (by omega), collect_dfs_post_from_eq cs path (by omega)]
    simp
theorem collect_dfs_post_from_eq : ∀ (cs : List (TNode α)) (path : List (TNode α)),
    path.length + size_list cs ≤ 500 →
      collect_dfs_post_from cs path = path ++ postorder_list cs
  | [], path, _ => by simp [collect_dfs_post_from, postorder_list]
  | c :: cs, path, h => by
    simp only [size_list] at h
    simp only [collect_dfs_post_from, postorder_list]
    rw [collect_dfs_post_eq c path (by omega),
      collect_dfs_post_from_eq cs (path ++ postorder c) (by
        simp only [List.length_append, postorder_length]
        omega)]
    simp
end

mutual
/-- The traversal `collect_dfs_pre` never writes at position 500 or beyond. -/
theorem collect_dfs_pre_bounded : ∀ (t : TNode α) (path : List (TNode α)),
    path.length ≤ 500 → (collect_dfs_pre t path).length ≤ 500
  | .node d cs, path, h => by
    simp only [collect_dfs_pre]
    split_ifs with h1
    · exact h
    · exact collect_dfs_pre_from_bounded cs _ (by
        simp only [List.length_append, List.length_singleton]
        omega)
theorem collect_dfs_pre_from_bounded : ∀ (cs : List (TNode α)) (path : List (TNode α)),
    path.length ≤ 500 → (collect_dfs_pre_from cs path).length ≤ 500
  | [], path, h => by simpa [collect_dfs_pre_from] using h
  | c :: cs, path, h => by
    simp only [collect_dfs_pre_from]
    exact collect_dfs_pre_from_bounded cs _ (collect_dfs_pre_bounded c path h)
end

/-- The traversal `collect_bfs` never writes at position 500 or beyond of the
path. -/
theorem collect_bfs_loop_bounded : ∀ (fuel : Nat) (pending : List (TNode α)) (b : Nat)
    (path out : List (TNode α)), path.length ≤ 500 →
    collect_bfs_loop fuel pending b path = some out → out.length ≤ 500 := by
  intro fuel
  induction fuel with
  | zero =>
    intro pending b path out _ h
    simp [collect_bfs_loop] at h
  | succ f ih =>
    intro pending b path out hp h
    cases pending with
    | nil =>
      simp only [collect_bfs_loop, Option.some.injEq] at h
      rw [← h]
      exact hp
    | cons curr rest =>
      simp only [collect_bfs_loop] at h
      split_ifs at h with h1 h2
      · exact ih _ _ _ out (by
          simp only [List.length_append, List.length_singleton]
          omega) h
      · simp only [Option.some.injEq] at h
        rw [← h]
        exact hp

/-- On a chain, `collect_dfs_in` started with `count = 0` writes every node: each
call is entered with `count = 0` and writes after its child returns. -/
theorem collect_dfs_in_chain (d : α) :
    ∀ k, (collect_dfs_in (chain d k) []).length = k + 1 := by
  intro k
  induction k with
  | zero => simp [chain, collect_dfs_in]
  | succ k ih =>
    simp only [chain, collect_dfs_in, collect_dfs_in_from, List.length_nil]
    rw [if_neg (by omega)]
    simp only [List.length_append, List.length_singleton, ih]

/-- On a chain, `collect_dfs_post` started with `count = 0` writes every node. -/
theorem collect_dfs_post_chain (d : α) :
    ∀ k, (collect_dfs_post (chain d k) []).length = k + 1 := by
  intro k
  induction k with
  | zero => simp [chain, collect_dfs_post, collect_dfs_post_from]
  | succ k ih =>
    simp only [chain, collect_dfs_post, collect_dfs_post_from, List.length_nil]
    rw [if_neg (by omega)]
    simp only [List.length_append, List.length_singleton, ih]

theorem size_chain (d : α) : ∀ k, size (chain d k) = k + 1 := by
  intro k
  induction k with
  | zero => simp [chain, size, size_list]
  | succ k ih =>
    simp only [chain, size, size_list, ih]
    omega

/-- The lengths of the in-order and post-order collections on a root whose first
child has a subtree of 500 nodes. -/
theorem overfull_lengths (d : α) (c : TNode α) (hc : size c = 498) :
    (collect_dfs_in (.node d [.node d [c, .node d []], .node d []]) []).length = 501 ∧
    (collect_dfs_post (.node d [.node d [c, .node d []], .node d []]) []).length = 501 ∧
    size (.node d [.node d [c, .node d []], .node d []]) = 502 := by
  have hin := collect_dfs_in_eq c [] (by rw [hc]; simp)
  have hpost := collect_dfs_post_eq c [] (by rw [hc]; simp)
  have hlin := inorder_length c
  have hlpost := postorder_length c
  rw [hc] at hlin hlpost
  rw [List.nil_append] at hin hpost
  refine ⟨?_, ?_, ?_⟩
  · simp only [collect_dfs_in, collect_dfs_in_from, hin, List.length_nil,
      List.length_append, List.length_singleton, hlin]
    simp [hlin]
  · simp only [collect_dfs_post, collect_dfs_post_from, hpost, List.length_nil,
      List.length_append, List.length_singleton, hlpost]
    simp [hlpost]
  · simp only [size, size_list, hc]

end TreeTraversals

/-- C13: for every tree with at most 500 nodes the three collectors started with
`count = 0` return the pre-order, the in-order and the post-order of the nodes;
the three sequences are permutations of one another and have one entry per
node. -/
theorem dfs_collectors_match_orders {α : Type} (t : TreeC.TNode α)
    (h : TreeC.size t ≤ 500) :
    TreeC.collect_dfs_pre t [] = TreeC.preorder t ∧
    TreeC.collect_dfs_in t [] = TreeC.inorder t ∧
    TreeC.collect_dfs_post t [] = TreeC.postorder t ∧
    (TreeC.inorder t).Perm (TreeC.preorder t) ∧
    (TreeC.postorder t).Perm (TreeC.preorder t) ∧
    (TreeC.preorder t).length = TreeC.size t := by
  refine ⟨?_, ?_, ?_, inorder_perm t, postorder_perm t, preorder_length t⟩
  · simpa using collect_dfs_pre_eq t [] (by simpa using h)
  · simpa using collect_dfs_in_eq t [] (by simpa using h)
  · simpa using collect_dfs_post_eq t [] (by simpa using h)

/-- Witness of C13: the root 1 with the children 2 and 3. -/
theorem dfs_collectors_match_orders_witness :
    TreeC.size (TreeC.TNode.node (1 : Int) [.node 2 [], .node 3 []]) ≤ 500 ∧
    TreeC.collect_dfs_pre (TreeC.TNode.node (1 : Int) [.node 2 [], .node 3 []]) [] =
      TreeC.preorder (TreeC.TNode.node (1 : Int) [.node 2 [], .node 3 []]) ∧
    TreeC.collect_dfs_in (TreeC.TNode.node (1 : Int) [.node 2 [], .node 3 []]) [] =
      TreeC.inorder (TreeC.TNode.node (1 : Int) [.node 2 [], .node 3 []]) ∧
    TreeC.collect_dfs_post (TreeC.TNode.node (1 : Int) [.node 2 [], .node 3 []]) [] =
      TreeC.postorder (TreeC.TNode.node (1 : Int) [.node 2 [], .node 3 []]) ∧
    (TreeC.inorder (TreeC.TNode.node (1 : Int) [.node 2 [], .node 3 []])).Perm
      (TreeC.preorder (TreeC.TNode.node (1 : Int) [.node 2 [], .node 3 []])) ∧
    (TreeC.postorder (TreeC.TNode.node (1 : Int) [.node 2 [], .node 3 []])).Perm
      (TreeC.preorder (TreeC.TNode.node (1 : Int) [.node 2 [], .node 3 []])) ∧
    (TreeC.preorder (TreeC.TNode.node (1 : Int) [.node 2 [], .node 3 []])).length =
      TreeC.size (TreeC.TNode.node (1 : Int) [.node 2 [], .node 3 []]) :=
  ⟨by decide, dfs_collectors_match_orders _ (by decide)⟩

/-- The example of the specification for traversals, run on the code: on the root 1
with the children 2 and 3 the collectors give the values `[1, 2, 3]`, `[2, 1, 3]`
and `[2, 3, 1]`. -/
theorem dfs_collectors_example :
    (TreeC.collect_dfs_pre (TreeC.TNode.node (1 : Int) [.node 2 [], .node 3 []]) []).map
      TreeC.TNode.data = [1, 2, 3] ∧
    (TreeC.collect_dfs_in (TreeC.TNode.node (1 : Int) [.node 2 [], .node 3 []]) []).map
      TreeC.TNode.data = [2, 1, 3] ∧
    (TreeC.collect_dfs_post (TreeC.TNode.node (1 : Int) [.node 2 [], .node 3 []]) []).map
      TreeC.TNode.data = [2, 3, 1] := by
  decide

/-- C17 (the code at the failing input): on the tree of 502 nodes whose root has a
first child with a subtree of 500 nodes, `collect_dfs_in` and `collect_dfs_post`
started with `count = 0` fill the 500 cells of the buffer below the root and then
write the root at position 500. -/
theorem dfs_in_post_write_past_buffer :
    (TreeC.collect_dfs_in TreeC.overfull_tree []).length = 501 ∧
    (TreeC.collect_dfs_post TreeC.overfull_tree []).length = 501 ∧
    TreeC.size TreeC.overfull_tree = 502 :=
  overfull_lengths 0 (TreeC.chain 0 497) (size_chain 0 497)

/-! ## Tree: modification of a node -/

section TreeModify
open TreeC
variable {α : Type}

theorem replace_first_append (p : α → Bool) (v : α) (l1 l2 : List α) :
    replace_first p v (l1 ++ l2) =
      if l1.any p then replace_first p v l1 ++ l2 else l1 ++ replace_first p v l2 := by
  induction l1 with
  | nil => simp [replace_first]
  | cons d ds ih =>
    rw [List.cons_append]
    by_cases hd : p d = true
    · simp [replace_first, hd]
    · by_cases hds : ds.any p = true
      · rw [if_pos hds] at ih
        simp [replace_first, hd, ih, hds]
      · rw [if_neg hds] at ih
        simp [replace_first, hd, ih, hds]

theorem replace_first_none (p : α → Bool) (v : α) (l : List α) (h : l.any p = false) :
    replace_first p v l = l := by
  induction l with
  | nil => rfl
  | cons d ds ih =>
    simp only [List.any_cons, Bool.or_eq_false_iff] at h
    simp only [replace_first, h.1, ih h.2]
    rfl

mutual
/-- What `modify_node_rec` does to a tree, in terms of its data in pre-order. -/
theorem modify_node_rec_spec (fmt : α → List (Fin 256)) (s : List (Fin 256)) (v : α) :
    ∀ t : TNode α,
      shape (modify_node_rec fmt s v t).1 = shape t ∧
      (preorder (modify_node_rec fmt s v t).1).map TNode.data =
        replace_first (fun d => decide (strcmp (fmt d) s = 0)) v
          ((preorder t).map TNode.data) ∧
      (modify_node_rec fmt s v t).2 =
        (if ((preorder t).map TNode.data).any (fun d => decide (strcmp (fmt d) s = 0))
          then 1 else 0) ∧
      ((modify_node_rec fmt s v t).2 = 0 → (modify_node_rec fmt s v t).1 = t)
  | .node d cs => by
    obtain ⟨h1, h2, h3, h4⟩ := modify_children_spec fmt s v cs
    by_cases hm : strcmp (fmt d) s = 0
    · have hmod : modify_node_rec fmt s v (.node d cs) = (.node v cs, 1) := by
        simp only [modify_node_rec, if_pos hm]
      rw [hmod]
      refine ⟨rfl, ?_, ?_, fun h0 => by simp at h0⟩
      · simp [preorder, replace_first, TNode.data, hm]
      · simp [preorder, TNode.data, hm]
    · have hmod : modify_node_rec fmt s v (.node d cs) =
          (.node d (modify_children fmt s v cs).1, (modify_children fmt s v cs).2) := by
        simp only [modify_node_rec, if_neg hm]
      rw [hmod]
      refine ⟨?_, ?_, ?_, ?_⟩
      · simp only [shape, h1]
      · simp only [preorder, List.map_cons, TNode.data, replace_first, hm, decide_False,
          Bool.false_eq_true, if_false, h2]
      · simp only [preorder, List.map_cons, TNode.data, List.any_cons, hm, decide_False,
          Bool.false_or, h3]
      · intro h0
        dsimp only at h0 ⊢
        rw [h4 h0]
theorem modify_children_spec (fmt : α → List (Fin 256)) (s : List (Fin 256)) (v : α) :
    ∀ cs : List (TNode α),
      shape_list (modify_children fmt s v cs).1 = shape_list cs ∧
      (preorder_list (modify_children fmt s v cs).1).map TNode.data =
        replace_first (fun d => decide (strcmp (fmt d) s = 0)) v
          ((preorder_list cs).map TNode.data) ∧
      (modify_children fmt s v cs).2 =
        (if ((preorder_list cs).map TNode.data).any (fun d => decide (strcmp (fmt d) s = 0))
          then 1 else 0) ∧
      ((modify_children fmt s v cs).2 = 0 → (modify_children fmt s v cs).1 = cs)
  | [] => by simp [modify_children, shape_list, preorder_list, replace_first]
  | c :: cs => by
    obtain ⟨h1, h2, h3, h4⟩ := modify_node_rec_spec fmt s v c
    obtain ⟨k1, k2, k3, k4⟩ := modify_children_spec fmt s v cs
    by_cases hany : ((preorder c).map TNode.data).any
        (fun d => decide (strcmp (fmt d) s = 0)) = true
    · rw [if_pos hany] at h3
      have hne : (modify_node_rec fmt s v c).2 ≠ 0 := by rw [h3]; decide
      have hmod : modify_children fmt s v (c :: cs) = ((modify_node_rec fmt s v c).1 :: cs, 1) := by
        simp only [modify_children, if_pos hne]
      rw [hmod]
      refine ⟨?_, ?_, ?_, fun h0 => by simp at h0⟩
      · simp only [shape_list, h1]
      · simp only [preorder_list, List.map_append, replace_first_append, hany, if_true, h2]
      · simp only [preorder_list, List.map_append, List.any_append, hany, Bool.true_or,
          if_true]
    · have hany' : ((preorder c).map TNode.data).any
          (fun d => decide (strcmp (fmt d) s = 0)) = false := by
        simpa using hany
      rw [if_neg hany] at h3
      have hsame : (modify_node_rec fmt s v c).1 = c := h4 h3
      have hmod : modify_children fmt s v (c :: cs) =
          (c :: (modify_children fmt s v cs).1, (modify_children fmt s v cs).2) := by
        simp only [modify_children, h3, ne_eq, not_true_eq_false, if_false, hsame]
      rw [hmod]
      refine ⟨?_, ?_, ?_, ?_⟩
      · simp only [shape_list, k1]
      · simp only [preorder_list, List.map_append, replace_first_append, hany',
          Bool.false_eq_true, if_false, k2]
      · simp only [preorder_list, List.map_append, List.any_append, hany', Bool.false_or, k3]
      · intro h0
        dsimp only at h0 ⊢
        rw [k4 h0]
end

end TreeModify

/-- The function `modify_node_rec` run on the root 5 with the children 7 and 5, the
int `n` being formatted as the one byte `n`: the text `5` changes the root only,
the text `7` the first child, the text `9` nothing. -/
theorem modify_example :
    ((TreeC.modify_node_rec (fun (n : Int) => [(n.toNat : Fin 256)]) [5] 8
      (.node 5 [.node 7 [], .node 5 []])).1.preorder_data,
     (TreeC.modify_node_rec (fun (n : Int) => [(n.toNat : Fin 256)]) [5] 8
      (.node 5 [.node 7 [], .node 5 []])).2) = ([8, 7, 5], 1) ∧
    ((TreeC.modify_node_rec (fun (n : Int) => [(n.toNat : Fin 256)]) [7] 8
      (.node 5 [.node 7 [], .node 5 []])).1.preorder_data,
     (TreeC.modify_node_rec (fun (n : Int) => [(n.toNat : Fin 256)]) [7] 8
      (.node 5 [.node 7 [], .node 5 []])).2) = ([5, 8, 5], 1) ∧
    ((TreeC.modify_node_rec (fun (n : Int) => [(n.toNat : Fin 256)]) [9] 8
      (.node 5 [.node 7 [], .node 5 []])).1.preorder_data,
     (TreeC.modify_node_rec (fun (n : Int) => [(n.toNat : Fin 256)]) [9] 8
      (.node 5 [.node 7 [], .node 5 []])).2) = ([5, 7, 5], 0) := by
  decide

/-! ## Tree: insertion of a leaf -/

section TreeInsert
open TreeC
variable {α : Type}

theorem get_node_nil (t : TNode α) : get_node t [] = some t := by
  cases t
  rfl

theorem get_node_append : ∀ (p : List Nat) (t : TNode α) (q : List Nat),
    get_node t (p ++ q) = (get_node t p).bind (fun n => get_node n q) := by
  intro p
  induction p with
  | nil =>
    intro t q
    rw [List.nil_append, get_node_nil]
    rfl
  | cons i p ih =>
    intro t q
    cases t with
    | node d cs =>
      rw [List.cons_append]
      simp only [get_node]
      cases cs[i]? with
      | none => rfl
      | some c => exact ih c q

theorem get_node_child (t n : TNode α) (p : List Nat) (i : Nat)
    (h : get_node t p = some n) : get_node t (p ++ [i]) = n.children[i]? := by
  rw [get_node_append, h]
  cases n with
  | node d cs =>
    simp only [Option.some_bind, get_node, TNode.children]
    cases cs[i]? <;> rfl

theorem size_eq (n : TNode α) : size n = 1 + size_list n.children := by
  cases n with
  | node d cs => simp [size, TNode.children]

theorem size_list_length : ∀ cs : List (TNode α), cs.length ≤ size_list cs := by
  intro cs
  induction cs with
  | nil => simp [size_list]
  | cons c cs ih =>
    have := size_pos c
    simp only [size_list, List.length_cons]
    omega

theorem kids_fst (p : List Nat) (n : TNode α) :
    (kids p n).map Prod.fst = child_ptrs p n.children.length := by
  unfold kids
  rw [List.map_fst_zip]
  simp [child_ptrs]

theorem kids_snd (p : List Nat) (n : TNode α) : (kids p n).map Prod.snd = n.children := by
  unfold kids
  rw [List.map_snd_zip]
  simp [child_ptrs]

theorem queue_size_append (q1 q2 : List (List Nat × TNode α)) :
    queue_size (q1 ++ q2) = queue_size q1 + queue_size q2 := by
  simp [queue_size]

theorem size_list_sum : ∀ cs : List (TNode α), size_list cs = (cs.map size).sum := by
  intro cs
  induction cs with
  | nil => rfl
  | cons c cs ih => simp [size_list, ih]

theorem queue_size_kids (p : List Nat) (n : TNode α) :
    queue_size (kids p n) = size_list n.children := by
  have h : (kids p n).map (fun x => size x.2) = ((kids p n).map Prod.snd).map size := by
    simp
  rw [queue_size, h, kids_snd, size_list_sum]

theorem queue_size_length : ∀ q : List (List Nat × TNode α), q.length ≤ queue_size q := by
  intro q
  induction q with
  | nil => simp [queue_size]
  | cons x q ih =>
    have := size_pos x.2
    simp only [queue_size, List.map_cons, List.sum_cons, List.length_cons] at ih ⊢
    omega

theorem kids_valid (root : TNode α) (p : List Nat) (n : TNode α)
    (h : get_node root p = some n) : ∀ y ∈ kids p n, get_node root y.1 = some y.2 := by
  intro y hy
  unfold kids child_ptrs at hy
  obtain ⟨i, hi1, hi2⟩ := List.mem_iff_getElem.1 hy
  simp only [List.length_zip, List.length_map, List.length_range, Nat.min_self] at hi1
  simp only [List.getElem_zip, List.getElem_map, List.getElem_range] at hi2
  rw [← hi2]
  dsimp only
  rw [get_node_child root n p i h, List.getElem?_eq_getElem hi1]

theorem attach_get (new : TNode α) : ∀ (p : List Nat) (t curr : TNode α),
    get_node t p = some curr →
    get_node (attach t p new) p = some (.node curr.data (curr.children ++ [new])) := by
  intro p
  induction p with
  | nil =>
    intro t curr h
    cases t with
    | node d cs =>
      simp only [get_node, Option.some.injEq] at h
      rw [← h]
      simp [attach, get_node, TNode.data, TNode.children]
  | cons i p ih =>
    intro t curr h
    cases t with
    | node d cs =>
      simp only [get_node] at h
      cases hc : cs[i]? with
      | none => simp [hc] at h
      | some c =>
        rw [hc] at h
        have hi : i < cs.length := by
          by_contra hge
          rw [List.getElem?_eq_none (by omega)] at hc
          exact absurd hc (by simp)
        simp only [attach, hc, get_node, List.getElem?_set_self hi]
        exact ih c curr h

theorem size_list_set : ∀ (cs : List (TNode α)) (i : Nat) (c c' : TNode α),
    cs[i]? = some c → size_list (cs.set i c') + size c = size_list cs + size c' := by
  intro cs
  induction cs with
  | nil => intro i c c' h; simp at h
  | cons x cs ih =>
    intro i c c' h
    cases i with
    | zero =>
      simp only [List.getElem?_cons_zero, Option.some.injEq] at h
      simp only [List.set_cons_zero, size_list, h]
      omega
    | succ i =>
      simp only [List.getElem?_cons_succ] at h
      have := ih i c c' h
      simp only [List.set_cons_succ, size_list]
      omega

theorem size_list_append (cs1 cs2 : List (TNode α)) :
    size_list (cs1 ++ cs2) = size_list cs1 + size_list cs2 := by
  simp [size_list_sum]

theorem attach_size (new : TNode α) : ∀ (p : List Nat) (t curr : TNode α),
    get_node t p = some curr → size (attach t p new) = size t + size new := by
  intro p
  induction p with
  | nil =>
    intro t curr _
    cases t with
    | node d cs =>
      simp only [attach, size, size_list_append, size_list]
      omega
  | cons i p ih =>
    intro t curr h
    cases t with
    | node d cs =>
      simp only [get_node] at h
      cases hc : cs[i]? with
      | none => simp [hc] at h
      | some c =>
        rw [hc] at h
        have h1 := ih c curr h
        have h2 := size_list_set cs i c (attach c p new) hc
        simp only [attach, hc, size]
        omega

/-- The store of a new leaf through the pointer `p` changes neither the datum nor
the number of children of any node but the one at `p`, and the only new node is the
leaf. -/
theorem attach_frame (v : α) : ∀ (p : List Nat) (t curr : TNode α) (q : List Nat),
    get_node t p = some curr → q ≠ p → q ≠ p ++ [curr.children.length] →
    (get_node (attach t p (.node v [])) q).map (fun n => (n.data, n.children.length)) =
      (get_node t q).map (fun n => (n.data, n.children.length)) := by
  intro p
  induction p with
  | nil =>
    intro t curr q h hq1 hq2
    cases t with
    | node d cs =>
      simp only [get_node, Option.some.injEq] at h
      rw [← h] at hq2
      simp only [TNode.children, List.nil_append] at hq2
      cases q with
      | nil => exact absurd rfl hq1
      | cons j q =>
        simp only [attach, get_node]
        by_cases hj : j < cs.length
        · rw [List.getElem?_append_left hj]
        · by_cases hj2 : j = cs.length
          · subst hj2
            rw [List.getElem?_append_right (le_refl _)]
            simp only [Nat.sub_self, List.getElem?_cons_zero,
              List.getElem?_eq_none (le_refl cs.length)]
            cases q with
            | nil => exact absurd rfl hq2
            | cons k q => simp [get_node]
          · have hlen : (cs ++ [TNode.node v []]).length ≤ j := by
              simp only [List.length_append, List.length_singleton]
              omega
            rw [List.getElem?_eq_none hlen, List.getElem?_eq_none (by omega)]
  | cons i p ih =>
    intro t curr q h hq1 hq2
    cases t with
    | node d cs =>
      simp only [get_node] at h
      cases hc : cs[i]? with
      | none => simp [hc] at h
      | some c =>
        rw [hc] at h
        simp only [attach, hc]
        cases q with
        | nil => simp [get_node, TNode.data, TNode.children]
        | cons j q =>
          simp only [get_node]
          by_cases hji : j = i
          · subst hji
            have hi : j < cs.length := by
              by_contra hge
              rw [List.getElem?_eq_none (by omega)] at hc
              exact absurd hc (by simp)
            rw [List.getElem?_set_self hi, hc]
            exact ih c curr q h (fun hEq => hq1 (by rw [hEq]))
              (fun hEq => hq2 (by rw [hEq, List.cons_append]))
          · rw [List.getElem?_set_ne (Ne.symm hji)]

end TreeInsert

/-- The handler `on_insert_node` run on the tree of five nodes under the limit 2:
the root and its first child are full, the new leaf 9 goes under the node 3. -/
theorem insert_example :
    (TreeC.on_insert_node (some 9)
        (⟨some TreeC.sample_tree, .TREE_BINARY, 2⟩ : TreeC.TreeState .TYPE_INT)).map
      (fun st => st.root.map (fun t => (TreeC.bfs_order t).map (fun x => (x.1, x.2.data))))
    = some (some [([], 1), ([0], 2), ([1], 3), ([0, 0], 4), ([0, 1], 5), ([1, 0], 9)]) := by
  decide

/-! ## Tree: the arity invariant -/

section TreeArity
open TreeC
variable {α : Type}

theorem arityOk_node (limit : Nat) (d : α) (cs : List (TNode α)) :
    ArityOk limit (.node d cs) ↔ cs.length ≤ limit ∧ ∀ c ∈ cs, ArityOk limit c := by
  constructor
  · intro h
    refine ⟨h [] (.node d cs) rfl, ?_⟩
    intro c hc q n hq
    obtain ⟨i, hi, rfl⟩ := List.mem_iff_getElem.1 hc
    apply h (i :: q) n
    simp only [get_node, List.getElem?_eq_getElem hi]
    exact hq
  · intro h p n hp
    cases p with
    | nil =>
      simp only [get_node, Option.some.injEq] at hp
      rw [← hp]
      exact h.1
    | cons i q =>
      simp only [get_node] at hp
      cases hc : cs[i]? with
      | none => simp [hc] at hp
      | some c =>
        rw [hc] at hp
        exact h.2 c (List.getElem?_mem hc) q n hp

/-- A leaf stored under a node with fewer than `limit` children keeps the arity
invariant. -/
theorem arityOk_attach (limit : Nat) (v : α) (t curr : TNode α) (p : List Nat)
    (h : ArityOk limit t) (hget : get_node t p = some curr)
    (hcap : curr.children.length < limit) : ArityOk limit (attach t p (.node v [])) := by
  intro q n hq
  by_cases hq1 : q = p
  · rw [hq1, attach_get _ p t curr hget] at hq
    simp only [Option.some.injEq] at hq
    rw [← hq]
    have e : (TNode.node curr.data (curr.children ++ [TNode.node v []])).children.length =
        curr.children.length + 1 := by
      rw [TNode.children]
      simp
    rw [e]
    omega
  · by_cases hq2 : q = p ++ [curr.children.length]
    · rw [hq2, get_node_child _ _ p _ (attach_get _ p t curr hget)] at hq
      simp only [TNode.children, List.getElem?_concat_length, Option.some.injEq] at hq
      rw [← hq]
      simp [TNode.children]
    · have hfr := attach_frame v p t curr q hget hq1 hq2
      rw [hq] at hfr
      cases hold : get_node t q with
      | none => simp [hold] at hfr
      | some n0 =>
        rw [hold] at hfr
        simp only [Option.map_some', Option.some.injEq, Prod.mk.injEq] at hfr
        rw [hfr.2]
        exact h q n0 hold

/-- A pointer that designates a node still does after a leaf is stored elsewhere. -/
theorem attach_valid (v : α) (t curr : TNode α) (p q : List Nat)
    (hget : get_node t p = some curr) (hq : ∃ n, get_node t q = some n) :
    ∃ n, get_node (attach t p (.node v [])) q = some n := by
  by_cases hq1 : q = p
  · rw [hq1]
    exact ⟨_, attach_get _ p t curr hget⟩
  · by_cases hq2 : q = p ++ [curr.children.length]
    · obtain ⟨n, hn⟩ := hq
      rw [hq2, get_node_child t curr p _ hget, List.getElem?_eq_none (le_refl _)] at hn
      exact absurd hn (by simp)
    · have hfr := attach_frame v p t curr q hget hq1 hq2
      obtain ⟨n, hn⟩ := hq
      rw [hn] at hfr
      cases hnew : get_node (attach t p (.node v [])) q with
      | none => simp [hnew] at hfr
      | some n' => exact ⟨n', rfl⟩

mutual
/-- The function `delete_node_rec` keeps the arity invariant. -/
theorem delete_node_rec_arity (limit : Nat) (fmt : α → List (Fin 256)) (s : List (Fin 256)) :
    ∀ t : TNode α, ArityOk limit t → ArityOk limit (delete_node_rec fmt s t).1
  | .node d cs, h => by
    rw [arityOk_node] at h
    obtain ⟨h1, h2⟩ := delete_children_arity limit fmt s cs h.2
    simp only [delete_node_rec]
    rw [arityOk_node]
    exact ⟨by omega, h1⟩
theorem delete_children_arity (limit : Nat) (fmt : α → List (Fin 256))
    (s : List (Fin 256)) :
    ∀ cs : List (TNode α), (∀ c ∈ cs, ArityOk limit c) →
      (∀ c ∈ (delete_children fmt s cs).1, ArityOk limit c) ∧
      (delete_children fmt s cs).1.length ≤ cs.length
  | [], _ => by simp [delete_children]
  | c :: cs, h => by
    have hc := h c (List.mem_cons_self _ _)
    have hcs : ∀ x ∈ cs, ArityOk limit x := fun x hx => h x (List.mem_cons_of_mem _ hx)
    have h1 := delete_node_rec_arity limit fmt s c hc
    obtain ⟨h2, h3⟩ := delete_children_arity limit fmt s cs hcs
    simp only [delete_children]
    split_ifs with hm hr
    · exact ⟨hcs, by simp⟩
    · refine ⟨?_, by simp⟩
      intro x hx
      rcases List.mem_cons.1 hx with hx | hx
      · rw [hx]
        exact h1
      · exact hcs x hx
    · refine ⟨?_, by simpa using h3⟩
      intro x hx
      rcases List.mem_cons.1 hx with hx | hx
      · rw [hx]
        exact h1
      · exact h2 x hx
end

mutual
/-- The function `modify_node_rec` keeps the arity invariant. -/
theorem modify_node_rec_arity (limit : Nat) (fmt : α → List (Fin 256)) (s : List (Fin 256))
    (v : α) : ∀ t : TNode α, ArityOk limit t → ArityOk limit (modify_node_rec fmt s v t).1
  | .node d cs, h => by
    have h0 := h
    rw [arityOk_node] at h
    obtain ⟨h1, h2⟩ := modify_children_arity limit fmt s v cs h.2
    simp only [modify_node_rec]
    split_ifs
    · rw [arityOk_node]
      exact h
    · rw [arityOk_node]
      exact ⟨by omega, h1⟩
theorem modify_children_arity (limit : Nat) (fmt : α → List (Fin 256))
    (s : List (Fin 256)) (v : α) :
    ∀ cs : List (TNode α), (∀ c ∈ cs, ArityOk limit c) →
      (∀ c ∈ (modify_children fmt s v cs).1, ArityOk limit c) ∧
      (modify_children fmt s v cs).1.length = cs.length
  | [], _ => by simp [modify_children]
  | c :: cs, h => by
    have hc := h c (List.mem_cons_self _ _)
    have hcs : ∀ x ∈ cs, ArityOk limit x := fun x hx => h x (List.mem_cons_of_mem _ hx)
    have h1 := modify_node_rec_arity limit fmt s v c hc
    obtain ⟨h2, h3⟩ := modify_children_arity limit fmt s v cs hcs
    simp only [modify_children]
    split_ifs with hr
    · refine ⟨?_, by simp⟩
      intro x hx
      rcases List.mem_cons.1 hx with hx | hx
      · rw [hx]
        exact h1
      · exact hcs x hx
    · refine ⟨?_, by simpa using h3⟩
      intro x hx
      rcases List.mem_cons.1 hx with hx | hx
      · rw [hx]
        exact h1
      · exact h2 x hx
end

mutual
theorem collect_values_length : ∀ (t : TNode α) (arr : List α),
    (collect_values t arr).length = arr.length + size t
  | .node d cs, arr => by
    simp only [collect_values, size]
    rw [collect_values_from_length cs (arr ++ [d])]
    simp only [List.length_append, List.length_singleton]
    omega
theorem collect_values_from_length : ∀ (cs : List (TNode α)) (arr : List α),
    (collect_values_from cs arr).length = arr.length + size_list cs
  | [], arr => by simp [collect_values_from, size_list]
  | c :: cs, arr => by
    simp only [collect_values_from, size_list]
    rw [collect_values_from_length cs (collect_values c arr), collect_values_length c arr]
    omega
end

theorem arityOk_leaf (limit : Nat) (v : α) : ArityOk limit (.node v []) := by
  rw [arityOk_node]
  exact ⟨Nat.zero_le _, fun c hc => absurd hc (List.not_mem_nil c)⟩

theorem bfs_from_nil : ∀ fuel : Nat, bfs_from fuel ([] : List (List Nat × TNode α)) = [] := by
  intro fuel
  cases fuel <;> rfl

/-- The first loop of `on_transform_binary` returns the data in breadth-first order
when the tree has at most 500 nodes. -/
theorem bfs_values_loop_spec :
    ∀ (m : Nat) (queue : List (List Nat × TNode α)) (b fuel1 fuel2 : Nat) (vals : List α),
      queue_size queue ≤ m → m ≤ fuel1 → m < fuel2 →
      b + queue_size queue ≤ 500 + queue.length →
      bfs_values_loop fuel2 (queue.map Prod.snd) b vals =
        some (vals ++ (bfs_from fuel1 queue).map (fun x => x.2.data)) := by
  intro m
  induction m with
  | zero =>
    intro queue b fuel1 fuel2 vals hsize _ hf2 _
    have := queue_size_length queue
    have hnil : queue = [] := List.length_eq_zero.1 (by omega)
    obtain ⟨f2, rfl⟩ : ∃ f, fuel2 = f + 1 := ⟨fuel2 - 1, by omega⟩
    rw [hnil, bfs_from_nil]
    simp [bfs_values_loop]
  | succ m ih =>
    intro queue b fuel1 fuel2 vals hsize hf1 hf2 hb
    obtain ⟨f2, rfl⟩ : ∃ f, fuel2 = f + 1 := ⟨fuel2 - 1, by omega⟩
    cases queue with
    | nil =>
      rw [bfs_from_nil]
      simp [bfs_values_loop]
    | cons x rest =>
      obtain ⟨f1, rfl⟩ : ∃ f, fuel1 = f + 1 := ⟨fuel1 - 1, by
        have := size_pos x.2
        simp only [queue_size, List.map_cons, List.sum_cons] at hsize
        omega⟩
      have hqs : queue_size (x :: rest) = size x.2 + queue_size rest := by
        simp [queue_size]
      have hsx := size_eq x.2
      have hcl := size_list_length x.2.children
      have hrl := queue_size_length rest
      have hklen : (kids x.1 x.2).length = x.2.children.length := by
        have h2 := congrArg List.length (kids_snd x.1 x.2)
        simpa using h2
      simp only [List.length_cons] at hb
      simp only [List.map_cons, bfs_values_loop, bfs_from]
      rw [if_pos (by omega)]
      have := ih (rest ++ kids x.1 x.2) (b + x.2.children.length) f1 f2 (vals ++ [x.2.data])
        (by rw [queue_size_append, queue_size_kids]; omega) (by omega) (by omega)
        (by
          rw [queue_size_append, queue_size_kids, List.length_append, hklen]
          omega)
      rw [List.map_append, kids_snd] at this
      rw [this]
      simp

/-- The invariant of the second loop of `on_transform_binary` after the branch that
attaches a new node under `conn[p_idx]`. -/
theorem rebuildInv_attach (v : α) (tree : TNode α) (conn : List (List Nat)) (p_idx : Nat)
    (pn : TNode α) (hinv : RebuildInv tree conn p_idx) (hcur : p_idx < conn.length)
    (hpn : get_node tree conn[p_idx] = some pn) (hc : pn.children.length < 2) :
    RebuildInv (attach tree conn[p_idx] (.node v []))
      (conn ++ [conn[p_idx] ++ [pn.children.length]]) p_idx := by
  have hp := List.getElem?_eq_getElem hcur
  have hcnt := (hinv.counts p_idx _ pn hp hpn).2.2 rfl
  have hnew : conn[p_idx] ++ [pn.children.length] ∉ conn := by
    intro hmem
    obtain ⟨n, hn⟩ := hinv.valid _ hmem
    rw [get_node_child tree pn _ _ hpn, List.getElem?_eq_none (le_refl _)] at hn
    exact absurd hn (by simp)
  have hget' := attach_get (TNode.node v []) conn[p_idx] tree pn hpn
  constructor
  · intro q hq
    rcases List.mem_append.1 hq with hq | hq
    · exact attach_valid v tree pn _ q hpn (hinv.valid q hq)
    · rw [List.mem_singleton] at hq
      rw [hq, get_node_child _ _ _ _ hget']
      exact ⟨_, List.getElem?_concat_length _ _⟩
  · rw [List.nodup_append]
    refine ⟨hinv.nodup, List.nodup_singleton _, ?_⟩
    intro a ha hb
    rw [List.mem_singleton] at hb
    rw [hb] at ha
    exact hnew ha
  · intro k q n hk hq
    by_cases hklt : k < conn.length
    · rw [List.getElem?_append_left hklt] at hk
      by_cases hkp : k = p_idx
      · subst hkp
        rw [hp] at hk
        simp only [Option.some.injEq] at hk
        rw [← hk, hget'] at hq
        simp only [Option.some.injEq] at hq
        have e : n.children.length = pn.children.length + 1 := by
          rw [← hq, TNode.children]
          simp
        refine ⟨fun h => absurd h (lt_irrefl _), fun h => absurd h (lt_irrefl _), ?_⟩
        intro _
        simp only [List.length_append, List.length_singleton]
        omega
      · have hqp : q ≠ conn[p_idx] := by
          intro hEq
          apply hkp
          apply List.getElem?_inj hklt hinv.nodup
          rw [hk, hp, hEq]
        have hqn : q ≠ conn[p_idx] ++ [pn.children.length] := by
          intro hEq
          apply hnew
          rw [← hEq]
          exact List.getElem?_mem hk
        have hfr := attach_frame v conn[p_idx] tree pn q hpn hqp hqn
        rw [hq] at hfr
        obtain ⟨n0, hn0⟩ := hinv.valid q (List.getElem?_mem hk)
        rw [hn0] at hfr
        simp only [Option.map_some', Option.some.injEq, Prod.mk.injEq] at hfr
        have hold := hinv.counts k q n0 hk hn0
        rw [hfr.2]
        exact ⟨hold.1, hold.2.1, fun h => absurd h hkp⟩
    · have hkeq : k = conn.length := by
        by_contra hne
        rw [List.getElem?_eq_none (by
          simp only [List.length_append, List.length_singleton]
          omega)] at hk
        exact absurd hk (by simp)
      subst hkeq
      rw [List.getElem?_concat_length] at hk
      simp only [Option.some.injEq] at hk
      rw [← hk, get_node_child _ _ _ _ hget'] at hq
      have e : n.children.length = 0 := by
        rw [TNode.children] at hq
        rw [List.getElem?_concat_length] at hq
        simp only [Option.some.injEq] at hq
        rw [← hq]
        rfl
      have hcur := hinv.cur
      exact ⟨fun h => by omega, fun _ => e, fun h => by omega⟩
  · simp only [List.length_append, List.length_singleton]
    have := hinv.cur
    omega
  · exact arityOk_attach 2 v tree pn _ hinv.arity hpn hc

/-- The invariant of the second loop of `on_transform_binary` after the branch that
moves on to the next parent. -/
theorem rebuildInv_next (tree : TNode α) (conn : List (List Nat)) (p_idx : Nat)
    (pn : TNode α) (hinv : RebuildInv tree conn p_idx) (hcur : p_idx < conn.length)
    (hpn : get_node tree conn[p_idx] = some pn) (hc2 : pn.children.length = 2) :
    RebuildInv tree conn (p_idx + 1) := by
  have hp := List.getElem?_eq_getElem hcur
  have hcnt := (hinv.counts p_idx _ pn hp hpn).2.2 rfl
  have hcur' : p_idx + 1 < conn.length := by omega
  constructor
  · exact hinv.valid
  · exact hinv.nodup
  · intro k q n hk hq
    have hold := hinv.counts k q n hk hq
    refine ⟨?_, ?_, ?_⟩
    · intro hlt
      by_cases hkp : k = p_idx
      · subst hkp
        rw [hp] at hk
        simp only [Option.some.injEq] at hk
        rw [← hk, hpn] at hq
        simp only [Option.some.injEq] at hq
        rw [← hq]
        exact hc2
      · exact hold.1 (by omega)
    · intro hlt
      exact hold.2.1 (by omega)
    · intro hEq
      have h0 := hold.2.1 (by omega)
      omega
  · exact hcur'
  · exact hinv.arity

/-- The second loop of `on_transform_binary` returns, with a tree of at most two
children per node. -/
theorem rebuild_loop_spec :
    ∀ (fuel : Nat) (tree : TNode α) (conn : List (List Nat)) (p_idx : Nat) (vals : List α),
      RebuildInv tree conn p_idx → conn.length + vals.length ≤ 500 →
      (∀ p pn, conn[p_idx]? = some p → get_node tree p = some pn →
        2 * vals.length + pn.children.length < fuel) →
      ∃ t, rebuild_loop fuel tree conn p_idx vals = some t ∧ ArityOk 2 t := by
  intro fuel
  induction fuel with
  | zero =>
    intro tree conn p_idx vals hinv _ hfuel
    obtain ⟨pn, hpn⟩ := hinv.valid _ (List.getElem_mem hinv.cur)
    have := hfuel _ pn (List.getElem?_eq_getElem hinv.cur) hpn
    omega
  | succ f ih =>
    intro tree conn p_idx vals hinv hcap hfuel
    cases vals with
    | nil => exact ⟨tree, rfl, hinv.arity⟩
    | cons v vals =>
      have hp := List.getElem?_eq_getElem hinv.cur
      obtain ⟨pn, hpn⟩ := hinv.valid _ (List.getElem_mem hinv.cur)
      have hcnt := (hinv.counts p_idx _ pn hp hpn).2.2 rfl
      have hf := hfuel _ pn hp hpn
      simp only [List.length_cons] at hcap hf
      simp only [rebuild_loop, hp, hpn]
      by_cases hc : pn.children.length < 2
      · rw [if_pos hc, if_pos (by omega)]
        have hnew : conn[p_idx] ++ [pn.children.length] ∉ conn := by
          intro hmem
          obtain ⟨n, hn⟩ := hinv.valid _ hmem
          rw [get_node_child tree pn _ _ hpn, List.getElem?_eq_none (le_refl _)] at hn
          exact absurd hn (by simp)
        have hget' := attach_get (TNode.node v []) conn[p_idx] tree pn hpn
        apply ih
        · exact rebuildInv_attach v tree conn p_idx pn hinv hinv.cur hpn hc
        · simp only [List.length_append, List.length_singleton]
          omega
        · intro p pn' hp' hpn'
          rw [List.getElem?_append_left hinv.cur, hp] at hp'
          simp only [Option.some.injEq] at hp'
          rw [← hp', hget'] at hpn'
          simp only [Option.some.injEq] at hpn'
          have e : pn'.children.length = pn.children.length + 1 := by
            rw [← hpn', TNode.children]
            simp
          omega
      · rw [if_neg hc]
        have hc2 : pn.children.length = 2 := by omega
        have hcur' : p_idx + 1 < conn.length := by omega
        apply ih
        · exact rebuildInv_next tree conn p_idx pn hinv hinv.cur hpn hc2
        · simp only [List.length_cons]
          omega
        · intro p pn' hp' hpn'
          have h0 := (hinv.counts (p_idx + 1) p pn' hp' hpn').2.1 (by omega)
          simp only [List.length_cons]
          omega

theorem bfs_from_length_le : ∀ (fuel : Nat) (queue : List (List Nat × TNode α)),
    (bfs_from fuel queue).length ≤ fuel := by
  intro fuel
  induction fuel with
  | zero => intro queue; simp [bfs_from]
  | succ f ih =>
    intro queue
    cases queue with
    | nil => simp [bfs_from]
    | cons x rest =>
      simp only [bfs_from, List.length_cons]
      have := ih (rest ++ kids x.1 x.2)
      omega

/-- The two breadth-first loops over a queue of 500 cells, the one of
`assign_indices_bfs` and the first one of `on_transform_binary`, overrun the queue
on the same trees. -/
theorem assign_indices_loop_isSome :
    ∀ (fuel : Nat) (queue : List (TNode α)) (b idx : Nat) (vals : List α),
      (assign_indices_loop fuel queue b idx).isSome =
        (bfs_values_loop fuel queue b vals).isSome := by
  intro fuel
  induction fuel with
  | zero =>
    intro queue b idx vals
    rfl
  | succ f ih =>
    intro queue b idx vals
    cases queue with
    | nil => rfl
    | cons n rest =>
      simp only [assign_indices_loop, bfs_values_loop]
      by_cases hb : b + n.children.length ≤ 500
      · rw [if_pos hb, if_pos hb]
        exact ih _ _ _ _
      · rw [if_neg hb, if_neg hb]
        rfl

/-- The numbering pass `assign_indices_bfs` returns on a tree of at most 500
nodes. -/
theorem assign_indices_bfs_returns (t : TNode α) (h : size t ≤ 500) :
    ∃ k, assign_indices_bfs t = some k := by
  have hpos := size_pos t
  have hvals := bfs_values_loop_spec (size t) [([], t)] 1 (size t) 501 []
    (by simp [queue_size]) (le_refl _) (by omega) (by simp [queue_size]; omega)
  simp only [List.map_cons, List.map_nil] at hvals
  have hs := assign_indices_loop_isSome 501 [t] 1 0 ([] : List α)
  rw [hvals] at hs
  unfold assign_indices_bfs
  cases hres : assign_indices_loop 501 [t] 1 0 with
  | none =>
    rw [hres] at hs
    simp at hs
  | some k => exact ⟨k, rfl⟩

end TreeArity

section ListLinks
open ListC
variable {α : Type}

/-- The node at position `k` of a doubly linked segment. -/
theorem dseg_getElem (h : Heap α) :
    ∀ (cells : List (Nat × α)) (pv q : Option Nat) (k : Nat) (hk : k < cells.length),
      DSeg h pv cells q →
      ∃ pk, h (cells[k]).1 =
          some { data := (cells[k]).2, next := ptr_of (cells.drop (k + 1)) q, prev := pk } ∧
        (k = 0 → pk = pv) ∧ (∀ (hk0 : 0 < k), pk = some (cells[k - 1]).1) := by
  intro cells
  induction cells with
  | nil => intro pv q k hk; simp at hk
  | cons c rest ih =>
    intro pv q k hk hseg
    simp only [DSeg] at hseg
    cases k with
    | zero =>
      exact ⟨pv, by simpa using hseg.1, fun _ => rfl, fun h0 => absurd h0 (lt_irrefl _)⟩
    | succ k =>
      simp only [List.length_cons] at hk
      obtain ⟨pk, h1, h2, h3⟩ := ih (some c.1) q k (by omega) hseg.2
      refine ⟨pk, by simpa using h1, fun h0 => by omega, ?_⟩
      intro _
      cases k with
      | zero => simpa using h2 rfl
      | succ k => simpa using h3 (by omega)

/-- A well-formed list has consistent links. -/
theorem linksOk_of_hasCells (st : ListState α) (cells : List (Nat × α))
    (hc : HasCells st cells) : LinksOk st := by
  obtain ⟨hhead, hseg, hnd, _⟩ := hc
  constructor
  · intro a ha
    cases cells with
    | nil => simp [hhead, ptr_of] at ha
    | cons c rest =>
      simp only [hhead, ptr_of, Option.some.injEq] at ha
      simp only [DSeg] at hseg
      rw [← ha]
      exact ⟨_, hseg.1, rfl⟩
  · intro a nd m hreach ha hnext
    obtain ⟨k, hk⟩ := hreach
    rw [hhead, walk_dseg st.heap k cells none hseg] at hk
    simp only [Option.some.injEq] at hk
    have hklt : k < cells.length := by
      by_contra hge
      rw [List.drop_eq_nil_of_le (by omega)] at hk
      simp [ptr_of] at hk
    rw [List.drop_eq_getElem_cons hklt] at hk
    simp only [ptr_of, Option.some.injEq] at hk
    obtain ⟨pk, hcell, _, _⟩ := dseg_getElem st.heap cells none none k hklt hseg
    rw [hk, ha] at hcell
    simp only [Option.some.injEq] at hcell
    rw [hcell] at hnext
    dsimp only at hnext
    have hk1 : k + 1 < cells.length := by
      by_contra hge
      rw [List.drop_eq_nil_of_le (by omega)] at hnext
      simp [ptr_of] at hnext
    rw [List.drop_eq_getElem_cons hk1] at hnext
    simp only [ptr_of, Option.some.injEq] at hnext
    obtain ⟨pk', hcell', _, hprev⟩ := dseg_getElem st.heap cells none none (k + 1) hk1 hseg
    rw [hnext] at hcell'
    refine ⟨_, hcell', ?_⟩
    dsimp only
    rw [hprev (by omega), ← hk]
    simp

/-- The loop of `insertion_sort` relinks the nodes of both lists into one
well-formed chain, whatever the comparator. -/
theorem insertion_loop_links (cmp : α → α → Int) (fuel0 : Nat) :
    ∀ (rc sc : List (Nat × α)) (fuel : Nat) (h : Heap α),
      DSeg h none sc none → SSeg h rc none → ((sc ++ rc).map Prod.fst).Nodup →
      rc.length ≤ fuel → (sc ++ rc).length < fuel0 →
      ∃ h' cells', insertion_loop cmp fuel0 fuel h (ptr_of sc none) (ptr_of rc none) =
          some (h', ptr_of cells' none) ∧
        DSeg h' none cells' none ∧ cells'.Perm (sc ++ rc) ∧
        ∀ z, z ∉ (sc ++ rc).map Prod.fst → h' z = h z := by
  intro rc
  induction rc with
  | nil =>
    intro sc fuel h hseg _ _ _ _
    refine ⟨h, sc, ?_, hseg, by simp, fun _ _ => rfl⟩
    cases fuel <;> simp [insertion_loop, ptr_of]
  | cons d rc ih =>
    intro sc fuel h hseg hsseg hnd hfuel hfuel0
    obtain ⟨f, rfl⟩ : ∃ f, fuel = f + 1 := ⟨fuel - 1, by
      simp only [List.length_cons] at hfuel; omega⟩
    simp only [SSeg] at hsseg
    obtain ⟨⟨pva, ha⟩, hsseg'⟩ := hsseg
    have hnd0 := hnd
    simp only [List.map_append, List.map_cons, List.nodup_append, List.nodup_cons] at hnd
    obtain ⟨hnd1, ⟨hnd2, hnd3⟩, hnd4⟩ := hnd
    have hfresh : d.1 ∉ sc.map Prod.fst := fun hmem => hnd4 hmem (List.mem_cons_self _ _)
    obtain ⟨h1, hrun1, hseg1, hframe1⟩ := insertion_link_spec cmp fuel0 h sc d.1 d.2 _ pva hseg
      hnd1 hfresh ha (by simp only [List.length_append, List.length_cons] at hfuel0; omega)
    have hperm1 := sorted_cells_perm cmp d.2 d.1 sc
    have hperm2 : (sorted_cells cmp d.2 d.1 sc ++ rc).Perm (sc ++ d :: rc) :=
      (hperm1.append_right rc).trans List.perm_middle.symm
    have hsseg1 : SSeg h1 rc none := by
      apply sseg_frame h h1 rc none _ hsseg'
      intro z hz
      apply hframe1 z
      · intro hEq
        rw [hEq] at hz
        exact hnd2 hz
      · intro hmem
        exact hnd4 hmem (List.mem_cons_of_mem _ hz)
    obtain ⟨h2, cells2, hrun2, hseg2, hperm3, hframe2⟩ :=
      ih (sorted_cells cmp d.2 d.1 sc) f h1 hseg1 hsseg1
        ((hperm2.map Prod.fst).nodup_iff.2 hnd0)
        (by simp only [List.length_cons] at hfuel; omega)
        (by
          have := hperm2.length_eq
          rw [this]
          exact hfuel0)
    refine ⟨h2, cells2, ?_, hseg2, hperm3.trans hperm2, ?_⟩
    · have e : ptr_of (d :: rc) (none : Option Nat) = some d.1 := rfl
      rw [e]
      simp only [insertion_loop, rd_next, ha, hrun1, Option.map_some', Option.bind_eq_bind,
        Option.some_bind]
      exact hrun2
    · intro z hz
      have hz' : z ∉ (sorted_cells cmp d.2 d.1 sc ++ rc).map Prod.fst := by
        intro hmem
        exact hz ((hperm2.map Prod.fst).mem_iff.1 hmem)
      rw [hframe2 z hz']
      apply hframe1 z
      · intro hEq
        apply hz
        rw [hEq]
        simp
      · intro hmem
        apply hz
        simp only [List.map_append, List.mem_append]
        left
        exact hmem

/-- The function `insertion_sort` returns and leaves a well-formed list over the
same nodes, whatever the comparator. -/
theorem insertion_sort_links (cmp : α → α → Int) (st : ListState α)
    (cells : List (Nat × α)) (hc : HasCells st cells) :
    ∃ st' cells', insertion_sort cmp st = some st' ∧ HasCells st' cells' ∧
      cells'.Perm cells := by
  have hlt := hasCells_lt st cells hc
  have hlen := cells_length_le st cells hc
  obtain ⟨hhead, hseg, hnd, halloc⟩ := hc
  cases cells with
  | nil =>
    simp only [ptr_of] at hhead
    refine ⟨st, [], ?_, ⟨hhead, hseg, hnd, halloc⟩, List.Perm.refl _⟩
    simp [insertion_sort, hhead]
  | cons c rest =>
    simp only [ptr_of] at hhead
    have hseg0 := hseg
    simp only [DSeg] at hseg0
    cases rest with
    | nil =>
      refine ⟨st, [c], ?_, ⟨hhead, hseg, hnd, halloc⟩, List.Perm.refl _⟩
      simp [insertion_sort, hhead, rd_next, hseg0.1, ptr_of]
    | cons c2 rest =>
      obtain ⟨h', cells', hrun, hseg', hperm, hframe⟩ :=
        insertion_loop_links cmp (st.brk + 1) (c :: c2 :: rest) [] st.brk st.heap trivial
          (dseg_to_sseg st.heap _ none none hseg) (by simpa using hnd) hlen
          (by simp only [List.nil_append]; omega)
      simp only [List.nil_append] at hperm hframe
      refine ⟨{ st with heap := h', head := ptr_of cells' none }, cells', ?_,
        ⟨rfl, hseg', (hperm.map Prod.fst).nodup_iff.2 hnd, ?_⟩, hperm⟩
      · simp only [ptr_of] at hrun
        simp [insertion_sort, hhead, rd_next, hseg0.1, ptr_of, hrun]
      · intro a ha
        dsimp only at ha ⊢
        rw [hframe a (fun hmem => by have := hlt a hmem; omega)]
        exact halloc a ha

theorem hasCells_empty : HasCells (empty : ListState α) [] :=
  ⟨rfl, trivial, List.nodup_nil, fun _ _ => rfl⟩

/-- Every operation returns on a well-formed list and leaves a well-formed list. -/
theorem run_op_hasCells (cmp : α → α → Int) (op : ListOp α) (st : ListState α)
    (cells : List (Nat × α)) (hc : HasCells st cells) :
    ∃ st' cells', run_op cmp op st = some st' ∧ HasCells st' cells' := by
  cases op with
  | append v =>
    obtain ⟨st', h1, h2, _⟩ := append_node_spec st cells v hc
    exact ⟨st', _, h1, h2⟩
  | prepend v =>
    obtain ⟨st', h1, h2, _⟩ := prepend_node_spec st cells v hc
    exact ⟨st', _, h1, h2⟩
  | insert_at idx v =>
    obtain ⟨st', h1, h2, _⟩ := insert_at_spec st cells idx v hc
    exact ⟨st', _, h1, h2⟩
  | insert_sorted v =>
    obtain ⟨st', h1, h2, _⟩ := insert_sorted_spec cmp st cells v hc
    exact ⟨st', _, h1, h2⟩
  | delete idx =>
    obtain ⟨st', h1, h2, _⟩ := delete_node_spec st cells (idx : Int) (by omega) hc
    exact ⟨st', _, h1, h2⟩
  | insertion_sort =>
    obtain ⟨st', cells', h1, h2, _⟩ := insertion_sort_links cmp st cells hc
    exact ⟨st', cells', h1, h2⟩

theorem run_ops_hasCells (cmp : α → α → Int) :
    ∀ (ops : List (ListOp α)) (st : ListState α) (cells : List (Nat × α)),
      HasCells st cells → ∃ st' cells', run_ops cmp ops st = some st' ∧ HasCells st' cells' := by
  intro ops
  induction ops with
  | nil =>
    intro st cells hc
    exact ⟨st, cells, rfl, hc⟩
  | cons op ops ih =>
    intro st cells hc
    obtain ⟨st1, cells1, h1, hc1⟩ := run_op_hasCells cmp op st cells hc
    obtain ⟨st2, cells2, h2, hc2⟩ := ih st1 cells1 hc1
    exact ⟨st2, cells2, by simp [run_ops, h1, h2], hc2⟩

theorem walk_succ_right (h : Heap α) : ∀ (k : Nat) (p : Option Nat),
    walk h (k + 1) p = (walk h k p).bind (step_next h) := by
  intro k
  induction k with
  | zero =>
    intro p
    cases p with
    | none => rfl
    | some a =>
      simp only [walk, Option.some_bind, step_next]
      cases rd_next h a <;> rfl
  | succ k ih =>
    intro p
    cases p with
    | none => rfl
    | some a =>
      have e1 : walk h (k + 1 + 1) (some a) =
          (match rd_next h a with
            | none => none
            | some nx => walk h (k + 1) nx) := rfl
      have e2 : walk h (k + 1) (some a) =
          (match rd_next h a with
            | none => none
            | some nx => walk h k nx) := rfl
      rw [e1, e2]
      cases rd_next h a with
      | none => rfl
      | some nx => exact ih nx

/-- The node before a node met at position `k + 1` of the walk from `head`. -/
theorem walk_pred (h : Heap α) (k : Nat) (p : Option Nat) (a : Nat)
    (hw : walk h (k + 1) p = some (some a)) :
    ∃ a' nd', walk h k p = some (some a') ∧ h a' = some nd' ∧ nd'.next = some a := by
  rw [walk_succ_right] at hw
  cases hk : walk h k p with
  | none => simp [hk] at hw
  | some q =>
    cases q with
    | none => simp [hk, step_next] at hw
    | some a' =>
      simp only [hk, Option.some_bind, step_next, rd_next] at hw
      cases hnd : h a' with
      | none => simp [hnd] at hw
      | some nd' =>
        simp only [hnd, Option.map_some', Option.some.injEq] at hw
        exact ⟨a', nd', rfl, hnd, hw⟩

/-- Under consistent links, the node at position `k` is allocated and its `prev` is
the node at position `k - 1`, or `NULL` for the head. -/
theorem linksOk_node (st : ListState α) (hl : LinksOk st) (k a : Nat)
    (hw : walk st.heap k st.head = some (some a)) :
    ∃ nd, st.heap a = some nd ∧ (k = 0 → nd.prev = none) ∧
      (∀ k', k = k' + 1 → ∃ a', walk st.heap k' st.head = some (some a') ∧
        nd.prev = some a') := by
  cases k with
  | zero =>
    simp only [walk, Option.some.injEq] at hw
    obtain ⟨nd, h1, h2⟩ := hl.1 a hw
    exact ⟨nd, h1, fun _ => h2, fun k' hk' => by omega⟩
  | succ k =>
    obtain ⟨a', nd', hw', hnd', hnext⟩ := walk_pred st.heap k st.head a hw
    obtain ⟨nd, h1, h2⟩ := hl.2 a' nd' a ⟨k, hw'⟩ hnd' hnext
    refine ⟨nd, h1, fun h0 => by omega, ?_⟩
    intro k' hk'
    have : k' = k := by omega
    rw [this]
    exact ⟨a', hw', h2⟩

/-- Under consistent links, the walk from `head` never meets a node twice. -/
theorem linksOk_inj (st : ListState α) (hl : LinksOk st) :
    ∀ (i j a : Nat), walk st.heap i st.head = some (some a) →
      walk st.heap j st.head = some (some a) → i = j := by
  intro i
  induction i with
  | zero =>
    intro j a hi hj
    obtain ⟨nd, h1, h2, _⟩ := linksOk_node st hl 0 a hi
    obtain ⟨nd', h1', _, h3'⟩ := linksOk_node st hl j a hj
    cases j with
    | zero => rfl
    | succ j =>
      obtain ⟨a', _, hp⟩ := h3' j rfl
      rw [h1] at h1'
      simp only [Option.some.injEq] at h1'
      rw [← h1', h2 rfl] at hp
      exact absurd hp (by simp)
  | succ i ih =>
    intro j a hi hj
    obtain ⟨nd, h1, _, h3⟩ := linksOk_node st hl (i + 1) a hi
    obtain ⟨nd', h1', h2', h3'⟩ := linksOk_node st hl j a hj
    rw [h1] at h1'
    simp only [Option.some.injEq] at h1'
    obtain ⟨a1, hw1, hp1⟩ := h3 i rfl
    cases j with
    | zero =>
      rw [← h1', hp1] at h2'
      exact absurd (h2' rfl) (by simp)
    | succ j =>
      obtain ⟨a2, hw2, hp2⟩ := h3' j rfl
      rw [← h1', hp1] at hp2
      simp only [Option.some.injEq] at hp2
      rw [← hp2] at hw2
      rw [ih j a1 hw1 hw2]

/-- Under consistent links and with no node at or above `brk`, the walk from `head`
meets fewer than `brk` nodes before any node it meets. -/
theorem linksOk_bound (st : ListState α) (hl : LinksOk st) (hf : Fresh st) (k a : Nat)
    (hw : walk st.heap k st.head = some (some a)) : k < st.brk := by
  have hall : ∀ d i, i + d = k → ∃ b, walk st.heap i st.head = some (some b) := by
    intro d
    induction d with
    | zero =>
      intro i hi
      have : i = k := by omega
      rw [this]
      exact ⟨a, hw⟩
    | succ d ih =>
      intro i hi
      obtain ⟨b, hb⟩ := ih (i + 1) (by omega)
      obtain ⟨a', _, hw', _, _⟩ := walk_pred st.heap i st.head b hb
      exact ⟨a', hw'⟩
  have hnth : ∀ i, i ≤ k → walk st.heap i st.head = some (some (nth_node st i)) := by
    intro i hi
    obtain ⟨b, hb⟩ := hall (k - i) i (by omega)
    simp only [nth_node, hb]
  have hnd : ((List.range (k + 1)).map (nth_node st)).Nodup := by
    apply List.Nodup.map_on _ (List.nodup_range _)
    intro x hx y hy hxy
    rw [List.mem_range] at hx hy
    have h1 := hnth x (by omega)
    have h2 := hnth y (by omega)
    rw [hxy] at h1
    exact linksOk_inj st hl x y _ h1 h2
  have hlt : ∀ x ∈ (List.range (k + 1)).map (nth_node st), x < st.brk := by
    intro x hx
    obtain ⟨i, hi, rfl⟩ := List.mem_map.1 hx
    rw [List.mem_range] at hi
    obtain ⟨nd, h1, _⟩ := linksOk_node st hl i _ (hnth i (by omega))
    by_contra hge
    rw [hf _ (by omega)] at h1
    exact absurd h1 (by simp)
  have := nodup_length_le st.brk _ hnd hlt
  simp only [List.length_map, List.length_range] at this
  omega

/-- Under consistent links and with no node at or above `brk`, the nodes from any
position of the walk on form a doubly linked segment that ends in `NULL`. -/
theorem linksOk_segment (st : ListState α) (hl : LinksOk st) (hf : Fresh st) :
    ∀ (f k : Nat) (p pv : Option Nat), walk st.heap k st.head = some p → k + f = st.brk →
      (k = 0 → pv = none) →
      (∀ k', k = k' + 1 → ∃ a', walk st.heap k' st.head = some (some a') ∧ pv = some a') →
      ∃ cells, DSeg st.heap pv cells none ∧ ptr_of cells none = p ∧
        ∀ j (hj : j < cells.length),
          walk st.heap (k + j) st.head = some (some (cells[j]).1) := by
  intro f
  induction f with
  | zero =>
    intro k p pv hw hk _ _
    cases p with
    | none => exact ⟨[], trivial, rfl, fun j hj => absurd hj (by simp)⟩
    | some a =>
      have := linksOk_bound st hl hf k a hw
      omega
  | succ f ih =>
    intro k p pv hw hk hpv0 hpv1
    cases p with
    | none => exact ⟨[], trivial, rfl, fun j hj => absurd hj (by simp)⟩
    | some a =>
      obtain ⟨nd, hnd, hp0, hp1⟩ := linksOk_node st hl k a hw
      have hprev : nd.prev = pv := by
        cases k with
        | zero => rw [hp0 rfl, hpv0 rfl]
        | succ k =>
          obtain ⟨a1, hw1, h1⟩ := hp1 k rfl
          obtain ⟨a2, hw2, h2⟩ := hpv1 k rfl
          rw [hw1] at hw2
          simp only [Option.some.injEq] at hw2
          rw [h1, h2, hw2]
      have hnext : walk st.heap (k + 1) st.head = some nd.next := by
        rw [walk_succ_right, hw]
        simp [step_next, rd_next, hnd]
      obtain ⟨rest, hseg, hptr, hpos⟩ := ih (k + 1) nd.next (some a) hnext (by omega)
        (fun h0 => by omega)
        (fun k' hk' => by
          have : k' = k := by omega
          rw [this]
          exact ⟨a, hw, rfl⟩)
      refine ⟨(a, nd.data) :: rest, ?_, rfl, ?_⟩
      · simp only [DSeg]
        refine ⟨?_, hseg⟩
        rw [hnd, hptr, ← hprev]
      · intro j hj
        cases j with
        | zero => simpa using hw
        | succ j =>
          simp only [List.length_cons] at hj
          have := hpos j (by omega)
          simp only [List.getElem_cons_succ]
          rw [← this]
          congr 1
          omega

/-- Consistent links, with no node at or above `brk`, make a well-formed list. -/
theorem hasCells_of_linksOk (st : ListState α) (hl : LinksOk st) (hf : Fresh st) :
    ∃ cells, HasCells st cells := by
  obtain ⟨cells, hseg, hptr, hpos⟩ := linksOk_segment st hl hf st.brk 0 st.head none rfl
    (by omega) (fun _ => rfl) (fun k' hk' => by omega)
  refine ⟨cells, hptr.symm, hseg, ?_, hf⟩
  rw [List.nodup_iff_injective_get]
  intro i j hij
  have hi := hpos i.1 (by simpa using i.2)
  have hj := hpos j.1 (by simpa using j.2)
  simp only [List.get_eq_getElem, List.getElem_map] at hij
  rw [hij] at hi
  simp only [Nat.zero_add] at hi hj
  exact Fin.ext (linksOk_inj st hl i.1 j.1 _ hi hj)

end ListLinks

/-- C11: the predicate "`head` has no `prev` link and every node reachable from
`head` that has a successor satisfies `n->next->prev == n`" holds for the empty
list; on every state on which it holds (no node being allocated at or above the
address the next allocation returns) each of `append_node`, `prepend_node`,
`insert_at`, `insert_sorted`, `delete_node` with an index `≥ 0` and
`insertion_sort` returns and leaves a state on which it holds; hence every sequence
of these operations from the empty list returns and leaves a list on which it
holds. -/
theorem links_consistent_after_operations {α : Type} (cmp : α → α → Int) :
    ListC.LinksOk (ListC.empty : ListC.ListState α) ∧
    ListC.Fresh (ListC.empty : ListC.ListState α) ∧
    (∀ (op : ListC.ListOp α) (st : ListC.ListState α), ListC.LinksOk st → ListC.Fresh st →
      ∃ st', ListC.run_op cmp op st = some st' ∧ ListC.LinksOk st' ∧ ListC.Fresh st') ∧
    (∀ ops : List (ListC.ListOp α),
      ∃ st, ListC.run_ops cmp ops ListC.empty = some st ∧ ListC.LinksOk st) := by
  refine ⟨linksOk_of_hasCells _ [] hasCells_empty, fun _ _ => rfl, ?_, ?_⟩
  · intro op st hl hf
    obtain ⟨cells, hc⟩ := hasCells_of_linksOk st hl hf
    obtain ⟨st', cells', h1, h2⟩ := run_op_hasCells cmp op st cells hc
    exact ⟨st', h1, linksOk_of_hasCells st' cells' h2, h2.2.2.2⟩
  · intro ops
    obtain ⟨st, cells, h1, h2⟩ := run_ops_hasCells cmp ops ListC.empty [] hasCells_empty
    exact ⟨st, h1, linksOk_of_hasCells st cells h2⟩

/-- The operations of C11 run on the code: from the empty list, `append(10)`,
`append(30)`, `insert_sorted(20)`, `prepend(40)`, `insertion_sort`, `delete_node(0)`
leave the values `[20, 30, 40]`. -/
theorem list_operations_example :
    (ListC.run_ops (ListC.compare_vals .TYPE_INT)
      [.append 10, .append 30, .insert_sorted 20, .prepend 40, .insertion_sort, .delete 0]
      ListC.empty).bind ListC.to_list = some [20, 30, 40] := by
  decide

/-! ## Tree: how a tree of more than 500 nodes arises -/

section TreeReach
open TreeC
variable {α : Type}

theorem get_node_chain (d : α) : ∀ k, get_node (chain d k) (List.replicate k 0) =
    some (.node d []) := by
  intro k
  induction k with
  | zero => rfl
  | succ k ih =>
    simp only [chain, List.replicate_succ, get_node, List.getElem?_cons_zero]
    exact ih

theorem attach_chain (d : α) : ∀ k, attach (chain d k) (List.replicate k 0) (.node d []) =
    chain d (k + 1) := by
  intro k
  induction k with
  | zero => rfl
  | succ k ih =>
    have e : chain d (k + 1) = .node d [chain d k] := rfl
    rw [e, List.replicate_succ]
    simp only [attach, List.getElem?_cons_zero, List.set_cons_zero, ih]
    rfl

/-- When every draw of `generate_tree` selects the node connected last, the
connection loop builds a chain. -/
theorem connect_loop_chain (d : α) :
    ∀ (m i : Nat), connect_loop 2 (fun j => j - 1) (List.replicate m d) (i + 1) (chain d i)
      (chain_ptrs (i + 1)) = some (chain d (i + m)) := by
  intro m
  induction m with
  | zero => intro i; rfl
  | succ m ih =>
    intro i
    have hlen : (chain_ptrs (i + 1)).length = i + 1 := by simp [chain_ptrs]
    have hmod : (i + 1 - 1) % (i + 1) = i := by
      rw [Nat.add_sub_cancel]
      exact Nat.mod_eq_of_lt (by omega)
    have hidx : (chain_ptrs (i + 1))[i]? = some (List.replicate i 0) := by
      simp [chain_ptrs]
    have hfind : find_parent 2 (chain d i) (chain_ptrs (i + 1)) i (i + 1) 0 =
        some (some (List.replicate i 0)) := by
      simp only [find_parent, hlen, Nat.add_zero, Nat.mod_eq_of_lt (Nat.lt_succ_self i), hidx,
        get_node_chain, TNode.children, List.length_nil]
      rfl
    have hptrs : chain_ptrs (i + 1) ++ [List.replicate i 0 ++ [0]] = chain_ptrs (i + 1 + 1) := by
      simp only [chain_ptrs]
      rw [@List.range_succ (i + 1), List.map_append, List.map_singleton]
      congr 2
      exact (List.replicate_succ' ..).symm
    rw [List.replicate_succ]
    simp only [connect_loop, hlen, hmod, hfind, get_node_chain, TNode.children, List.length_nil]
    rw [if_pos (by decide), attach_chain, hptrs, ih (i + 1)]
    congr 2
    omega

/-- The connection loop of `generate_tree` started on the root alone, every draw
selecting the node connected last. -/
theorem connect_loop_chain_root (d : α) (m : Nat) :
    connect_loop 2 (fun j => j - 1) (List.replicate m d) 1 (.node d []) [[]] =
      some (chain d m) := by
  have h := connect_loop_chain d m 0
  rw [Nat.zero_add m] at h
  exact h

/-- The handler `on_insert_node` on a root with one child stores the new leaf under
the root. -/
theorem insert_under_root (d v : α) (c : TNode α) :
    insert_loop 2 (.node d [c]) v 501 [[]] 1 = some (some (.node d [c, .node v []])) := by
  simp [insert_loop, get_node, TNode.children, attach, MAX_CHILDREN]

/-- The handler `on_insert_node` on a full root whose first child has one child
stores the new leaf under that first child. -/
theorem insert_under_first_child (d v : α) (c l : TNode α) :
    insert_loop 2 (.node d [.node d [c], l]) v 501 [[]] 1 =
      some (some (.node d [.node d [c, .node v []], l])) := by
  simp [insert_loop, get_node, TNode.children, attach, MAX_CHILDREN, child_ptrs, List.range_succ]

end TreeReach

/-- The function `generate_tree` in binary mode with at most 500 equal values, every
draw selecting the node connected last, returns the chain of these values. -/
theorem generate_tree_chain {dt : TreeC.DataType} (d : TreeC.Val dt) (m : Nat) (hm : m + 1 ≤ 500) :
    TreeC.generate_tree 0 (List.replicate (m + 1) d) (fun j => j - 1) =
      some ⟨some (TreeC.chain d m), .TREE_BINARY, 2⟩ := by
  obtain ⟨k, hk⟩ := assign_indices_bfs_returns (TreeC.chain d m) (by rw [size_chain]; exact hm)
  rw [List.replicate_succ]
  simp only [TreeC.generate_tree, if_true]
  rw [connect_loop_chain_root d m]
  simp only [hk]

/-- The tree of 502 nodes of the failing input of C17 arises without any write past
a buffer: `generate_tree` in binary mode with 500 values, every draw selecting the
node connected last, then two calls of `on_insert_node`. -/
theorem overfull_tree_reachable :
    (((TreeC.generate_tree 0 (List.replicate 500 0) (fun j => j - 1) :
          Option (TreeC.TreeState .TYPE_INT)).bind
        (TreeC.on_insert_node (some 0))).bind (TreeC.on_insert_node (some 0))) =
      some ⟨some TreeC.overfull_tree, .TREE_BINARY, 2⟩ := by
  have hgen : (TreeC.generate_tree 0 (List.replicate 500 0) (fun j => j - 1) :
        Option (TreeC.TreeState .TYPE_INT)) =
      some ⟨some (TreeC.chain 0 499), .TREE_BINARY, 2⟩ :=
    @generate_tree_chain .TYPE_INT (0 : Int) 499 (by omega)
  have e1 : TreeC.chain (0 : Int) 499 = .node 0 [TreeC.chain 0 498] := rfl
  have e2 : TreeC.chain (0 : Int) 498 = .node 0 [TreeC.chain 0 497] := rfl
  rw [hgen, Option.some_bind]
  simp only [TreeC.on_insert_node, e1, insert_under_root, Option.some_bind, e2,
    insert_under_first_child]
  rfl

section TreeDelete
open TreeC
variable {α : Type}

mutual
/-- The function `delete_node_rec` on a tree none of whose nodes below the root has
the formatted value `s`: nothing changes and 0 is returned. -/
theorem delete_node_rec_no_match (fmt : α → List (Fin 256)) (s : List (Fin 256)) :
    ∀ t : TNode α, (∀ n ∈ preorder_list t.children, strcmp (fmt n.data) s ≠ 0) →
      delete_node_rec fmt s t = (t, 0)
  | .node d cs => by
    intro h
    simp only [delete_node_rec]
    rw [delete_children_no_match fmt s cs h]
/-- The loop of `delete_node_rec` over children without a match. -/
theorem delete_children_no_match (fmt : α → List (Fin 256)) (s : List (Fin 256)) :
    ∀ cs : List (TNode α), (∀ n ∈ preorder_list cs, strcmp (fmt n.data) s ≠ 0) →
      delete_children fmt s cs = (cs, 0)
  | [] => by
    intro _
    rfl
  | c :: cs => by
    intro h
    have hc : ∀ n ∈ preorder c, strcmp (fmt n.data) s ≠ 0 := fun n hn =>
      h n (by simp only [preorder_list, List.mem_append]; exact Or.inl hn)
    have hcs : ∀ n ∈ preorder_list cs, strcmp (fmt n.data) s ≠ 0 := fun n hn =>
      h n (by simp only [preorder_list, List.mem_append]; exact Or.inr hn)
    have hroot : strcmp (fmt c.data) s ≠ 0 := hc c (by cases c; simp [preorder])
    have hsub : ∀ n ∈ preorder_list c.children, strcmp (fmt n.data) s ≠ 0 := fun n hn =>
      hc n (by cases c; simp only [preorder, TNode.children] at hn ⊢; exact List.mem_cons_of_mem _ hn)
    simp only [delete_children, if_neg hroot, delete_node_rec_no_match fmt s c hsub,
      delete_children_no_match fmt s cs hcs]
    simp
end

end TreeDelete

/-- The handler `on_delete_node` on the same tree with the text `7`: the first child
is removed and the later child moves down. -/
theorem delete_example :
    ((TreeC.on_delete_node (fun (n : Int) => [(n.toNat : Fin 256)]) [7]
        (⟨some (.node 5 [.node 7 [], .node 5 []]), .TREE_NARY, 4⟩ :
          TreeC.TreeState .TYPE_INT)).1.root.map TreeC.TNode.preorder_data,
      (TreeC.on_delete_node (fun (n : Int) => [(n.toNat : Fin 256)]) [7]
        (⟨some (.node 5 [.node 7 [], .node 5 []]), .TREE_NARY, 4⟩ :
          TreeC.TreeState .TYPE_INT)).2) = (some [5, 5], some .deleted) := by
  decide

/-! ## Tree: the transformation into a binary tree keeps the breadth-first order -/

section TreeBinary
open TreeC
variable {α : Type}

/-- A list of nodes that is the list of the children of its own nodes is empty. -/
theorem kids_no_fixpoint (R : List (List Nat × TNode α))
    (h : R.flatMap (fun x => kids x.1 x.2) = R) : R = [] := by
  have key : ∀ n : Nat, ∀ x ∈ R, x.1.length ≠ n := by
    intro n
    induction n using Nat.strong_induction_on with
    | _ n ih =>
      intro x hx hlen
      rw [← h] at hx
      obtain ⟨q, hq, hxq⟩ := List.mem_flatMap.1 hx
      have hfst : x.1 ∈ (kids q.1 q.2).map Prod.fst := List.mem_map_of_mem _ hxq
      rw [kids_fst] at hfst
      unfold child_ptrs at hfst
      obtain ⟨i, _, hi⟩ := List.mem_map.1 hfst
      have hl : x.1.length = q.1.length + 1 := by
        rw [← hi]
        simp
      exact ih q.1.length (by omega) q hq rfl
  cases R with
  | nil => rfl
  | cons x R => exact absurd rfl (key x.1.length x (List.mem_cons_self _ _))

/-- The breadth-first walk from a queue `Q` returns `Q ++ R` when `R` lists the
children of the nodes of `Q ++ R` in order. -/
theorem bfs_from_closed :
    ∀ (m : Nat) (Q R : List (List Nat × TNode α)) (fuel : Nat),
      (Q ++ R).length ≤ m → m ≤ fuel →
      (Q ++ R).flatMap (fun x => kids x.1 x.2) = R → bfs_from fuel Q = Q ++ R := by
  intro m
  induction m with
  | zero =>
    intro Q R fuel hlen _ _
    have hnil : Q ++ R = [] := List.length_eq_zero.1 (by omega)
    rw [hnil]
    rw [List.append_eq_nil] at hnil
    rw [hnil.1, bfs_from_nil]
  | succ m ih =>
    intro Q R fuel hlen hfuel hcl
    cases Q with
    | nil =>
      rw [List.nil_append] at hcl ⊢
      rw [kids_no_fixpoint R hcl, bfs_from_nil]
    | cons x Q =>
      obtain ⟨f, rfl⟩ : ∃ f, fuel = f + 1 := ⟨fuel - 1, by omega⟩
      rw [List.cons_append, List.flatMap_cons] at hcl
      obtain ⟨R2, hR2⟩ : ∃ R2, R2 = (Q ++ R).flatMap (fun x => kids x.1 x.2) := ⟨_, rfl⟩
      rw [← hR2] at hcl
      subst hcl
      simp only [bfs_from]
      rw [ih (Q ++ kids x.1 x.2) R2 f (by
        simp only [List.cons_append, List.length_cons, List.length_append] at hlen ⊢
        omega) (by omega) (by
        rw [List.append_assoc]
        exact hR2.symm)]
      simp

/-- The breadth-first walk with enough fuel visits every node under the queue. -/
theorem bfs_from_length :
    ∀ (m : Nat) (queue : List (List Nat × TNode α)) (fuel : Nat),
      queue_size queue ≤ m → m ≤ fuel → (bfs_from fuel queue).length = queue_size queue := by
  intro m
  induction m with
  | zero =>
    intro queue fuel hsize _
    have := queue_size_length queue
    have hnil : queue = [] := List.length_eq_zero.1 (by omega)
    rw [hnil, bfs_from_nil]
    rfl
  | succ m ih =>
    intro queue fuel hsize hfuel
    cases queue with
    | nil =>
      rw [bfs_from_nil]
      rfl
    | cons x rest =>
      obtain ⟨f, rfl⟩ : ∃ f, fuel = f + 1 := ⟨fuel - 1, by omega⟩
      have hx := size_eq x.2
      have hq : queue_size (x :: rest) = size x.2 + queue_size rest := by
        simp [queue_size]
      have hq2 : queue_size (rest ++ kids x.1 x.2) = queue_size rest + size_list x.2.children := by
        rw [queue_size_append, queue_size_kids]
      simp only [bfs_from, List.length_cons]
      rw [ih (rest ++ kids x.1 x.2) f (by omega) (by omega), hq, hq2]
      omega

/-- The breadth-first order of a tree holds each of its nodes once. -/
theorem bfs_order_length (t : TNode α) : (bfs_order t).length = size t := by
  unfold bfs_order
  rw [bfs_from_length (size t) [([], t)] (size t) (by simp [queue_size]) (le_refl _)]
  simp [queue_size]

/-- Two lists of nodes with their pointers that hold the same pointers in the same
order are equal. -/
theorem ptr_lists_eq (t : TNode α) :
    ∀ (l1 l2 : List (List Nat × TNode α)),
      l1.map Prod.fst = l2.map Prod.fst →
      (∀ x ∈ l1, get_node t x.1 = some x.2) → (∀ x ∈ l2, get_node t x.1 = some x.2) →
      l1 = l2 := by
  intro l1
  induction l1 with
  | nil =>
    intro l2 h _ _
    cases l2 with
    | nil => rfl
    | cons y l2 => simp at h
  | cons x l1 ih =>
    intro l2 h h1 h2
    cases l2 with
    | nil => simp at h
    | cons y l2 =>
      simp only [List.map_cons, List.cons.injEq] at h
      have hx := h1 x (List.mem_cons_self _ _)
      have hy := h2 y (List.mem_cons_self _ _)
      rw [h.1, hy] at hx
      simp only [Option.some.injEq] at hx
      have hxy : x = y := Prod.ext h.1 hx.symm
      rw [hxy, ih l2 h.2 (fun z hz => h1 z (List.mem_cons_of_mem _ hz))
        (fun z hz => h2 z (List.mem_cons_of_mem _ hz))]

/-- Pointers that designate nodes come with these nodes. -/
theorem ptrs_with_nodes (t : TNode α) :
    ∀ conn : List (List Nat), (∀ q ∈ conn, ∃ n, get_node t q = some n) →
      ∃ L : List (List Nat × TNode α), L.map Prod.fst = conn ∧
        ∀ x ∈ L, get_node t x.1 = some x.2 := by
  intro conn
  induction conn with
  | nil => exact fun _ => ⟨[], rfl, fun x hx => absurd hx (List.not_mem_nil x)⟩
  | cons q conn ih =>
    intro h
    obtain ⟨n, hn⟩ := h q (List.mem_cons_self _ _)
    obtain ⟨L, hL1, hL2⟩ := ih (fun z hz => h z (List.mem_cons_of_mem _ hz))
    refine ⟨(q, n) :: L, by simp [hL1], ?_⟩
    intro x hx
    rcases List.mem_cons.1 hx with rfl | hx
    · exact hn
    · exact hL2 x hx

/-- A tree whose nodes are listed by `conn` in the way the second loop of
`on_transform_binary` keeps them has the data `done` in breadth-first order. -/
theorem bfs_of_rebuildBfs (t : TNode α) (conn : List (List Nat)) (done : List α)
    (hval : ∀ q ∈ conn, ∃ n, get_node t q = some n) (h : RebuildBfs t conn done) :
    (bfs_order t).map (fun x => x.2.data) = done ∧ size t = done.length := by
  obtain ⟨L, hL1, hL2⟩ := ptrs_with_nodes t conn hval
  have hkp : ∀ x ∈ L, (kids x.1 x.2).map Prod.fst = ptr_kids t x.1 := by
    intro x hx
    rw [kids_fst, ptr_kids, child_count, hL2 x hx]
  have hfst : (L.flatMap (fun x => kids x.1 x.2)).map Prod.fst = L.tail.map Prod.fst := by
    rw [List.map_flatMap, List.map_tail, hL1, ← h.closed, ← hL1, List.flatMap_map]
    clear hL1
    induction L with
    | nil => rfl
    | cons x L ih =>
      rw [List.flatMap_cons, List.flatMap_cons, hkp x (List.mem_cons_self _ _),
        ih (fun z hz => hL2 z (List.mem_cons_of_mem _ hz))
          (fun z hz => hkp z (List.mem_cons_of_mem _ hz))]
  have hclosed : L.flatMap (fun x => kids x.1 x.2) = L.tail := by
    apply ptr_lists_eq t _ _ hfst
    · intro y hy
      obtain ⟨x, hx, hyx⟩ := List.mem_flatMap.1 hy
      exact kids_valid t x.1 x.2 (hL2 x hx) y hyx
    · intro y hy
      exact hL2 y (List.mem_of_mem_tail hy)
  have hlen : L.length = conn.length := by rw [← hL1, List.length_map]
  have hdata : L.map (fun x => x.2.data) = done := by
    have hd := h.data
    rw [← hL1, List.map_map] at hd
    have hd2 : L.map (fun x => some x.2.data) = done.map some := by
      rw [← hd]
      apply List.map_congr_left
      intro x hx
      simp only [Function.comp, hL2 x hx, Option.map_some']
    have hd3 : (L.map (fun x => x.2.data)).map some = done.map some := by
      rw [List.map_map]
      exact hd2
    exact (List.map_injective_iff.2 (Option.some_injective _)) hd3
  cases L with
  | nil =>
    have := h.head
    rw [← hL1] at this
    simp at this
  | cons x L =>
    have hx1 : x.1 = [] := by
      have := h.head
      rw [← hL1] at this
      simpa using this
    have hx2 : x = ([], t) := by
      have := hL2 x (List.mem_cons_self _ _)
      rw [hx1, get_node_nil] at this
      simp only [Option.some.injEq] at this
      exact Prod.ext hx1 this.symm
    have hb := bfs_from_closed (size t) [x] L (size t) (by
      rw [h.sz, ← hlen]
      simp) (le_refl _) (by simpa using hclosed)
    refine ⟨?_, ?_⟩
    · unfold bfs_order
      rw [← hx2, hb]
      exact hdata
    · rw [h.sz, ← hlen, ← hdata, List.length_map]

/-- The list of the children of a list of nodes when one node, followed by nodes
without children, gets one more child. -/
theorem flatMap_one_more {β γ : Type} (f g : β → List γ) (A B : List β) (p : β) (x : γ)
    (hA : ∀ q ∈ A, g q = f q) (hB : ∀ q ∈ B, g q = [] ∧ f q = []) (hP : g p = f p ++ [x]) :
    (A ++ p :: B).flatMap g = (A ++ p :: B).flatMap f ++ [x] := by
  have h1 : A.flatMap g = A.flatMap f := by
    clear hB hP
    induction A with
    | nil => rfl
    | cons a A ih =>
      rw [List.flatMap_cons, List.flatMap_cons, hA a (List.mem_cons_self _ _),
        ih (fun q hq => hA q (List.mem_cons_of_mem _ hq))]
  have h2 : B.flatMap g = [] := List.flatMap_eq_nil_iff.2 (fun q hq => (hB q hq).1)
  have h3 : B.flatMap f = [] := List.flatMap_eq_nil_iff.2 (fun q hq => (hB q hq).2)
  rw [List.flatMap_append, List.flatMap_append, List.flatMap_cons, List.flatMap_cons, h1, h2,
    h3, hP]
  simp

/-- Equal data and child counts at a pointer, read off the two trees. -/
theorem child_count_of_info (t1 t2 : TNode α) (q : List Nat)
    (h : (get_node t1 q).map (fun n => (n.data, n.children.length)) =
      (get_node t2 q).map (fun n => (n.data, n.children.length))) :
    child_count t1 q = child_count t2 q ∧
      (get_node t1 q).map TNode.data = (get_node t2 q).map TNode.data := by
  unfold child_count
  cases h1 : get_node t1 q <;> cases h2 : get_node t2 q <;> rw [h1, h2] at h <;>
    simp only [Option.map_some', Option.map_none', Option.some.injEq, Prod.mk.injEq,
      reduceCtorEq] at h
  · exact ⟨rfl, rfl⟩
  · simp only [Option.map_some', Option.some.injEq]
    exact ⟨h.2, h.1⟩

/-- The pointers to `k + 1` children are those to `k` children followed by one. -/
theorem child_ptrs_succ (p : List Nat) (k : Nat) :
    child_ptrs p (k + 1) = child_ptrs p k ++ [p ++ [k]] := by
  unfold child_ptrs
  rw [List.range_succ, List.map_append, List.map_singleton]

/-- The order kept by the second loop of `on_transform_binary` after the branch that
attaches a new node under `conn[p_idx]`. -/
theorem rebuildBfs_attach (v : α) (tree : TNode α) (conn : List (List Nat)) (p_idx : Nat)
    (pn : TNode α) (done : List α) (hinv : RebuildInv tree conn p_idx)
    (hb : RebuildBfs tree conn done) (hcur : p_idx < conn.length)
    (hpn : get_node tree conn[p_idx] = some pn) :
    RebuildBfs (attach tree conn[p_idx] (.node v []))
      (conn ++ [conn[p_idx] ++ [pn.children.length]]) (done ++ [v]) := by
  have hp := List.getElem?_eq_getElem hcur
  have hne : conn ≠ [] := by
    intro h0
    rw [h0] at hcur
    simp at hcur
  have hnew : conn[p_idx] ++ [pn.children.length] ∉ conn := by
    intro hmem
    obtain ⟨n, hn⟩ := hinv.valid _ hmem
    rw [get_node_child tree pn _ _ hpn, List.getElem?_eq_none (le_refl _)] at hn
    exact absurd hn (by simp)
  have hget := attach_get (TNode.node v []) conn[p_idx] tree pn hpn
  have hnewget : get_node (attach tree conn[p_idx] (.node v []))
      (conn[p_idx] ++ [pn.children.length]) = some (.node v []) := by
    rw [get_node_child _ _ _ _ hget, TNode.children, List.getElem?_concat_length]
  have hother : ∀ q ∈ conn, q ≠ conn[p_idx] →
      child_count (attach tree conn[p_idx] (.node v [])) q = child_count tree q ∧
      (get_node (attach tree conn[p_idx] (.node v [])) q).map TNode.data =
        (get_node tree q).map TNode.data := by
    intro q hq hqp
    apply child_count_of_info
    apply attach_frame v conn[p_idx] tree pn q hpn hqp
    intro hEq
    exact hnew (hEq ▸ hq)
  have hsplit : conn = conn.take p_idx ++ conn[p_idx] :: conn.drop (p_idx + 1) := by
    rw [← List.drop_eq_getElem_cons hcur, List.take_append_drop]
  have hnd := hinv.nodup
  rw [hsplit, List.nodup_append] at hnd
  obtain ⟨_, hnd2, hdisj⟩ := hnd
  rw [List.nodup_cons] at hnd2
  constructor
  · rw [List.head?_append_of_ne_nil _ hne]
    exact hb.head
  · rw [List.tail_append_of_ne_nil hne, ← hb.closed]
    have key := flatMap_one_more (ptr_kids tree)
      (ptr_kids (attach tree conn[p_idx] (.node v []))) (conn.take p_idx)
      (conn.drop (p_idx + 1)) conn[p_idx] (conn[p_idx] ++ [pn.children.length])
      (by
        intro q hq
        have hqc : q ∈ conn := List.mem_of_mem_take hq
        have hqp : q ≠ conn[p_idx] := by
          intro hEq
          exact hdisj hq (by rw [hEq]; exact List.mem_cons_self _ _)
        rw [ptr_kids, ptr_kids, (hother q hqc hqp).1])
      (by
        intro q hq
        have hqc : q ∈ conn := List.mem_of_mem_drop hq
        have hqp : q ≠ conn[p_idx] := by
          intro hEq
          rw [hEq] at hq
          exact hnd2.1 hq
        obtain ⟨k, hk1, hk2⟩ := List.mem_iff_getElem.1 hq
        rw [List.getElem_drop] at hk2
        obtain ⟨n, hn⟩ := hinv.valid q hqc
        have h0 := (hinv.counts (p_idx + 1 + k) q n (by
          rw [← hk2]
          exact List.getElem?_eq_getElem _) hn).2.1 (by omega)
        have hcc : child_count tree q = 0 := by
          rw [child_count, hn]
          exact h0
        rw [ptr_kids, ptr_kids, (hother q hqc hqp).1, hcc]
        exact ⟨rfl, rfl⟩)
      (by
        rw [ptr_kids, ptr_kids, child_count, child_count, hget, hpn]
        have e : (TNode.node pn.data (pn.children ++ [TNode.node v []])).children.length =
            pn.children.length + 1 := by
          rw [TNode.children]
          simp
        dsimp only
        rw [e, child_ptrs_succ])
    rw [← hsplit] at key
    rw [List.flatMap_append, key, List.flatMap_singleton, ptr_kids, child_count, hnewget]
    simp [TNode.children, child_ptrs]
  · rw [List.map_append, List.map_append, ← hb.data, List.map_singleton, List.map_singleton,
      hnewget]
    congr 1
    apply List.map_congr_left
    intro q hq
    by_cases hqp : q = conn[p_idx]
    · rw [hqp, hget, hpn]
      rfl
    · exact (hother q hq hqp).2
  · rw [attach_size _ _ _ _ hpn, hb.sz]
    simp [size, size_list]

/-- The second loop of `on_transform_binary`: whenever it returns, the tree it
returns has the remaining values attached in the order of `conn`. -/
theorem rebuild_loop_bfs :
    ∀ (fuel : Nat) (tree : TNode α) (conn : List (List Nat)) (p_idx : Nat) (vals done : List α)
      (t : TNode α),
      RebuildInv tree conn p_idx → RebuildBfs tree conn done →
      rebuild_loop fuel tree conn p_idx vals = some t →
      ∃ conn2, (∀ q ∈ conn2, ∃ n, get_node t q = some n) ∧
        RebuildBfs t conn2 (done ++ vals) := by
  intro fuel
  induction fuel with
  | zero =>
    intro tree conn p_idx vals done t _ _ hrun
    simp [rebuild_loop] at hrun
  | succ f ih =>
    intro tree conn p_idx vals done t hinv hb hrun
    cases vals with
    | nil =>
      simp only [rebuild_loop, Option.some.injEq] at hrun
      rw [← hrun, List.append_nil]
      exact ⟨conn, hinv.valid, hb⟩
    | cons v vals =>
      have hp := List.getElem?_eq_getElem hinv.cur
      obtain ⟨pn, hpn⟩ := hinv.valid _ (List.getElem_mem hinv.cur)
      simp only [rebuild_loop, hp, hpn] at hrun
      by_cases hc : pn.children.length < 2
      · rw [if_pos hc] at hrun
        by_cases hcap : conn.length < 500
        · rw [if_pos hcap] at hrun
          have := ih _ _ _ vals (done ++ [v]) t
            (rebuildInv_attach v tree conn p_idx pn hinv hinv.cur hpn hc)
            (rebuildBfs_attach v tree conn p_idx pn done hinv hb hinv.cur hpn) hrun
          rw [List.append_assoc, List.singleton_append] at this
          exact this
        · rw [if_neg hcap] at hrun
          exact absurd hrun (by simp)
      · rw [if_neg hc] at hrun
        have hcnt := (hinv.counts p_idx _ pn hp hpn).2.2 rfl
        exact ih _ _ _ (v :: vals) done t
          (rebuildInv_next tree conn p_idx pn hinv hinv.cur hpn (by omega)) hb hrun

/-- The invariant of the second loop of `on_transform_binary` at its start. -/
theorem rebuildInv_init (v : α) : RebuildInv (TNode.node v []) [[]] 0 := by
  constructor
  · intro q hq
    rw [List.mem_singleton] at hq
    rw [hq]
    exact ⟨_, rfl⟩
  · exact List.nodup_singleton _
  · intro k q n hk hq
    cases k with
    | zero =>
      simp only [List.getElem?_cons_zero, Option.some.injEq] at hk
      rw [← hk] at hq
      simp only [get_node, Option.some.injEq] at hq
      rw [← hq]
      simp [TNode.children]
    | succ k => simp at hk
  · simp
  · exact arityOk_leaf 2 _

/-- The order kept by the second loop of `on_transform_binary` at its start. -/
theorem rebuildBfs_init (v : α) : RebuildBfs (TNode.node v []) [[]] [v] := by
  constructor
  · rfl
  · simp [ptr_kids, child_count, get_node, TNode.children, child_ptrs]
  · simp [get_node, TNode.data]
  · simp [size, size_list]

end TreeBinary

/-- C22: on a tree with at most 500 nodes in N-ary mode, `on_transform_binary`
returns a binary state whose tree has the same values in breadth-first order as the
old tree, the same number of nodes, and at most 2 children at every node. -/
theorem transform_binary_keeps_bfs {dt : TreeC.DataType} (st : TreeC.TreeState dt)
    (r : TreeC.TNode (TreeC.Val dt)) (hroot : st.root = some r)
    (hnary : st.current_ttype = TreeC.TreeType.TREE_NARY) (hsize : TreeC.size r ≤ 500) :
    ∃ t, TreeC.on_transform_binary st = some ⟨some t, TreeC.TreeType.TREE_BINARY, 2⟩ ∧
      (TreeC.bfs_order t).map (fun x => x.2.data) =
        (TreeC.bfs_order r).map (fun x => x.2.data) ∧
      TreeC.size t = TreeC.size r ∧
      ∀ p n, TreeC.get_node t p = some n → n.children.length ≤ 2 := by
  have hbin : st.current_ttype ≠ TreeC.TreeType.TREE_BINARY := by
    rw [hnary]
    decide
  have hpos := size_pos r
  have hvals := bfs_values_loop_spec (TreeC.size r) [([], r)] 1 (TreeC.size r) 501 []
    (by simp [TreeC.queue_size]) (le_refl _) (by omega) (by simp [TreeC.queue_size]; omega)
  simp only [List.map_cons, List.map_nil, List.nil_append] at hvals
  have hblen := bfs_order_length r
  unfold TreeC.bfs_order at hblen ⊢
  obtain ⟨f, hf⟩ : ∃ f, TreeC.size r = f + 1 := ⟨TreeC.size r - 1, by omega⟩
  have hlen := bfs_from_length_le (TreeC.size r) [(([] : List Nat), r)]
  rw [hf] at hvals hlen hblen
  simp only [TreeC.bfs_from, List.map_cons, List.length_cons] at hvals hlen hblen
  obtain ⟨t, ht, harity⟩ := rebuild_loop_spec 1001 (TreeC.TNode.node r.data []) [[]] 0
    ((TreeC.bfs_from f ([] ++ TreeC.kids [] r)).map (fun x => x.2.data))
    (rebuildInv_init r.data)
    (by
      simp only [List.length_singleton, List.length_map]
      omega)
    (by
      intro p pn hp hpn
      simp only [List.getElem?_cons_zero, Option.some.injEq] at hp
      rw [← hp] at hpn
      simp only [TreeC.get_node, Option.some.injEq] at hpn
      rw [← hpn]
      simp only [TreeC.TNode.children, List.length_nil, List.length_map]
      omega)
  obtain ⟨conn2, hvalid, hfinal⟩ := rebuild_loop_bfs 1001 _ _ _ _ [r.data] t
    (rebuildInv_init r.data) (rebuildBfs_init r.data) ht
  obtain ⟨hbfs, hsz⟩ := bfs_of_rebuildBfs t conn2 _ hvalid hfinal
  refine ⟨t, by
    simp only [TreeC.on_transform_binary, hroot, if_neg hbin, hvals, ht, Option.map_some'],
    ?_, ?_, harity⟩
  · unfold TreeC.bfs_order at hbfs
    rw [hbfs, hf]
    simp only [TreeC.bfs_from, List.map_cons, List.singleton_append]
  · rw [hsz, hf]
    simp only [List.singleton_append, List.length_cons, List.length_map]
    omega

/-- Witness of C22: the root 1 with the three children 2, 3, 4 in N-ary mode. -/
theorem transform_binary_keeps_bfs_witness :
    ∃ t, TreeC.on_transform_binary
        (⟨some (.node 1 [.node 2 [], .node 3 [], .node 4 []]), .TREE_NARY, 4⟩ :
          TreeC.TreeState .TYPE_INT) = some ⟨some t, TreeC.TreeType.TREE_BINARY, 2⟩ ∧
      (TreeC.bfs_order t).map (fun x => x.2.data) =
        (TreeC.bfs_order (.node 1 [.node 2 [], .node 3 [], .node 4 []])).map
          (fun x => x.2.data) ∧
      TreeC.size t = TreeC.size (.node (1 : Int) [.node 2 [], .node 3 [], .node 4 []]) ∧
      ∀ p n, TreeC.get_node t p = some n → n.children.length ≤ 2 :=
  transform_binary_keeps_bfs
    (⟨some (.node 1 [.node 2 [], .node 3 [], .node 4 []]), .TREE_NARY, 4⟩ :
      TreeC.TreeState .TYPE_INT)
    (.node 1 [.node 2 [], .node 3 [], .node 4 []]) rfl rfl (by decide)

/-- The handler `on_transform_binary` run on the root 1 with the children 2, 3, 4:
the new root keeps 2 and 3, and 4 moves under 2. -/
theorem transform_binary_example :
    (TreeC.on_transform_binary
      (⟨some (.node 1 [.node 2 [], .node 3 [], .node 4 []]), .TREE_NARY, 4⟩ :
        TreeC.TreeState .TYPE_INT)).map
      (fun st => st.root.map (fun t => (TreeC.bfs_order t).map (fun x => (x.1, x.2.data))))
    = some (some [([], 1), ([0], 2), ([1], 3), ([0, 0], 4)]) := by
  decide

/-! ## All-pairs distances: `run_floyd` -/

section Floyd
open GraphC

/-- A loop over `0 .. n-1` establishes what each of its iterations keeps. -/
theorem foldl_range_inv {β : Type} (P : Nat → β → Prop) (f : β → Nat → β) (n : Nat) (b0 : β)
    (h0 : P 0 b0) (hstep : ∀ i b, i < n → P i b → P (i + 1) (f b i)) :
    P n ((List.range n).foldl f b0) := by
  have key : ∀ m, m ≤ n → P m ((List.range m).foldl f b0) := by
    intro m
    induction m with
    | zero => exact fun _ => h0
    | succ m ih =>
      intro hm
      rw [List.range_succ, List.foldl_append]
      exact hstep m _ (by omega) (ih (by omega))
  exact key n (le_refl _)

theorem mset_same (m : Nat → Nat → Int) (i j : Nat) (x : Int) : mset m i j x i j = x := by
  simp [mset]

theorem mset_other (m : Nat → Nat → Int) (i j a b : Nat) (x : Int) (h : ¬ (a = i ∧ b = j)) :
    mset m i j x a b = m a b := by
  simp only [mset, if_neg h]

/-- The matrix after the initialisation loops of `run_floyd`. -/
theorem floyd_init_spec (n : Nat) (mat0 : Nat → Nat → Int) (a b : Nat) (ha : a < n)
    (hb : b < n) : floyd_init n mat0 a b = if a = b then 0 else INF := by
  have hrow : ∀ (i : Nat) (m : Nat → Nat → Int) (a b : Nat),
      (List.range n).foldl (fun m j => mset m i j (if i = j then 0 else INF)) m a b =
        if a = i ∧ b < n then (if i = b then 0 else INF) else m a b := by
    intro i m
    apply foldl_range_inv
      (fun j (c : Nat → Nat → Int) => ∀ a b, c a b =
        if a = i ∧ b < j then (if i = b then 0 else INF) else m a b)
    · intro a b
      simp
    · intro j c _ hc a b
      by_cases h : a = i ∧ b = j
      · obtain ⟨rfl, rfl⟩ := h
        rw [mset_same]
        simp
      · rw [mset_other _ _ _ _ _ _ h, hc a b]
        by_cases h1 : a = i
        · subst h1
          have h2 : b ≠ j := fun hbj => h ⟨rfl, hbj⟩
          have e : (b < j + 1) ↔ (b < j) := by omega
          simp only [true_and, e]
        · simp only [h1, false_and, if_false]
  have hall : ∀ a b, floyd_init n mat0 a b =
      if a < n ∧ b < n then (if a = b then 0 else INF) else mat0 a b := by
    unfold floyd_init
    apply foldl_range_inv
      (fun i (c : Nat → Nat → Int) => ∀ a b, c a b =
        if a < i ∧ b < n then (if a = b then 0 else INF) else mat0 a b)
    · intro a b
      simp
    · intro i c _ hc a b
      rw [hrow i c a b]
      by_cases h1 : a = i
      · subst h1
        by_cases hb : b < n
        · simp [hb]
        · simp [hb, hc]
      · rw [if_neg (fun hh => h1 hh.1), hc a b]
        have e : (a < i + 1) ↔ a < i := by omega
        simp only [e]
  rw [hall a b, if_pos ⟨ha, hb⟩]

/-- A cell no stored edge designates is not touched by the loop over the edges. -/
theorem floyd_edges_other : ∀ (E : List Edge) (m : Nat → Nat → Int) (a b : Nat),
    (∀ e ∈ E, ¬ (e.u = a ∧ e.v = b)) → floyd_edges E m a b = m a b := by
  intro E
  induction E with
  | nil => intro m a b _; rfl
  | cons e E ih =>
    intro m a b h
    show floyd_edges E (mset m e.u e.v e.weight) a b = m a b
    rw [ih _ a b (fun e' he' => h e' (List.mem_cons_of_mem _ he'))]
    apply mset_other
    intro hh
    exact h e (List.mem_cons_self _ _) ⟨hh.1.symm, hh.2.symm⟩

/-- With one stored edge per ordered pair, the loop over the edges leaves the weight
of each edge in its cell. -/
theorem floyd_edges_edge : ∀ (E : List Edge) (m : Nat → Nat → Int), UniquePairs E →
    ∀ e ∈ E, floyd_edges E m e.u e.v = e.weight := by
  intro E
  induction E with
  | nil => intro m _ e he; exact absurd he (List.not_mem_nil e)
  | cons e0 E ih =>
    intro m hu e he
    unfold UniquePairs at hu
    rw [List.pairwise_cons] at hu
    show floyd_edges E (mset m e0.u e0.v e0.weight) e.u e.v = e.weight
    rcases List.mem_cons.1 he with rfl | he
    · rw [floyd_edges_other E _ _ _ (fun e' he' hh => hu.1 e' he' ⟨hh.1.symm, hh.2.symm⟩)]
      exact mset_same _ _ _ _
    · exact ih _ hu.2 e he

theorem weight_append (p q : List Edge) : weight (p ++ q) = weight p + weight q := by
  simp [weight]

/-- A walk through the node `x` splits there into two walks that are not empty. -/
theorem walk_split_inner (E : List Edge) : ∀ (p : List Edge) (a b x : Nat),
    IsWalk E a b p → x ∈ inner_nodes p →
    ∃ p1 p2, p = p1 ++ p2 ∧ p1 ≠ [] ∧ p2 ≠ [] ∧ IsWalk E a x p1 ∧ IsWalk E x b p2 := by
  intro p
  induction p with
  | nil =>
    intro a b x _ hx
    simp [inner_nodes] at hx
  | cons e p ih =>
    intro a b x hw hx
    cases p with
    | nil => simp [inner_nodes] at hx
    | cons e2 p =>
      simp only [IsWalk] at hw
      have hin : inner_nodes (e :: e2 :: p) = e.v :: inner_nodes (e2 :: p) := by
        simp [inner_nodes, List.dropLast]
      rw [hin] at hx
      rcases List.mem_cons.1 hx with rfl | hx
      · refine ⟨[e], e2 :: p, rfl, by simp, by simp, ?_, ?_⟩
        · simp only [IsWalk]
          exact ⟨hw.1, hw.2.1, trivial⟩
        · simp only [IsWalk]
          exact hw.2.2
      · obtain ⟨p1, p2, h1, h2, h3, h4, h5⟩ := ih e.v b x (by
          simp only [IsWalk]
          exact hw.2.2) hx
        refine ⟨e :: p1, p2, by rw [h1]; rfl, by simp, h3, ?_, h5⟩
        simp only [IsWalk]
        exact ⟨hw.1, hw.2.1, h4⟩

/-- The nodes inside the two parts of a split walk are inside the walk. -/
theorem inner_nodes_append (p1 p2 : List Edge) (h2 : p2 ≠ []) :
    (∀ x ∈ inner_nodes p1, x ∈ inner_nodes (p1 ++ p2)) ∧
    (∀ x ∈ inner_nodes p2, x ∈ inner_nodes (p1 ++ p2)) := by
  have e : inner_nodes (p1 ++ p2) = p1.map (·.v) ++ inner_nodes p2 := by
    unfold inner_nodes
    rw [List.map_append, List.dropLast_append_of_ne_nil]
    simpa using h2
  rw [e]
  constructor
  · intro x hx
    exact List.mem_append_left _ (List.dropLast_subset _ hx)
  · intro x hx
    exact List.mem_append_right _ hx

/-- A walk that meets the node `x` ends with a walk from `x`, whose nodes are among
the nodes of the walk, in the same order. -/
theorem walk_suffix (E : List Edge) : ∀ (p : List Edge) (a b x : Nat),
    IsWalk E a b p → x ∈ walk_nodes a p →
    ∃ q, IsWalk E x b q ∧ (walk_nodes x q).Sublist (walk_nodes a p) ∧ q.Sublist p := by
  intro p
  induction p with
  | nil =>
    intro a b x hw hx
    simp only [walk_nodes, List.map_nil, List.mem_singleton] at hx
    subst hx
    exact ⟨[], hw, List.Sublist.refl _, List.Sublist.refl _⟩
  | cons e p ih =>
    intro a b x hw hx
    simp only [walk_nodes, List.map_cons, List.mem_cons] at hx
    rcases hx with rfl | hx
    · exact ⟨e :: p, hw, List.Sublist.refl _, List.Sublist.refl _⟩
    · simp only [IsWalk] at hw
      obtain ⟨q, h1, h2, h3⟩ := ih e.v b x hw.2.2 (by
        simp only [walk_nodes, List.mem_cons]
        exact hx)
      refine ⟨q, h1, ?_, List.Sublist.cons _ h3⟩
      simp only [walk_nodes, List.map_cons] at h2 ⊢
      exact List.Sublist.cons _ h2

/-- Where a walk leads, a walk that repeats no node leads too. -/
theorem walk_to_simple (E : List Edge) : ∀ (p : List Edge) (a b : Nat),
    IsWalk E a b p → ∃ q, IsWalk E a b q ∧ (walk_nodes a q).Nodup := by
  intro p
  induction p with
  | nil =>
    intro a b hw
    exact ⟨[], hw, by simp [walk_nodes]⟩
  | cons e p ih =>
    intro a b hw
    simp only [IsWalk] at hw
    obtain ⟨q, hq1, hq2⟩ := ih e.v b hw.2.2
    by_cases ha : a ∈ walk_nodes e.v q
    · obtain ⟨q2, h1, h2, _⟩ := walk_suffix E q e.v b a hq1 ha
      exact ⟨q2, h1, hq2.sublist h2⟩
    · refine ⟨e :: q, ?_, ?_⟩
      · simp only [IsWalk]
        exact ⟨hw.1, hw.2.1, hq1⟩
      · simp only [walk_nodes, List.map_cons] at ha hq2 ⊢
        exact List.nodup_cons.2 ⟨ha, hq2⟩

/-- The body of the innermost loop of `run_floyd` keeps the invariant of the
round. -/
theorem floyd_relax_inv (n : Nat) (E : List Edge) (k : Nat) (m : Nat → Nat → Int)
    (hk : k < n) (hm : ∀ a b, a < n → b < n → m a b ≤ INF)
    (i j : Nat) (hi : i < n) (hj : j < n) (c : Nat → Nat → Int)
    (h : RoundInv n E k m i j c) : RoundInv n E k m i (j + 1) (floyd_relax k i j c) := by
  have hINF := INF_eq
  have h1 := h.col i hi
  have h2 := h.row j hj
  have n1 := h.nonneg i k hi hk
  have n2 := h.nonneg k j hk hj
  have n3 := h.nonneg k k hk hk
  have u1 := hm i k hi hk
  have u2 := hm k j hk hj
  have hwrap : wrap32 (c i k + c k j) = c i k + c k j := wrap32_id _ (by omega) (by omega)
  unfold floyd_relax
  rw [hwrap]
  by_cases hlt : c i k + c k j < c i j
  · rw [if_pos hlt]
    have hij := h.mono i j hi hj
    have hmij := hm i j hi hj
    constructor
    · intro a b ha hb
      by_cases hab : a = i ∧ b = j
      · rw [hab.1, hab.2, mset_same]
        omega
      · rw [mset_other _ _ _ _ _ _ hab]
        exact h.nonneg a b ha hb
    · intro a b ha hb hfin
      by_cases hab : a = i ∧ b = j
      · rw [hab.1, hab.2, mset_same]
        obtain ⟨p1, hp1, hw1⟩ := h.real i k hi hk (by omega)
        obtain ⟨p2, hp2, hw2⟩ := h.real k j hk hj (by omega)
        exact ⟨p1 ++ p2, isWalk_append E p1 p2 i k j hp1 hp2, by
          rw [weight_append, hw1, hw2]⟩
      · rw [mset_other _ _ _ _ _ _ hab] at hfin ⊢
        exact h.real a b ha hb hfin
    · intro a b ha hb
      by_cases hab : a = i ∧ b = j
      · rw [hab.1, hab.2, mset_same]
        omega
      · rw [mset_other _ _ _ _ _ _ hab]
        exact h.mono a b ha hb
    · intro a ha
      rw [mset_other, h.col a ha]
      rintro ⟨rfl, rfl⟩
      omega
    · intro b hb
      rw [mset_other, h.row b hb]
      rintro ⟨rfl, rfl⟩
      omega
    · intro a b ha hb hp
      by_cases hab : a = i ∧ b = j
      · rw [hab.1, hab.2, mset_same, h1, h2]
      · rw [mset_other _ _ _ _ _ _ hab]
        apply h.passed a b ha hb
        rcases hp with hp | hp
        · exact Or.inl hp
        · refine Or.inr ⟨hp.1, ?_⟩
          have : b ≠ j := fun hbj => hab ⟨hp.1, hbj⟩
          omega
  · rw [if_neg hlt]
    constructor
    · exact h.nonneg
    · exact h.real
    · exact h.mono
    · exact h.col
    · exact h.row
    · intro a b ha hb hp
      by_cases hab : a = i ∧ b = j
      · rw [hab.1, hab.2, ← h1, ← h2]
        omega
      · apply h.passed a b ha hb
        rcases hp with hp | hp
        · exact Or.inl hp
        · refine Or.inr ⟨hp.1, ?_⟩
          have : b ≠ j := fun hbj => hab ⟨hp.1, hbj⟩
          omega

/-- One round of `run_floyd` admits the node `k` inside the walks. -/
theorem floyd_round_inv (n : Nat) (E : List Edge) (k : Nat) (m : Nat → Nat → Int)
    (hk : k < n) (h : FloydInv n E k m) : FloydInv n E (k + 1) (floyd_round n m k) := by
  have hround : RoundInv n E k m n 0 (floyd_round n m k) := by
    unfold floyd_round
    apply foldl_range_inv (fun i c => RoundInv n E k m i 0 c)
    · exact ⟨h.nonneg, h.real, fun _ _ _ _ => le_refl _, fun _ _ => rfl, fun _ _ => rfl,
        fun a b _ _ hp => by omega⟩
    · intro i c hi hc
      have hrow : RoundInv n E k m i n
          ((List.range n).foldl (fun m j => floyd_relax k i j m) c) := by
        apply foldl_range_inv (fun j c => RoundInv n E k m i j c) _ n c hc
        intro j c2 hj hc2
        exact floyd_relax_inv n E k m hk h.le_inf i j hi hj c2 hc2
      exact ⟨hrow.nonneg, hrow.real, hrow.mono, hrow.col, hrow.row, fun a b ha hb hp =>
        hrow.passed a b ha hb (by omega)⟩
  constructor
  · exact hround.nonneg
  · intro a b ha hb
    exact le_trans (hround.mono a b ha hb) (h.le_inf a b ha hb)
  · exact hround.real
  · have key : ∀ L : Nat, ∀ (p : List Edge) (a b : Nat), p.length = L → a < n → b < n →
        IsWalk E a b p → (∀ x ∈ inner_nodes p, x < k + 1) →
        floyd_round n m k a b ≤ weight p := by
      intro L
      induction L using Nat.strong_induction_on with
      | _ L ih =>
        intro p a b hL ha hb hw hin
        by_cases hall : ∀ x ∈ inner_nodes p, x < k
        · exact le_trans (hround.mono a b ha hb) (h.upper a b p ha hb hw hall)
        · push_neg at hall
          obtain ⟨x, hx1, hx2⟩ := hall
          have hxk : x = k := by
            have := hin x hx1
            omega
          subst hxk
          obtain ⟨p1, p2, hp, hne1, hne2, hw1, hw2⟩ := walk_split_inner E p a b x hw hx1
          have hl1 : 0 < p1.length := List.length_pos.2 hne1
          have hl2 : 0 < p2.length := List.length_pos.2 hne2
          have hlen : p.length = p1.length + p2.length := by rw [hp, List.length_append]
          have hsub := inner_nodes_append p1 p2 hne2
          rw [← hp] at hsub
          have b1 := ih p1.length (by omega) p1 a x rfl ha hk hw1
            (fun y hy => hin y (hsub.1 y hy))
          have b2 := ih p2.length (by omega) p2 x b rfl hk hb hw2
            (fun y hy => hin y (hsub.2 y hy))
          have b3 := hround.passed a b ha hb (Or.inl ha)
          rw [hround.col a ha] at b1
          rw [hround.row b hb] at b2
          rw [hp, weight_append]
          omega
    intro a b p ha hb hw hin
    exact key p.length p a b rfl ha hb hw hin

/-- The matrix at the start of the rounds: the weights of the stored edges, 0 on the
diagonal and the sentinel elsewhere. -/
theorem floyd_start_inv (n : Nat) (E : List Edge) (mat0 : Nat → Nat → Int)
    (hw : ∀ e ∈ E, 0 ≤ e.weight) (huniq : UniquePairs E) (hloop : ∀ e ∈ E, e.u ≠ e.v)
    (hsum : ∀ a b p, a < n → IsWalk E a b p → (walk_nodes a p).Nodup → weight p < INF) :
    FloydInv n E 0 (floyd_edges E (floyd_init n mat0)) := by
  have hINF := INF_eq
  have hedge : ∀ e ∈ E, floyd_edges E (floyd_init n mat0) e.u e.v = e.weight :=
    floyd_edges_edge E _ huniq
  have hnone : ∀ a b, a < n → b < n → (¬ ∃ e ∈ E, e.u = a ∧ e.v = b) →
      floyd_edges E (floyd_init n mat0) a b = if a = b then 0 else INF := by
    intro a b ha hb hno
    rw [floyd_edges_other E _ a b (fun e he hh => hno ⟨e, he, hh⟩), floyd_init_spec n mat0 a b ha hb]
  have hwalk : ∀ e ∈ E, IsWalk E e.u e.v [e] := fun e he => by
    show e ∈ E ∧ e.u = e.u ∧ e.v = e.v
    exact ⟨he, rfl, rfl⟩
  have hlt : ∀ e ∈ E, e.u < n → e.weight < INF := by
    intro e he hu
    have := hsum e.u e.v [e] hu (hwalk e he) (by
      simp only [walk_nodes, List.map_cons, List.map_nil]
      simp [hloop e he])
    simpa [weight] using this
  constructor
  · intro a b ha hb
    by_cases hex : ∃ e ∈ E, e.u = a ∧ e.v = b
    · obtain ⟨e, he, rfl, rfl⟩ := hex
      rw [hedge e he]
      exact hw e he
    · rw [hnone a b ha hb hex]
      split_ifs <;> omega
  · intro a b ha hb
    by_cases hex : ∃ e ∈ E, e.u = a ∧ e.v = b
    · obtain ⟨e, he, rfl, rfl⟩ := hex
      rw [hedge e he]
      exact le_of_lt (hlt e he ha)
    · rw [hnone a b ha hb hex]
      split_ifs <;> omega
  · intro a b ha hb hfin
    by_cases hex : ∃ e ∈ E, e.u = a ∧ e.v = b
    · obtain ⟨e, he, rfl, rfl⟩ := hex
      rw [hedge e he]
      exact ⟨[e], hwalk e he, by simp [weight]⟩
    · rw [hnone a b ha hb hex] at hfin ⊢
      by_cases hab : a = b
      · rw [if_pos hab]
        exact ⟨[], hab, rfl⟩
      · rw [if_neg hab] at hfin
        omega
  · intro a b p ha hb hp hin
    cases p with
    | nil =>
      simp only [IsWalk] at hp
      subst hp
      rw [hnone a a ha ha (fun ⟨e, he, h1, h2⟩ => hloop e he (h1.trans h2.symm))]
      simp [weight]
    | cons e p =>
      cases p with
      | nil =>
        simp only [IsWalk] at hp
        obtain ⟨he, rfl, rfl⟩ := hp
        rw [hedge e he]
        simp [weight]
      | cons e2 p =>
        have := hin e.v (by simp [inner_nodes, List.dropLast])
        omega

/-- The three loops of `run_floyd` leave in each cell the least weight of a walk
between its two nodes. -/
theorem floyd_loops_inv (n : Nat) (E : List Edge) (m : Nat → Nat → Int)
    (h : FloydInv n E 0 m) : FloydInv n E n (floyd_loops n m) := by
  unfold floyd_loops
  apply foldl_range_inv (fun k c => FloydInv n E k c) _ n m h
  intro k c hk hc
  exact floyd_round_inv n E k c hk hc

/-- The nodes inside a walk along valid edges are below the node count. -/
theorem inner_nodes_lt (n : Nat) (E : List Edge) (hvalid : ∀ e ∈ E, e.u < n ∧ e.v < n) :
    ∀ (p : List Edge) (a b : Nat), IsWalk E a b p → ∀ x ∈ inner_nodes p, x < n := by
  intro p
  induction p with
  | nil =>
    intro a b _ x hx
    simp [inner_nodes] at hx
  | cons e p ih =>
    intro a b hw x hx
    simp only [IsWalk] at hw
    cases p with
    | nil => simp [inner_nodes] at hx
    | cons e2 p =>
      have hin : inner_nodes (e :: e2 :: p) = e.v :: inner_nodes (e2 :: p) := by
        simp [inner_nodes, List.dropLast]
      rw [hin] at hx
      rcases List.mem_cons.1 hx with rfl | hx
      · exact (hvalid e hw.1).2
      · exact ih e.v b hw.2.2 x hx

end Floyd

/-- C23: on a graph of at most 20 nodes with valid edges, non-negative weights, one
stored edge per ordered pair, no self-loop, and simple paths all lighter than the
sentinel, `run_floyd` returns, and for all nodes `i` and `j` the cell `mat[i][j]`
is the least total weight of a path from `i` to `j` along stored edges (a lower
bound of all of them, attained when there is one) and is the sentinel exactly when
there is no such path. -/
theorem floyd_all_pairs (n : Nat) (E : List GraphC.Edge) (mat0 : Nat → Nat → Int)
    (hn : n ≤ GraphC.MAX_NODES) (hvalid : ∀ e ∈ E, e.u < n ∧ e.v < n)
    (hw : ∀ e ∈ E, 0 ≤ e.weight) (huniq : GraphC.UniquePairs E)
    (hloop : ∀ e ∈ E, e.u ≠ e.v)
    (hsum : ∀ a b p, a < n → GraphC.IsWalk E a b p → (GraphC.walk_nodes a p).Nodup →
      GraphC.weight p < GraphC.INF) :
    ∃ mat, GraphC.run_floyd n E mat0 = some mat ∧
      ∀ i j, i < n → j < n →
        (∀ p, GraphC.IsWalk E i j p → mat i j ≤ GraphC.weight p) ∧
        ((∃ p, GraphC.IsWalk E i j p) →
          ∃ p, GraphC.IsWalk E i j p ∧ GraphC.weight p = mat i j) ∧
        (mat i j = GraphC.INF ↔ ¬ ∃ p, GraphC.IsWalk E i j p) := by
  have hINF := INF_eq
  have hinv := floyd_loops_inv n E _ (floyd_start_inv n E mat0 hw huniq hloop hsum)
  refine ⟨_, by
    unfold GraphC.run_floyd
    rw [if_pos]
    exact ⟨hn, fun e he => ⟨lt_of_lt_of_le (hvalid e he).1 hn,
      lt_of_lt_of_le (hvalid e he).2 hn⟩⟩, ?_⟩
  intro i j hi hj
  have hlow : ∀ p, GraphC.IsWalk E i j p →
      GraphC.floyd_loops n (GraphC.floyd_edges E (GraphC.floyd_init n mat0)) i j ≤
        GraphC.weight p :=
    fun p hp => hinv.upper i j p hi hj hp (inner_nodes_lt n E hvalid p i j hp)
  have hfin : (∃ p, GraphC.IsWalk E i j p) →
      GraphC.floyd_loops n (GraphC.floyd_edges E (GraphC.floyd_init n mat0)) i j <
        GraphC.INF := by
    rintro ⟨p, hp⟩
    obtain ⟨q, hq1, hq2⟩ := walk_to_simple E p i j hp
    exact lt_of_le_of_lt (hlow q hq1) (hsum i j q hi hq1 hq2)
  refine ⟨hlow, fun hex => hinv.real i j hi hj (hfin hex), ?_⟩
  constructor
  · intro h hex
    have := hfin hex
    omega
  · intro h
    by_contra hne
    have hle := hinv.le_inf i j hi hj
    obtain ⟨p, hp, _⟩ := hinv.real i j hi hj (by omega)
    exact h ⟨p, hp⟩

/-- Witness of C23: the graph A->B(1), B->C(2), A->C(10). -/
theorem floyd_all_pairs_witness :
    ∃ mat, GraphC.run_floyd 3 [⟨0, 1, 1⟩, ⟨1, 2, 2⟩, ⟨0, 2, 10⟩] (fun _ _ => 7) = some mat ∧
      ∀ i j, i < 3 → j < 3 →
        (∀ p, GraphC.IsWalk [⟨0, 1, 1⟩, ⟨1, 2, 2⟩, ⟨0, 2, 10⟩] i j p →
          mat i j ≤ GraphC.weight p) ∧
        ((∃ p, GraphC.IsWalk [⟨0, 1, 1⟩, ⟨1, 2, 2⟩, ⟨0, 2, 10⟩] i j p) →
          ∃ p, GraphC.IsWalk [⟨0, 1, 1⟩, ⟨1, 2, 2⟩, ⟨0, 2, 10⟩] i j p ∧
            GraphC.weight p = mat i j) ∧
        (mat i j = GraphC.INF ↔
          ¬ ∃ p, GraphC.IsWalk [⟨0, 1, 1⟩, ⟨1, 2, 2⟩, ⟨0, 2, 10⟩] i j p) :=
  floyd_all_pairs 3 [⟨0, 1, 1⟩, ⟨1, 2, 2⟩, ⟨0, 2, 10⟩] (fun _ _ => 7)
    (by decide) (by decide) (by decide) (by unfold GraphC.UniquePairs; decide) (by decide)
    (fun a b p ha => simple_walk_weight_lt 3 _ a 10 (by decide) ha (by decide) (by decide)
      (by decide) b p)

set_option maxRecDepth 100000 in
/-- The function `run_floyd` on the graph A->B(1), B->C(2), A->C(10): the rows of
the matrix it prints. -/
theorem floyd_example :
    (GraphC.run_floyd 3 [⟨0, 1, 1⟩, ⟨1, 2, 2⟩, ⟨0, 2, 10⟩] (fun _ _ => 7)).map
      (fun mat => (List.range 3).map (fun i => (List.range 3).map (mat i))) =
    some [[0, 1, 3], [999999, 0, 2], [999999, 999999, 0]] := by
  decide

/-! ## Shortest paths: the path `run_dijkstra` stores -/

section DijkstraPath
open GraphC

end DijkstraPath

/-- The flag `is_path` on the path C, B, A that `run_dijkstra` stores for the graph
A->B(1), B->C(2), A->C(10): the edges A->B and B->C are on the path, A->C and the
reverse B->A are not. -/
theorem is_path_example :
    GraphC.is_path [2, 1, 0] 0 1 = 1 ∧ GraphC.is_path [2, 1, 0] 1 2 = 1 ∧
    GraphC.is_path [2, 1, 0] 0 2 = 0 ∧ GraphC.is_path [2, 1, 0] 1 0 = 0 ∧
    GraphC.is_path [] 0 1 = 0 := by
  decide

/-! ## List: generation of a random list -/

section ListGen
open ListC

/-- The calls of `generation_tick` append the missing nodes and then stop. -/
theorem run_generation_spec (dt : DataType) (rnd : Nat → Nat) :
    ∀ (m fuel i : Nat) (g : GenState) (st : ListState (Val dt)) (cells : List (Nat × Val dt)),
      HasCells st cells → g.current_count + (m : Int) = g.target_count → m < fuel →
      ∃ st2 cells2, run_generation dt rnd fuel i (g, st) =
          some ({ g with current_count := g.target_count, timer_id := 0 }, st2) ∧
        HasCells st2 (cells ++ cells2) ∧
        cells2.map Prod.snd = (List.range m).map (fun j => gen_value dt (rnd (i + j))) := by
  intro m
  induction m with
  | zero =>
    intro fuel i g st cells hc hm hf
    obtain ⟨f, rfl⟩ : ∃ f, fuel = f + 1 := ⟨fuel - 1, by omega⟩
    obtain ⟨t, c, tid⟩ := g
    have heq : c = t := by
      simp only [Nat.cast_zero, add_zero] at hm
      exact hm
    subst heq
    refine ⟨st, [], ?_, by simpa using hc, rfl⟩
    simp only [run_generation, generation_tick, ge_iff_le, le_refl, if_true]
  | succ m ih =>
    intro fuel i g st cells hc hm hf
    obtain ⟨f, rfl⟩ : ∃ f, fuel = f + 1 := ⟨fuel - 1, by omega⟩
    have hlt : ¬ g.current_count ≥ g.target_count := by
      push_cast at hm
      omega
    obtain ⟨st1, h1, hc1, _⟩ := append_node_spec st cells (gen_value dt (rnd i)) hc
    obtain ⟨st2, cells2, h2, hc2, hv2⟩ := ih f (i + 1)
      { g with current_count := g.current_count + 1 } st1 _ hc1 (by
        push_cast at hm
        show g.current_count + 1 + (m : Int) = g.target_count
        omega) (by omega)
    refine ⟨st2, (st.brk, gen_value dt (rnd i)) :: cells2, ?_, ?_, ?_⟩
    · simp only [run_generation, generation_tick, if_neg hlt, h1]
      exact h2
    · rw [List.append_assoc] at hc2
      exact hc2
    · rw [List.range_succ_eq_map, List.map_cons, List.map_cons, hv2, List.map_map]
      simp only [Nat.add_zero, List.cons.injEq, true_and]
      apply List.map_congr_left
      intro j _
      simp only [Function.comp]
      congr 2
      omega

end ListGen

/-- C25: `on_size_dialog_ok` sets the target to 5 when the requested size `n` is at
most 0, to 50 when it is above 50 and to `n` otherwise; the calls of
`generation_tick` then return, from the empty list, with a well-formed list of
exactly that many nodes (the values drawn, in order), the timer removed. -/
theorem generation_clamps_to_fifty (dt : ListC.DataType) (rnd : Nat → Nat) (n : Int)
    (id fuel : Nat) (g0 : ListC.GenState) (hfuel : 50 < fuel) :
    (ListC.on_size_dialog_ok (some n) id g0).target_count =
      (if n ≤ 0 then 5 else if n > 50 then 50 else n) ∧
    (n > 50 → (ListC.on_size_dialog_ok (some n) id g0).target_count = 50) ∧
    ∃ g st l, ListC.run_generation dt rnd fuel 0
        (ListC.on_size_dialog_ok (some n) id g0, ListC.empty) = some (g, st) ∧
      ListC.IsList st l ∧ ListC.to_list st = some l ∧
      (l.length : Int) = (ListC.on_size_dialog_ok (some n) id g0).target_count ∧
      l = (List.range l.length).map (fun j => ListC.gen_value dt (rnd j)) ∧
      g.timer_id = 0 ∧ g.current_count = g.target_count := by
  have htarget : (ListC.on_size_dialog_ok (some n) id g0).target_count =
      (if n ≤ 0 then 5 else if n > 50 then 50 else n) := by
    simp only [ListC.on_size_dialog_ok]
    split_ifs <;> omega
  have hrange : 0 < (ListC.on_size_dialog_ok (some n) id g0).target_count ∧
      (ListC.on_size_dialog_ok (some n) id g0).target_count ≤ 50 := by
    rw [htarget]
    split_ifs <;> omega
  refine ⟨htarget, ?_, ?_⟩
  · intro h
    rw [htarget]
    split_ifs <;> omega
  · obtain ⟨st2, cells2, h1, h2, h3⟩ := run_generation_spec dt rnd
      (ListC.on_size_dialog_ok (some n) id g0).target_count.toNat fuel 0
      (ListC.on_size_dialog_ok (some n) id g0) ListC.empty [] hasCells_empty (by
        have : (ListC.on_size_dialog_ok (some n) id g0).current_count = 0 := rfl
        rw [this]
        omega) (by omega)
    rw [List.nil_append] at h2
    have hil : ListC.IsList st2 (cells2.map Prod.snd) := ⟨cells2, h2, rfl⟩
    have hlen : (cells2.map Prod.snd).length =
        (ListC.on_size_dialog_ok (some n) id g0).target_count.toNat := by
      rw [h3]
      simp
    refine ⟨_, st2, cells2.map Prod.snd, h1, hil, to_list_of_isList st2 _ hil, ?_, ?_, rfl, rfl⟩
    · rw [hlen]
      omega
    · rw [hlen, h3]
      simp

/-- Witness of C25: the requested size 1000, ints, `rand()` returning 7, 8, 9, ... -/
theorem generation_clamps_to_fifty_witness :
    (ListC.on_size_dialog_ok (some 1000) 1 ⟨0, 0, 0⟩).target_count =
      (if (1000 : Int) ≤ 0 then 5 else if (1000 : Int) > 50 then 50 else 1000) ∧
    ((1000 : Int) > 50 → (ListC.on_size_dialog_ok (some 1000) 1 ⟨0, 0, 0⟩).target_count = 50) ∧
    ∃ g st l, ListC.run_generation .TYPE_INT (fun i => i + 7) 51 0
        (ListC.on_size_dialog_ok (some 1000) 1 ⟨0, 0, 0⟩, ListC.empty) = some (g, st) ∧
      ListC.IsList st l ∧ ListC.to_list st = some l ∧
      (l.length : Int) = (ListC.on_size_dialog_ok (some 1000) 1 ⟨0, 0, 0⟩).target_count ∧
      l = (List.range l.length).map (fun j => ListC.gen_value .TYPE_INT (j + 7)) ∧
      g.timer_id = 0 ∧ g.current_count = g.target_count :=
  generation_clamps_to_fifty .TYPE_INT (fun i => i + 7) 1000 1 51 ⟨0, 0, 0⟩ (by decide)

/-- The handler `on_size_dialog_ok` on the sizes 1000, 51, 50, 7, 0, -3 and on the
empty text; and the generation of 2 ints from the empty list. -/
theorem generation_example :
    [some 1000, some 51, some 50, some 7, some 0, some (-3), none].map
        (fun t => (ListC.on_size_dialog_ok t 1 ⟨0, 0, 0⟩).target_count) =
      [50, 50, 50, 7, 5, 5, 5] ∧
    (ListC.run_generation .TYPE_INT (fun i => 100 * i + 42) 3 0
        (ListC.on_size_dialog_ok (some 2) 1 ⟨0, 0, 0⟩, ListC.empty)).map
      (fun s => (s.1, ListC.to_list s.2)) = some (⟨2, 2, 0⟩, some [42, 42]) := by
  decide

/-! ## Graph: the labels of the generated nodes -/

/-- C26 (failing input): two nodes of the int kind for which `rand()` returns 7 and
107 get the same label `7`, and the lookup of the label of node 1 returns node 0. -/
theorem generated_int_labels_collide :
    GraphC.generate_graph 2 0 (fun i => 7 + 100 * i) = [[55], [55]] ∧
    GraphC.get_node_idx_by_label (GraphC.generate_graph 2 0 (fun i => 7 + 100 * i))
      ((GraphC.generate_graph 2 0 (fun i => 7 + 100 * i))[1]?) = 0 ∧
    GraphC.generate_graph 2 1 (fun _ => 123) = [[49, 50, 46, 51], [49, 50, 46, 51]] := by
  decide

/-- The labels of the char kind and of the string kind do not depend on the
draws. -/
theorem gen_labels_fixed (type_idx : Nat) (h : 2 ≤ type_idx) (rnd : Nat → Nat) (n : Nat) :
    GraphC.gen_labels type_idx rnd n = GraphC.gen_labels type_idx (fun _ => 0) n := by
  unfold GraphC.gen_labels
  apply List.map_congr_left
  intro i _
  have h0 : ¬ type_idx = 0 := by omega
  have h1 : ¬ type_idx = 1 := by omega
  simp only [GraphC.gen_label, if_neg h0, if_neg h1]

set_option maxRecDepth 100000 in
/-- For the char kind and the string kind the lookup of the label of a generated
node returns that node, whatever the node count. -/
theorem generated_labels_distinct_char_string (cnt : Int) (type_idx : Nat)
    (h : 2 ≤ type_idx) (rnd : Nat → Nat) (i : Nat)
    (hi : i < (GraphC.generate_graph cnt type_idx rnd).length) :
    GraphC.get_node_idx_by_label (GraphC.generate_graph cnt type_idx rnd)
      ((GraphC.generate_graph cnt type_idx rnd)[i]?) = (i : Int) := by
  have key2 : ∀ n, n < 21 → ∀ i, i < n →
      GraphC.get_node_idx_by_label (GraphC.gen_labels 2 (fun _ => 0) n)
        ((GraphC.gen_labels 2 (fun _ => 0) n)[i]?) = (i : Int) := by
    decide
  have key3 : ∀ n, n < 21 → ∀ i, i < n →
      GraphC.get_node_idx_by_label (GraphC.gen_labels 3 (fun _ => 0) n)
        ((GraphC.gen_labels 3 (fun _ => 0) n)[i]?) = (i : Int) := by
    decide
  have hlab : ∀ n, GraphC.gen_labels type_idx (fun _ => 0) n =
      if type_idx = 2 then GraphC.gen_labels 2 (fun _ => 0) n
      else GraphC.gen_labels 3 (fun _ => 0) n := by
    intro n
    by_cases h2 : type_idx = 2
    · rw [if_pos h2, h2]
    · rw [if_neg h2]
      unfold GraphC.gen_labels
      apply List.map_congr_left
      intro j _
      have h0 : ¬ type_idx = 0 := by omega
      have h1 : ¬ type_idx = 1 := by omega
      simp only [GraphC.gen_label, if_neg h0, if_neg h1, if_neg h2]
      rfl
  unfold GraphC.generate_graph at hi ⊢
  simp only at hi ⊢
  rw [gen_labels_fixed type_idx h rnd] at hi ⊢
  generalize hn : (if (if cnt ≤ 0 then 5 else cnt) > (GraphC.MAX_NODES : Int)
    then (GraphC.MAX_NODES : Int) else (if cnt ≤ 0 then 5 else cnt)).toNat = n at hi ⊢
  have hn21 : n < 21 := by
    rw [← hn]
    have : (GraphC.MAX_NODES : Int) = 20 := rfl
    split_ifs <;> omega
  have hin : i < n := by
    simpa [GraphC.gen_labels] using hi
  rw [hlab n]
  by_cases h2 : type_idx = 2
  · rw [if_pos h2]
    exact key2 n hn21 i hin
  · rw [if_neg h2]
    exact key3 n hn21 i hin

/-! ## Table: the sizes of the benchmark -/

/-- Counterexample to C27 as stated: for the maximum size 10 the benchmark runs at
the sizes 2, 4, 6, 8, the largest of which is not 10; for the maximum size 1 it runs
at the sizes 1, 2, 3, 4, three of which exceed 1. -/
theorem benchmark_sizes_miss_maximum :
    TableC.run_benchmark_graph 10 = [2, 4, 6, 8] ∧
    TableC.run_benchmark_graph 1 = [1, 2, 3, 4] := by
  decide

/-- C27, amended: for a maximum size `N ≥ 1` the benchmark runs at the four sizes
`step`, `2 step`, `3 step`, `4 step` with `step = N / 4` rounded down, and 1 when
that is 0. When 4 divides `N` these are `N/4, 2N/4, 3N/4, N`; when `N ≥ 4` no size
exceeds `N` and the largest is above `N - 4`; when `N < 4` they are 1, 2, 3, 4. -/
theorem benchmark_sizes_spec (N : Int) (hN : 1 ≤ N) :
    TableC.run_benchmark_graph N =
      [1 * max 1 (N / 4), 2 * max 1 (N / 4), 3 * max 1 (N / 4), 4 * max 1 (N / 4)] ∧
    (N % 4 = 0 → TableC.run_benchmark_graph N = [N / 4, 2 * (N / 4), 3 * (N / 4), N]) ∧
    (4 ≤ N → (∀ n ∈ TableC.run_benchmark_graph N, n ≤ N) ∧
      (TableC.run_benchmark_graph N).getLast? = some (4 * (N / 4)) ∧ N - 4 < 4 * (N / 4)) ∧
    (N < 4 → TableC.run_benchmark_graph N = [1, 2, 3, 4]) := by
  have hdiv : N.tdiv 4 = N / 4 := Int.tdiv_eq_ediv (by omega) (by decide)
  have hlist : TableC.run_benchmark_graph N =
      [1 * max 1 (N / 4), 2 * max 1 (N / 4), 3 * max 1 (N / 4), 4 * max 1 (N / 4)] := by
    have hstep : (if N.tdiv 4 < 1 then 1 else N.tdiv 4) = max 1 (N / 4) := by
      rw [hdiv]
      split_ifs <;> omega
    have hr : List.range (4 : Int).toNat = [0, 1, 2, 3] := by decide
    simp only [TableC.run_benchmark_graph, TableC.perf_samples, hstep, hr, List.map_cons,
      List.map_nil]
    norm_num
  refine ⟨hlist, ?_, ?_, ?_⟩
  · intro h4
    rw [hlist]
    have hm : max 1 (N / 4) = N / 4 := by omega
    rw [hm]
    have : 4 * (N / 4) = N := by omega
    simp [this]
  · intro h4
    rw [hlist]
    have hm : max 1 (N / 4) = N / 4 := by omega
    rw [hm]
    refine ⟨?_, by simp, by omega⟩
    intro n hn
    simp only [List.mem_cons, List.mem_singleton, List.not_mem_nil, or_false] at hn
    rcases hn with rfl | rfl | rfl | rfl <;> omega
  · intro h4
    rw [hlist]
    have hm : max 1 (N / 4) = 1 := by omega
    rw [hm]
    rfl

/-- Witness of C27: the maximum size 500. -/
theorem benchmark_sizes_spec_witness :
    TableC.run_benchmark_graph 500 =
      [1 * max 1 (500 / 4), 2 * max 1 (500 / 4), 3 * max 1 (500 / 4), 4 * max 1 (500 / 4)] ∧
    ((500 : Int) % 4 = 0 → TableC.run_benchmark_graph 500 =
      [500 / 4, 2 * (500 / 4), 3 * (500 / 4), 500]) ∧
    ((4 : Int) ≤ 500 → (∀ n ∈ TableC.run_benchmark_graph 500, n ≤ 500) ∧
      (TableC.run_benchmark_graph 500).getLast? = some (4 * (500 / 4)) ∧
      (500 : Int) - 4 < 4 * (500 / 4)) ∧
    ((500 : Int) < 4 → TableC.run_benchmark_graph 500 = [1, 2, 3, 4]) :=
  benchmark_sizes_spec 500 (by decide)

/-! ## Tree: the playback of a traversal -/

section TreeTick
open TreeC
variable {P : Type}

variable [DecidableEq P]

end TreeTick

/-- The playback over the nodes 7, 8, 9: the states of the three nodes after 1, 2, 3
and 4 ticks, with the flag of the timer. -/
theorem traversal_playback_example :
    (List.range 5).map (fun k =>
      (TreeC.run_ticks k (⟨[7, 8, 9], 0, 5, fun _ => 0, []⟩ : TreeC.TravState Nat)).map
        (fun r => ([7, 8, 9].map r.1.anim_state, r.1.timer_id, r.2))) =
    [some ([0, 0, 0], 5, true), some ([2, 0, 0], 5, true), some ([1, 2, 0], 5, true),
      some ([1, 1, 2], 5, true), some ([1, 1, 1], 0, false)] := by
  decide

/-! ## List: the order of equal values under `insertion_sort`, and `delete_node` at a
negative index -/

/-- C29 (failing input): the list built by appending 1, 2, 2 holds these values in
the nodes at the addresses 0, 1, 2; `insertion_sort` links the node 2 before the
node 1, so the two nodes of equal value change their relative order, while
`bubble_sort` leaves the nodes where they are. -/
theorem insertion_sort_swaps_equal_nodes :
    (ListC.run_ops (ListC.compare_vals .TYPE_INT) [.append 1, .append 2, .append 2]
      ListC.empty).bind ListC.to_nodes = some [(0, 1), (1, 2), (2, 2)] ∧
    (ListC.run_ops (ListC.compare_vals .TYPE_INT)
      [.append 1, .append 2, .append 2, .insertion_sort] ListC.empty).bind ListC.to_nodes =
        some [(0, 1), (2, 2), (1, 2)] ∧
    ((ListC.run_ops (ListC.compare_vals .TYPE_INT) [.append 1, .append 2, .append 2]
      ListC.empty).bind (ListC.bubble_sort (ListC.compare_vals .TYPE_INT))).bind
        ListC.to_nodes = some [(0, 1), (1, 2), (2, 2)] ∧
    ListC.compare_vals .TYPE_INT 2 2 = 0 := by
  decide

/-- C30 (failing input): on the list built by appending 10 and 20, `on_delete_btn`
with the index -1 frees the node `head` designates and leaves `head` pointing to
it: the cell at the address 0 is no longer allocated, `head` is still 0, and the
walk from `head` reads freed memory. With an index beyond the end the list is
unchanged, and with the index 0 `head` moves on to the second node. -/
theorem delete_negative_index_frees_head :
    ((ListC.run_ops (ListC.compare_vals .TYPE_INT) [.append 10, .append 20]
        ListC.empty).bind (ListC.on_delete_btn (-1))).map
      (fun st => (st.head, (st.heap 0).isSome, ListC.to_list st)) =
        some (some 0, false, none) ∧
    ((ListC.run_ops (ListC.compare_vals .TYPE_INT) [.append 10, .append 20]
        ListC.empty).bind (ListC.on_delete_btn 7)).map
      (fun st => (st.head, (st.heap 0).isSome, ListC.to_list st)) =
        some (some 0, true, some [10, 20]) ∧
    ((ListC.run_ops (ListC.compare_vals .TYPE_INT) [.append 10, .append 20]
        ListC.empty).bind (ListC.on_delete_btn 0)).map
      (fun st => (st.head, (st.heap 0).isSome, ListC.to_list st)) =
        some (some 1, false, some [20]) := by
  decide
